import Mathlib

/-!
# BigInteger and Rational (src/biginteger.h)

A shallow embedding of the signed big-integer class of `src/biginteger.h`, and of the class
`Rational` built on it, with proofs about them.

## Conventions of the embedding

* `std::vector<int> data` is a `List Int` (least-significant limb first): `push_back v` is
  `data ++ [v]`, `data[i] = v` is `data.set i v`, a read `data[i]` is `data.getD i 0`,
  `pop_back` is `dropLast`. A limb is an `Int`; no operation on well-formed values leaves the
  range of a C++ `int`, and `/`, `%` of C++ are `Int.tdiv`, `Int.tmod`.
* `std::string` is `String` (through its list of characters), `std::strong_ordering` is
  `Ordering`.
* A compound operator `x op= num` is a function of the receiver `x` and `num` that returns the
  new receiver; the binary operators apply it to a copy of their first argument.
* A `for` loop over a fixed range is a `foldl` over `List.range` (a `foldlM` in `Option` when
  its body can leave what is embedded here); a loop with a `break` or a moving bound is a
  recursive function whose first `Nat` argument is structural.
* A function returns `Option` when the source can leave what is embedded here: a write past
  the end of a vector, a conversion of a floating-point value that the integer type cannot
  hold, or a loop that has not exited when the iterations handed to it are used up. `none`
  never stands for a value the source returns. The loop of `operator /=` takes its
  number of iterations as the argument `fuel`; the functions of `Rational` hand one `fuel` to
  every division they make and to the recursion of `gcd`.
* `size_t` expressions `n - 1` are guarded by `n ≠ 0` where the source relies on the wrap-around
  of an empty vector's size; differences of digit counts are taken on `Nat`.
* The floating-point transform of the multiplication is a parameter (see the section on
  multiplication).

The definitions come first, in the order of the source; the vocabulary of the statements
(`value`, `WellFormed`, `IsDecimalText`, ...) and the loop invariants follow; then the lemmas,
among them the results that hold for a transform within the rounding budget, and at the end
the theorems that settle the claims.
-/

/-- The class `BigInteger`: a sign flag and base-10000 limbs, least significant first. -/
structure BigInteger where
  is_negative : Bool
  data : List Int
  deriving DecidableEq, Repr

namespace BigInteger

/-! ## Definitions

### Magnitudes: comparison, addition, subtraction -/

/-- Constant `base = 10'000`. -/
def base : Int := 10000

/-- Constant `base_size = 4`. -/
def base_size : Nat := 4

/-- Table `degree_of_10[6] = {1, 10, 100, 1000, 10000, 100000}`. -/
def degree_of_10 (i : Nat) : Int := [1, 10, 100, 1000, 10000, 100000].getD i 0

/-- Loop of `clean_trailing_zeros`: `while (data.size() > 1 && data.back() == 0) data.pop_back()`.
The first argument counts the iterations still possible (one per element). -/
def clean_loop : Nat → List Int → List Int
  | 0, data => data
  | k + 1, data =>
    if 1 < data.length ∧ data.getLast? = some 0 then clean_loop k data.dropLast else data

/-- Method `clean_trailing_zeros`. -/
def clean_trailing_zeros (x : BigInteger) : BigInteger :=
  { x with data := clean_loop x.data.length x.data }

/-- Method `is_zero`: `data.size() == 1 && data[0] == 0`. -/
def is_zero (x : BigInteger) : Bool := x.data.length == 1 && x.data.getD 0 0 == 0

/-- Loop of `is_lt_modulo`, `for (size_t i = data.size() - 1; i < data.size(); --i)`; the
argument is `i + 1`, and `0` is the exit after the index wrapped around. -/
def is_lt_loop (data num : List Int) : Nat → Ordering
  | 0 => Ordering.gt
  | i + 1 =>
    if data.getD i 0 < num.getD i 0 then Ordering.lt
    else if data.getD i 0 > num.getD i 0 then Ordering.gt
    else is_lt_loop data num i

/-- Method `is_lt_modulo`. -/
def is_lt_modulo (x num : BigInteger) : Ordering :=
  if x.data.length < num.data.length then Ordering.lt
  else if x.data.length > num.data.length then Ordering.gt
  else is_lt_loop x.data num.data x.data.length

/-- Body of the first loop of `add_bigint_modulo`. -/
def add_limbs (num : List Int) (data : List Int) (i : Nat) : List Int :=
  if i = data.length then data ++ [num.getD i 0]
  else data.set i (data.getD i 0 + num.getD i 0)

/-- Second loop of `add_bigint_modulo` (carry propagation), from index `i`, with an iteration
budget. `/` and `%` of C++ `int` truncate toward zero. -/
def add_carry_loop (numSize : Nat) : Nat → Nat → List Int → Option (List Int)
  | 0, _, _ => none
  | fuel + 1, i, data =>
    if i < data.length then
      if data.getD i 0 < base ∧ (numSize ≠ 0 ∧ numSize - 1 ≤ i) then some data
      else
        let overflow := (data.getD i 0).tdiv base
        if 0 < overflow then
          let data1 := data.set i ((data.getD i 0).tmod base)
          let data2 :=
            if i + 1 = data1.length then data1 ++ [overflow]
            else data1.set (i + 1) (data1.getD (i + 1) 0 + overflow)
          add_carry_loop numSize fuel (i + 1) data2
        else add_carry_loop numSize fuel (i + 1) data
    else some data

/-- Method `add_bigint_modulo`. The carry loop gets two iterations more than the vector has
elements after the limb-wise addition. -/
def add_bigint_modulo (x num : BigInteger) : Option BigInteger :=
  let data1 := (List.range num.data.length).foldl (add_limbs num.data) x.data
  match add_carry_loop num.data.length (data1.length + 2) 0 data1 with
  | some data2 => some { x with data := data2 }
  | none => none

/-- Body of the first loop of `subtract_bigint_modulo`. -/
def sub_limbs (num : List Int) (lt_factor : Int) (data : List Int) (i : Nat) : List Int :=
  if i = data.length then data ++ [num.getD i 0 * lt_factor]
  else data.set i ((data.getD i 0 - num.getD i 0) * -lt_factor)

/-- Second loop of `subtract_bigint_modulo` (borrow propagation), from index `i`; the first
counter is the number of indices left below `data.size()`. `--data[i + 1]` past the end of the
vector is `none`. -/
def borrow_loop (numSize : Nat) : Nat → Nat → List Int → Option (List Int)
  | 0, _, data => some data
  | k + 1, i, data =>
    if numSize ≤ i ∧ 0 ≤ data.getD i 0 then some data
    else if data.getD i 0 < 0 then
      if i + 1 < data.length then
        let data1 := data.set i (data.getD i 0 + base)
        borrow_loop numSize k (i + 1) (data1.set (i + 1) (data1.getD (i + 1) 0 - 1))
      else none
    else borrow_loop numSize k (i + 1) data

/-- Method `subtract_bigint_modulo`. -/
def subtract_bigint_modulo (x num : BigInteger) : Option BigInteger :=
  let lt_factor : Int := if is_lt_modulo x num = Ordering.lt then 1 else -1
  let neg : Bool := if lt_factor = 1 then !x.is_negative else x.is_negative
  let data1 := (List.range num.data.length).foldl (sub_limbs num.data lt_factor) x.data
  match borrow_loop num.data.length data1.length 0 data1 with
  | some data2 =>
    let y := clean_trailing_zeros { is_negative := neg, data := data2 }
    some (if is_zero y && y.is_negative then { y with is_negative := false } else y)
  | none => none

/-- Method `change_by_bigint_modulo`. -/
def change_by_bigint_modulo (x num : BigInteger) (are_adding : Bool) : Option BigInteger :=
  if are_adding then add_bigint_modulo x num else subtract_bigint_modulo x num

/-- Unary `operator -`. -/
def operator_unary_minus (x : BigInteger) : BigInteger :=
  if !is_zero x then { x with is_negative := !x.is_negative } else x

/-- Compound `operator +=`. -/
def operator_plus_assign (x num : BigInteger) : Option BigInteger :=
  change_by_bigint_modulo x num (x.is_negative == num.is_negative)

/-- Compound `operator -=`: `*this += -num`. -/
def operator_minus_assign (x num : BigInteger) : Option BigInteger :=
  operator_plus_assign x (operator_unary_minus num)

/-- Binary `operator +` (on a copy of `n1`). -/
def operator_plus (n1 n2 : BigInteger) : Option BigInteger := operator_plus_assign n1 n2

/-- Binary `operator -` (on a copy of `n1`). -/
def operator_minus (n1 n2 : BigInteger) : Option BigInteger := operator_minus_assign n1 n2

/-- Limb loop of `operator <=>`, `for (size_t i = data.size() - 1; i < data.size(); --i)`;
the argument is `i + 1`. -/
def spaceship_loop (neg : Bool) (data other : List Int) : Nat → Ordering
  | 0 => Ordering.eq
  | i + 1 =>
    if data.getD i 0 ≠ other.getD i 0 then
      (if (decide (data.getD i 0 < other.getD i 0)) != neg then Ordering.lt else Ordering.gt)
    else spaceship_loop neg data other i

/-- Three-way comparison `operator <=>`. -/
def operator_spaceship (x other : BigInteger) : Ordering :=
  if x.is_negative != other.is_negative then
    compare other.is_negative.toNat x.is_negative.toNat
  else if x.data.length ≠ other.data.length then
    (if (decide (x.data.length < other.data.length)) != x.is_negative then Ordering.lt
     else Ordering.gt)
  else spaceship_loop x.is_negative x.data other.data x.data.length

/-- Comparison `a < b`, synthesised from `operator <=>`. -/
def operator_lt (a b : BigInteger) : Bool := decide (operator_spaceship a b = Ordering.lt)

/-- Comparison `a >= b`, synthesised from `operator <=>`. -/
def operator_ge (a b : BigInteger) : Bool := decide (operator_spaceship a b ≠ Ordering.lt)

/-- Comparison `a > b`, synthesised from `operator <=>`. -/
def operator_gt (a b : BigInteger) : Bool := decide (operator_spaceship a b = Ordering.gt)

/-! ### Constructors and the decimal codec -/

/-- Two's-complement wrap of a C++ `int` (32 bits). -/
def wrap_int32 (z : Int) : Int := (z + 2147483648) % 4294967296 - 2147483648

/-- The `do { data.push_back(number % base); number /= base; } while (number > 0);` loop of
`BigInteger(int)`. A non-negative `int` has at most three base-10000 limbs, so three iterations
are all the loop can make. -/
def of_int_loop : Nat → Int → List Int → List Int
  | 0, _, data => data
  | k + 1, number, data =>
    let data1 := data ++ [number.tmod base]
    let number1 := number.tdiv base
    if 0 < number1 then of_int_loop k number1 data1 else data1

/-- Constructor `BigInteger(int number)`; `number = -number` wraps at 32 bits. -/
def of_int (number : Int) : BigInteger :=
  let number1 := if number < 0 then wrap_int32 (-number) else number
  { is_negative := decide (number < 0), data := of_int_loop 3 number1 [] }

/-- State of a digit-packing loop: the vector being filled, `pack_idx` and `rem`. -/
structure PackState where
  data : List Int
  pack_idx : Nat
  rem : Nat
  deriving DecidableEq, Repr

/-- One iteration of the packing loop shared by `BigInteger(const std::string&)` and
`add_new_data_to_begin`:
`if (rem == 0) data.push_back(0); data[pack_idx] += digit * degree_of_10[rem]; ++rem;
if (rem == base_size) { rem = 0; ++pack_idx; }`. -/
def pack_digit (st : PackState) (digit : Int) : PackState :=
  let data1 := if st.rem = 0 then st.data ++ [0] else st.data
  let data2 := data1.set st.pack_idx (data1.getD st.pack_idx 0 + digit * degree_of_10 st.rem)
  if st.rem + 1 = base_size then { data := data2, pack_idx := st.pack_idx + 1, rem := 0 }
  else { data := data2, pack_idx := st.pack_idx, rem := st.rem + 1 }

/-- Loop of `BigInteger(const std::string&)` over the reversed string:
`for (it = str.rbegin(); it != str.rend() && *it != '-'; ++it)`, the digit being `*it - '0'`. -/
def of_string_loop : List Char → PackState → PackState
  | [], st => st
  | c :: cs, st =>
    if c = '-' then st else of_string_loop cs (pack_digit st ((c.toNat : Int) - 48))

/-- Constructor `BigInteger(const std::string& str)`. `str[0]` of an empty string is the
terminating null character. -/
def of_string (str : String) : BigInteger :=
  let is_negative : Bool := decide (str.data.getD 0 (Char.ofNat 0) = '-' ∧ str ≠ "-0")
  let st := of_string_loop str.data.reverse { data := [], pack_idx := 0, rem := 0 }
  clean_trailing_zeros { is_negative := is_negative, data := st.data }

/-- The character `char('0' + d)`. -/
def digit_char (d : Int) : Char := Char.ofNat (48 + d).toNat

/-- The four characters `toString` appends for one limb. -/
def limb_chars (num : Int) : List Char :=
  [digit_char ((num.tdiv (degree_of_10 (1 + 2))).tmod (degree_of_10 1)),
   digit_char ((num.tdiv (degree_of_10 2)).tmod (degree_of_10 1)),
   digit_char ((num.tdiv (degree_of_10 1)).tmod (degree_of_10 1)),
   digit_char (num.tmod (degree_of_10 1))]

/-- Loop `while (begin_without_0 < res.size() && res[begin_without_0] == '0')
++begin_without_0;` of `toString`; the first counter is the number of characters not yet
skipped. -/
def begin_without_0_loop (res : List Char) : Nat → Nat → Nat
  | 0, b => b
  | k + 1, b =>
    if b < res.length ∧ res.getD b ' ' = '0' then begin_without_0_loop res k (b + 1) else b

/-- Method `toString`. -/
def toString (x : BigInteger) : String :=
  let res := x.data.reverse.foldl (fun res num => res ++ limb_chars num) []
  let begin_without_0 := begin_without_0_loop res res.length 0
  let res1 := (if x.is_negative then ['-'] else []) ++
    (res.drop begin_without_0).take (res.length - begin_without_0)
  if res1 = ['-'] ∨ res1 = [] then "0" else String.mk res1

/-- Method `get_digits_number` (`data.back()` of an empty vector is read as 0). -/
def get_digits_number (x : BigInteger) : Nat :=
  let back := x.data.getLast?.getD 0
  if (back.tdiv (degree_of_10 3)).tmod (degree_of_10 1) ≠ 0 then
    base_size * (x.data.length - 1) + 4
  else if (back.tdiv (degree_of_10 2)).tmod (degree_of_10 1) ≠ 0 then
    base_size * (x.data.length - 1) + 3
  else if (back.tdiv (degree_of_10 1)).tmod (degree_of_10 1) ≠ 0 then
    base_size * (x.data.length - 1) + 2
  else base_size * (x.data.length - 1) + 1

/-- One iteration of the first loop of `shift`:
`if (rem == 0) new_data.push_back(0); new_data[pack_idx] = 0; ++rem;
if (rem == base_size) { rem = 0; ++pack_idx; }`. -/
def pack_zero (st : PackState) : PackState :=
  let data1 := if st.rem = 0 then st.data ++ [0] else st.data
  let data2 := data1.set st.pack_idx 0
  if st.rem + 1 = base_size then { data := data2, pack_idx := st.pack_idx + 1, rem := 0 }
  else { data := data2, pack_idx := st.pack_idx, rem := st.rem + 1 }

/-- One iteration of the loop of `add_new_data_to_begin`; the state carries `data_rem`. -/
def add_digit_step (data : List Int) (s : PackState × Nat) (i : Nat) : PackState × Nat :=
  let digit := ((data.getD (i / base_size) 0).tdiv (degree_of_10 s.2)).tmod (degree_of_10 1)
  (pack_digit s.1 digit, if s.2 = base_size - 1 then 0 else s.2 + 1)

/-- Method `add_new_data_to_begin(new_data, pack_idx, rem)`. -/
def add_new_data_to_begin (x : BigInteger) (st : PackState) : BigInteger :=
  let digits_number := get_digits_number x
  let s := (List.range digits_number).foldl (add_digit_step x.data) (st, 0)
  { x with data := s.1.data }

/-- Method `shift(pow10)`. -/
def shift (x : BigInteger) (pow10 : Nat) : BigInteger :=
  if x = of_int 0 then x
  else
    add_new_data_to_begin x
      ((List.range pow10).foldl (fun st _ => pack_zero st) { data := [], pack_idx := 0, rem := 0 })

/-! ### Division -/

/-- The probe loop of the three division cases,
`for (int i = 1; i < degree_of_10[1]; ++i) { *this -= num; if (*this < num) { result +=
addend(i); break; } }`; the counter is the number of values of `i` left. The result is the
pair `(*this, result)`. -/
def probe_loop (num : BigInteger) (addend : Int → BigInteger) :
    Nat → Int → BigInteger → BigInteger → Option (BigInteger × BigInteger)
  | 0, _, x, result => some (x, result)
  | k + 1, i, x, result =>
    match operator_minus_assign x num with
    | none => none
    | some x1 =>
      if operator_lt x1 num then
        match operator_plus_assign result (addend i) with
        | none => none
        | some result1 => some (x1, result1)
      else probe_loop num addend k (i + 1) x1 result

/-- Method `solve_first_division_case`. -/
def solve_first_division_case (x num result : BigInteger) : Option (BigInteger × BigInteger) :=
  probe_loop num (fun i => of_int i) 9 1 x result

/-- Method `solve_second_division_case`. The differences of the two digit counts are `size_t`
in the source; the method is entered with `digits_number ≠ num_digits_number` on a remainder
that is at least the divisor, hence with `digits_number > num_digits_number` on well-formed
values. -/
def solve_second_division_case (x num result : BigInteger)
    (digits_number num_digits_number : Nat) : Option (BigInteger × BigInteger) :=
  let num_shifted := shift num (digits_number - num_digits_number - 1)
  let num_shifted_again := shift num_shifted 1
  if operator_lt x num_shifted_again then
    probe_loop num_shifted
      (fun i => shift (of_int i) (digits_number - num_digits_number - 1)) 9 1 x result
  else
    probe_loop num_shifted_again
      (fun i => shift (of_int i) (digits_number - num_digits_number)) 9 1 x result

/-- The loop `while (*this >= num)` of `operator /=`, with an iteration budget. -/
def div_loop (num : BigInteger) (num_digits_number : Nat) :
    Nat → BigInteger → BigInteger → Option (BigInteger × BigInteger)
  | 0, _, _ => none
  | fuel + 1, x, result =>
    if operator_ge x num then
      let digits_number := get_digits_number x
      match (if digits_number = num_digits_number then solve_first_division_case x num result
        else solve_second_division_case x num result digits_number num_digits_number) with
      | none => none
      | some (x1, result1) => div_loop num num_digits_number fuel x1 result1
    else some (x, result)

/-- Compound `operator /=` (the argument is passed by value), with an iteration budget for its
loop. -/
def operator_div_assign (fuel : Nat) (x num : BigInteger) : Option BigInteger :=
  let x1 : BigInteger := { x with is_negative := false }
  if is_zero x1 then some x1
  else
    let negativeness := if num.is_negative then !x.is_negative else x.is_negative
    let num1 : BigInteger := { num with is_negative := false }
    match div_loop num1 (get_digits_number num1) fuel x1 (of_int 0) with
    | none => none
    | some (_, result) =>
      let y := clean_trailing_zeros result
      some (if y.data.length = 1 ∧ y.data.getD 0 0 = 0 then { y with is_negative := false }
        else { y with is_negative := negativeness })

/-- Binary `operator /` (on a copy of `n1`). -/
def operator_div (fuel : Nat) (n1 n2 : BigInteger) : Option BigInteger :=
  operator_div_assign fuel n1 n2

/-! ### Multiplication and remainder

`operator *=` multiplies through `polynom_multiplication`, a fast Fourier transform in
`std::complex<long double>` (with `cosl`, `sinl` and a truncated constant for pi). That
arithmetic has no counterpart here: the transform is a parameter `pm` of the functions below,
mapping the real parts of the two input vectors and `deg2` to the real parts that
`polynom_multiplication` leaves in its first argument (it sets every imaginary part to 0, and
`build_polynom` builds vectors with imaginary part 0). A `long double` value is read as the
rational number it stands for, and the additions and comparisons that `fix_polynom` and
`operator *=` perform on such values are carried out exactly. A conversion to an integer type
returns a value only when the truncated value is inside the range of the type; outside of it the
conversion is undefined, and the functions below return `none`. What a theorem needs from `pm`
is stated as the hypothesis `MulAccurate`. -/

/-- Truncation toward zero of a floating-point value. -/
def truncate (q : ℚ) : Int := if 0 ≤ q then ⌊q⌋ else ⌈q⌉

/-- Conversion `static_cast<long long>(x)` of a floating-point value: truncation toward zero,
defined when the truncated value is in `[-2^63, 2^63)`. -/
def to_long_long (q : ℚ) : Option Int :=
  if -2 ^ 63 ≤ truncate q ∧ truncate q < 2 ^ 63 then some (truncate q) else none

/-- Conversion `static_cast<int>(x)` of a floating-point value: truncation toward zero, defined
when the truncated value is in `[-2^31, 2^31)`. -/
def to_int (q : ℚ) : Option Int :=
  if -2 ^ 31 ≤ truncate q ∧ truncate q < 2 ^ 31 then some (truncate q) else none

/-- Constant `half = 0.5L`. -/
def half : ℚ := 1 / 2

/-- The loops `while (size > 0) { size >>= 1; ++deg; }` of `optimal_deg2`; the first argument
bounds the number of iterations (a positive number is halved to 0 in at most that many
steps). -/
def count_bits_loop : Nat → Nat → Nat → Nat
  | 0, _, deg => deg
  | k + 1, size, deg => if 0 < size then count_bits_loop k (size >>> 1) (deg + 1) else deg

/-- Method `optimal_deg2(num_data_size)`. -/
def optimal_deg2 (x : BigInteger) (num_data_size : Nat) : Nat :=
  max (count_bits_loop x.data.length x.data.length 1)
    (count_bits_loop num_data_size num_data_size 1)

/-- Method `build_polynom(poly_size)`: the real parts. -/
def build_polynom (x : BigInteger) (poly_size : Nat) : List ℚ :=
  (List.range poly_size).map (fun i => if i < x.data.length then ((x.data.getD i 0 : Int) : ℚ) else 0)

/-- Loop `for (size_t i = 0; ; ++i)` of `fix_polynom`, from index `i`, with an iteration
budget. -/
def fix_polynom_loop (poly_size : Nat) : Nat → Nat → List ℚ → Option (List ℚ)
  | 0, _, _ => none
  | fuel + 1, i, poly =>
    match to_long_long (poly.getD i 0 + half) with
    | none => none
    | some v =>
      let poly1 := poly.set i ((v : Int) : ℚ)
      if poly1.getD i 0 < (base : ℚ) then
        if poly_size ≠ 0 ∧ poly_size - 1 ≤ i then some poly1
        else fix_polynom_loop poly_size fuel (i + 1) poly1
      else
        let poly2 := if i + 1 = poly1.length then poly1 ++ [0] else poly1
        match to_long_long (poly2.getD i 0) with
        | none => none
        | some w =>
          let poly3 := poly2.set (i + 1) (poly2.getD (i + 1) 0 + ((w.tdiv base : Int) : ℚ))
          match to_long_long (poly3.getD i 0) with
          | none => none
          | some u =>
            fix_polynom_loop poly_size fuel (i + 1) (poly3.set i ((u.tmod base : Int) : ℚ))

/-- Function `fix_polynom`, with an iteration budget for its loop. -/
def fix_polynom (fuel : Nat) (poly : List ℚ) : Option (List ℚ) :=
  fix_polynom_loop poly.length fuel 0 poly

/-- Body of the last loop of `operator *=`. -/
def copy_coeff (poly : List ℚ) (data : List Int) (i : Nat) : Option (List Int) :=
  match to_int (poly.getD i 0 + half) with
  | none => none
  | some v => some (if i = data.length then data ++ [v] else data.set i v)

/-- Compound `operator *=`, over a transform `pm`. `fix_polynom` gets one iteration more than
the vector has elements. -/
def operator_mul_assign (pm : List ℚ → List ℚ → Nat → List ℚ) (x num : BigInteger) :
    Option BigInteger :=
  if is_zero x || is_zero num then some { is_negative := false, data := [0] }
  else
    let neg : Bool := if num.is_negative then !x.is_negative else x.is_negative
    let deg2 := optimal_deg2 x num.data.length
    let poly_size := 2 ^ deg2
    let poly := pm (build_polynom x poly_size) (build_polynom num poly_size) deg2
    match fix_polynom (poly.length + 1) poly with
    | none => none
    | some poly1 =>
      match (List.range poly1.length).foldlM (copy_coeff poly1) x.data with
      | none => none
      | some data1 => some (clean_trailing_zeros { is_negative := neg, data := data1 })

/-- Binary `operator *` (on a copy of `n1`). -/
def operator_mul (pm : List ℚ → List ℚ → Nat → List ℚ) (n1 n2 : BigInteger) :
    Option BigInteger :=
  operator_mul_assign pm n1 n2

/-- Compound `operator %=` (the argument is passed by value):
`*this -= ((copy /= num) *= num)` on the magnitudes, then the sign flag of the dividend. -/
def operator_mod_assign (pm : List ℚ → List ℚ → Nat → List ℚ) (fuel : Nat)
    (x num : BigInteger) : Option BigInteger :=
  let x1 : BigInteger := { x with is_negative := false }
  let num1 : BigInteger := { num with is_negative := false }
  match operator_div_assign fuel x1 num1 with
  | none => none
  | some q =>
    match operator_mul_assign pm q num1 with
    | none => none
    | some p =>
      match operator_minus_assign x1 p with
      | none => none
      | some r => some { r with is_negative := x.is_negative }

/-- Binary `operator %` (on a copy of `n1`). -/
def operator_mod (pm : List ℚ → List ℚ → Nat → List ℚ) (fuel : Nat) (n1 n2 : BigInteger) :
    Option BigInteger :=
  operator_mod_assign pm fuel n1 n2

/-- Coefficient `k` of the cyclic convolution of length `L` of two vectors: what the packed
transform, the pointwise square and the second transform of `polynom_multiplication` compute
in exact arithmetic. -/
def cyclic_convolution (p1 p2 : List ℚ) (L k : Nat) : ℚ :=
  ∑ i in Finset.range L, p1.getD i 0 * p2.getD ((k + L - i) % L) 0

/-- The transform `pm` meets the rounding budget on the product of `x` and `num`: on the two
vectors `operator *=` builds for them it returns `2 ^ deg2` values, each less than one half
away from the cyclic convolution coefficient and below `2 ^ 62`, so that every value that
`fix_polynom` converts is inside the range of `long long`. -/
def MulAccurate (pm : List ℚ → List ℚ → Nat → List ℚ) (x num : BigInteger) : Prop :=
  (pm (build_polynom x (2 ^ optimal_deg2 x num.data.length))
      (build_polynom num (2 ^ optimal_deg2 x num.data.length))
      (optimal_deg2 x num.data.length)).length = 2 ^ optimal_deg2 x num.data.length ∧
  ∀ k, k < 2 ^ optimal_deg2 x num.data.length →
    |(pm (build_polynom x (2 ^ optimal_deg2 x num.data.length))
        (build_polynom num (2 ^ optimal_deg2 x num.data.length))
        (optimal_deg2 x num.data.length)).getD k 0 -
      cyclic_convolution (build_polynom x (2 ^ optimal_deg2 x num.data.length))
        (build_polynom num (2 ^ optimal_deg2 x num.data.length))
        (2 ^ optimal_deg2 x num.data.length) k| < 1 / 2 ∧
    (pm (build_polynom x (2 ^ optimal_deg2 x num.data.length))
        (build_polynom num (2 ^ optimal_deg2 x num.data.length))
        (optimal_deg2 x num.data.length)).getD k 0 < 2 ^ 62

/-- A transform without rounding error: the cyclic convolution itself. -/
def exact_transform (p1 p2 : List ℚ) (deg2 : Nat) : List ℚ :=
  (List.range (2 ^ deg2)).map (fun k => cyclic_convolution p1 p2 (2 ^ deg2) k)

/-- Coefficient `k` of the linear convolution (the schoolbook product) of two limb lists. -/
def linear_convolution (xs ys : List Int) (k : Nat) : Int :=
  ∑ i in Finset.range (k + 1), xs.getD i 0 * ys.getD (k - i) 0

/-! ### Increment, decrement, sign change, conversion to `bool`, `abs` -/

/-- Method `change_sign`: `is_negative = !is_negative`. -/
def change_sign (x : BigInteger) : BigInteger := { x with is_negative := !x.is_negative }

/-- Prefix `operator ++`: `*this += 1`, the `1` converted by `BigInteger(int)`. -/
def operator_pre_increment (x : BigInteger) : Option BigInteger :=
  operator_plus_assign x (of_int 1)

/-- Postfix `operator ++`: the pair of the returned copy and the new receiver. -/
def operator_post_increment (x : BigInteger) : Option (BigInteger × BigInteger) :=
  match operator_pre_increment x with
  | none => none
  | some x1 => some (x, x1)

/-- Prefix `operator --`: `*this -= 1`, the `1` converted by `BigInteger(int)`. -/
def operator_pre_decrement (x : BigInteger) : Option BigInteger :=
  operator_minus_assign x (of_int 1)

/-- Postfix `operator --`: the pair of the returned copy and the new receiver. -/
def operator_post_decrement (x : BigInteger) : Option (BigInteger × BigInteger) :=
  match operator_pre_decrement x with
  | none => none
  | some x1 => some (x, x1)

/-- Conversion `explicit operator bool`: `!is_zero()`. -/
def operator_bool (x : BigInteger) : Bool := !is_zero x

/-- Function `abs(num)`: `if (num < 0) return -num; return num;`, the `0` converted by
`BigInteger(int)`. -/
def abs (num : BigInteger) : BigInteger :=
  if operator_lt num (of_int 0) then operator_unary_minus num else num

end BigInteger

/-! ### Rational -/

/-- The class `Rational`: two big integers. -/
structure Rational where
  numerator : BigInteger
  denominator : BigInteger
  deriving DecidableEq, Repr

namespace Rational

/-- Method `gcd(num1, num2)`: `if (!num2) return num1; return gcd(num2, num1 % num2);`. The
first `Nat` argument is the iteration budget handed to the loop of every division, the second
one bounds the depth of the recursion. -/
def gcd (pm : List ℚ → List ℚ → Nat → List ℚ) (fuel : Nat) :
    Nat → BigInteger → BigInteger → Option BigInteger
  | 0, _, _ => none
  | depth + 1, num1, num2 =>
    if !BigInteger.operator_bool num2 then some num1
    else
      match BigInteger.operator_mod pm fuel num1 num2 with
      | none => none
      | some r => gcd pm fuel depth num2 r

/-- Method `reduce`. The budget `fuel` serves the divisions and the depth of `gcd`. -/
def reduce (pm : List ℚ → List ℚ → Nat → List ℚ) (fuel : Nat) (x : Rational) :
    Option Rational :=
  match gcd pm fuel fuel (BigInteger.abs x.numerator) x.denominator with
  | none => none
  | some greatest_common_divisor =>
    match BigInteger.operator_div_assign fuel x.numerator greatest_common_divisor with
    | none => none
    | some numerator1 =>
      match BigInteger.operator_div_assign fuel x.denominator greatest_common_divisor with
      | none => none
      | some denominator1 => some { numerator := numerator1, denominator := denominator1 }

/-- Constructor `Rational()`: `numerator(0), denominator(1)`. -/
def init : Rational := { numerator := BigInteger.of_int 0, denominator := BigInteger.of_int 1 }

/-- Constructor `Rational(const BigInteger& n)`: `numerator(n), denominator(1)`. -/
def of_bigint (n : BigInteger) : Rational :=
  { numerator := n, denominator := BigInteger.of_int 1 }

/-- Constructor `Rational(int number)`: `*this = Rational(BigInteger(number))`. -/
def of_int (number : Int) : Rational := of_bigint (BigInteger.of_int number)

/-- Three-way comparison `operator <=>` of `Rational`, over a transform `pm` for its two
products; the `0` of `numerator < 0` is converted by `BigInteger(int)`. -/
def operator_spaceship (pm : List ℚ → List ℚ → Nat → List ℚ) (x num : Rational) :
    Option Ordering :=
  if BigInteger.operator_lt x.numerator (BigInteger.of_int 0) &&
      BigInteger.operator_ge num.numerator (BigInteger.of_int 0) then some Ordering.lt
  else if BigInteger.operator_ge x.numerator (BigInteger.of_int 0) &&
      BigInteger.operator_lt num.numerator (BigInteger.of_int 0) then some Ordering.gt
  else
    match BigInteger.operator_mul pm x.numerator num.denominator with
    | none => none
    | some left =>
      match BigInteger.operator_mul pm x.denominator num.numerator with
      | none => none
      | some right => some (BigInteger.operator_spaceship left right)

/-- Defaulted `operator ==` of `Rational`: member-wise equality. -/
def operator_eq (x num : Rational) : Bool := decide (x = num)

/-- Method `toString` of `Rational`; `denominator != 1` compares with `BigInteger(1)` through
the defaulted `operator ==`. -/
def toString (x : Rational) : String :=
  let res := BigInteger.toString x.numerator
  if x.denominator ≠ BigInteger.of_int 1 then res ++ ("/" ++ BigInteger.toString x.denominator)
  else res

/-- Unary `operator -`: `copy.numerator.change_sign()`. -/
def operator_unary_minus (x : Rational) : Rational :=
  { x with numerator := BigInteger.change_sign x.numerator }

/-- Compound `operator +=`. -/
def operator_plus_assign (pm : List ℚ → List ℚ → Nat → List ℚ) (fuel : Nat)
    (x num : Rational) : Option Rational :=
  match BigInteger.operator_mul pm x.numerator num.denominator with
  | none => none
  | some left =>
    match BigInteger.operator_mul pm x.denominator num.numerator with
    | none => none
    | some right =>
      match BigInteger.operator_plus left right with
      | none => none
      | some numerator1 =>
        match BigInteger.operator_mul pm x.denominator num.denominator with
        | none => none
        | some denominator1 =>
          reduce pm fuel { numerator := numerator1, denominator := denominator1 }

/-- Compound `operator -=`: `*this += -num`. -/
def operator_minus_assign (pm : List ℚ → List ℚ → Nat → List ℚ) (fuel : Nat)
    (x num : Rational) : Option Rational :=
  operator_plus_assign pm fuel x (operator_unary_minus num)

/-- Compound `operator *=`. -/
def operator_mul_assign (pm : List ℚ → List ℚ → Nat → List ℚ) (fuel : Nat)
    (x num : Rational) : Option Rational :=
  match BigInteger.operator_mul_assign pm x.numerator num.numerator with
  | none => none
  | some numerator1 =>
    match BigInteger.operator_mul_assign pm x.denominator num.denominator with
    | none => none
    | some denominator1 =>
      reduce pm fuel { numerator := numerator1, denominator := denominator1 }

/-- Compound `operator /=`. -/
def operator_div_assign (pm : List ℚ → List ℚ → Nat → List ℚ) (fuel : Nat)
    (x num : Rational) : Option Rational :=
  match BigInteger.operator_mul_assign pm x.numerator num.denominator with
  | none => none
  | some numerator1 =>
    match BigInteger.operator_mul_assign pm x.denominator num.numerator with
    | none => none
    | some denominator1 =>
      if BigInteger.operator_lt denominator1 (BigInteger.of_int 0) then
        reduce pm fuel { numerator := BigInteger.change_sign numerator1,
                         denominator := BigInteger.change_sign denominator1 }
      else reduce pm fuel { numerator := numerator1, denominator := denominator1 }

/-- Compound `operator /=` called with the receiver itself as argument (`a /= a`): `num` is a
reference to `*this`, so `num.denominator` is the receiver's denominator, and `num.numerator`,
read by the second statement, is the numerator that the first statement has just
overwritten. -/
def operator_div_assign_self (pm : List ℚ → List ℚ → Nat → List ℚ) (fuel : Nat)
    (x : Rational) : Option Rational :=
  match BigInteger.operator_mul_assign pm x.numerator x.denominator with
  | none => none
  | some numerator1 =>
    match BigInteger.operator_mul_assign pm x.denominator numerator1 with
    | none => none
    | some denominator1 =>
      if BigInteger.operator_lt denominator1 (BigInteger.of_int 0) then
        reduce pm fuel { numerator := BigInteger.change_sign numerator1,
                         denominator := BigInteger.change_sign denominator1 }
      else reduce pm fuel { numerator := numerator1, denominator := denominator1 }

/-- Method `asDecimal(precision)`, with the iteration budget `fuel` for its division. The text
is handled as its list of characters; `result[0]` of an empty string is the terminating null
character. -/
def asDecimal (fuel : Nat) (x : Rational) (precision : Nat) : Option String :=
  let shifted_numerator := BigInteger.shift x.numerator precision
  match BigInteger.operator_div fuel shifted_numerator x.denominator with
  | none => none
  | some quotient =>
    let result := (BigInteger.toString quotient).data
    if precision ≠ 0 then
      let digits_number :=
        if result.getD 0 (Char.ofNat 0) = '-' then result.length - 1 else result.length
      if digits_number ≤ precision then
        let zeros :=
          if BigInteger.operator_lt x.numerator (BigInteger.of_int 0) then ['-', '0', '.']
          else ['0', '.']
        let zeros1 :=
          (List.range (precision - digits_number)).foldl (fun z _ => z ++ ['0']) zeros
        let result1 := if result.getD 0 (Char.ofNat 0) = '-' then result.drop 1 else result
        some (String.mk (zeros1 ++ result1))
      else
        let position := result.length - precision
        some (String.mk (result.take position ++ ['.'] ++ result.drop position))
    else some (String.mk result)

/-- Binary `operator +` (on a copy of `n1`). -/
def operator_plus (pm : List ℚ → List ℚ → Nat → List ℚ) (fuel : Nat) (n1 n2 : Rational) :
    Option Rational :=
  operator_plus_assign pm fuel n1 n2

/-- Binary `operator -` (on a copy of `n1`). -/
def operator_minus (pm : List ℚ → List ℚ → Nat → List ℚ) (fuel : Nat) (n1 n2 : Rational) :
    Option Rational :=
  operator_minus_assign pm fuel n1 n2

/-- Binary `operator *` (on a copy of `n1`). -/
def operator_mul (pm : List ℚ → List ℚ → Nat → List ℚ) (fuel : Nat) (n1 n2 : Rational) :
    Option Rational :=
  operator_mul_assign pm fuel n1 n2

/-- Binary `operator /` (on a copy of `n1`). -/
def operator_div (pm : List ℚ → List ℚ → Nat → List ℚ) (fuel : Nat) (n1 n2 : Rational) :
    Option Rational :=
  operator_div_assign pm fuel n1 n2

end Rational

namespace BigInteger

/-! ### Specification vocabulary -/

/-- Magnitude denoted by a limb list: the sum of `limb_i * 10000 ^ i`. -/
def limbs_value : List Int → Int
  | [] => 0
  | l :: ls => l + base * limbs_value ls

/-- Integer denoted by a big integer. -/
def value (x : BigInteger) : Int :=
  if x.is_negative then -limbs_value x.data else limbs_value x.data

/-- Every limb lies in `[0, 9999]`. -/
def LimbsInRange (data : List Int) : Prop := ∀ l ∈ data, 0 ≤ l ∧ l ≤ 9999

instance (data : List Int) : Decidable (LimbsInRange data) := by
  unfold LimbsInRange; infer_instance

/-- The canonical shape of a magnitude: not empty, limbs in range, and no zero limb at the most
significant end unless it is the single limb 0. -/
def Canonical (data : List Int) : Prop :=
  data ≠ [] ∧ LimbsInRange data ∧ (data.getLast? = some 0 → data = [0])

instance (data : List Int) : Decidable (Canonical data) := by
  unfold Canonical; infer_instance

/-- Well-formed ("settled") values: at least one limb, limbs in `[0, 9999]`, no zero limb at the
most significant end unless the value is the single limb 0, sign flag clear on zero. -/
def WellFormed (x : BigInteger) : Prop :=
  x.data ≠ [] ∧ LimbsInRange x.data ∧ (x.data.getLast? = some 0 → x.data = [0]) ∧
    (x.data = [0] → x.is_negative = false)

instance (x : BigInteger) : Decidable (WellFormed x) := by
  unfold WellFormed; infer_instance

/-- A decimal digit character. -/
def IsDigit (c : Char) : Prop := 48 ≤ c.toNat ∧ c.toNat ≤ 57

instance (c : Char) : Decidable (IsDigit c) := by
  unfold IsDigit; infer_instance

/-- The number written by a list of digit characters, most significant first. -/
def decimal_value (ds : List Char) : Int :=
  ds.foldl (fun acc c => 10 * acc + ((c.toNat : Int) - 48)) 0

/-- The number written by a list of digit characters, least significant first. -/
def le_value : List Char → Int
  | [] => 0
  | c :: cs => ((c.toNat : Int) - 48) + 10 * le_value cs

/-- The digit characters of a decimal text: the text without its leading `-`, if any. -/
def text_digits (t : String) : List Char :=
  if t.data.head? = some '-' then t.data.tail else t.data

/-- The text `t` is the minimal decimal text of the integer `z`: one or more digits that write
`|z|`, no leading `0` unless the text is `"0"`, and a `-` in front exactly when `z < 0`. -/
def IsDecimalText (t : String) (z : Int) : Prop :=
  text_digits t ≠ [] ∧ (∀ c ∈ text_digits t, IsDigit c) ∧
    ((text_digits t).head? = some '0' → t = "0") ∧
    (t.data.head? = some '-' ↔ z < 0) ∧ decimal_value (text_digits t) = |z|

instance (t : String) (z : Int) : Decidable (IsDecimalText t z) := by
  unfold IsDecimalText; infer_instance

/-- The transform `pm` meets the rounding budget on every product of canonical magnitudes that
are at most `B`. -/
def AccurateBelow (pm : List ℚ → List ℚ → Nat → List ℚ) (B : Int) : Prop :=
  ∀ x num : BigInteger, Canonical x.data → Canonical num.data → limbs_value x.data ≤ B →
    limbs_value num.data ≤ B → MulAccurate pm x num

/-! ### Loop invariants and auxiliary functions of the proofs -/

/-- Invariant of a digit-packing loop after `n` digits. -/
def PackInv (n : Nat) (st : PackState) : Prop :=
  st.pack_idx = n / 4 ∧ st.rem = n % 4 ∧ st.data.length = (n + 3) / 4 ∧
    LimbsInRange st.data ∧ limbs_value st.data < 10 ^ n

/-- The big-endian text of a little-endian limb list, four characters per limb. -/
def limbs_text : List Int → List Char
  | [] => []
  | l :: ls => limbs_text ls ++ limb_chars l

/-- Decimal digit number `j` (from the least significant end) of a limb list. -/
def digit_at (data : List Int) (j : Nat) : Int := (data.getD (j / 4) 0 / 10 ^ (j % 4)) % 10

/-- The number written by the `n` least significant decimal digits of a limb list. -/
def digits_sum (data : List Int) : Nat → Int
  | 0 => 0
  | n + 1 => digits_sum data n + digit_at data n * 10 ^ n

/-- Invariant of the loop of `fix_polynom` at index `i`: `cs` are the integer coefficients the
floating-point vector stands for; below `i` the entries are those integers, settled in
`[0, 9999]`, from `i` on they are less than one half away from them, and the integers are at
most `2 ^ 63 - 2 ^ 50` (the one at `i`, which has received a carry, at most `2 ^ 63 - 1`). -/
def FixInv (i : Nat) (poly : List ℚ) (cs : List Int) : Prop :=
  poly.length = cs.length ∧
  (∀ j, j < i → poly.getD j 0 = ((cs.getD j 0 : Int) : ℚ) ∧ 0 ≤ cs.getD j 0 ∧
    cs.getD j 0 ≤ 9999) ∧
  (∀ j, i ≤ j → |poly.getD j 0 - ((cs.getD j 0 : Int) : ℚ)| < 1 / 2 ∧ 0 ≤ cs.getD j 0 ∧
    cs.getD j 0 ≤ 2 ^ 63 - 2 ^ 50 + (if j = i then 2 ^ 50 - 1 else 0))

/-- Invariant of the carry loop of `add_bigint_modulo` at index `i`; `L` is the length of the
vector when the loop starts. -/
def CarryInv (numSize L i : Nat) (data : List Int) : Prop :=
  (L ≤ data.length ∧ data.length ≤ L + 1) ∧
  (data.length = L + 1 → i = L ∧ 1 ≤ data.getD L 0 ∧ data.getD L 0 ≤ 9999) ∧
  (∀ j, j < i → 0 ≤ data.getD j 0 ∧ data.getD j 0 ≤ 9999) ∧
  (i < L → 0 ≤ data.getD i 0 ∧ data.getD i 0 ≤ (if i < numSize then 19999 else 10000)) ∧
  (∀ j, i < j → j < L →
    0 ≤ data.getD j 0 ∧ data.getD j 0 ≤ (if j < numSize then 19998 else 9999))

/-- Invariant of the borrow loop of `subtract_bigint_modulo` at index `i`. -/
def BorrowInv (numSize i : Nat) (data : List Int) : Prop :=
  (∀ j, j < i → 0 ≤ data.getD j 0 ∧ data.getD j 0 ≤ 9999) ∧
  (-10000 ≤ data.getD i 0 ∧ data.getD i 0 ≤ 9999) ∧
  (∀ j, i < j → -9999 ≤ data.getD j 0 ∧ data.getD j 0 ≤ 9999) ∧
  (∀ j, i < j → numSize ≤ j → 0 ≤ data.getD j 0) ∧
  0 ≤ limbs_value data

end BigInteger

namespace Rational

/-- The reduced form of a rational: both components well-formed, the denominator positive and
coprime to the magnitude of the numerator. -/
def Reduced (r : Rational) : Prop :=
  BigInteger.WellFormed r.numerator ∧ BigInteger.WellFormed r.denominator ∧
    0 < BigInteger.value r.denominator ∧
    Int.gcd (BigInteger.value r.numerator) (BigInteger.value r.denominator) = 1

instance (r : Rational) : Decidable (Reduced r) := by
  unfold Reduced; infer_instance

/-- The text `t` is an optional `-`, one or more digits, one `.` and exactly `p` digits, and
its digits, read as one decimal number, write `m`. -/
def IsDecimalRendering (t : String) (p : Nat) (m : Int) : Prop :=
  p + 2 ≤ (BigInteger.text_digits t).length ∧
  (∀ c ∈ (BigInteger.text_digits t).take ((BigInteger.text_digits t).length - (p + 1)),
    BigInteger.IsDigit c) ∧
  (BigInteger.text_digits t).getD ((BigInteger.text_digits t).length - (p + 1)) ' ' = '.' ∧
  (∀ c ∈ (BigInteger.text_digits t).drop ((BigInteger.text_digits t).length - p),
    BigInteger.IsDigit c) ∧
  BigInteger.decimal_value
    ((BigInteger.text_digits t).take ((BigInteger.text_digits t).length - (p + 1)) ++
      (BigInteger.text_digits t).drop ((BigInteger.text_digits t).length - p)) = m

instance (t : String) (p : Nat) (m : Int) : Decidable (IsDecimalRendering t p m) := by
  unfold IsDecimalRendering; infer_instance

/-- A bound on the magnitudes that `+`, `-`, `*` and `/` of two rationals hand to big-integer
multiplications and divisions: the product of `|numerator| + denominator` of the two. -/
def operand_bound (a b : Rational) : Int :=
  (|BigInteger.value a.numerator| + BigInteger.value a.denominator) *
    (|BigInteger.value b.numerator| + BigInteger.value b.denominator)

end Rational

namespace BigInteger

theorem base_pos : (0 : Int) < base := by decide

theorem limbs_value_nil : limbs_value [] = 0 := rfl

theorem limbs_value_cons (x : Int) (xs : List Int) :
    limbs_value (x :: xs) = x + base * limbs_value xs := rfl

theorem limbs_value_append (xs ys : List Int) :
    limbs_value (xs ++ ys) = limbs_value xs + base ^ xs.length * limbs_value ys := by
  induction xs with
  | nil => simp [limbs_value_nil]
  | cons x xs ih =>
    rw [List.cons_append, limbs_value_cons, limbs_value_cons, ih, List.length_cons, pow_succ]
    ring

theorem limbs_value_singleton (v : Int) : limbs_value [v] = v := by
  simp [limbs_value_cons, limbs_value_nil]

theorem limbs_value_set (xs : List Int) (i : Nat) (v : Int) (h : i < xs.length) :
    limbs_value (xs.set i v) = limbs_value xs + (v - xs.getD i 0) * base ^ i := by
  induction xs generalizing i with
  | nil => simp at h
  | cons x xs ih =>
    cases i with
    | zero =>
      rw [List.set_cons_zero, limbs_value_cons, limbs_value_cons, List.getD_cons_zero]
      ring
    | succ i =>
      simp only [List.length_cons, Nat.succ_lt_succ_iff] at h
      rw [List.set_cons_succ, limbs_value_cons, limbs_value_cons, ih i h, List.getD_cons_succ,
        pow_succ]
      ring

theorem getD_mem_range {xs : List Int} (h : LimbsInRange xs) (i : Nat) :
    0 ≤ xs.getD i 0 ∧ xs.getD i 0 ≤ 9999 := by
  by_cases hi : i < xs.length
  · rw [List.getD_eq_getElem _ _ hi]
    exact h _ (List.getElem_mem hi)
  · rw [List.getD_eq_default _ _ (by omega)]
    omega

theorem limbs_value_nonneg {xs : List Int} (h : LimbsInRange xs) : 0 ≤ limbs_value xs := by
  induction xs with
  | nil => simp [limbs_value_nil]
  | cons x xs ih =>
    have hx := h x (List.mem_cons_self _ _)
    have := ih (fun l hl => h l (List.mem_cons_of_mem _ hl))
    simp only [limbs_value_cons, base]
    omega

theorem limbs_value_lt {xs : List Int} (h : LimbsInRange xs) :
    limbs_value xs < base ^ xs.length := by
  induction xs with
  | nil => simp [limbs_value_nil]
  | cons x xs ih =>
    have hx := h x (List.mem_cons_self _ _)
    have := ih (fun l hl => h l (List.mem_cons_of_mem _ hl))
    simp only [limbs_value_cons, List.length_cons, pow_succ]
    have hb : base = 10000 := rfl
    nlinarith

theorem limbsInRange_cons {x : Int} {xs : List Int} :
    LimbsInRange (x :: xs) ↔ (0 ≤ x ∧ x ≤ 9999) ∧ LimbsInRange xs := by
  simp [LimbsInRange]

theorem limbsInRange_append {xs ys : List Int} :
    LimbsInRange (xs ++ ys) ↔ LimbsInRange xs ∧ LimbsInRange ys := by
  simp only [LimbsInRange, List.mem_append]
  constructor
  · intro h
    exact ⟨fun l hl => h l (Or.inl hl), fun l hl => h l (Or.inr hl)⟩
  · rintro ⟨h1, h2⟩ l (hl | hl)
    · exact h1 l hl
    · exact h2 l hl

theorem base_pow_pos (n : Nat) : (0 : Int) < base ^ n := pow_pos base_pos n

/-- A limb list in range whose last limb is not zero denotes at least `base ^ (length - 1)`. -/
theorem limbs_value_ge_of_last {xs : List Int} {l : Int} (h : LimbsInRange (xs ++ [l]))
    (hl : l ≠ 0) : base ^ xs.length ≤ limbs_value (xs ++ [l]) := by
  rw [limbsInRange_append] at h
  have h1 := limbs_value_nonneg h.1
  have h2 := h.2 l (List.mem_singleton_self l)
  rw [limbs_value_append, limbs_value_singleton]
  have hp := base_pow_pos xs.length
  have : 1 ≤ l := by omega
  nlinarith

/-- Two limb lists in range, of the same length, with the same value, are equal. -/
theorem limbs_eq_of_value_eq : ∀ {xs ys : List Int}, LimbsInRange xs → LimbsInRange ys →
    xs.length = ys.length → limbs_value xs = limbs_value ys → xs = ys
  | [], [], _, _, _, _ => rfl
  | [], _ :: _, _, _, h, _ => by simp at h
  | _ :: _, [], _, _, h, _ => by simp at h
  | x :: xs, y :: ys, hx, hy, hlen, hv => by
    rw [limbsInRange_cons] at hx hy
    rw [limbs_value_cons, limbs_value_cons] at hv
    simp only [List.length_cons, Nat.succ.injEq] at hlen
    have hb : base = 10000 := rfl
    rw [hb] at hv
    have h1 : x = y := by omega
    have h2 : limbs_value xs = limbs_value ys := by omega
    rw [h1, limbs_eq_of_value_eq hx.2 hy.2 hlen h2]

theorem canonical_cases {data : List Int} (h : Canonical data) :
    data = [0] ∨ ∃ xs l, data = xs ++ [l] ∧ l ≠ 0 := by
  obtain ⟨hne, _, hz⟩ := h
  rcases List.eq_nil_or_concat data with h0 | ⟨xs, l, rfl⟩
  · exact absurd h0 hne
  · by_cases hl : l = 0
    · left
      apply hz
      simp [hl]
    · right
      exact ⟨xs, l, by simp, hl⟩

/-- Bounds on the value of a canonical magnitude in terms of its length. -/
theorem canonical_value_bounds {data : List Int} (h : Canonical data) :
    limbs_value data < base ^ data.length ∧
      (limbs_value data ≠ 0 → base ^ (data.length - 1) ≤ limbs_value data) ∧
      (limbs_value data = 0 → data = [0]) := by
  refine ⟨limbs_value_lt h.2.1, ?_, ?_⟩
  · intro hv
    rcases canonical_cases h with h0 | ⟨xs, l, rfl, hl⟩
    · rw [h0] at hv
      simp [limbs_value_cons, limbs_value_nil] at hv
    · have := limbs_value_ge_of_last h.2.1 hl
      simpa using this
  · intro hv
    rcases canonical_cases h with h0 | ⟨xs, l, rfl, hl⟩
    · exact h0
    · have := limbs_value_ge_of_last h.2.1 hl
      have hp := base_pow_pos xs.length
      omega

theorem pow_le_pow_base {m n : Nat} (h : m ≤ n) : base ^ m ≤ base ^ n :=
  pow_le_pow_right₀ (by decide) h

/-- A canonical magnitude with more limbs denotes a larger value. -/
theorem canonical_lt_of_length_lt {xs ys : List Int} (hx : Canonical xs) (hy : Canonical ys)
    (h : xs.length < ys.length) : limbs_value xs < limbs_value ys := by
  have hx1 := (canonical_value_bounds hx).1
  have hy2 := (canonical_value_bounds hy).2
  have hy0 : limbs_value ys ≠ 0 := by
    intro h0
    have h5 := hy2.2 h0
    have h6 : ys.length = 1 := by rw [h5]; rfl
    have h7 : xs.length ≠ 0 := fun h8 => hx.1 (List.length_eq_zero.mp h8)
    omega
  have h3 := hy2.1 hy0
  have h4 : base ^ xs.length ≤ base ^ (ys.length - 1) := pow_le_pow_base (by omega)
  omega

/-- Canonical magnitudes are determined by their value. -/
theorem canonical_eq_of_value_eq {xs ys : List Int} (hx : Canonical xs) (hy : Canonical ys)
    (h : limbs_value xs = limbs_value ys) : xs = ys := by
  have hlen : xs.length = ys.length := by
    rcases Nat.lt_trichotomy xs.length ys.length with hl | hl | hl
    · have := canonical_lt_of_length_lt hx hy hl
      omega
    · exact hl
    · have := canonical_lt_of_length_lt hy hx hl
      omega
  exact limbs_eq_of_value_eq hx.2.1 hy.2.1 hlen h

/-! ### Reading and writing by index -/

theorem eq_nil_or_snoc (data : List Int) : data = [] ∨ ∃ xs l, data = xs ++ [l] := by
  rcases List.eq_nil_or_concat data with h | ⟨xs, l, h⟩
  · exact Or.inl h
  · exact Or.inr ⟨xs, l, by simpa using h⟩

theorem getD_set_eq (xs : List Int) (i : Nat) (v : Int) (h : i < xs.length) :
    (xs.set i v).getD i 0 = v := by
  rw [List.getD_eq_getElem?_getD, List.getElem?_set]
  simp [h]

theorem getD_set_ne (xs : List Int) {i j : Nat} (v : Int) (h : i ≠ j) :
    (xs.set i v).getD j 0 = xs.getD j 0 := by
  rw [List.getD_eq_getElem?_getD, List.getD_eq_getElem?_getD, List.getElem?_set]
  simp [h]

theorem getD_set (xs : List Int) (i j : Nat) (v : Int) (h : i < xs.length) :
    (xs.set i v).getD j 0 = if i = j then v else xs.getD j 0 := by
  by_cases hij : i = j
  · subst hij
    rw [if_pos rfl]
    exact getD_set_eq xs i v h
  · rw [if_neg hij]
    exact getD_set_ne xs v hij

theorem getD_concat (xs : List Int) (v : Int) (j : Nat) :
    (xs ++ [v]).getD j 0 = if j = xs.length then v else xs.getD j 0 := by
  rcases Nat.lt_trichotomy j xs.length with h | h | h
  · rw [List.getD_append _ _ _ _ h]
    simp [Nat.ne_of_lt h]
  · subst h
    rw [List.getD_append_right _ _ _ _ (le_refl _)]
    simp
  · rw [List.getD_eq_default _ _ (by simp; omega), List.getD_eq_default _ _ (by omega)]
    simp [Nat.ne_of_gt h]

theorem getD_of_length_le (xs : List Int) {j : Nat} (h : xs.length ≤ j) : xs.getD j 0 = 0 :=
  List.getD_eq_default _ _ h

theorem limbsInRange_of_getD {xs : List Int}
    (h : ∀ j, j < xs.length → 0 ≤ xs.getD j 0 ∧ xs.getD j 0 ≤ 9999) : LimbsInRange xs := by
  intro l hl
  obtain ⟨n, hn, rfl⟩ := List.getElem_of_mem hl
  have := h n hn
  rwa [List.getD_eq_getElem _ _ hn] at this

/-- The value is the sum of `limb_j * base ^ j`. -/
theorem limbs_value_eq_sum (xs : List Int) : ∀ N, xs.length ≤ N →
    limbs_value xs = ∑ j in Finset.range N, xs.getD j 0 * base ^ j := by
  induction xs with
  | nil =>
    intro N _
    simp [limbs_value_nil]
  | cons x xs ih =>
    intro N hN
    obtain ⟨M, rfl⟩ : ∃ M, N = M + 1 := ⟨N - 1, by simp at hN; omega⟩
    rw [Finset.sum_range_succ', limbs_value_cons, ih M (by simpa using hN), Finset.mul_sum]
    simp only [List.getD_cons_succ, List.getD_cons_zero, pow_zero, mul_one, pow_succ]
    rw [add_comm]
    congr 1
    apply Finset.sum_congr rfl
    intro j _
    ring

theorem limbs_value_take_drop (xs : List Int) (i : Nat) :
    limbs_value xs = limbs_value (xs.take i) + base ^ (min i xs.length) * limbs_value (xs.drop i) := by
  conv_lhs => rw [← List.take_append_drop i xs]
  rw [limbs_value_append, List.length_take]

theorem take_succ_getD (xs : List Int) {n : Nat} (h : n < xs.length) :
    xs.take (n + 1) = xs.take n ++ [xs.getD n 0] := by
  rw [List.take_succ, List.getD_eq_getElem _ _ h, List.getElem?_eq_getElem h]
  rfl

theorem limbs_value_take_succ (xs : List Int) {n : Nat} (h : n < xs.length) :
    limbs_value (xs.take (n + 1)) = limbs_value (xs.take n) + base ^ n * xs.getD n 0 := by
  rw [take_succ_getD xs h, limbs_value_append, limbs_value_singleton, List.length_take,
    Nat.min_eq_left (Nat.le_of_lt h)]

theorem limbsInRange_take {xs : List Int} (h : LimbsInRange xs) (n : Nat) :
    LimbsInRange (xs.take n) := fun l hl => h l (List.mem_of_mem_take hl)

theorem limbsInRange_drop {xs : List Int} (h : LimbsInRange xs) (n : Nat) :
    LimbsInRange (xs.drop n) := fun l hl => h l (List.mem_of_mem_drop hl)

/-! ### clean_trailing_zeros -/

theorem clean_loop_value (k : Nat) (data : List Int) :
    limbs_value (clean_loop k data) = limbs_value data := by
  induction k generalizing data with
  | zero => rfl
  | succ k ih =>
    unfold clean_loop
    split
    · rename_i h
      rcases eq_nil_or_snoc data with h0 | ⟨xs, l, rfl⟩
      · simp [h0] at h
      · have hl : l = 0 := by simpa using h.2
        subst hl
        rw [ih]
        simp [limbs_value_append, limbs_value_singleton]
    · rfl

theorem clean_loop_canonical (k : Nat) (data : List Int) (hne : data ≠ [])
    (hr : LimbsInRange data) (hk : data.length ≤ k) : Canonical (clean_loop k data) := by
  induction k generalizing data with
  | zero =>
    exact absurd (List.length_eq_zero.mp (Nat.le_zero.mp hk)) hne
  | succ k ih =>
    unfold clean_loop
    split
    · rename_i h
      rcases eq_nil_or_snoc data with h0 | ⟨xs, l, rfl⟩
      · exact absurd h0 hne
      · have hlen : 1 < xs.length + 1 := by simpa using h.1
        rw [List.dropLast_concat]
        apply ih
        · intro h0
          rw [h0] at hlen
          simp at hlen
        · exact (limbsInRange_append.mp hr).1
        · simp at hk
          omega
    · rename_i h
      refine ⟨hne, hr, ?_⟩
      intro h0
      rcases eq_nil_or_snoc data with h1 | ⟨xs, l, rfl⟩
      · exact absurd h1 hne
      · have hl : l = 0 := by simpa using h0
        subst hl
        have : ¬ 1 < (xs ++ [0]).length := fun h2 => h ⟨h2, h0⟩
        have hx : xs = [] := by
          apply List.length_eq_zero.mp
          rw [List.length_append, List.length_singleton] at this
          omega
        rw [hx]
        rfl

theorem clean_loop_of_canonical (k : Nat) {data : List Int} (h : Canonical data) :
    clean_loop k data = data := by
  cases k with
  | zero => rfl
  | succ k =>
    unfold clean_loop
    split
    · rename_i h1
      have := h.2.2 h1.2
      rw [this] at h1
      simp at h1
    · rfl

/-! ### Comparison of magnitudes and values -/

theorem canonical_of_wellFormed {x : BigInteger} (h : WellFormed x) : Canonical x.data :=
  ⟨h.1, h.2.1, h.2.2.1⟩

theorem cmp_digit_lt {p va vb a b : Int} (hva0 : 0 ≤ va) (hva : va < p) (hvb : 0 ≤ vb)
    (hab : a < b) : va + p * a < vb + p * b := by
  have h1 : a + 1 ≤ b := hab
  have hp : 0 ≤ p := by omega
  nlinarith [mul_le_mul_of_nonneg_left h1 hp]

theorem is_lt_loop_iff {data num : List Int} (hd : LimbsInRange data) (hn : LimbsInRange num) :
    ∀ n, n ≤ data.length → n ≤ num.length →
      (is_lt_loop data num n = Ordering.lt ↔
        limbs_value (data.take n) < limbs_value (num.take n)) := by
  intro n
  induction n with
  | zero => intro _ _; simp [is_lt_loop, limbs_value_nil]
  | succ n ih =>
    intro h1 h2
    have ih := ih (by omega) (by omega)
    rw [limbs_value_take_succ data (by omega), limbs_value_take_succ num (by omega)]
    have ha0 := limbs_value_nonneg (limbsInRange_take hd n)
    have hb0 := limbs_value_nonneg (limbsInRange_take hn n)
    have ha1 := limbs_value_lt (limbsInRange_take hd n)
    have hb1 := limbs_value_lt (limbsInRange_take hn n)
    rw [List.length_take, Nat.min_eq_left (by omega)] at ha1 hb1
    unfold is_lt_loop
    split
    · rename_i h
      simp only [true_iff]
      exact cmp_digit_lt ha0 ha1 hb0 h
    · split
      · rename_i h
        have := cmp_digit_lt hb0 hb1 ha0 h
        simp only [reduceCtorEq, false_iff, not_lt]
        omega
      · rename_i h3 h4
        have : data.getD n 0 = num.getD n 0 := by omega
        rw [ih, this]
        constructor <;> intro h <;> omega

/-- Method `is_lt_modulo` answers `less` exactly when the first magnitude is the smaller one. -/
theorem is_lt_modulo_iff {x num : BigInteger} (hx : Canonical x.data) (hn : Canonical num.data) :
    is_lt_modulo x num = Ordering.lt ↔ limbs_value x.data < limbs_value num.data := by
  unfold is_lt_modulo
  split
  · rename_i h
    simp only [true_iff]
    exact canonical_lt_of_length_lt hx hn h
  · split
    · rename_i h
      have := canonical_lt_of_length_lt hn hx h
      simp only [reduceCtorEq, false_iff, not_lt]
      omega
    · rename_i h1 h2
      have hlen : x.data.length = num.data.length := by omega
      have := is_lt_loop_iff hx.2.1 hn.2.1 x.data.length (le_refl _) (by omega)
      rw [this, List.take_length]
      conv_lhs => rw [hlen, List.take_length]

theorem spaceship_loop_eq {data other : List Int} (hd : LimbsInRange data)
    (hn : LimbsInRange other) (neg : Bool) :
    ∀ n, n ≤ data.length → n ≤ other.length →
      spaceship_loop neg data other n =
        if neg then compare (limbs_value (other.take n)) (limbs_value (data.take n))
        else compare (limbs_value (data.take n)) (limbs_value (other.take n)) := by
  intro n
  induction n with
  | zero =>
    intro _ _
    have : compare (0 : Int) 0 = Ordering.eq := compare_eq_iff_eq.mpr rfl
    cases neg <;> simp [spaceship_loop, limbs_value_nil, this]
  | succ n ih =>
    intro h1 h2
    have ih := ih (by omega) (by omega)
    rw [limbs_value_take_succ data (by omega), limbs_value_take_succ other (by omega)]
    have ha0 := limbs_value_nonneg (limbsInRange_take hd n)
    have hb0 := limbs_value_nonneg (limbsInRange_take hn n)
    have ha1 := limbs_value_lt (limbsInRange_take hd n)
    have hb1 := limbs_value_lt (limbsInRange_take hn n)
    rw [List.length_take, Nat.min_eq_left (by omega)] at ha1 hb1
    unfold spaceship_loop
    split
    · rename_i h
      rcases lt_or_gt_of_ne h with hlt | hgt
      · have := cmp_digit_lt ha0 ha1 hb0 hlt
        have e : decide (data.getD n 0 < other.getD n 0) = true := decide_eq_true hlt
        cases neg
        · rw [e, compare_lt_iff_lt.mpr this]
          rfl
        · rw [e, compare_gt_iff_gt.mpr this]
          rfl
      · have := cmp_digit_lt hb0 hb1 ha0 hgt
        have hnlt : ¬ data.getD n 0 < other.getD n 0 := by omega
        have e : decide (data.getD n 0 < other.getD n 0) = false := decide_eq_false hnlt
        cases neg
        · rw [e, compare_gt_iff_gt.mpr this]
          rfl
        · rw [e, compare_lt_iff_lt.mpr this]
          rfl
    · rename_i h
      have h : data.getD n 0 = other.getD n 0 := by simpa using h
      rw [ih, h]
      cases neg
      · simp only [Bool.false_eq_true, if_false]
        rcases lt_trichotomy (limbs_value (data.take n)) (limbs_value (other.take n)) with
          h3 | h3 | h3
        · rw [compare_lt_iff_lt.mpr h3, compare_lt_iff_lt.mpr (by omega)]
        · rw [compare_eq_iff_eq.mpr h3, compare_eq_iff_eq.mpr (by omega)]
        · rw [compare_gt_iff_gt.mpr h3, compare_gt_iff_gt.mpr (by omega)]
      · simp only [if_true]
        rcases lt_trichotomy (limbs_value (other.take n)) (limbs_value (data.take n)) with
          h3 | h3 | h3
        · rw [compare_lt_iff_lt.mpr h3, compare_lt_iff_lt.mpr (by omega)]
        · rw [compare_eq_iff_eq.mpr h3, compare_eq_iff_eq.mpr (by omega)]
        · rw [compare_gt_iff_gt.mpr h3, compare_gt_iff_gt.mpr (by omega)]

theorem value_neg_of_wellFormed {x : BigInteger} (h : WellFormed x) (hneg : x.is_negative = true) :
    value x < 0 := by
  have hc := canonical_of_wellFormed h
  have h0 := limbs_value_nonneg hc.2.1
  have h1 : limbs_value x.data ≠ 0 := by
    intro h2
    have := h.2.2.2 ((canonical_value_bounds hc).2.2 h2)
    rw [hneg] at this
    exact Bool.noConfusion this
  simp only [value, hneg, if_true]
  omega

theorem value_nonneg_of_nonneg {x : BigInteger} (h : LimbsInRange x.data)
    (hneg : x.is_negative = false) : 0 ≤ value x := by
  simp only [value, hneg, Bool.false_eq_true, if_false]
  exact limbs_value_nonneg h

/-- Operator `<=>` orders well-formed values as the integers they denote. -/
theorem operator_spaceship_eq_compare {a b : BigInteger} (ha : WellFormed a)
    (hb : WellFormed b) : operator_spaceship a b = compare (value a) (value b) := by
  have hca := canonical_of_wellFormed ha
  have hcb := canonical_of_wellFormed hb
  unfold operator_spaceship
  split
  · rename_i h
    cases hna : a.is_negative <;> cases hnb : b.is_negative <;> simp [hna, hnb] at h
    · have h1 := value_nonneg_of_nonneg hca.2.1 hna
      have h2 := value_neg_of_wellFormed hb hnb
      rw [compare_gt_iff_gt.mpr (show value a > value b by omega)]
      rfl
    · have h1 := value_nonneg_of_nonneg hcb.2.1 hnb
      have h2 := value_neg_of_wellFormed ha hna
      rw [compare_lt_iff_lt.mpr (show value a < value b by omega)]
      rfl
  · rename_i hs
    have hs : a.is_negative = b.is_negative := by simpa using hs
    split
    · rename_i h
      rcases Nat.lt_or_gt_of_ne h with h1 | h1
      · have := canonical_lt_of_length_lt hca hcb h1
        cases hna : a.is_negative
        · have hnb : b.is_negative = false := by rw [← hs, hna]
          simp only [value, hna, hnb, Bool.false_eq_true, if_false]
          rw [compare_lt_iff_lt.mpr this]
          simp [h1]
        · have hnb : b.is_negative = true := by rw [← hs, hna]
          simp only [value, hna, hnb, if_true]
          rw [compare_gt_iff_gt.mpr (show -limbs_value a.data > -limbs_value b.data by omega)]
          simp [h1]
      · have := canonical_lt_of_length_lt hcb hca h1
        have h2 : ¬ a.data.length < b.data.length := by omega
        cases hna : a.is_negative
        · have hnb : b.is_negative = false := by rw [← hs, hna]
          simp only [value, hna, hnb, Bool.false_eq_true, if_false]
          rw [compare_gt_iff_gt.mpr this]
          simp [h2]
        · have hnb : b.is_negative = true := by rw [← hs, hna]
          simp only [value, hna, hnb, if_true]
          rw [compare_lt_iff_lt.mpr (show -limbs_value a.data < -limbs_value b.data by omega)]
          simp [h2]
    · rename_i h
      have hlen : a.data.length = b.data.length := by simpa using h
      rw [spaceship_loop_eq hca.2.1 hcb.2.1 a.is_negative a.data.length (le_refl _) (by omega),
        List.take_length]
      conv_lhs => rw [hlen, List.take_length]
      cases hna : a.is_negative
      · have hnb : b.is_negative = false := by rw [← hs, hna]
        simp [value, hna, hnb]
      · have hnb : b.is_negative = true := by rw [← hs, hna]
        simp only [value, hna, hnb, if_true]
        rcases lt_trichotomy (limbs_value b.data) (limbs_value a.data) with h3 | h3 | h3
        · rw [compare_lt_iff_lt.mpr h3, compare_lt_iff_lt.mpr (by omega)]
        · rw [compare_eq_iff_eq.mpr h3, compare_eq_iff_eq.mpr (by omega)]
        · rw [compare_gt_iff_gt.mpr h3, compare_gt_iff_gt.mpr (by omega)]

/-- Well-formed values are determined by the integer they denote. -/
theorem eq_of_value_eq {a b : BigInteger} (ha : WellFormed a) (hb : WellFormed b)
    (h : value a = value b) : a = b := by
  have hca := canonical_of_wellFormed ha
  have hcb := canonical_of_wellFormed hb
  have h0a := limbs_value_nonneg hca.2.1
  have h0b := limbs_value_nonneg hcb.2.1
  obtain ⟨na, da⟩ := a
  obtain ⟨nb, db⟩ := b
  cases hna : na <;> cases hnb : nb
  · subst hna hnb
    simp only [value, Bool.false_eq_true, if_false] at h
    have := canonical_eq_of_value_eq hca hcb h
    simp only at this
    rw [this]
  · subst hna hnb
    have h2 := value_neg_of_wellFormed hb rfl
    have h1 := value_nonneg_of_nonneg hca.2.1 rfl
    omega
  · subst hna hnb
    have h2 := value_neg_of_wellFormed ha rfl
    have h1 := value_nonneg_of_nonneg hcb.2.1 rfl
    omega
  · subst hna hnb
    simp only [value, if_true] at h
    have := canonical_eq_of_value_eq hca hcb (by simpa using h)
    simp only at this
    rw [this]

/-! ### Magnitude addition -/

/-- A loop `for (i = 0; i < n; ++i)` whose body rewrites position `i` (appending it when the
vector ends there) computes position-wise. -/
theorem foldl_pointwise (step : List Int → Nat → List Int) (g : Nat → Int → Int)
    (hlen : ∀ d i, i ≤ d.length → (step d i).length = max d.length (i + 1))
    (hget : ∀ d i j, i ≤ d.length →
      (step d i).getD j 0 = if j = i then g i (d.getD i 0) else d.getD j 0)
    (data : List Int) : ∀ n,
      ((List.range n).foldl step data).length = max data.length n ∧
      ∀ j, ((List.range n).foldl step data).getD j 0 =
        if j < n then g j (data.getD j 0) else data.getD j 0 := by
  intro n
  induction n with
  | zero => simp
  | succ n ih =>
    obtain ⟨ih1, ih2⟩ := ih
    rw [List.range_succ, List.foldl_append, List.foldl_cons, List.foldl_nil]
    have hn : n ≤ ((List.range n).foldl step data).length := by rw [ih1]; omega
    refine ⟨?_, ?_⟩
    · rw [hlen _ _ hn, ih1]
      omega
    · intro j
      rw [hget _ _ _ hn, ih2, ih2]
      by_cases h1 : j = n
      · subst h1
        simp
      · by_cases h2 : j < n
        · simp [h1, h2, Nat.lt_succ_of_lt h2]
        · have : ¬ j < n + 1 := by omega
          simp [h1, h2, this]

theorem add_limbs_length (num d : List Int) (i : Nat) (h : i ≤ d.length) :
    (add_limbs num d i).length = max d.length (i + 1) := by
  unfold add_limbs
  split
  · rename_i h1
    rw [List.length_append, List.length_singleton]
    omega
  · rename_i h1
    rw [List.length_set]
    omega

theorem add_limbs_getD (num d : List Int) (i j : Nat) (h : i ≤ d.length) :
    (add_limbs num d i).getD j 0 =
      if j = i then d.getD i 0 + num.getD i 0 else d.getD j 0 := by
  unfold add_limbs
  split
  · rename_i h1
    rw [getD_concat, ← h1, getD_of_length_le d (Nat.le_of_eq h1.symm), zero_add]
  · rename_i h1
    rw [getD_set _ _ _ _ (by omega)]
    by_cases h2 : i = j
    · subst h2
      simp
    · have : ¬ j = i := fun h3 => h2 h3.symm
      simp [h2, this]

theorem add_limbs_foldl (data num : List Int) :
    ((List.range num.length).foldl (add_limbs num) data).length = max data.length num.length ∧
    ∀ j, ((List.range num.length).foldl (add_limbs num) data).getD j 0 =
      data.getD j 0 + num.getD j 0 := by
  have h := foldl_pointwise (add_limbs num) (fun i x => x + num.getD i 0)
    (add_limbs_length num) (add_limbs_getD num) data num.length
  refine ⟨h.1, ?_⟩
  intro j
  rw [h.2]
  split
  · rfl
  · rw [getD_of_length_le num (by omega), add_zero]

/-- Position-wise sum of two vectors adds their values. -/
theorem limbs_value_of_getD_add {s xs ys : List Int}
    (hlen : s.length = max xs.length ys.length)
    (h : ∀ j, s.getD j 0 = xs.getD j 0 + ys.getD j 0) :
    limbs_value s = limbs_value xs + limbs_value ys := by
  rw [limbs_value_eq_sum s s.length (le_refl _), limbs_value_eq_sum xs s.length (by omega),
    limbs_value_eq_sum ys s.length (by omega), ← Finset.sum_add_distrib]
  apply Finset.sum_congr rfl
  intro j _
  rw [h]
  ring

theorem base_eq : base = 10000 := rfl

theorem carryInv_result {numSize L i : Nat} {data : List Int} (hinv : CarryInv numSize L i data)
    (hall : ∀ j, j < data.length → 0 ≤ data.getD j 0 ∧ data.getD j 0 ≤ 9999) :
    LimbsInRange data ∧ (data.length = L ∨ (data.length = L + 1 ∧ 1 ≤ data.getD L 0)) := by
  refine ⟨limbsInRange_of_getD hall, ?_⟩
  obtain ⟨h1, h2, _⟩ := hinv
  by_cases h : data.length = L + 1
  · exact Or.inr ⟨h, (h2 h).2.1⟩
  · left
    omega

theorem add_carry_loop_spec (numSize L : Nat) (hn : 1 ≤ numSize) (hnL : numSize ≤ L) :
    ∀ fuel i data, CarryInv numSize L i data → i ≤ data.length → L + 2 ≤ fuel + i →
      ∃ r, add_carry_loop numSize fuel i data = some r ∧ limbs_value r = limbs_value data ∧
        LimbsInRange r ∧ (r.length = L ∨ (r.length = L + 1 ∧ 1 ≤ r.getD L 0)) := by
  intro fuel
  induction fuel with
  | zero =>
    intro i data hinv hi hf
    have := hinv.1.2
    omega
  | succ fuel ih =>
    intro i data hinv hi hf
    obtain ⟨hlen, hpush, hlow, hcur, hhigh⟩ := hinv
    have hinv : CarryInv numSize L i data := ⟨hlen, hpush, hlow, hcur, hhigh⟩
    unfold add_carry_loop
    by_cases hil : i < data.length
    · rw [if_pos hil]
      by_cases hbrk : data.getD i 0 < base ∧ (numSize ≠ 0 ∧ numSize - 1 ≤ i)
      · rw [if_pos hbrk]
        refine ⟨data, rfl, rfl, carryInv_result hinv ?_⟩
        intro j hj
        rcases Nat.lt_trichotomy j i with h1 | h1 | h1
        · exact hlow j h1
        · subst h1
          by_cases h2 : j < L
          · have := hcur h2
            have := hbrk.1
            rw [base_eq] at this
            omega
          · have h3 : data.length = L + 1 := by omega
            have := hpush h3
            have h4 : j = L := this.1
            subst h4
            exact ⟨by omega, this.2.2⟩
        · by_cases h2 : j < L
          · have := hhigh j h1 h2
            have h3 : ¬ j < numSize := by omega
            rw [if_neg h3] at this
            exact this
          · have h3 : data.length = L + 1 := by omega
            have := (hpush h3).1
            omega
      · rw [if_neg hbrk]
        have hiL : i < L := by
          by_contra h
          have h3 : data.length = L + 1 := by omega
          have h4 := hpush h3
          apply hbrk
          rw [base_eq, h4.1]
          exact ⟨by omega, by omega, by omega⟩
        have hlenL : data.length = L := by
          by_contra h
          have h3 : data.length = L + 1 := by omega
          have := (hpush h3).1
          omega
        have ha := hcur hiL
        have ha2 : data.getD i 0 ≤ 19999 := by
          have := ha.2
          split at this <;> omega
        have htd : (data.getD i 0).tdiv base = data.getD i 0 / 10000 :=
          Int.tdiv_eq_ediv ha.1 (by decide)
        have htm : (data.getD i 0).tmod base = data.getD i 0 % 10000 :=
          Int.tmod_eq_emod ha.1 (by decide)
        simp only [htd, htm]
        by_cases hov : 0 < data.getD i 0 / 10000
        · rw [if_pos hov]
          have hov1 : data.getD i 0 / 10000 = 1 := by omega
          have hrem : data.getD i 0 % 10000 = data.getD i 0 - 10000 := by omega
          rw [hov1, hrem, List.length_set]
          by_cases hpu : i + 1 = data.length
          · rw [if_pos hpu]
            have hinv2 : CarryInv numSize L (i + 1)
                (data.set i (data.getD i 0 - 10000) ++ [1]) := by
              refine ⟨?_, ?_, ?_, ?_, ?_⟩
              · rw [List.length_append, List.length_set, List.length_singleton]
                omega
              · intro _
                rw [getD_concat, List.length_set, if_pos hlenL.symm]
                omega
              · intro j hj
                rw [getD_concat, List.length_set, if_neg (by omega), getD_set _ _ _ _ hil]
                by_cases h5 : i = j
                · rw [if_pos h5]
                  omega
                · rw [if_neg h5]
                  exact hlow j (by omega)
              · intro h5
                omega
              · intro j h5 h6
                omega
            obtain ⟨r, hr1, hr2, hr3⟩ := ih (i + 1) _ hinv2
              (by rw [List.length_append, List.length_set, List.length_singleton]; omega)
              (by omega)
            refine ⟨r, hr1, ?_, hr3⟩
            rw [hr2, limbs_value_append, limbs_value_singleton, List.length_set,
              limbs_value_set _ _ _ hil, ← hpu, pow_succ, base_eq]
            ring
          · rw [if_neg hpu]
            have hi1 : i + 1 < data.length := by omega
            rw [getD_set_ne _ _ (by omega)]
            have hinv2 : CarryInv numSize L (i + 1)
                ((data.set i (data.getD i 0 - 10000)).set (i + 1) (data.getD (i + 1) 0 + 1)) := by
              refine ⟨?_, ?_, ?_, ?_, ?_⟩
              · rw [List.length_set, List.length_set]
                exact hlen
              · intro h5
                rw [List.length_set, List.length_set] at h5
                omega
              · intro j hj
                rw [getD_set_ne _ _ (by omega), getD_set _ _ _ _ hil]
                by_cases h5 : i = j
                · rw [if_pos h5]
                  omega
                · rw [if_neg h5]
                  exact hlow j (by omega)
              · intro h5
                rw [getD_set_eq _ _ _ (by rw [List.length_set]; exact hi1)]
                have := hhigh (i + 1) (by omega) h5
                split at this <;> split <;> omega
              · intro j h5 h6
                rw [getD_set_ne _ _ (by omega), getD_set_ne _ _ (by omega)]
                exact hhigh j (by omega) h6
            obtain ⟨r, hr1, hr2, hr3⟩ := ih (i + 1) _ hinv2
              (by rw [List.length_set, List.length_set]; omega) (by omega)
            refine ⟨r, hr1, ?_, hr3⟩
            rw [hr2, limbs_value_set _ _ _ (by rw [List.length_set]; exact hi1),
              getD_set_ne _ _ (by omega), limbs_value_set _ _ _ hil, pow_succ, base_eq]
            ring
        · rw [if_neg hov]
          have hinv2 : CarryInv numSize L (i + 1) data := by
            refine ⟨hlen, ?_, ?_, ?_, ?_⟩
            · intro h5
              omega
            · intro j hj
              by_cases h5 : j = i
              · subst h5
                omega
              · exact hlow j (by omega)
            · intro h5
              have := hhigh (i + 1) (by omega) h5
              split at this <;> split <;> omega
            · intro j h5 h6
              exact hhigh j (by omega) h6
          exact ih (i + 1) data hinv2 (by omega) (by omega)
    · rw [if_neg hil]
      refine ⟨data, rfl, rfl, carryInv_result hinv ?_⟩
      intro j hj
      exact hlow j (by omega)

theorem getLast?_eq_getD (r : List Int) {m : Nat} (h : r.length = m + 1) :
    r.getLast? = some (r.getD m 0) := by
  rcases eq_nil_or_snoc r with h0 | ⟨xs, l, rfl⟩
  · rw [h0] at h
    simp at h
  · have hm : xs.length = m := by
      rw [List.length_append, List.length_singleton] at h
      omega
    rw [getD_concat, if_pos hm.symm]
    simp

/-- A limb list in range that denotes at least `base ^ (length - 1)` does not end in a zero
limb. -/
theorem last_ne_zero_of_value_ge {r : List Int} {m : Nat} (hr : LimbsInRange r)
    (hlen : r.length = m + 1) (hv : base ^ m ≤ limbs_value r) : r.getLast? ≠ some 0 := by
  rcases eq_nil_or_snoc r with h0 | ⟨xs, l, rfl⟩
  · rw [h0] at hlen
    simp at hlen
  · have hm : xs.length = m := by
      rw [List.length_append, List.length_singleton] at hlen
      omega
    intro h
    have hl : l = 0 := by simpa using h
    subst hl
    rw [limbs_value_append, limbs_value_singleton, mul_zero, add_zero] at hv
    have := limbs_value_lt (limbsInRange_append.mp hr).1
    rw [hm] at this
    omega

theorem canonical_length_pos {data : List Int} (h : Canonical data) : 1 ≤ data.length := by
  have := h.1
  cases data with
  | nil => exact absurd rfl this
  | cons x xs => simp

/-- A canonical magnitude with `m + 2` limbs denotes at least `base ^ (m + 1)`. -/
theorem canonical_value_ge {data : List Int} (h : Canonical data) {m : Nat}
    (hlen : data.length = m + 2) : base ^ (m + 1) ≤ limbs_value data := by
  have hb := canonical_value_bounds h
  have h0 : limbs_value data ≠ 0 := by
    intro h1
    have := hb.2.2 h1
    rw [this] at hlen
    simp at hlen
  have := hb.2.1 h0
  rw [hlen] at this
  exact this

/-- Method `add_bigint_modulo` on canonical magnitudes: the sign flag is kept, the magnitude is
the sum, in canonical form. -/
theorem add_bigint_modulo_spec {x num : BigInteger} (hx : Canonical x.data)
    (hn : Canonical num.data) :
    ∃ r, add_bigint_modulo x num = some r ∧ r.is_negative = x.is_negative ∧ Canonical r.data ∧
      limbs_value r.data = limbs_value x.data + limbs_value num.data := by
  obtain ⟨h1, h2⟩ := add_limbs_foldl x.data num.data
  have hlx := canonical_length_pos hx
  have hln := canonical_length_pos hn
  have hinv : CarryInv num.data.length (max x.data.length num.data.length) 0
      ((List.range num.data.length).foldl (add_limbs num.data) x.data) := by
    refine ⟨by omega, by omega, ?_, ?_, ?_⟩
    · intro j hj
      omega
    · intro _
      rw [h2]
      have a1 := getD_mem_range hx.2.1 0
      have a2 := getD_mem_range hn.2.1 0
      rw [if_pos (by omega)]
      omega
    · intro j _ _
      rw [h2]
      have a1 := getD_mem_range hx.2.1 j
      have a2 := getD_mem_range hn.2.1 j
      split
      · omega
      · rw [getD_of_length_le num.data (by omega)]
        omega
  obtain ⟨r, hr1, hr2, hr3, hr4⟩ := add_carry_loop_spec num.data.length
    (max x.data.length num.data.length) hln (by omega)
    (((List.range num.data.length).foldl (add_limbs num.data) x.data).length + 2) 0 _ hinv
    (by omega) (by omega)
  have hval : limbs_value r = limbs_value x.data + limbs_value num.data := by
    rw [hr2]
    exact limbs_value_of_getD_add h1 h2
  refine ⟨{ x with data := r }, ?_, rfl, ⟨?_, hr3, ?_⟩, hval⟩
  · unfold add_bigint_modulo
    simp only [hr1]
  · intro h0
    have h0 : r = [] := h0
    rw [h0] at hr4
    simp at hr4
    omega
  · intro hlast
    simp only at hlast
    rcases hr4 with h4 | ⟨h4, h5⟩
    · obtain ⟨m, hm⟩ : ∃ m, max x.data.length num.data.length = m + 1 :=
        ⟨max x.data.length num.data.length - 1, by omega⟩
      rw [hm] at h4
      cases m with
      | zero =>
        show r = [0]
        match r, h4, hlast with
        | [l], _, hlast =>
          have : l = 0 := by simpa using hlast
          rw [this]
      | succ m =>
        exfalso
        have hvx := limbs_value_nonneg hx.2.1
        have hvn := limbs_value_nonneg hn.2.1
        have hge : base ^ (m + 1) ≤ limbs_value r := by
          rw [hval]
          by_cases hc : x.data.length = m + 2
          · have := canonical_value_ge hx hc
            omega
          · have := canonical_value_ge hn (show num.data.length = m + 2 by omega)
            omega
        exact last_ne_zero_of_value_ge hr3 h4 hge hlast
    · exfalso
      rw [getLast?_eq_getD r h4] at hlast
      have : r.getD (max x.data.length num.data.length) 0 = 0 := by simpa using hlast
      omega

/-! ### Magnitude subtraction -/

theorem sub_limbs_length (num : List Int) (lt : Int) (d : List Int) (i : Nat)
    (h : i ≤ d.length) : (sub_limbs num lt d i).length = max d.length (i + 1) := by
  unfold sub_limbs
  split
  · rename_i h1
    rw [List.length_append, List.length_singleton]
    omega
  · rename_i h1
    rw [List.length_set]
    omega

theorem sub_limbs_getD (num : List Int) (lt : Int) (d : List Int) (i j : Nat)
    (h : i ≤ d.length) :
    (sub_limbs num lt d i).getD j 0 =
      if j = i then (d.getD i 0 - num.getD i 0) * -lt else d.getD j 0 := by
  unfold sub_limbs
  split
  · rename_i h1
    rw [getD_concat, ← h1, getD_of_length_le d (Nat.le_of_eq h1.symm)]
    split
    · ring
    · rfl
  · rename_i h1
    rw [getD_set _ _ _ _ (by omega)]
    by_cases h2 : i = j
    · subst h2
      simp
    · have : ¬ j = i := fun h3 => h2 h3.symm
      simp [h2, this]

theorem sub_limbs_foldl (data num : List Int) (lt : Int) (hlt : lt = 1 ∨ lt = -1)
    (hlen : lt = 1 → data.length ≤ num.length) :
    ((List.range num.length).foldl (sub_limbs num lt) data).length
        = max data.length num.length ∧
    ∀ j, ((List.range num.length).foldl (sub_limbs num lt) data).getD j 0 =
      (data.getD j 0 - num.getD j 0) * -lt := by
  have h := foldl_pointwise (sub_limbs num lt) (fun i x => (x - num.getD i 0) * -lt)
    (sub_limbs_length num lt) (sub_limbs_getD num lt) data num.length
  refine ⟨h.1, ?_⟩
  intro j
  rw [h.2]
  split
  · rfl
  · rename_i hj
    rw [getD_of_length_le num (by omega)]
    rcases hlt with h1 | h1
    · rw [getD_of_length_le data (by have := hlen h1; omega)]
      ring
    · rw [h1]
      ring

/-- A position-wise linear combination of two vectors has the combined value. -/
theorem limbs_value_of_getD_sub {s xs ys : List Int} (c : Int)
    (h : ∀ j, s.getD j 0 = (xs.getD j 0 - ys.getD j 0) * c) :
    limbs_value s = (limbs_value xs - limbs_value ys) * c := by
  rw [limbs_value_eq_sum s (s.length + xs.length + ys.length) (by omega),
    limbs_value_eq_sum xs (s.length + xs.length + ys.length) (by omega),
    limbs_value_eq_sum ys (s.length + xs.length + ys.length) (by omega),
    ← Finset.sum_sub_distrib, Finset.sum_mul]
  apply Finset.sum_congr rfl
  intro j _
  rw [h]
  ring

theorem getD_take (xs : List Int) {i j : Nat} (h : j < i) :
    (xs.take i).getD j 0 = xs.getD j 0 := by
  rw [List.getD_eq_getElem?_getD, List.getD_eq_getElem?_getD, List.getElem?_take, if_pos h]

theorem limbsInRange_take_of_getD {xs : List Int} {i : Nat}
    (h : ∀ j, j < i → 0 ≤ xs.getD j 0 ∧ xs.getD j 0 ≤ 9999) : LimbsInRange (xs.take i) := by
  apply limbsInRange_of_getD
  intro j hj
  have hji : j < i := by
    rw [List.length_take] at hj
    omega
  rw [getD_take xs hji]
  exact h j hji

theorem borrow_loop_spec (numSize : Nat) :
    ∀ k i data, BorrowInv numSize i data → k + i = data.length →
      ∃ r, borrow_loop numSize k i data = some r ∧ limbs_value r = limbs_value data ∧
        LimbsInRange r ∧ r.length = data.length := by
  intro k
  induction k with
  | zero =>
    intro i data hinv hk
    refine ⟨data, rfl, rfl, ?_, rfl⟩
    apply limbsInRange_of_getD
    intro j hj
    exact hinv.1 j (by omega)
  | succ k ih =>
    intro i data hinv hk
    obtain ⟨hlow, hcur, hhigh, hhn, hval⟩ := hinv
    have hil : i < data.length := by omega
    unfold borrow_loop
    by_cases hbrk : numSize ≤ i ∧ 0 ≤ data.getD i 0
    · rw [if_pos hbrk]
      refine ⟨data, rfl, rfl, ?_, rfl⟩
      apply limbsInRange_of_getD
      intro j hj
      rcases Nat.lt_trichotomy j i with h1 | h1 | h1
      · exact hlow j h1
      · subst h1
        exact ⟨hbrk.2, hcur.2⟩
      · exact ⟨hhn j h1 (by omega), (hhigh j h1).2⟩
    · rw [if_neg hbrk]
      by_cases hneg : data.getD i 0 < 0
      · rw [if_pos hneg]
        have hi1 : i + 1 < data.length := by
          by_contra hc
          have hlen : data.length = i + 1 := by omega
          have hd : data = data.take i ++ [data.getD i 0] := by
            rw [← take_succ_getD data hil, List.take_of_length_le (by omega)]
          have h1 := limbs_value_lt (limbsInRange_take_of_getD hlow)
          rw [List.length_take, Nat.min_eq_left (by omega)] at h1
          rw [hd, limbs_value_append, limbs_value_singleton, List.length_take,
            Nat.min_eq_left (by omega)] at hval
          have hp := base_pow_pos i
          nlinarith
        rw [if_pos hi1]
        simp only []
        rw [getD_set_ne _ _ (by omega)]
        have hinv2 : BorrowInv numSize (i + 1)
            ((data.set i (data.getD i 0 + base)).set (i + 1) (data.getD (i + 1) 0 - 1)) := by
          refine ⟨?_, ?_, ?_, ?_, ?_⟩
          · intro j hj
            rw [getD_set_ne _ _ (by omega), getD_set _ _ _ _ hil]
            by_cases h5 : i = j
            · rw [if_pos h5, base_eq]
              omega
            · rw [if_neg h5]
              exact hlow j (by omega)
          · rw [getD_set_eq _ _ _ (by rw [List.length_set]; exact hi1)]
            have := hhigh (i + 1) (by omega)
            omega
          · intro j hj
            rw [getD_set_ne _ _ (by omega), getD_set_ne _ _ (by omega)]
            exact hhigh j (by omega)
          · intro j hj hjn
            rw [getD_set_ne _ _ (by omega), getD_set_ne _ _ (by omega)]
            exact hhn j (by omega) hjn
          · rw [limbs_value_set _ _ _ (by rw [List.length_set]; exact hi1),
              getD_set_ne _ _ (by omega), limbs_value_set _ _ _ hil, pow_succ]
            have : limbs_value data + (data.getD i 0 + base - data.getD i 0) * base ^ i +
                (data.getD (i + 1) 0 - 1 - data.getD (i + 1) 0) * (base ^ i * base)
                = limbs_value data := by ring
            rw [this]
            exact hval
        obtain ⟨r, hr1, hr2, hr3, hr4⟩ := ih (i + 1) _ hinv2
          (by rw [List.length_set, List.length_set]; omega)
        refine ⟨r, hr1, ?_, hr3, ?_⟩
        · rw [hr2, limbs_value_set _ _ _ (by rw [List.length_set]; exact hi1),
            getD_set_ne _ _ (by omega), limbs_value_set _ _ _ hil, pow_succ]
          ring
        · rw [hr4, List.length_set, List.length_set]
      · rw [if_neg hneg]
        have hinv2 : BorrowInv numSize (i + 1) data := by
          refine ⟨?_, ?_, ?_, ?_, hval⟩
          · intro j hj
            by_cases h5 : j = i
            · subst h5
              omega
            · exact hlow j (by omega)
          · have := hhigh (i + 1) (by omega)
            omega
          · intro j hj
            exact hhigh j (by omega)
          · intro j hj hjn
            exact hhn j (by omega) hjn
        exact ih (i + 1) data hinv2 (by omega)

theorem is_zero_iff (x : BigInteger) : is_zero x = true ↔ x.data = [0] := by
  unfold is_zero
  constructor
  · intro h
    simp only [Bool.and_eq_true, beq_iff_eq] at h
    match hd : x.data, h with
    | [l], h =>
      have : l = 0 := by simpa using h.2
      rw [this]
    | [], h => simp at h
    | _ :: _ :: _, h => simp at h
  · intro h
    rw [h]
    rfl

theorem canonical_zero : Canonical [0] := by decide

theorem limbs_value_eq_zero_iff {data : List Int} (h : Canonical data) :
    limbs_value data = 0 ↔ data = [0] := by
  constructor
  · exact (canonical_value_bounds h).2.2
  · intro h0
    rw [h0]
    rfl

/-- The last step of `subtract_bigint_modulo`, `if (is_zero() && is_negative) is_negative =
false`, makes a canonical magnitude well-formed and keeps the value. -/
theorem clear_zero_sign_spec (y : BigInteger) (hc : Canonical y.data) :
    WellFormed (if is_zero y && y.is_negative then { y with is_negative := false } else y) ∧
    value (if is_zero y && y.is_negative then { y with is_negative := false } else y)
      = value y := by
  by_cases hz : is_zero y = true
  · have hd := (is_zero_iff y).mp hz
    cases hn : y.is_negative
    · simp only [hz, hn, Bool.and_false, Bool.false_eq_true, if_false]
      exact ⟨⟨hc.1, hc.2.1, hc.2.2, fun _ => hn⟩, trivial⟩
    · simp only [hz, hn, Bool.and_self, if_true]
      refine ⟨⟨hc.1, hc.2.1, hc.2.2, fun _ => rfl⟩, ?_⟩
      simp [value, hn, hd, limbs_value_cons, limbs_value_nil]
  · have hz2 : is_zero y = false := by simpa using hz
    simp only [hz2, Bool.false_and, Bool.false_eq_true, if_false]
    refine ⟨⟨hc.1, hc.2.1, hc.2.2, ?_⟩, trivial⟩
    intro h0
    exact absurd ((is_zero_iff y).mpr h0) hz

/-- Method `subtract_bigint_modulo` on canonical magnitudes: the result is well-formed and
denotes the difference of the magnitudes, signed by the receiver's flag. -/
theorem subtract_bigint_modulo_spec {x num : BigInteger} (hx : Canonical x.data)
    (hn : Canonical num.data) :
    ∃ r, subtract_bigint_modulo x num = some r ∧ WellFormed r ∧
      value r = if x.is_negative then limbs_value num.data - limbs_value x.data
        else limbs_value x.data - limbs_value num.data := by
  have hlx := canonical_length_pos hx
  have hln := canonical_length_pos hn
  have hiff := is_lt_modulo_iff hx hn
  -- the factor chosen by the comparison
  obtain ⟨lt, hltdef, hlt, hltlen, hsign⟩ : ∃ lt : Int,
      (if is_lt_modulo x num = Ordering.lt then (1 : Int) else -1) = lt ∧ (lt = 1 ∨ lt = -1) ∧
      (lt = 1 → x.data.length ≤ num.data.length) ∧
      0 ≤ (limbs_value x.data - limbs_value num.data) * -lt := by
    by_cases h : is_lt_modulo x num = Ordering.lt
    · refine ⟨1, by rw [if_pos h], Or.inl rfl, ?_, ?_⟩
      · intro _
        by_contra hc
        have := canonical_lt_of_length_lt hn hx (by omega)
        have := hiff.mp h
        omega
      · have := hiff.mp h
        omega
    · refine ⟨-1, by rw [if_neg h], Or.inr rfl, ?_, ?_⟩
      · intro h1
        omega
      · have : ¬ limbs_value x.data < limbs_value num.data := fun h1 => h (hiff.mpr h1)
        omega
  obtain ⟨h1, h2⟩ := sub_limbs_foldl x.data num.data lt hlt hltlen
  have hv1 := limbs_value_of_getD_sub (-lt) h2
  have hinv : BorrowInv num.data.length 0
      ((List.range num.data.length).foldl (sub_limbs num.data lt) x.data) := by
    have hb : ∀ j, -9999 ≤ ((List.range num.data.length).foldl (sub_limbs num.data lt)
        x.data).getD j 0 ∧ ((List.range num.data.length).foldl (sub_limbs num.data lt)
        x.data).getD j 0 ≤ 9999 := by
      intro j
      rw [h2]
      have a1 := getD_mem_range hx.2.1 j
      have a2 := getD_mem_range hn.2.1 j
      rcases hlt with h3 | h3 <;> rw [h3] <;> omega
    refine ⟨?_, ?_, ?_, ?_, ?_⟩
    · intro j hj
      omega
    · have := hb 0
      omega
    · intro j _
      exact hb j
    · intro j _ hj
      rw [h2, getD_of_length_le num.data hj]
      have a1 := getD_mem_range hx.2.1 j
      rcases hlt with h3 | h3
      · rw [getD_of_length_le x.data (by have := hltlen h3; omega), h3]
        omega
      · rw [h3]
        omega
    · rw [hv1]
      exact hsign
  obtain ⟨r, hr1, hr2, hr3, hr4⟩ := borrow_loop_spec num.data.length _ 0 _ hinv rfl
  have hrne : r ≠ [] := by
    intro h0
    rw [h0, h1] at hr4
    simp at hr4
    omega
  have hcan := clean_loop_canonical r.length r hrne hr3 (le_refl _)
  have hcv := clean_loop_value r.length r
  rw [hr2, hv1] at hcv
  obtain ⟨hw, hval⟩ := clear_zero_sign_spec
    (clean_trailing_zeros (BigInteger.mk (if lt = 1 then !x.is_negative else x.is_negative) r))
    hcan
  unfold subtract_bigint_modulo
  simp only [hltdef, hr1]
  refine ⟨_, rfl, hw, ?_⟩
  rw [hval]
  simp only [value, clean_trailing_zeros, hcv]
  rcases hlt with h3 | h3
  · rw [h3]
    cases x.is_negative <;> simp
  · rw [h3]
    have : ¬ ((-1 : Int) = 1) := by decide
    cases x.is_negative <;> simp

/-- Unary minus negates the value. -/
theorem value_operator_unary_minus (x : BigInteger) :
    value (operator_unary_minus x) = -value x := by
  unfold operator_unary_minus
  split
  · cases h : x.is_negative <;> simp [value, h]
  · rename_i h
    have h : is_zero x = true := by simpa using h
    have := (is_zero_iff x).mp h
    simp [value, this, limbs_value_cons, limbs_value_nil]

theorem data_operator_unary_minus (x : BigInteger) : (operator_unary_minus x).data = x.data := by
  unfold operator_unary_minus
  split <;> rfl

theorem wellFormed_operator_unary_minus {x : BigInteger} (h : WellFormed x) :
    WellFormed (operator_unary_minus x) := by
  unfold operator_unary_minus
  split
  · rename_i hz
    refine ⟨h.1, h.2.1, h.2.2.1, ?_⟩
    intro h0
    have := (is_zero_iff x).mpr h0
    rw [this] at hz
    simp at hz
  · exact h

/-- Operator `+=` on canonical magnitudes: the result denotes the sum, and is well-formed when
the receiver is. -/
theorem operator_plus_assign_spec {x num : BigInteger} (hx : Canonical x.data)
    (hn : Canonical num.data) :
    ∃ r, operator_plus_assign x num = some r ∧ Canonical r.data ∧
      value r = value x + value num ∧ (WellFormed x → WellFormed r) := by
  unfold operator_plus_assign change_by_bigint_modulo
  by_cases hs : x.is_negative = num.is_negative
  · have : (x.is_negative == num.is_negative) = true := by simpa using hs
    rw [if_pos this]
    obtain ⟨r, hr1, hr2, hr3, hr4⟩ := add_bigint_modulo_spec hx hn
    refine ⟨r, hr1, hr3, ?_, ?_⟩
    · simp only [value, hr2, hr4, ← hs]
      split <;> ring
    · intro hw
      refine ⟨hr3.1, hr3.2.1, hr3.2.2, ?_⟩
      intro h0
      rw [hr2]
      apply hw.2.2.2
      have hv : limbs_value r.data = 0 := by rw [h0]; rfl
      have hvx := limbs_value_nonneg hx.2.1
      have hvn := limbs_value_nonneg hn.2.1
      exact (limbs_value_eq_zero_iff hx).mp (by omega)
  · have : ¬ (x.is_negative == num.is_negative) = true := by simpa using hs
    rw [if_neg this]
    obtain ⟨r, hr1, hr2, hr3⟩ := subtract_bigint_modulo_spec hx hn
    refine ⟨r, hr1, canonical_of_wellFormed hr2, ?_, fun _ => hr2⟩
    rw [hr3]
    cases hxn : x.is_negative <;> cases hnn : num.is_negative <;>
      simp [value, hxn, hnn] at hs ⊢ <;> ring

/-- Operator `-=` on canonical magnitudes. -/
theorem operator_minus_assign_spec {x num : BigInteger} (hx : Canonical x.data)
    (hn : Canonical num.data) :
    ∃ r, operator_minus_assign x num = some r ∧ Canonical r.data ∧
      value r = value x - value num ∧ (WellFormed x → WellFormed r) := by
  unfold operator_minus_assign
  have hn2 : Canonical (operator_unary_minus num).data := by
    rw [data_operator_unary_minus]
    exact hn
  obtain ⟨r, hr1, hr2, hr3, hr4⟩ := operator_plus_assign_spec hx hn2
  refine ⟨r, hr1, hr2, ?_, hr4⟩
  rw [hr3, value_operator_unary_minus]
  ring

/-! ### Digit packing -/

theorem base_pow_eq (p : Nat) : base ^ p = 10 ^ (4 * p) := by
  rw [pow_mul]
  rfl

theorem degree_of_10_eq {r : Nat} (h : r ≤ 5) : degree_of_10 r = 10 ^ r := by
  have : r = 0 ∨ r = 1 ∨ r = 2 ∨ r = 3 ∨ r = 4 ∨ r = 5 := by omega
  rcases this with h | h | h | h | h | h <;> subst h <;> rfl

theorem limbsInRange_set {xs : List Int} (h : LimbsInRange xs) (i : Nat) {v : Int}
    (hv : 0 ≤ v ∧ v ≤ 9999) : LimbsInRange (xs.set i v) := by
  intro l hl
  rcases List.mem_or_eq_of_mem_set hl with h1 | h1
  · exact h l h1
  · rw [h1]
    exact hv

/-- In a limb list in range, one limb times its weight is at most the value. -/
theorem getD_mul_le_value {xs : List Int} (h : LimbsInRange xs) (i : Nat) :
    xs.getD i 0 * base ^ i ≤ limbs_value xs := by
  by_cases hi : i < xs.length
  · have h1 := limbs_value_take_drop xs i
    rw [Nat.min_eq_left (Nat.le_of_lt hi), List.drop_eq_getElem_cons hi, limbs_value_cons] at h1
    have h2 := limbs_value_nonneg (limbsInRange_take h i)
    have h3 := limbs_value_nonneg (limbsInRange_drop h (i + 1))
    rw [List.getD_eq_getElem _ _ hi]
    have hp := base_pow_pos i
    have hb : (0 : Int) < base := base_pos
    nlinarith [mul_nonneg (le_of_lt hp) (mul_nonneg (le_of_lt hb) h3)]
  · rw [getD_of_length_le xs (by omega), zero_mul]
    exact limbs_value_nonneg h

theorem pack_digit_spec {n : Nat} {st : PackState} (hinv : PackInv n st) {d : Int}
    (hd : 0 ≤ d ∧ d ≤ 9) :
    PackInv (n + 1) (pack_digit st d) ∧
      limbs_value (pack_digit st d).data = limbs_value st.data + d * 10 ^ n := by
  obtain ⟨hidx, hrem, hlen, hr, hv⟩ := hinv
  have hn : n = 4 * st.pack_idx + st.rem := by omega
  have hrem4 : st.rem < 4 := by omega
  have hdeg : degree_of_10 st.rem = 10 ^ st.rem := degree_of_10_eq (by omega)
  have hpow : (10 : Int) ^ n = 10 ^ st.rem * base ^ st.pack_idx := by
    rw [hn, base_pow_eq, pow_add]
    ring
  have h10 : (0 : Int) < 10 ^ st.rem := pow_pos (by norm_num) _
  have hbp := base_pow_pos st.pack_idx
  have hv0 := limbs_value_nonneg hr
  -- the vector after the conditional push_back
  obtain ⟨data1, hdata1, hlen1, hr1, hv1, htop⟩ : ∃ data1 : List Int,
      (if st.rem = 0 then st.data ++ [0] else st.data) = data1 ∧
      data1.length = st.pack_idx + 1 ∧ LimbsInRange data1 ∧
      limbs_value data1 = limbs_value st.data ∧ data1.getD st.pack_idx 0 < 10 ^ st.rem := by
    by_cases h0 : st.rem = 0
    · refine ⟨st.data ++ [0], by rw [if_pos h0], ?_, ?_, ?_, ?_⟩
      · rw [List.length_append, List.length_singleton]
        omega
      · rw [limbsInRange_append]
        exact ⟨hr, by decide⟩
      · rw [limbs_value_append, limbs_value_singleton, mul_zero, add_zero]
      · rw [getD_concat, if_pos (by omega), h0]
        norm_num
    · refine ⟨st.data, by rw [if_neg h0], by omega, hr, rfl, ?_⟩
      have h1 := getD_mul_le_value hr st.pack_idx
      rw [hpow] at hv
      by_contra hc
      have hc : (10 : Int) ^ st.rem ≤ st.data.getD st.pack_idx 0 := by omega
      have := mul_le_mul_of_nonneg_right hc (le_of_lt hbp)
      omega
  have htop0 := (getD_mem_range hr1 st.pack_idx).1
  have hnew : 0 ≤ data1.getD st.pack_idx 0 + d * 10 ^ st.rem ∧
      data1.getD st.pack_idx 0 + d * 10 ^ st.rem < 10 ^ (st.rem + 1) := by
    rw [pow_succ]
    constructor
    · nlinarith
    · nlinarith
  have hnew2 : data1.getD st.pack_idx 0 + d * 10 ^ st.rem ≤ 9999 := by
    have : (10 : Int) ^ (st.rem + 1) ≤ 10 ^ 4 := pow_le_pow_right₀ (by norm_num) (by omega)
    have h4 : (10 : Int) ^ 4 = 10000 := by norm_num
    omega
  have hval : limbs_value (data1.set st.pack_idx (data1.getD st.pack_idx 0 + d * 10 ^ st.rem))
      = limbs_value st.data + d * 10 ^ n := by
    rw [limbs_value_set _ _ _ (by omega), hv1, hpow]
    ring
  have hr2 := limbsInRange_set hr1 st.pack_idx ⟨hnew.1, hnew2⟩
  have hlt : limbs_value st.data + d * 10 ^ n < 10 ^ (n + 1) := by
    rw [pow_succ]
    have : (0 : Int) < 10 ^ n := pow_pos (by norm_num) _
    nlinarith
  unfold pack_digit
  simp only [hdata1, hdeg]
  by_cases h4 : st.rem + 1 = base_size
  · rw [if_pos h4]
    have h4 : st.rem + 1 = 4 := h4
    refine ⟨⟨?_, ?_, ?_, hr2, ?_⟩, hval⟩
    · show st.pack_idx + 1 = (n + 1) / 4
      omega
    · show 0 = (n + 1) % 4
      omega
    · show (data1.set _ _).length = _
      rw [List.length_set]
      omega
    · show limbs_value (data1.set _ _) < _
      rw [hval]
      exact hlt
  · rw [if_neg h4]
    have h4 : st.rem + 1 ≠ 4 := h4
    refine ⟨⟨?_, ?_, ?_, hr2, ?_⟩, hval⟩
    · show st.pack_idx = (n + 1) / 4
      omega
    · show st.rem + 1 = (n + 1) % 4
      omega
    · show (data1.set _ _).length = _
      rw [List.length_set]
      omega
    · show limbs_value (data1.set _ _) < _
      rw [hval]
      exact hlt

theorem packInv_init : PackInv 0 { data := [], pack_idx := 0, rem := 0 } := by
  refine ⟨rfl, rfl, rfl, by decide, by decide⟩

/-! ### The string constructor -/

theorem isDigit_sub {c : Char} (h : IsDigit c) :
    0 ≤ (c.toNat : Int) - 48 ∧ (c.toNat : Int) - 48 ≤ 9 := by
  unfold IsDigit at h
  omega

theorem isDigit_ne_minus {c : Char} (h : IsDigit c) : c ≠ '-' := by
  intro hc
  rw [hc] at h
  revert h
  decide

/-- The parsing loop over digits (least significant first), stopped by a `-` or by the end of
the string. -/
theorem of_string_loop_spec (cs : List Char) (hcs : ∀ c ∈ cs, IsDigit c) (tail : List Char)
    (htail : tail = [] ∨ tail.head? = some '-') :
    ∀ n st, PackInv n st →
      PackInv (n + cs.length) (of_string_loop (cs ++ tail) st) ∧
      limbs_value (of_string_loop (cs ++ tail) st).data
        = limbs_value st.data + 10 ^ n * le_value cs := by
  induction cs with
  | nil =>
    intro n st hinv
    have : of_string_loop ([] ++ tail) st = st := by
      rcases htail with h | h
      · rw [h]
        rfl
      · match tail, h with
        | c :: cs, h =>
          have hc : c = '-' := by simpa using h
          rw [hc]
          simp [of_string_loop]
    rw [this]
    exact ⟨hinv, by simp [le_value]⟩
  | cons c cs ih =>
    intro n st hinv
    have hc := hcs c (List.mem_cons_self _ _)
    have hstep := pack_digit_spec hinv (isDigit_sub hc)
    have := ih (fun c hc => hcs c (List.mem_cons_of_mem _ hc)) (n + 1) _ hstep.1
    rw [List.cons_append, of_string_loop, if_neg (isDigit_ne_minus hc)]
    refine ⟨?_, ?_⟩
    · have h1 := this.1
      rw [List.length_cons]
      rw [show n + (cs.length + 1) = n + 1 + cs.length by omega]
      exact h1
    · rw [this.2, hstep.2, le_value, pow_succ]
      ring

theorem decimal_value_foldl (ds : List Char) (a : Int) :
    ds.foldl (fun acc c => 10 * acc + ((c.toNat : Int) - 48)) a
      = a * 10 ^ ds.length + decimal_value ds := by
  induction ds generalizing a with
  | nil => simp [decimal_value]
  | cons c cs ih =>
    unfold decimal_value
    rw [List.foldl_cons, List.foldl_cons, ih, ih (10 * 0 + ((c.toNat : Int) - 48)),
      List.length_cons, pow_succ]
    ring

theorem decimal_value_append (xs ys : List Char) :
    decimal_value (xs ++ ys) = decimal_value xs * 10 ^ ys.length + decimal_value ys := by
  unfold decimal_value
  rw [List.foldl_append, decimal_value_foldl]
  rfl

theorem decimal_value_nil : decimal_value [] = 0 := rfl

theorem decimal_value_singleton (c : Char) : decimal_value [c] = (c.toNat : Int) - 48 := by
  simp [decimal_value]

theorem decimal_value_cons (c : Char) (cs : List Char) :
    decimal_value (c :: cs) = ((c.toNat : Int) - 48) * 10 ^ cs.length + decimal_value cs := by
  rw [show c :: cs = [c] ++ cs from rfl, decimal_value_append, decimal_value_singleton]

theorem le_value_reverse (ds : List Char) : le_value ds.reverse = decimal_value ds := by
  induction ds using List.reverseRecOn with
  | nil => rfl
  | append_singleton ds c ih =>
    rw [List.reverse_append, List.reverse_singleton, List.singleton_append, le_value, ih,
      decimal_value_append, decimal_value_singleton]
    simp
    ring

theorem sign_flag_of_digits (ds : List Char) (hne : ds ≠ []) (hds : ∀ c ∈ ds, IsDigit c) :
    decide ((String.mk ds).data.getD 0 (Char.ofNat 0) = '-' ∧ String.mk ds ≠ "-0") = false := by
  apply decide_eq_false
  rintro ⟨h, _⟩
  match ds, hne, hds with
  | c :: cs, _, hds =>
    exact isDigit_ne_minus (hds c (List.mem_cons_self _ _)) h

theorem sign_flag_of_minus (ds : List Char) :
    decide ((String.mk ('-' :: ds)).data.getD 0 (Char.ofNat 0) = '-' ∧
      String.mk ('-' :: ds) ≠ "-0") = decide (ds ≠ ['0']) := by
  have h1 : (String.mk ('-' :: ds)).data.getD 0 (Char.ofNat 0) = '-' := rfl
  by_cases h : ds = ['0']
  · rw [decide_eq_false (p := ds ≠ ['0']) (fun h2 => h2 h)]
    apply decide_eq_false
    rintro ⟨_, h3⟩
    apply h3
    rw [h]
  · rw [decide_eq_true (p := ds ≠ ['0']) h]
    apply decide_eq_true
    refine ⟨h1, ?_⟩
    intro h3
    apply h
    have h4 : (String.mk ('-' :: ds)).data = "-0".data := by rw [h3]
    have h5 : '-' :: ds = ['-', '0'] := h4
    exact (List.cons.inj h5).2

/-- The string constructor on a text made of an optional `-` and one or more digits: the limbs
are canonical and denote the number written by the digits; the flag is set by a leading `-`
unless the text is exactly `-0`. -/
theorem of_string_spec (neg : Bool) (ds : List Char) (hne : ds ≠ [])
    (hds : ∀ c ∈ ds, IsDigit c) :
    Canonical (of_string (String.mk ((if neg then ['-'] else []) ++ ds))).data ∧
    limbs_value (of_string (String.mk ((if neg then ['-'] else []) ++ ds))).data
      = decimal_value ds ∧
    (of_string (String.mk ((if neg then ['-'] else []) ++ ds))).is_negative
      = (neg && decide (ds ≠ ['0'])) := by
  have hloop := of_string_loop_spec ds.reverse
    (fun c hc => hds c (List.mem_reverse.mp hc)) (if neg then ['-'] else [])
    (by cases neg <;> simp) 0 _ packInv_init
  have hrev : (String.mk ((if neg then ['-'] else []) ++ ds)).data.reverse
      = ds.reverse ++ (if neg then ['-'] else []) := by
    cases neg <;> simp
  obtain ⟨⟨_, _, hlen, hr, _⟩, hval⟩ := hloop
  rw [List.length_reverse, zero_add] at hlen
  rw [le_value_reverse] at hval
  have hdl : 1 ≤ ds.length := by
    cases ds with
    | nil => exact absurd rfl hne
    | cons c cs => simp
  have hne2 : (of_string_loop (ds.reverse ++ (if neg then ['-'] else []))
      { data := [], pack_idx := 0, rem := 0 }).data ≠ [] := by
    intro h0
    rw [h0] at hlen
    simp at hlen
    omega
  refine ⟨?_, ?_, ?_⟩
  · unfold of_string clean_trailing_zeros
    simp only [hrev]
    exact clean_loop_canonical _ _ hne2 hr (le_refl _)
  · unfold of_string clean_trailing_zeros
    simp only [hrev]
    rw [clean_loop_value, hval]
    simp [limbs_value_nil]
  · cases neg
    · exact sign_flag_of_digits ds hne hds
    · exact sign_flag_of_minus ds

/-! ### Method toString -/

theorem toString_foldl (data : List Int) (acc : List Char) :
    data.reverse.foldl (fun res num => res ++ limb_chars num) acc = acc ++ limbs_text data := by
  induction data generalizing acc with
  | nil => simp [limbs_text]
  | cons l ls ih =>
    rw [List.reverse_cons, List.foldl_append, ih, List.foldl_cons, List.foldl_nil, limbs_text,
      List.append_assoc]

theorem digit_char_toNat {d : Int} (h : 0 ≤ d ∧ d ≤ 9) :
    ((digit_char d).toNat : Int) = 48 + d := by
  have : d = 0 ∨ d = 1 ∨ d = 2 ∨ d = 3 ∨ d = 4 ∨ d = 5 ∨ d = 6 ∨ d = 7 ∨ d = 8 ∨ d = 9 := by
    omega
  rcases this with h | h | h | h | h | h | h | h | h | h <;> subst h <;> rfl

theorem isDigit_digit_char {d : Int} (h : 0 ≤ d ∧ d ≤ 9) : IsDigit (digit_char d) := by
  have := digit_char_toNat h
  unfold IsDigit
  omega

/-- The four decimal digits of a limb. -/
theorem limb_chars_eq {l : Int} (h : 0 ≤ l ∧ l ≤ 9999) :
    limb_chars l = [digit_char (l / 1000 % 10), digit_char (l / 100 % 10),
      digit_char (l / 10 % 10), digit_char (l % 10)] := by
  have e3 : (l.tdiv (degree_of_10 (1 + 2))).tmod (degree_of_10 1) = l / 1000 % 10 := by
    rw [show degree_of_10 (1 + 2) = 1000 from rfl, show degree_of_10 1 = 10 from rfl,
      Int.tdiv_eq_ediv h.1 (by norm_num), Int.tmod_eq_emod (by omega) (by norm_num)]
  have e2 : (l.tdiv (degree_of_10 2)).tmod (degree_of_10 1) = l / 100 % 10 := by
    rw [show degree_of_10 2 = 100 from rfl, show degree_of_10 1 = 10 from rfl,
      Int.tdiv_eq_ediv h.1 (by norm_num), Int.tmod_eq_emod (by omega) (by norm_num)]
  have e1 : (l.tdiv (degree_of_10 1)).tmod (degree_of_10 1) = l / 10 % 10 := by
    rw [show degree_of_10 1 = 10 from rfl,
      Int.tdiv_eq_ediv h.1 (by norm_num), Int.tmod_eq_emod (by omega) (by norm_num)]
  have e0 : l.tmod (degree_of_10 1) = l % 10 := by
    rw [show degree_of_10 1 = 10 from rfl, Int.tmod_eq_emod h.1 (by norm_num)]
  unfold limb_chars
  rw [e3, e2, e1, e0]

theorem limb_chars_spec {l : Int} (h : 0 ≤ l ∧ l ≤ 9999) :
    (limb_chars l).length = 4 ∧ (∀ c ∈ limb_chars l, IsDigit c) ∧
      decimal_value (limb_chars l) = l := by
  rw [limb_chars_eq h]
  have h3 : 0 ≤ l / 1000 % 10 ∧ l / 1000 % 10 ≤ 9 := by omega
  have h2 : 0 ≤ l / 100 % 10 ∧ l / 100 % 10 ≤ 9 := by omega
  have h1 : 0 ≤ l / 10 % 10 ∧ l / 10 % 10 ≤ 9 := by omega
  have h0 : 0 ≤ l % 10 ∧ l % 10 ≤ 9 := by omega
  refine ⟨rfl, ?_, ?_⟩
  · intro c hc
    simp only [List.mem_cons, List.mem_singleton, List.not_mem_nil, or_false] at hc
    rcases hc with hc | hc | hc | hc <;> rw [hc]
    · exact isDigit_digit_char h3
    · exact isDigit_digit_char h2
    · exact isDigit_digit_char h1
    · exact isDigit_digit_char h0
  · rw [decimal_value_cons, decimal_value_cons, decimal_value_cons, decimal_value_singleton,
      digit_char_toNat h3, digit_char_toNat h2, digit_char_toNat h1, digit_char_toNat h0]
    simp only [List.length_cons, List.length_nil]
    norm_num
    omega

theorem limbs_text_spec {data : List Int} (h : LimbsInRange data) :
    (limbs_text data).length = 4 * data.length ∧ (∀ c ∈ limbs_text data, IsDigit c) ∧
      decimal_value (limbs_text data) = limbs_value data := by
  induction data with
  | nil => exact ⟨rfl, by simp [limbs_text], rfl⟩
  | cons l ls ih =>
    rw [limbsInRange_cons] at h
    obtain ⟨i1, i2, i3⟩ := ih h.2
    obtain ⟨j1, j2, j3⟩ := limb_chars_spec h.1
    refine ⟨?_, ?_, ?_⟩
    · rw [limbs_text, List.length_append, i1, j1, List.length_cons]
      omega
    · intro c hc
      rw [limbs_text, List.mem_append] at hc
      rcases hc with hc | hc
      · exact i2 c hc
      · exact j2 c hc
    · rw [limbs_text, decimal_value_append, i3, j3, j1, limbs_value_cons, base_eq]
      norm_num
      ring

theorem begin_without_0_loop_spec (res : List Char) :
    ∀ k b, res.length ≤ k + b → b ≤ res.length →
      b ≤ begin_without_0_loop res k b ∧ begin_without_0_loop res k b ≤ res.length ∧
      (∀ j, b ≤ j → j < begin_without_0_loop res k b → res.getD j ' ' = '0') ∧
      (begin_without_0_loop res k b < res.length →
        res.getD (begin_without_0_loop res k b) ' ' ≠ '0') := by
  intro k
  induction k with
  | zero =>
    intro b h1 h2
    refine ⟨le_refl _, h2, ?_, ?_⟩
    · intro j h3 h4
      simp only [begin_without_0_loop] at h4
      omega
    · intro h3
      simp only [begin_without_0_loop] at h3
      omega
  | succ k ih =>
    intro b h1 h2
    unfold begin_without_0_loop
    by_cases hc : b < res.length ∧ res.getD b ' ' = '0'
    · rw [if_pos hc]
      obtain ⟨i1, i2, i3, i4⟩ := ih (b + 1) (by omega) (by omega)
      refine ⟨by omega, i2, ?_, i4⟩
      intro j h3 h4
      by_cases hj : j = b
      · rw [hj]
        exact hc.2
      · exact i3 j (by omega) h4
    · rw [if_neg hc]
      refine ⟨le_refl _, h2, ?_, ?_⟩
      · intro j h3 h4
        omega
      · intro h3 h4
        exact hc ⟨h3, h4⟩

theorem decimal_value_drop_zeros : ∀ (z : Nat) (res : List Char),
    (∀ j, j < z → res.getD j ' ' = '0') → z ≤ res.length →
      decimal_value (res.drop z) = decimal_value res
  | 0, _, _, _ => rfl
  | z + 1, [], _, h => by simp at h
  | z + 1, c :: cs, hz, hlen => by
    have hc : c = '0' := by
      have := hz 0 (by omega)
      simpa using this
    have := decimal_value_drop_zeros z cs (fun j hj => by
      have := hz (j + 1) (by omega)
      simpa using this) (by simpa using hlen)
    rw [List.drop_succ_cons, this, decimal_value_cons, hc]
    have : (('0'.toNat : Nat) : Int) - 48 = 0 := by decide
    rw [this, zero_mul, zero_add]

theorem decimal_value_nonneg {ds : List Char} (h : ∀ c ∈ ds, IsDigit c) :
    0 ≤ decimal_value ds := by
  induction ds with
  | nil => exact le_refl _
  | cons c cs ih =>
    rw [decimal_value_cons]
    have h1 := isDigit_sub (h c (List.mem_cons_self _ _))
    have h2 := ih (fun c hc => h c (List.mem_cons_of_mem _ hc))
    have h3 : (0 : Int) ≤ 10 ^ cs.length := by positivity
    nlinarith [mul_nonneg h1.1 h3]

/-- A digit string that does not start with `0` writes a positive number. -/
theorem decimal_value_pos {c : Char} {cs : List Char} (h : ∀ d ∈ c :: cs, IsDigit d)
    (hc : c ≠ '0') : 0 < decimal_value (c :: cs) := by
  rw [decimal_value_cons]
  have h1 := isDigit_sub (h c (List.mem_cons_self _ _))
  have h2 := decimal_value_nonneg (fun d hd => h d (List.mem_cons_of_mem _ hd))
  have h3 : (0 : Int) < 10 ^ cs.length := by positivity
  have h4 : c.toNat ≠ 48 := by
    intro h5
    apply hc
    apply Char.ext
    apply UInt32.ext
    exact h5
  have h5 : 1 ≤ (c.toNat : Int) - 48 := by omega
  nlinarith [mul_le_mul_of_nonneg_right h5 (le_of_lt h3)]

/-- Method `toString` on limbs in range: a digit string without leading zero that writes the
magnitude, with a `-` in front when the flag is set and the magnitude is not zero. -/
theorem toString_spec (x : BigInteger) (hr : LimbsInRange x.data) :
    ∃ ds : List Char, ds ≠ [] ∧ (∀ c ∈ ds, IsDigit c) ∧ (ds.head? = some '0' → ds = ['0']) ∧
      decimal_value ds = limbs_value x.data ∧
      x.toString = String.mk
        ((if x.is_negative = true ∧ limbs_value x.data ≠ 0 then ['-'] else []) ++ ds) := by
  obtain ⟨t1, t2, t3⟩ := limbs_text_spec hr
  obtain ⟨z1, z2, z3, z4⟩ := begin_without_0_loop_spec (limbs_text x.data)
    (limbs_text x.data).length 0 (by omega) (by omega)
  have hres : x.data.reverse.foldl (fun res num => res ++ limb_chars num) []
      = limbs_text x.data := by
    rw [toString_foldl, List.nil_append]
  generalize hz : begin_without_0_loop (limbs_text x.data) (limbs_text x.data).length 0 = z
    at z1 z2 z3 z4
  have htake : ((limbs_text x.data).drop z).take ((limbs_text x.data).length - z)
      = (limbs_text x.data).drop z := by
    apply List.take_of_length_le
    rw [List.length_drop]
  have hval : decimal_value ((limbs_text x.data).drop z) = limbs_value x.data := by
    rw [decimal_value_drop_zeros z _ (fun j hj => z3 j (by omega) hj) z2, t3]
  have hdig : ∀ c ∈ (limbs_text x.data).drop z, IsDigit c :=
    fun c hc => t2 c (List.mem_of_mem_drop hc)
  unfold toString
  simp only [hres, hz, htake]
  by_cases hnil : (limbs_text x.data).drop z = []
  · rw [hnil] at hval
    have hv0 : limbs_value x.data = 0 := by rw [← hval]; rfl
    refine ⟨['0'], by simp, by decide, fun _ => rfl, by rw [hv0]; rfl, ?_⟩
    rw [hnil, List.append_nil]
    have : ¬ (x.is_negative = true ∧ limbs_value x.data ≠ 0) := fun h => h.2 hv0
    rw [if_neg this]
    cases x.is_negative <;> simp
  · refine ⟨(limbs_text x.data).drop z, hnil, hdig, ?_, hval, ?_⟩
    · intro hh
      exfalso
      have hzl : z < (limbs_text x.data).length := by
        by_contra hc
        exact hnil (List.drop_of_length_le (by omega))
      have := z4 hzl
      rw [List.drop_eq_getElem_cons hzl, List.head?_cons] at hh
      rw [List.getD_eq_getElem _ _ hzl] at this
      exact this (Option.some.inj hh)
    · obtain ⟨c, cs, hcs⟩ : ∃ c cs, (limbs_text x.data).drop z = c :: cs := by
        cases h : (limbs_text x.data).drop z with
        | nil => exact absurd h hnil
        | cons c cs => exact ⟨c, cs, rfl⟩
      have hzl : z < (limbs_text x.data).length := by
        by_contra hc
        exact hnil (List.drop_of_length_le (by omega))
      have hc0 : c ≠ '0' := by
        have := z4 hzl
        rw [List.drop_eq_getElem_cons hzl] at hcs
        rw [List.getD_eq_getElem _ _ hzl] at this
        have h1 := (List.cons.inj hcs).1
        rw [h1] at this
        exact this
      rw [hcs] at hdig hval
      have hpos := decimal_value_pos hdig hc0
      have hv0 : limbs_value x.data ≠ 0 := by omega
      have hcm : c ≠ '-' := isDigit_ne_minus (hdig c (List.mem_cons_self _ _))
      rw [hcs]
      cases hn : x.is_negative
      · simp [hcm]
      · simp [hv0]

theorem isDecimalText_mk (sgn : Bool) (ds : List Char) (hne : ds ≠ [])
    (hdig : ∀ c ∈ ds, IsDigit c) (hhead : ds.head? = some '0' → ds = ['0']) (z : Int)
    (hz : decimal_value ds = |z|) (hs : sgn = true ↔ z < 0) :
    IsDecimalText (String.mk ((if sgn then ['-'] else []) ++ ds)) z := by
  obtain ⟨c, cs, rfl⟩ : ∃ c cs, ds = c :: cs := by
    cases ds with
    | nil => exact absurd rfl hne
    | cons c cs => exact ⟨c, cs, rfl⟩
  have hcm : c ≠ '-' := isDigit_ne_minus (hdig c (List.mem_cons_self _ _))
  have htd : text_digits (String.mk ((if sgn then ['-'] else []) ++ c :: cs)) = c :: cs := by
    unfold text_digits
    cases sgn
    · simp [hcm]
    · simp
  unfold IsDecimalText
  rw [htd]
  refine ⟨hne, hdig, ?_, ?_, hz⟩
  · intro h0
    have h1 := hhead h0
    rw [h1] at hz
    have hz0 : z = 0 := by
      have : decimal_value ['0'] = 0 := by decide
      rw [this] at hz
      exact abs_eq_zero.mp hz.symm
    have hsf : sgn = false := by
      cases sgn
      · rfl
      · have := hs.mp rfl
        omega
    rw [hsf, h1]
    rfl
  · cases sgn
    · simp only [Bool.false_eq_true, if_false, List.nil_append, List.head?_cons,
        Option.some.injEq, false_iff] at hs ⊢
      constructor
      · intro h
        exact absurd h hcm
      · intro h
        exact absurd h hs
    · simp only [if_true, true_iff] at hs ⊢
      constructor
      · intro _
        exact hs
      · intro _
        rfl

/-- Method `toString` renders the minimal decimal text of the denoted integer, whatever the
sign flag of a zero magnitude. -/
theorem isDecimalText_toString (x : BigInteger) (hr : LimbsInRange x.data) :
    IsDecimalText x.toString (value x) := by
  obtain ⟨ds, h1, h2, h3, h4, h5⟩ := toString_spec x hr
  have hv0 := limbs_value_nonneg hr
  rw [h5]
  have := isDecimalText_mk (decide (x.is_negative = true ∧ limbs_value x.data ≠ 0)) ds h1 h2 h3
    (value x) ?_ ?_
  · simpa using this
  · rw [h4]
    unfold value
    split
    · rw [abs_neg, abs_of_nonneg hv0]
    · rw [abs_of_nonneg hv0]
  · unfold value
    cases x.is_negative
    · simp
      exact hv0
    · simp
      omega

/-- The only minimal decimal text of 0 is `"0"`. -/
theorem isDecimalText_zero {t : String} (h : IsDecimalText t 0) : t = "0" := by
  obtain ⟨h1, h2, h3, _, h5⟩ := h
  apply h3
  cases hd : text_digits t with
  | nil => exact absurd hd h1
  | cons c cs =>
    rw [hd] at h2 h5
    by_cases hc : c = '0'
    · rw [hc]
      rfl
    · have := decimal_value_pos h2 hc
      rw [h5] at this
      simp at this

theorem eq_of_fields {a b : BigInteger} (h1 : a.is_negative = b.is_negative)
    (h2 : a.data = b.data) : a = b := by
  cases a
  cases b
  simp only at h1 h2
  rw [h1, h2]

/-! ### The constructor from `int`, digit counts -/

theorem of_int_small {i : Int} (h : 0 ≤ i ∧ i ≤ 9999) :
    of_int i = BigInteger.mk false [i] := by
  have h1 : ¬ i < 0 := by omega
  have h2 : i.tmod base = i := by
    rw [Int.tmod_eq_emod h.1 (by decide), base_eq]
    omega
  have h3 : i.tdiv base = 0 := by
    rw [Int.tdiv_eq_ediv h.1 (by decide), base_eq]
    omega
  unfold of_int
  simp only [h1, if_false, decide_False, of_int_loop, h2, h3, lt_irrefl, List.nil_append]

theorem wellFormed_of_int_small {i : Int} (h : 0 ≤ i ∧ i ≤ 9999) : WellFormed (of_int i) := by
  rw [of_int_small h]
  refine ⟨by simp, ?_, ?_, fun _ => rfl⟩
  · intro l hl
    rw [List.mem_singleton] at hl
    rw [hl]
    exact h
  · intro h0
    have : i = 0 := by simpa using h0
    rw [this]

theorem value_of_int_small {i : Int} (h : 0 ≤ i ∧ i ≤ 9999) : value (of_int i) = i := by
  rw [of_int_small h]
  simp [value, limbs_value_cons, limbs_value_nil]

theorem eq_of_int_zero_iff {x : BigInteger} (h : WellFormed x) :
    x = of_int 0 ↔ value x = 0 := by
  constructor
  · intro h0
    rw [h0]
    rfl
  · intro h0
    exact eq_of_value_eq h (by decide) (by rw [h0]; rfl)

/-- The top limb of a canonical magnitude that is not zero. -/
theorem canonical_top {data : List Int} (h : Canonical data) (h0 : limbs_value data ≠ 0) :
    ∃ xs top, data = xs ++ [top] ∧ 1 ≤ top ∧ top ≤ 9999 ∧ LimbsInRange xs := by
  rcases canonical_cases h with h1 | ⟨xs, l, h1, hl⟩
  · rw [h1] at h0
    exact absurd rfl h0
  · refine ⟨xs, l, h1, ?_⟩
    rw [h1] at h
    have := (limbsInRange_append.mp h.2.1)
    have h2 := this.2 l (List.mem_singleton_self l)
    exact ⟨by omega, h2.2, this.1⟩

/-- Method `get_digits_number` counts the decimal digits of a non-zero canonical magnitude. -/
theorem get_digits_number_spec {x : BigInteger} (h : Canonical x.data)
    (h0 : limbs_value x.data ≠ 0) :
    1 ≤ get_digits_number x ∧ (10 : Int) ^ (get_digits_number x - 1) ≤ limbs_value x.data ∧
      limbs_value x.data < 10 ^ get_digits_number x ∧
      get_digits_number x ≤ 4 * x.data.length ∧ 4 * x.data.length ≤ get_digits_number x + 3 := by
  obtain ⟨xs, top, hd, ht1, ht2, hxs⟩ := canonical_top h h0
  have hv : limbs_value x.data = limbs_value xs + 10 ^ (4 * xs.length) * top := by
    rw [hd, limbs_value_append, limbs_value_singleton, base_pow_eq]
  have hxs0 := limbs_value_nonneg hxs
  have hxs1 := limbs_value_lt hxs
  rw [base_pow_eq] at hxs1
  have hp : (0 : Int) < 10 ^ (4 * xs.length) := by positivity
  have hback : x.data.getLast?.getD 0 = top := by
    rw [hd]
    simp
  have hlen : x.data.length - 1 = xs.length := by
    rw [hd]
    simp
  have e3 : (top.tdiv (degree_of_10 3)).tmod (degree_of_10 1) = top / 1000 % 10 := by
    rw [show degree_of_10 3 = 1000 from rfl, show degree_of_10 1 = 10 from rfl,
      Int.tdiv_eq_ediv (by omega) (by norm_num), Int.tmod_eq_emod (by omega) (by norm_num)]
  have e2 : (top.tdiv (degree_of_10 2)).tmod (degree_of_10 1) = top / 100 % 10 := by
    rw [show degree_of_10 2 = 100 from rfl, show degree_of_10 1 = 10 from rfl,
      Int.tdiv_eq_ediv (by omega) (by norm_num), Int.tmod_eq_emod (by omega) (by norm_num)]
  have e1 : (top.tdiv (degree_of_10 1)).tmod (degree_of_10 1) = top / 10 % 10 := by
    rw [show degree_of_10 1 = 10 from rfl,
      Int.tdiv_eq_ediv (by omega) (by norm_num), Int.tmod_eq_emod (by omega) (by norm_num)]
  have hlen2 : x.data.length = xs.length + 1 := by
    rw [hd]
    simp
  -- the count and the bracket of the top limb
  obtain ⟨t, ht, hlo, hhi, hgd⟩ : ∃ t : Nat, 1 ≤ t ∧ t ≤ 4 ∧
      ((10 : Int) ^ (t - 1) ≤ top ∧ top < 10 ^ t) ∧ get_digits_number x = 4 * xs.length + t := by
    unfold get_digits_number
    simp only [hback, hlen, e3, e2, e1, base_size]
    by_cases c3 : top / 1000 % 10 ≠ 0
    · rw [if_pos c3]
      exact ⟨4, by omega, by omega, ⟨by norm_num; omega, by norm_num; omega⟩, rfl⟩
    · rw [if_neg c3]
      by_cases c2 : top / 100 % 10 ≠ 0
      · rw [if_pos c2]
        exact ⟨3, by omega, by omega, ⟨by norm_num; omega, by norm_num; omega⟩, rfl⟩
      · rw [if_neg c2]
        by_cases c1 : top / 10 % 10 ≠ 0
        · rw [if_pos c1]
          exact ⟨2, by omega, by omega, ⟨by norm_num; omega, by norm_num; omega⟩, rfl⟩
        · rw [if_neg c1]
          exact ⟨1, by omega, by omega, ⟨by norm_num; omega, by norm_num; omega⟩, rfl⟩
  rw [hgd, hv, hlen2]
  refine ⟨by omega, ?_, ?_, by omega, by omega⟩
  · rw [show 4 * xs.length + t - 1 = 4 * xs.length + (t - 1) by omega, pow_add]
    nlinarith [mul_le_mul_of_nonneg_left hhi.1 (le_of_lt hp)]
  · rw [pow_add]
    have : top + 1 ≤ 10 ^ t := hhi.2
    nlinarith [mul_le_mul_of_nonneg_left this (le_of_lt hp)]

/-! ### Decimal digits of a limb list -/

theorem digit_at_range (data : List Int) (j : Nat) : 0 ≤ digit_at data j ∧ digit_at data j ≤ 9 := by
  unfold digit_at
  omega

theorem digits_sum_succ (data : List Int) (n : Nat) :
    digits_sum data (n + 1) = digits_sum data n + digit_at data n * 10 ^ n := rfl

/-- Four decimal digits make one limb. -/
theorem digits_sum_limb {data : List Int} (h : LimbsInRange data) (m : Nat) :
    digits_sum data (4 * (m + 1)) = digits_sum data (4 * m) + 10 ^ (4 * m) * data.getD m 0 := by
  have hr := getD_mem_range h m
  rw [show 4 * (m + 1) = 4 * m + 3 + 1 by ring, digits_sum_succ,
    show 4 * m + 3 = 4 * m + 2 + 1 by ring, digits_sum_succ,
    show 4 * m + 2 = 4 * m + 1 + 1 by ring, digits_sum_succ, digits_sum_succ]
  unfold digit_at
  rw [show (4 * m + 2 + 1) / 4 = m by omega, show (4 * m + 1 + 1) / 4 = m by omega,
    show (4 * m + 1) / 4 = m by omega, show 4 * m / 4 = m by omega,
    show (4 * m + 2 + 1) % 4 = 3 by omega, show (4 * m + 1 + 1) % 4 = 2 by omega,
    show (4 * m + 1) % 4 = 1 by omega, show 4 * m % 4 = 0 by omega]
  generalize data.getD m 0 = l at hr
  have hl : l = l % 10 + (l / 10 % 10) * 10 + (l / 100 % 10) * 100 + (l / 1000 % 10) * 1000 := by
    omega
  have p0 : (10 : Int) ^ 0 = 1 := by norm_num
  have p1 : (10 : Int) ^ 1 = 10 := by norm_num
  have p2 : (10 : Int) ^ 2 = 100 := by norm_num
  have p3 : (10 : Int) ^ 3 = 1000 := by norm_num
  have e1 : (10 : Int) ^ (4 * m + 1) = 10 ^ (4 * m) * 10 := by rw [pow_succ]
  have e2 : (10 : Int) ^ (4 * m + 1 + 1) = 10 ^ (4 * m) * 100 := by
    rw [pow_succ, pow_succ]
    ring
  have e3 : (10 : Int) ^ (4 * m + 2) = 10 ^ (4 * m) * 100 := e2
  have e4 : (10 : Int) ^ (4 * m + 2 + 1) = 10 ^ (4 * m) * 1000 := by
    rw [pow_succ, e3]
    ring
  rw [p0, p1, p2, p3, e1, e3, e4, Int.ediv_one]
  conv_rhs => rw [hl]
  ring

theorem digits_sum_limbs {data : List Int} (h : LimbsInRange data) :
    ∀ m, m ≤ data.length → digits_sum data (4 * m) = limbs_value (data.take m) := by
  intro m
  induction m with
  | zero => intro _; rfl
  | succ m ih =>
    intro hm
    rw [digits_sum_limb h, ih (by omega), limbs_value_take_succ data (by omega), base_pow_eq]

/-- The digits counted by `get_digits_number` write the whole magnitude. -/
theorem digits_sum_digits_number {x : BigInteger} (h : Canonical x.data)
    (h0 : limbs_value x.data ≠ 0) :
    digits_sum x.data (get_digits_number x) = limbs_value x.data := by
  obtain ⟨g1, g2, g3, g4, g5⟩ := get_digits_number_spec h h0
  have hfull := digits_sum_limbs h.2.1 x.data.length (le_refl _)
  rw [List.take_length] at hfull
  -- digits above the count are zero
  have hzero : ∀ j, get_digits_number x ≤ j → j < 4 * x.data.length → digit_at x.data j = 0 := by
    intro j hj1 hj2
    obtain ⟨xs, top, hd, ht1, ht2, hxs⟩ := canonical_top h h0
    have hlen2 : x.data.length = xs.length + 1 := by
      rw [hd]
      simp
    have hq : j / 4 = xs.length := by omega
    have hv : limbs_value x.data = limbs_value xs + 10 ^ (4 * xs.length) * top := by
      rw [hd, limbs_value_append, limbs_value_singleton, base_pow_eq]
    have hxs0 := limbs_value_nonneg hxs
    have hp : (0 : Int) < 10 ^ (4 * xs.length) := by positivity
    have htop : top < 10 ^ (j % 4) := by
      have h1 : (10 : Int) ^ get_digits_number x ≤ 10 ^ j := pow_le_pow_right₀ (by norm_num) hj1
      have h2 : (10 : Int) ^ j = 10 ^ (4 * xs.length) * 10 ^ (j % 4) := by
        rw [← pow_add]
        congr 1
        omega
      by_contra hc
      have hc : (10 : Int) ^ (j % 4) ≤ top := by omega
      have := mul_le_mul_of_nonneg_left hc (le_of_lt hp)
      omega
    unfold digit_at
    rw [hq, hd, getD_concat, if_pos rfl]
    have : top / 10 ^ (j % 4) = 0 := Int.ediv_eq_zero_of_lt (by omega) htop
    rw [this]
    rfl
  have hext : ∀ n, get_digits_number x ≤ n → n ≤ 4 * x.data.length →
      digits_sum x.data n = digits_sum x.data (get_digits_number x) := by
    intro n
    induction n with
    | zero =>
      intro h1 _
      have : get_digits_number x = 0 := by omega
      rw [this]
    | succ n ih =>
      intro h1 h2
      by_cases h3 : get_digits_number x = n + 1
      · rw [h3]
      · rw [digits_sum_succ, hzero n (by omega) (by omega), zero_mul, add_zero]
        exact ih (by omega) (by omega)
  rw [← hext (4 * x.data.length) g4 (le_refl _), hfull]

/-! ### Method shift -/

theorem getD_eq_zero_of_value_zero {xs : List Int} (h : LimbsInRange xs)
    (hv : limbs_value xs = 0) (i : Nat) : xs.getD i 0 = 0 := by
  have h1 := getD_mul_le_value h i
  have h2 := (getD_mem_range h i).1
  have hp := base_pow_pos i
  rw [hv] at h1
  by_contra hc
  have : 1 ≤ xs.getD i 0 := by omega
  nlinarith

/-- While only zeros have been packed, the first loop of `shift` packs one more zero digit. -/
theorem pack_zero_eq {n : Nat} {st : PackState} (hinv : PackInv n st)
    (hv : limbs_value st.data = 0) : pack_zero st = pack_digit st 0 := by
  obtain ⟨_, _, _, hr, _⟩ := hinv
  have h1 : ∀ i, (if st.rem = 0 then st.data ++ [0] else st.data).getD i 0 = 0 := by
    intro i
    split
    · rw [getD_concat]
      split
      · rfl
      · exact getD_eq_zero_of_value_zero hr hv i
    · exact getD_eq_zero_of_value_zero hr hv i
  unfold pack_zero pack_digit
  simp only [h1, zero_mul, add_zero]

theorem pack_zero_foldl (k : Nat) :
    PackInv k ((List.range k).foldl (fun st _ => pack_zero st)
      { data := [], pack_idx := 0, rem := 0 }) ∧
    limbs_value ((List.range k).foldl (fun st _ => pack_zero st)
      { data := [], pack_idx := 0, rem := 0 }).data = 0 := by
  induction k with
  | zero => exact ⟨packInv_init, rfl⟩
  | succ k ih =>
    rw [List.range_succ, List.foldl_append, List.foldl_cons, List.foldl_nil,
      pack_zero_eq ih.1 ih.2]
    have := pack_digit_spec ih.1 (d := 0) ⟨le_refl _, by norm_num⟩
    refine ⟨this.1, ?_⟩
    rw [this.2, ih.2]
    ring

/-- The digit read by one iteration of `add_new_data_to_begin`. -/
theorem add_digit_step_digit {data : List Int} (h : LimbsInRange data) (i : Nat) :
    ((data.getD (i / base_size) 0).tdiv (degree_of_10 (i % 4))).tmod (degree_of_10 1)
      = digit_at data i := by
  have hr := getD_mem_range h (i / 4)
  have h4 : i % 4 < 4 := Nat.mod_lt _ (by norm_num)
  have hp : (0 : Int) < 10 ^ (i % 4) := by positivity
  unfold digit_at
  rw [show i / base_size = i / 4 from rfl, degree_of_10_eq (by omega),
    show degree_of_10 1 = 10 from rfl, Int.tdiv_eq_ediv hr.1 (le_of_lt hp),
    Int.tmod_eq_emod (Int.ediv_nonneg hr.1 (le_of_lt hp)) (by norm_num)]

theorem add_digit_step_eq {data : List Int} (h : LimbsInRange data) (s : PackState × Nat)
    (n : Nat) (hs : s.2 = n % 4) :
    add_digit_step data s n = (pack_digit s.1 (digit_at data n), (n + 1) % 4) := by
  unfold add_digit_step
  rw [hs, add_digit_step_digit h]
  have e3 : base_size - 1 = 3 := rfl
  have e : (if n % 4 = 3 then 0 else n % 4 + 1) = (n + 1) % 4 := by
    split <;> omega
  rw [e3, e]

theorem add_digit_step_foldl {data : List Int} (h : LimbsInRange data) {k : Nat}
    {st0 : PackState} (hinv : PackInv k st0) : ∀ n,
    ((List.range n).foldl (add_digit_step data) (st0, 0)).2 = n % 4 ∧
    PackInv (k + n) ((List.range n).foldl (add_digit_step data) (st0, 0)).1 ∧
    limbs_value ((List.range n).foldl (add_digit_step data) (st0, 0)).1.data
      = limbs_value st0.data + 10 ^ k * digits_sum data n := by
  intro n
  induction n with
  | zero =>
    refine ⟨rfl, hinv, ?_⟩
    simp [digits_sum]
  | succ n ih =>
    obtain ⟨i1, i2, i3⟩ := ih
    rw [List.range_succ, List.foldl_append, List.foldl_cons, List.foldl_nil,
      add_digit_step_eq h _ n i1]
    have hstep := pack_digit_spec i2 (digit_at_range data n)
    refine ⟨rfl, hstep.1, ?_⟩
    show limbs_value (pack_digit _ _).data = _
    rw [hstep.2, i3, digits_sum_succ, pow_add]
    ring

/-- Method `shift` on a non-zero value with a canonical magnitude: the flag is kept, the
magnitude is multiplied by `10 ^ pow10` and stays canonical. -/
theorem shift_spec {x : BigInteger} (h : Canonical x.data) (h0 : limbs_value x.data ≠ 0)
    (pow10 : Nat) :
    (shift x pow10).is_negative = x.is_negative ∧ Canonical (shift x pow10).data ∧
      limbs_value (shift x pow10).data = limbs_value x.data * 10 ^ pow10 := by
  have hne : x ≠ of_int 0 := by
    intro hx
    apply h0
    rw [hx]
    rfl
  obtain ⟨z1, z2⟩ := pack_zero_foldl pow10
  obtain ⟨_, s2, s3⟩ := add_digit_step_foldl h.2.1 z1 (get_digits_number x)
  obtain ⟨g1, g2, g3, g4, g5⟩ := get_digits_number_spec h h0
  rw [z2, zero_add, digits_sum_digits_number h h0] at s3
  unfold shift
  rw [if_neg hne]
  unfold add_new_data_to_begin
  simp only
  refine ⟨trivial, ⟨?_, s2.2.2.2.1, ?_⟩, ?_⟩
  · intro hnil
    have := s2.2.2.1
    rw [hnil] at this
    simp at this
    omega
  · intro hlast
    obtain ⟨m, hm⟩ : ∃ m, (pow10 + get_digits_number x + 3) / 4 = m + 1 :=
      ⟨(pow10 + get_digits_number x + 3) / 4 - 1, by omega⟩
    have hlen := s2.2.2.1
    rw [hm] at hlen
    exfalso
    refine last_ne_zero_of_value_ge s2.2.2.2.1 hlen ?_ hlast
    rw [s3, base_pow_eq]
    have h1 : (10 : Int) ^ (4 * m) ≤ 10 ^ (pow10 + (get_digits_number x - 1)) :=
      pow_le_pow_right₀ (by norm_num) (by omega)
    rw [pow_add] at h1
    have hp : (0 : Int) < 10 ^ pow10 := by positivity
    nlinarith [mul_le_mul_of_nonneg_left g2 (le_of_lt hp)]
  · rw [s3]
    ring

theorem wellFormed_of_canonical_ne_zero {x : BigInteger} (h : Canonical x.data)
    (h0 : limbs_value x.data ≠ 0) : WellFormed x := by
  refine ⟨h.1, h.2.1, h.2.2, ?_⟩
  intro hz
  rw [hz] at h0
  exact absurd rfl h0

/-- Method `shift` on a non-negative, non-zero well-formed value. -/
theorem shift_spec_pos {x : BigInteger} (h : WellFormed x) (hn : x.is_negative = false)
    (h0 : 0 < value x) (pow10 : Nat) :
    WellFormed (shift x pow10) ∧ (shift x pow10).is_negative = false ∧
      value (shift x pow10) = value x * 10 ^ pow10 := by
  have hv : value x = limbs_value x.data := by simp [value, hn]
  have h1 : limbs_value x.data ≠ 0 := by omega
  obtain ⟨s1, s2, s3⟩ := shift_spec (canonical_of_wellFormed h) h1 pow10
  have hp : (0 : Int) < 10 ^ pow10 := by positivity
  refine ⟨wellFormed_of_canonical_ne_zero s2 ?_, by rw [s1, hn], ?_⟩
  · rw [s3]
    have := mul_pos (show 0 < limbs_value x.data by omega) hp
    omega
  · simp only [value, s1, hn, Bool.false_eq_true, if_false, s3]

/-! ### Division -/

theorem operator_lt_iff {x y : BigInteger} (hx : WellFormed x) (hy : WellFormed y) :
    operator_lt x y = true ↔ value x < value y := by
  unfold operator_lt
  rw [operator_spaceship_eq_compare hx hy, decide_eq_true_iff, compare_lt_iff_lt]

theorem operator_ge_iff {x y : BigInteger} (hx : WellFormed x) (hy : WellFormed y) :
    operator_ge x y = true ↔ value y ≤ value x := by
  unfold operator_ge
  rw [operator_spaceship_eq_compare hx hy, decide_eq_true_iff, Ne, compare_lt_iff_lt, not_lt]

theorem is_negative_of_value_nonneg {x : BigInteger} (h : WellFormed x) (h0 : 0 ≤ value x) :
    x.is_negative = false := by
  cases hn : x.is_negative
  · rfl
  · have := value_neg_of_wellFormed h hn
    omega

theorem value_eq_limbs_of_nonneg {x : BigInteger} (h : WellFormed x) (h0 : 0 ≤ value x) :
    value x = limbs_value x.data := by
  simp [value, is_negative_of_value_nonneg h h0]

/-- The probe loop subtracts the scaled divisor `S` until the remainder is below it; with
`S ≤ x < (k + 1) * S` it leaves through its `break` at some `j ≤ 9`. -/
theorem probe_loop_spec {S : BigInteger} (hS : WellFormed S) (addend : Int → BigInteger)
    (w : Int) (hadd : ∀ i, 1 ≤ i → i ≤ 9 → WellFormed (addend i) ∧ value (addend i) = i * w) :
    ∀ (k : Nat) (i : Int) (x result : BigInteger), i + k = 10 → 1 ≤ i → WellFormed x →
      WellFormed result → value S ≤ value x → value x < (k + 1) * value S →
      ∃ x1 result1 j, probe_loop S addend k i x result = some (x1, result1) ∧ WellFormed x1 ∧
        WellFormed result1 ∧ i ≤ j ∧ j ≤ 9 ∧ 0 ≤ value x1 ∧ value x1 < value S ∧
        value x1 = value x - (j - i + 1) * value S ∧ value result1 = value result + j * w := by
  intro k
  induction k with
  | zero =>
    intro i x result _ _ _ _ h1 h2
    simp at h2
    omega
  | succ k ih =>
    intro i x result hik hi hx hr h1 h2
    obtain ⟨x1, hx1, _, hx1v, hx1w⟩ :=
      operator_minus_assign_spec (canonical_of_wellFormed hx) (canonical_of_wellFormed hS)
    have hx1w := hx1w hx
    unfold probe_loop
    simp only [hx1]
    by_cases hlt : operator_lt x1 S = true
    · rw [if_pos hlt]
      have hlt2 := (operator_lt_iff hx1w hS).mp hlt
      have hi9 : i ≤ 9 := by omega
      obtain ⟨ha1, ha2⟩ := hadd i hi hi9
      obtain ⟨r1, hr1, _, hr1v, hr1w⟩ :=
        operator_plus_assign_spec (canonical_of_wellFormed hr) (canonical_of_wellFormed ha1)
      simp only [hr1]
      refine ⟨x1, r1, i, rfl, hx1w, hr1w hr, le_refl _, hi9, by omega, hlt2, ?_, ?_⟩
      · rw [hx1v]
        ring
      · rw [hr1v, ha2]
    · rw [if_neg hlt]
      have hge : value S ≤ value x1 := by
        by_contra hc
        exact hlt ((operator_lt_iff hx1w hS).mpr (by omega))
      have hub : value x1 < ((k : Nat) + 1 : Int) * value S := by
        rw [hx1v]
        push_cast at h2
        linarith
      obtain ⟨x2, r2, j, e1, e2, e3, e4, e5, e6, e7, e8, e9⟩ :=
        ih (i + 1) x1 result (by push_cast at hik ⊢; omega) (by omega) hx1w hr hge hub
      refine ⟨x2, r2, j, e1, e2, e3, by omega, e5, e6, e7, ?_, e9⟩
      rw [e8, hx1v]
      ring

theorem pow10_pos (n : Nat) : (0 : Int) < 10 ^ n := by positivity

theorem addend_of_int {i : Int} (h1 : 1 ≤ i) (h9 : i ≤ 9) :
    WellFormed (of_int i) ∧ value (of_int i) = i * 1 := by
  refine ⟨wellFormed_of_int_small ⟨by omega, by omega⟩, ?_⟩
  rw [value_of_int_small ⟨by omega, by omega⟩, mul_one]

theorem addend_shift (p : Nat) {i : Int} (h1 : 1 ≤ i) (h9 : i ≤ 9) :
    WellFormed (shift (of_int i) p) ∧ value (shift (of_int i) p) = i * 10 ^ p := by
  have hw := wellFormed_of_int_small (i := i) ⟨by omega, by omega⟩
  have hv := value_of_int_small (i := i) ⟨by omega, by omega⟩
  have hn : (of_int i).is_negative = false := by
    rw [of_int_small ⟨by omega, by omega⟩]
  obtain ⟨s1, _, s3⟩ := shift_spec_pos hw hn (by omega) p
  exact ⟨s1, by rw [s3, hv]⟩

/-- One iteration of the division loop: the remainder `x ≥ num` loses `j` times the scaled
divisor `num * 10 ^ e`, which is at most `x`, and the quotient gains `j * 10 ^ e`. -/
theorem div_step_spec {num x result : BigInteger} (hnum : WellFormed num)
    (hn0 : 0 < value num) (hx : WellFormed x) (hr : WellFormed result)
    (hge : value num ≤ value x) :
    ∃ x1 result1 e j,
      (if get_digits_number x = get_digits_number num then
          solve_first_division_case x num result
        else solve_second_division_case x num result (get_digits_number x)
          (get_digits_number num)) = some (x1, result1) ∧
      WellFormed x1 ∧ WellFormed result1 ∧ (1 : Int) ≤ j ∧ j ≤ 9 ∧
      value num * 10 ^ e ≤ value x ∧ value x < 10 * (value num * 10 ^ e) ∧
      0 ≤ value x1 ∧ value x1 < value num * 10 ^ e ∧
      value x1 = value x - j * (value num * 10 ^ e) ∧
      value result1 = value result + j * 10 ^ e := by
  have hnn := is_negative_of_value_nonneg hnum (le_of_lt hn0)
  have hxn := is_negative_of_value_nonneg hx (by omega)
  have hnv := value_eq_limbs_of_nonneg hnum (le_of_lt hn0)
  have hxv := value_eq_limbs_of_nonneg hx (by omega)
  obtain ⟨n1, n2, n3, _, _⟩ :=
    get_digits_number_spec (canonical_of_wellFormed hnum) (by omega)
  obtain ⟨d1, d2, d3, _, _⟩ :=
    get_digits_number_spec (canonical_of_wellFormed hx) (by omega)
  rw [← hnv] at n2 n3
  rw [← hxv] at d2 d3
  generalize get_digits_number x = D at d1 d2 d3
  generalize get_digits_number num = Dn at n1 n2 n3
  have hD : Dn ≤ D := by
    by_contra hc
    have : (10 : Int) ^ D ≤ 10 ^ (Dn - 1) := pow_le_pow_right₀ (by norm_num) (by omega)
    omega
  by_cases hcase : D = Dn
  · rw [if_pos hcase]
    have hub : value x < ((9 : Nat) + 1 : Int) * value num := by
      have : (10 : Int) ^ D = 10 * 10 ^ (Dn - 1) := by
        rw [hcase, ← pow_succ']
        congr 1
        omega
      push_cast
      omega
    obtain ⟨x1, r1, j, e1, e2, e3, e4, e5, e6, e7, e8, e9⟩ :=
      probe_loop_spec hnum (fun i => of_int i) 1 (fun i h1 h9 => addend_of_int h1 h9)
        9 1 x result (by norm_num) (le_refl _) hx hr hge hub
    refine ⟨x1, r1, 0, j, e1, e2, e3, e4, e5, ?_, ?_, e6, ?_, ?_, ?_⟩
    · rw [pow_zero, mul_one]
      exact hge
    · rw [pow_zero, mul_one]
      push_cast at hub
      omega
    · rw [pow_zero, mul_one]
      exact e7
    · rw [e8, pow_zero, mul_one]
      ring
    · rw [e9, pow_zero]
  · rw [if_neg hcase]
    have hDn : Dn < D := by omega
    obtain ⟨s1, s2, s3⟩ := shift_spec_pos hnum hnn hn0 (D - Dn - 1)
    have hs0 : 0 < value (shift num (D - Dn - 1)) := by
      rw [s3]
      exact mul_pos hn0 (pow10_pos _)
    obtain ⟨t1, t2, t3⟩ := shift_spec_pos s1 s2 hs0 1
    have ht3 : value (shift (shift num (D - Dn - 1)) 1) = value num * 10 ^ (D - Dn) := by
      rw [t3, s3, mul_assoc, ← pow_add]
      congr 2
      omega
    have hp1 := pow10_pos (D - Dn - 1)
    have hsplit : (10 : Int) ^ (D - 1) = 10 ^ (Dn - 1) * 10 ^ (D - Dn) := by
      rw [← pow_add]
      congr 1
      omega
    have hsplit2 : (10 : Int) ^ (D - 1) = 10 ^ Dn * 10 ^ (D - Dn - 1) := by
      rw [← pow_add]
      congr 1
      omega
    have hsplit3 : (10 : Int) ^ D = 10 * 10 ^ (D - 1) := by
      rw [← pow_succ']
      congr 1
      omega
    have hsucc : (10 : Int) ^ (D - Dn) = 10 * 10 ^ (D - Dn - 1) := by
      rw [← pow_succ']
      congr 1
      omega
    unfold solve_second_division_case
    simp only
    by_cases hlt : operator_lt x (shift (shift num (D - Dn - 1)) 1) = true
    · rw [if_pos hlt]
      have hlt2 := (operator_lt_iff hx t1).mp hlt
      rw [ht3] at hlt2
      have hlow : value (shift num (D - Dn - 1)) ≤ value x := by
        rw [s3]
        have : value num * 10 ^ (D - Dn - 1) < 10 ^ Dn * 10 ^ (D - Dn - 1) :=
          mul_lt_mul_of_pos_right n3 hp1
        omega
      have hub : value x < ((9 : Nat) + 1 : Int) * value (shift num (D - Dn - 1)) := by
        rw [s3]
        push_cast
        rw [hsucc] at hlt2
        linarith
      obtain ⟨x1, r1, j, e1, e2, e3, e4, e5, e6, e7, e8, e9⟩ :=
        probe_loop_spec s1 (fun i => shift (of_int i) (D - Dn - 1)) (10 ^ (D - Dn - 1))
          (fun i h1 h9 => addend_shift (D - Dn - 1) h1 h9)
          9 1 x result (by norm_num) (le_refl _) hx hr hlow hub
      rw [s3] at e7 e8 hlow hub
      refine ⟨x1, r1, D - Dn - 1, j, e1, e2, e3, e4, e5, hlow, ?_, e6, e7, ?_, e9⟩
      · push_cast at hub
        linarith
      · rw [e8]
        ring
    · rw [if_neg hlt]
      have hge2 : value (shift (shift num (D - Dn - 1)) 1) ≤ value x := by
        by_contra hc
        exact hlt ((operator_lt_iff hx t1).mpr (by omega))
      have hub : value x < ((9 : Nat) + 1 : Int) * value (shift (shift num (D - Dn - 1)) 1) := by
        rw [ht3]
        push_cast
        have : (10 : Int) ^ (Dn - 1) * 10 ^ (D - Dn) ≤ value num * 10 ^ (D - Dn) :=
          mul_le_mul_of_nonneg_right n2 (le_of_lt (pow10_pos _))
        rw [hsplit3, hsplit] at d3
        linarith
      obtain ⟨x1, r1, j, e1, e2, e3, e4, e5, e6, e7, e8, e9⟩ :=
        probe_loop_spec t1 (fun i => shift (of_int i) (D - Dn)) (10 ^ (D - Dn))
          (fun i h1 h9 => addend_shift (D - Dn) h1 h9)
          9 1 x result (by norm_num) (le_refl _) hx hr hge2 hub
      rw [ht3] at e7 e8 hge2 hub
      refine ⟨x1, r1, D - Dn, j, e1, e2, e3, e4, e5, hge2, ?_, e6, e7, ?_, e9⟩
      · push_cast at hub
        linarith
      · rw [e8]
        ring

/-- The division loop ends within `m + 1` iterations when the remainder is below
`num * 10 ^ m`; it keeps `x + result * num` and leaves a remainder in `[0, num)`. -/
theorem div_loop_spec {num : BigInteger} (hnum : WellFormed num) (hn0 : 0 < value num) :
    ∀ (fuel m : Nat) (x result : BigInteger), m < fuel → WellFormed x → 0 ≤ value x →
      WellFormed result → 0 ≤ value result → value x < value num * 10 ^ m →
      ∃ x1 result1, div_loop num (get_digits_number num) fuel x result = some (x1, result1) ∧
        WellFormed x1 ∧ WellFormed result1 ∧ 0 ≤ value x1 ∧ value x1 < value num ∧
        0 ≤ value result1 ∧
        value x1 + value result1 * value num = value x + value result * value num := by
  intro fuel
  induction fuel with
  | zero =>
    intro m x result hm
    omega
  | succ fuel ih =>
    intro m x result hm hx hx0 hr hr0 hub
    unfold div_loop
    by_cases hge : operator_ge x num = true
    · rw [if_pos hge]
      have hge2 := (operator_ge_iff hx hnum).mp hge
      obtain ⟨x1, r1, e, j, s1, s2, s3, s4, s5, s6, s7, s8, s9, s10, s11⟩ :=
        div_step_spec hnum hn0 hx hr hge2
      simp only [s1]
      have hem : e < m := by
        by_contra hc
        have : (10 : Int) ^ m ≤ 10 ^ e := pow_le_pow_right₀ (by norm_num) (by omega)
        have := mul_le_mul_of_nonneg_left this (le_of_lt hn0)
        omega
      have hub1 : value x1 < value num * 10 ^ (m - 1) := by
        have : (10 : Int) ^ e ≤ 10 ^ (m - 1) := pow_le_pow_right₀ (by norm_num) (by omega)
        have := mul_le_mul_of_nonneg_left this (le_of_lt hn0)
        omega
      have hr10 : 0 ≤ value r1 := by
        rw [s11]
        have := mul_nonneg (show (0 : Int) ≤ j by omega) (le_of_lt (pow10_pos e))
        omega
      obtain ⟨x2, r2, f1, f2, f3, f4, f5, f6, f7⟩ :=
        ih (m - 1) x1 r1 (by omega) s2 s8 s3 hr10 hub1
      refine ⟨x2, r2, f1, f2, f3, f4, f5, f6, ?_⟩
      rw [f7, s10, s11]
      ring
    · rw [if_neg hge]
      have hlt : value x < value num := by
        by_contra hc
        exact hge ((operator_ge_iff hx hnum).mpr (by omega))
      exact ⟨x, result, rfl, hx, hr, hx0, hlt, hr0, rfl⟩

theorem wellFormed_clear_sign {x : BigInteger} (h : WellFormed x) :
    WellFormed { x with is_negative := false } :=
  ⟨h.1, h.2.1, h.2.2.1, fun _ => rfl⟩

theorem value_clear_sign (x : BigInteger) :
    value { x with is_negative := false } = limbs_value x.data := by
  simp [value]

theorem abs_value (x : BigInteger) (h : LimbsInRange x.data) :
    |value x| = limbs_value x.data := by
  have := limbs_value_nonneg h
  unfold value
  split
  · rw [abs_neg, abs_of_nonneg this]
  · rw [abs_of_nonneg this]

theorem data_eq_zero_of {data : List Int} (h1 : data.length = 1) (h2 : data.getD 0 0 = 0) :
    data = [0] := by
  match data, h1, h2 with
  | [l], _, h2 =>
    have : l = 0 := h2
    rw [this]

/-- Truncated division of signed integers through their magnitudes. -/
theorem tdiv_of_signs (na nb : Bool) {N M : Int} (hN : 0 ≤ N) (hM : 0 ≤ M) :
    ((if na then -N else N) : Int).tdiv (if nb then -M else M)
      = if (if nb then !na else na) then -(N / M) else N / M := by
  cases na <;> cases nb <;>
    simp [Int.neg_tdiv, Int.tdiv_neg, Int.tdiv_eq_ediv hN hM]

/-- Operator `/=` on well-formed operands with a non-zero divisor, given more iterations than
the dividend has decimal digits: the quotient truncated toward zero, well-formed, with the
XOR of the operand flags unless it is zero. -/
theorem operator_div_assign_spec {a b : BigInteger} (ha : WellFormed a) (hb : WellFormed b)
    (hb0 : value b ≠ 0) (fuel : Nat) (hf : get_digits_number a < fuel) :
    ∃ q, operator_div_assign fuel a b = some q ∧ WellFormed q ∧
      value q = (value a).tdiv (value b) ∧
      (value q ≠ 0 → q.is_negative = xor a.is_negative b.is_negative) := by
  have hca := canonical_of_wellFormed ha
  have hcb := canonical_of_wellFormed hb
  have hN := limbs_value_nonneg hca.2.1
  have hM := limbs_value_nonneg hcb.2.1
  have hva : value a = if a.is_negative then -limbs_value a.data else limbs_value a.data := rfl
  have hvb : value b = if b.is_negative then -limbs_value b.data else limbs_value b.data := rfl
  have hM0 : 0 < limbs_value b.data := by
    rcases Nat.eq_zero_or_pos (limbs_value b.data).toNat with h | h
    · exfalso
      apply hb0
      have : limbs_value b.data = 0 := by omega
      rw [hvb, this]
      simp
    · omega
  unfold operator_div_assign
  simp only
  by_cases hz : is_zero { a with is_negative := false } = true
  · rw [if_pos hz]
    have hd : a.data = [0] := (is_zero_iff _).mp hz
    have hv0 : value a = 0 := by
      rw [hva, hd]
      simp [limbs_value_cons, limbs_value_nil]
    refine ⟨_, rfl, wellFormed_clear_sign ha, ?_, ?_⟩
    · rw [value_clear_sign, hv0, Int.zero_tdiv, hd]
      rfl
    · intro h
      exfalso
      apply h
      rw [value_clear_sign, hd]
      rfl
  · rw [if_neg hz]
    have hN0 : limbs_value a.data ≠ 0 := by
      intro h
      apply hz
      rw [is_zero_iff]
      exact (limbs_value_eq_zero_iff hca).mp h
    have hx1 := wellFormed_clear_sign ha
    have hn1 := wellFormed_clear_sign hb
    have hx1v := value_clear_sign a
    have hn1v := value_clear_sign b
    obtain ⟨g1, g2, g3, _, _⟩ := get_digits_number_spec hca hN0
    have hub : value { a with is_negative := false }
        < value { b with is_negative := false } * 10 ^ get_digits_number a := by
      rw [hx1v, hn1v]
      have := mul_le_mul_of_nonneg_right (show 1 ≤ limbs_value b.data by omega)
        (le_of_lt (pow10_pos (get_digits_number a)))
      omega
    obtain ⟨x2, r2, f1, f2, f3, f4, f5, f6, f7⟩ :=
      div_loop_spec hn1 (by rw [hn1v]; exact hM0) fuel (get_digits_number a)
        { a with is_negative := false } (of_int 0) hf hx1 (by rw [hx1v]; exact hN)
        (by decide) (by decide) hub
    rw [hx1v, hn1v] at f7
    rw [hn1v] at f5
    have hq : value r2 = limbs_value a.data / limbs_value b.data := by
      have h1 : limbs_value a.data = value x2 + value r2 * limbs_value b.data := by
        rw [f7]
        have : value (of_int 0) = 0 := by decide
        rw [this]
        ring
      rw [h1, Int.add_mul_ediv_right _ _ (by omega), Int.ediv_eq_zero_of_lt f4 f5, zero_add]
    have hr2c := canonical_of_wellFormed f3
    have hr2v := value_eq_limbs_of_nonneg f3 f6
    simp only [f1, clean_trailing_zeros, clean_loop_of_canonical _ hr2c]
    have hcond : (r2.data.length = 1 ∧ r2.data.getD 0 0 = 0) ↔ value r2 = 0 := by
      rw [hr2v, limbs_value_eq_zero_iff hr2c]
      constructor
      · intro h
        exact data_eq_zero_of h.1 h.2
      · intro h
        rw [h]
        exact ⟨rfl, rfl⟩
    rw [hva, hvb, tdiv_of_signs _ _ hN hM, ← hq]
    by_cases hr0 : value r2 = 0
    · rw [if_pos (hcond.mpr hr0)]
      refine ⟨_, rfl, ⟨hr2c.1, hr2c.2.1, hr2c.2.2, fun _ => rfl⟩, ?_, ?_⟩
      · rw [value_clear_sign, ← hr2v, hr0]
        simp
      · intro h
        exfalso
        apply h
        rw [value_clear_sign, ← hr2v, hr0]
    · rw [if_neg (fun h => hr0 (hcond.mp h))]
      refine ⟨_, rfl, ⟨hr2c.1, hr2c.2.1, hr2c.2.2, ?_⟩, ?_, ?_⟩
      · intro h
        exfalso
        apply hr0
        rw [hr2v]
        exact (limbs_value_eq_zero_iff hr2c).mpr h
      · rw [hr2v]
        rfl
      · intro _
        cases a.is_negative <;> cases b.is_negative <;> rfl

/-! ### Multiplication: transform length and convolution -/

theorem count_bits_loop_spec : ∀ (k size deg : Nat), size < 2 ^ k →
    deg ≤ count_bits_loop k size deg ∧ size < 2 ^ (count_bits_loop k size deg - deg)
  | 0, size, deg, h => by
    simp only [count_bits_loop]
    simp at h
    simp [h]
  | k + 1, size, deg, h => by
    unfold count_bits_loop
    by_cases hs : 0 < size
    · rw [if_pos hs]
      have hhalf : size >>> 1 = size / 2 := by
        rw [Nat.shiftRight_eq_div_pow]
      rw [hhalf]
      have h2 : size / 2 < 2 ^ k := by
        rw [pow_succ] at h
        omega
      obtain ⟨i1, i2⟩ := count_bits_loop_spec k (size / 2) (deg + 1) h2
      refine ⟨by omega, ?_⟩
      have e : count_bits_loop k (size / 2) (deg + 1) - deg
          = (count_bits_loop k (size / 2) (deg + 1) - (deg + 1)) + 1 := by omega
      rw [e, pow_succ]
      omega
    · rw [if_neg hs]
      have : size = 0 := by omega
      simp [this]

/-- The transform length chosen by `optimal_deg2` exceeds twice each operand's limb count. -/
theorem optimal_deg2_spec (x : BigInteger) (n : Nat) :
    2 * x.data.length < 2 ^ optimal_deg2 x n ∧ 2 * n < 2 ^ optimal_deg2 x n := by
  have key : ∀ m : Nat, 2 * m < 2 ^ count_bits_loop m m 1 := by
    intro m
    obtain ⟨h1, h2⟩ := count_bits_loop_spec m m 1 (Nat.lt_two_pow m)
    have e : count_bits_loop m m 1 = (count_bits_loop m m 1 - 1) + 1 := by omega
    rw [e, pow_succ]
    omega
  unfold optimal_deg2
  constructor
  · exact lt_of_lt_of_le (key _) (Nat.pow_le_pow_right (by norm_num) (le_max_left _ _))
  · exact lt_of_lt_of_le (key _) (Nat.pow_le_pow_right (by norm_num) (le_max_right _ _))

theorem build_polynom_length (x : BigInteger) (L : Nat) : (build_polynom x L).length = L := by
  simp [build_polynom]

theorem build_polynom_getD (x : BigInteger) (L i : Nat) :
    (build_polynom x L).getD i 0 = if i < L then ((x.data.getD i 0 : Int) : ℚ) else 0 := by
  unfold build_polynom
  by_cases h : i < L
  · rw [if_pos h, List.getD_eq_getElem _ _ (by simpa using h)]
    simp only [List.getElem_map, List.getElem_range]
    split
    · rfl
    · rw [getD_of_length_le x.data (by omega)]
      simp
  · rw [if_neg h, List.getD_eq_default _ _ (by simp; omega)]

/-- With a transform length of at least the combined limb count, the cyclic convolution of
the padded vectors does not wrap around: it is the linear convolution of the limb lists. -/
theorem cyclic_eq_linear (x num : BigInteger) (L : Nat)
    (hL : x.data.length + num.data.length ≤ L) (k : Nat) (hk : k < L) :
    cyclic_convolution (build_polynom x L) (build_polynom num L) L k
      = ((linear_convolution x.data num.data k : Int) : ℚ) := by
  unfold cyclic_convolution linear_convolution
  rw [Int.cast_sum]
  have hsub : Finset.range (k + 1) ⊆ Finset.range L := by
    intro i hi
    rw [Finset.mem_range] at hi ⊢
    omega
  rw [← Finset.sum_subset hsub]
  · apply Finset.sum_congr rfl
    intro i hi
    rw [Finset.mem_range] at hi
    have e : (k + L - i) % L = k - i := by
      rw [show k + L - i = (k - i) + L by omega, Nat.add_mod_right, Nat.mod_eq_of_lt (by omega)]
    rw [e, build_polynom_getD, build_polynom_getD, if_pos (by omega), if_pos (by omega)]
    push_cast
    rfl
  · intro i hi hni
    rw [Finset.mem_range] at hi hni
    have e : (k + L - i) % L = k + L - i := Nat.mod_eq_of_lt (by omega)
    rw [e, build_polynom_getD, build_polynom_getD, if_pos hi, if_pos (by omega)]
    by_cases h1 : i < x.data.length
    · rw [getD_of_length_le num.data (by omega)]
      simp
    · rw [getD_of_length_le x.data (by omega)]
      simp

theorem linear_convolution_nil (ys : List Int) (k : Nat) : linear_convolution [] ys k = 0 := by
  unfold linear_convolution
  apply Finset.sum_eq_zero
  intro i _
  simp

theorem linear_convolution_cons (x : Int) (xs ys : List Int) (k : Nat) :
    linear_convolution (x :: xs) ys k
      = x * ys.getD k 0 + (if k = 0 then 0 else linear_convolution xs ys (k - 1)) := by
  unfold linear_convolution
  rw [Finset.sum_range_succ']
  simp only [List.getD_cons_succ, List.getD_cons_zero, Nat.sub_zero]
  rw [add_comm]
  congr 1
  cases k with
  | zero => simp
  | succ k =>
    simp only [Nat.succ_ne_zero, if_false, Nat.add_sub_cancel]
    apply Finset.sum_congr rfl
    intro i hi
    rw [Finset.mem_range] at hi
    congr 2
    omega

theorem linear_convolution_nonneg {xs ys : List Int} (hx : LimbsInRange xs)
    (hy : LimbsInRange ys) (k : Nat) : 0 ≤ linear_convolution xs ys k := by
  unfold linear_convolution
  apply Finset.sum_nonneg
  intro i _
  exact mul_nonneg (getD_mem_range hx i).1 (getD_mem_range hy (k - i)).1

/-- The linear convolution, read as base-10000 coefficients, denotes the product. -/
theorem linear_convolution_value (xs ys : List Int) : ∀ N, xs.length + ys.length ≤ N →
    ∑ k in Finset.range N, linear_convolution xs ys k * base ^ k
      = limbs_value xs * limbs_value ys := by
  induction xs with
  | nil =>
    intro N _
    simp [linear_convolution_nil, limbs_value_nil]
  | cons x xs ih =>
    intro N hN
    obtain ⟨M, rfl⟩ : ∃ M, N = M + 1 := ⟨N - 1, by simp at hN; omega⟩
    have hM : xs.length + ys.length ≤ M := by
      simp at hN
      omega
    have h1 : ∑ k in Finset.range (M + 1), x * ys.getD k 0 * base ^ k
        = x * limbs_value ys := by
      rw [limbs_value_eq_sum ys (M + 1) (by omega), Finset.mul_sum]
      apply Finset.sum_congr rfl
      intro k _
      ring
    have h2 : ∑ k in Finset.range (M + 1),
        (if k = 0 then 0 else linear_convolution xs ys (k - 1)) * base ^ k
        = base * (limbs_value xs * limbs_value ys) := by
      rw [Finset.sum_range_succ', ← ih M hM, Finset.mul_sum]
      simp only [if_true, zero_mul, add_zero, Nat.succ_ne_zero, if_false, Nat.add_sub_cancel]
      apply Finset.sum_congr rfl
      intro k _
      rw [pow_succ]
      ring
    simp only [linear_convolution_cons, add_mul, Finset.sum_add_distrib]
    rw [h1, h2, limbs_value_cons]
    ring

/-! ### Multiplication: rounding and carry fix-up -/

theorem truncate_round {q : ℚ} {c : Int} (hc : 0 ≤ c) (h : |q - (c : ℚ)| < 1 / 2) :
    truncate (q + half) = c := by
  have h1 := abs_lt.mp h
  have hc' : (0 : ℚ) ≤ (c : ℚ) := by exact_mod_cast hc
  unfold truncate half
  rw [if_pos (by linarith [h1.1])]
  rw [Int.floor_eq_iff]
  constructor <;> linarith [h1.1, h1.2]

theorem truncate_int (c : Int) : truncate (c : ℚ) = c := by
  unfold truncate
  split
  · exact Int.floor_intCast c
  · exact Int.ceil_intCast c

theorem to_long_long_range {q : ℚ} {v : Int} (h : to_long_long q = some v) :
    -2 ^ 63 ≤ v ∧ v < 2 ^ 63 := by
  unfold to_long_long at h
  split at h
  · rename_i hr
    rw [← Option.some.inj h]
    exact hr
  · exact absurd h (by simp)

theorem to_long_long_int (c : Int) (h1 : -2 ^ 63 ≤ c) (h2 : c < 2 ^ 63) :
    to_long_long (c : ℚ) = some c := by
  unfold to_long_long
  rw [truncate_int, if_pos ⟨h1, h2⟩]

theorem to_long_long_round {q : ℚ} {c : Int} (hc : 0 ≤ c) (hb : c < 2 ^ 63)
    (h : |q - (c : ℚ)| < 1 / 2) : to_long_long (q + half) = some c := by
  unfold to_long_long
  rw [truncate_round hc h, if_pos ⟨by omega, hb⟩]

theorem to_int_round {q : ℚ} {c : Int} (hc : 0 ≤ c) (hb : c < 2 ^ 31)
    (h : |q - (c : ℚ)| < 1 / 2) : to_int (q + half) = some c := by
  unfold to_int
  rw [truncate_round hc h, if_pos ⟨by omega, hb⟩]

theorem getD_set_q (xs : List ℚ) (i j : Nat) (v : ℚ) (h : i < xs.length) :
    (xs.set i v).getD j 0 = if i = j then v else xs.getD j 0 := by
  rw [List.getD_eq_getElem?_getD, List.getD_eq_getElem?_getD, List.getElem?_set]
  by_cases hij : i = j
  · rw [if_pos hij, if_pos h, if_pos hij]
    rfl
  · rw [if_neg hij, if_neg hij]

theorem getD_set_q_ne (xs : List ℚ) {i j : Nat} (v : ℚ) (h : i ≠ j) :
    (xs.set i v).getD j 0 = xs.getD j 0 := by
  rw [List.getD_eq_getElem?_getD, List.getD_eq_getElem?_getD, List.getElem?_set]
  simp [h]

theorem getD_append_zero_q (xs : List ℚ) (j : Nat) : (xs ++ [0]).getD j 0 = xs.getD j 0 := by
  rcases Nat.lt_or_ge j xs.length with h | h
  · rw [List.getD_append _ _ _ _ h]
  · rw [List.getD_append_right _ _ _ _ h, List.getD_eq_default xs _ h]
    cases j - xs.length <;> rfl

/-- An iteration of the loop of `fix_polynom` whose rounded entry is below the base. -/
theorem fix_polynom_loop_lt (L fuel i : Nat) (poly : List ℚ) (v : Int)
    (hv : to_long_long (poly.getD i 0 + half) = some v) (hi : i < poly.length)
    (hlt : ((v : Int) : ℚ) < ((base : Int) : ℚ)) :
    fix_polynom_loop L (fuel + 1) i poly =
      if L ≠ 0 ∧ L - 1 ≤ i then some (poly.set i ((v : Int) : ℚ))
      else fix_polynom_loop L fuel (i + 1) (poly.set i ((v : Int) : ℚ)) := by
  have hp1 : (poly.set i ((v : Int) : ℚ)).getD i 0 = ((v : Int) : ℚ) := by
    rw [getD_set_q _ _ _ _ hi, if_pos rfl]
  rw [fix_polynom_loop]
  simp only [hv, hp1, if_pos hlt]

/-- An iteration of the loop of `fix_polynom` whose rounded entry is at least the base: the
two further conversions are of the rounded entry, which is inside the range. -/
theorem fix_polynom_loop_carry (L fuel i : Nat) (poly : List ℚ) (v : Int)
    (hv : to_long_long (poly.getD i 0 + half) = some v) (hi : i < poly.length)
    (hge : ¬ ((v : Int) : ℚ) < ((base : Int) : ℚ)) :
    fix_polynom_loop L (fuel + 1) i poly =
      fix_polynom_loop L fuel (i + 1)
        (((if i + 1 = poly.length then poly.set i ((v : Int) : ℚ) ++ [0]
            else poly.set i ((v : Int) : ℚ)).set (i + 1)
          ((if i + 1 = poly.length then poly.set i ((v : Int) : ℚ) ++ [0]
            else poly.set i ((v : Int) : ℚ)).getD (i + 1) 0 + ((v.tdiv base : Int) : ℚ))).set i
          ((v.tmod base : Int) : ℚ)) := by
  have hp1 : (poly.set i ((v : Int) : ℚ)).getD i 0 = ((v : Int) : ℚ) := by
    rw [getD_set_q _ _ _ _ hi, if_pos rfl]
  obtain ⟨hr1, hr2⟩ := to_long_long_range hv
  have hvv : to_long_long ((v : Int) : ℚ) = some v := to_long_long_int v hr1 hr2
  have h2 : (if i + 1 = poly.length then poly.set i ((v : Int) : ℚ) ++ [0]
      else poly.set i ((v : Int) : ℚ)).getD i 0 = ((v : Int) : ℚ) := by
    split
    · rw [getD_append_zero_q, hp1]
    · exact hp1
  have h3 : ((if i + 1 = poly.length then poly.set i ((v : Int) : ℚ) ++ [0]
      else poly.set i ((v : Int) : ℚ)).set (i + 1)
      ((if i + 1 = poly.length then poly.set i ((v : Int) : ℚ) ++ [0]
        else poly.set i ((v : Int) : ℚ)).getD (i + 1) 0 + ((v.tdiv base : Int) : ℚ))).getD i 0
      = ((v : Int) : ℚ) := by
    rw [getD_set_q_ne _ _ (by omega), h2]
  rw [fix_polynom_loop]
  simp only [hv, hp1, if_neg hge, List.length_set, h2, hvv, h3]

theorem getD_mul_le_value_nonneg : ∀ (xs : List Int), (∀ j, 0 ≤ xs.getD j 0) → ∀ i,
    xs.getD i 0 * base ^ i ≤ limbs_value xs
  | [], _, i => by simp [limbs_value_nil]
  | x :: xs, h, 0 => by
    have h0 := h 0
    have hrest : 0 ≤ limbs_value xs := by
      have := getD_mul_le_value_nonneg xs (fun j => by simpa using h (j + 1))
      rcases xs with _ | ⟨y, ys⟩
      · simp [limbs_value_nil]
      · have h1 := this 0
        have h2 := h 1
        simp only [List.getD_cons_succ, List.getD_cons_zero, pow_zero, mul_one] at h1 h2
        omega
    simp only [List.getD_cons_zero, pow_zero, mul_one, limbs_value_cons, base_eq]
    omega
  | x :: xs, h, i + 1 => by
    have h0 := h 0
    have := getD_mul_le_value_nonneg xs (fun j => by simpa using h (j + 1)) i
    simp only [List.getD_cons_zero] at h0
    simp only [List.getD_cons_succ, limbs_value_cons, pow_succ]
    have hb : (0 : Int) < base := base_pos
    nlinarith [mul_le_mul_of_nonneg_left this (le_of_lt hb)]

theorem fix_polynom_loop_spec (L : Nat) :
    ∀ (fuel i : Nat) (poly : List ℚ) (cs : List Int), FixInv i poly cs → cs.length = L →
      i < L → limbs_value cs < base ^ L → L ≤ fuel + i →
      ∃ out ds, fix_polynom_loop L fuel i poly = some out ∧ out.length = L ∧ ds.length = L ∧
        LimbsInRange ds ∧ (∀ j, out.getD j 0 = ((ds.getD j 0 : Int) : ℚ)) ∧
        limbs_value ds = limbs_value cs := by
  intro fuel
  induction fuel with
  | zero =>
    intro i poly cs _ _ hi _ hf
    omega
  | succ fuel ih =>
    intro i poly cs hinv hcs hi hval hf
    obtain ⟨hlen, hlow, hhigh⟩ := hinv
    have hnn : ∀ j, 0 ≤ cs.getD j 0 := by
      intro j
      by_cases hj : j < i
      · exact (hlow j hj).2.1
      · exact (hhigh j (by omega)).2.1
    have hub : ∀ j, i < j → cs.getD j 0 ≤ 2 ^ 63 - 2 ^ 50 := by
      intro j hj
      have := (hhigh j (by omega)).2.2
      rw [if_neg (by omega), add_zero] at this
      exact this
    have hubi : cs.getD i 0 ≤ 2 ^ 63 - 1 := by
      have := (hhigh i (le_refl _)).2.2
      rw [if_pos rfl] at this
      exact this
    have hpl : poly.length = L := by rw [hlen, hcs]
    have hround : to_long_long (poly.getD i 0 + half) = some (cs.getD i 0) :=
      to_long_long_round (hnn i) (by omega) (hhigh i (le_refl _)).1
    have hp1 : ∀ j, (poly.set i ((cs.getD i 0 : Int) : ℚ)).getD j 0
        = if i = j then ((cs.getD i 0 : Int) : ℚ) else poly.getD j 0 :=
      fun j => getD_set_q poly i j _ (by omega)
    by_cases hc : ((cs.getD i 0 : Int) : ℚ) < ((base : Int) : ℚ)
    · rw [fix_polynom_loop_lt L fuel i poly _ hround (by omega) hc]
      have hc2 : cs.getD i 0 < base := by exact_mod_cast hc
      rw [base_eq] at hc2
      by_cases hlast : L ≠ 0 ∧ L - 1 ≤ i
      · rw [if_pos hlast]
        refine ⟨_, cs, rfl, by rw [List.length_set, hpl], hcs, ?_, ?_, rfl⟩
        · apply limbsInRange_of_getD
          intro j hj
          by_cases hji : j < i
          · exact (hlow j hji).2
          · have : j = i := by omega
            rw [this]
            exact ⟨hnn i, by omega⟩
        · intro j
          rw [hp1 j]
          by_cases hij : i = j
          · rw [if_pos hij, hij]
          · rw [if_neg hij]
            by_cases hji : j < i
            · exact (hlow j hji).1
            · rw [List.getD_eq_default _ _ (by omega), getD_of_length_le cs (by omega)]
              simp
      · rw [if_neg hlast]
        have hinv2 : FixInv (i + 1) (poly.set i ((cs.getD i 0 : Int) : ℚ)) cs := by
          refine ⟨by rw [List.length_set, hlen], ?_, ?_⟩
          · intro j hj
            rw [hp1 j]
            by_cases hij : i = j
            · rw [if_pos hij, ← hij]
              exact ⟨rfl, hnn i, by omega⟩
            · rw [if_neg hij]
              exact hlow j (by omega)
          · intro j hj
            rw [hp1 j, if_neg (by omega)]
            refine ⟨(hhigh j (by omega)).1, hnn j, ?_⟩
            have := hub j (by omega)
            split <;> omega
        exact ih (i + 1) _ cs hinv2 hcs (by omega) hval (by omega)
    · rw [fix_polynom_loop_carry L fuel i poly _ hround (by omega) hc]
      have hc2 : base ≤ cs.getD i 0 := by
        by_contra h
        apply hc
        exact_mod_cast (show cs.getD i 0 < base by omega)
      rw [base_eq] at hc2
      have hi1 : i + 1 < L := by
        by_contra h
        have hiL : L = i + 1 := by omega
        have h1 := getD_mul_le_value_nonneg cs hnn i
        rw [hiL, pow_succ] at hval
        have hp := base_pow_pos i
        rw [base_eq] at hval h1 hp
        nlinarith
      simp only [if_neg (show ¬ i + 1 = poly.length by omega)]
      rw [hp1 (i + 1), if_neg (by omega)]
      have hp3 : ∀ j, ((poly.set i ((cs.getD i 0 : Int) : ℚ)).set (i + 1)
          (poly.getD (i + 1) 0 + (((cs.getD i 0).tdiv base : Int) : ℚ))).getD j 0
          = if i + 1 = j then poly.getD (i + 1) 0 + (((cs.getD i 0).tdiv base : Int) : ℚ)
            else if i = j then ((cs.getD i 0 : Int) : ℚ) else poly.getD j 0 := by
        intro j
        rw [getD_set_q _ _ _ _ (by rw [List.length_set]; omega), hp1 j]
      have htd : (cs.getD i 0).tdiv base = cs.getD i 0 / 10000 :=
        Int.tdiv_eq_ediv (hnn i) (by decide)
      have htm : (cs.getD i 0).tmod base = cs.getD i 0 % 10000 :=
        Int.tmod_eq_emod (hnn i) (by decide)
      rw [htd, htm]
      rw [htd] at hp3
      have hp4 : ∀ j, (((poly.set i ((cs.getD i 0 : Int) : ℚ)).set (i + 1)
          (poly.getD (i + 1) 0 + ((cs.getD i 0 / 10000 : Int) : ℚ))).set i
          ((cs.getD i 0 % 10000 : Int) : ℚ)).getD j 0
          = if i = j then ((cs.getD i 0 % 10000 : Int) : ℚ)
            else if i + 1 = j then poly.getD (i + 1) 0 + ((cs.getD i 0 / 10000 : Int) : ℚ)
            else poly.getD j 0 := by
        intro j
        rw [getD_set_q _ _ _ _ (by rw [List.length_set, List.length_set]; omega), hp3 j]
        by_cases h1 : i = j
        · simp only [if_pos h1]
        · simp only [if_neg h1]
      have hcs4 : ∀ j, ((cs.set i (cs.getD i 0 % 10000)).set (i + 1)
          (cs.getD (i + 1) 0 + cs.getD i 0 / 10000)).getD j 0
          = if i + 1 = j then cs.getD (i + 1) 0 + cs.getD i 0 / 10000
            else if i = j then cs.getD i 0 % 10000 else cs.getD j 0 := by
        intro j
        rw [getD_set _ _ _ _ (by rw [List.length_set]; omega), getD_set _ _ _ _ (by omega)]
      have hinv2 : FixInv (i + 1) (((poly.set i ((cs.getD i 0 : Int) : ℚ)).set (i + 1)
          (poly.getD (i + 1) 0 + ((cs.getD i 0 / 10000 : Int) : ℚ))).set i
          ((cs.getD i 0 % 10000 : Int) : ℚ))
          ((cs.set i (cs.getD i 0 % 10000)).set (i + 1)
            (cs.getD (i + 1) 0 + cs.getD i 0 / 10000)) := by
        refine ⟨by simp only [List.length_set]; exact hlen, ?_, ?_⟩
        · intro j hj
          have hne : ¬ i + 1 = j := by omega
          rw [hp4 j, hcs4 j]
          simp only [if_neg hne]
          by_cases hij : i = j
          · simp only [if_pos hij]
            exact ⟨trivial, by omega, by omega⟩
          · simp only [if_neg hij]
            exact hlow j (by omega)
        · intro j hj
          have hne : ¬ i = j := by omega
          rw [hp4 j, hcs4 j]
          simp only [if_neg hne]
          by_cases hij : i + 1 = j
          · simp only [if_pos hij]
            have := hhigh (i + 1) (by omega)
            have hu1 := hub (i + 1) (by omega)
            refine ⟨?_, by have := hnn i; omega, by rw [← hij, if_pos rfl]; omega⟩
            have e : poly.getD (i + 1) 0 + ((cs.getD i 0 / 10000 : Int) : ℚ)
                - ((cs.getD (i + 1) 0 + cs.getD i 0 / 10000 : Int) : ℚ)
                = poly.getD (i + 1) 0 - ((cs.getD (i + 1) 0 : Int) : ℚ) := by
              push_cast
              ring
            rw [e]
            exact this.1
          · simp only [if_neg hij]
            refine ⟨(hhigh j (by omega)).1, hnn j, ?_⟩
            have := hub j (by omega)
            split <;> omega
      have hv2 : limbs_value ((cs.set i (cs.getD i 0 % 10000)).set (i + 1)
          (cs.getD (i + 1) 0 + cs.getD i 0 / 10000)) = limbs_value cs := by
        rw [limbs_value_set _ _ _ (by rw [List.length_set]; omega),
          getD_set_ne _ _ (by omega), limbs_value_set _ _ _ (by omega), pow_succ, base_eq]
        have : cs.getD i 0 % 10000 = cs.getD i 0 - 10000 * (cs.getD i 0 / 10000) := by omega
        rw [this]
        ring
      obtain ⟨out, ds, o1, o2, o3, o4, o5, o6⟩ := ih (i + 1) _ _ hinv2
        (by simp only [List.length_set]; exact hcs) hi1 (by rw [hv2]; exact hval) (by omega)
      exact ⟨out, ds, o1, o2, o3, o4, o5, by rw [o6, hv2]⟩

/-! ### Operator `*=` and operator `%=` -/

/-- A loop in the `Option` monad whose body returns a value at every step is the loop of those
values. -/
theorem foldlM_eq_foldl (f : List Int → Nat → Option (List Int))
    (g : List Int → Nat → List Int) :
    ∀ (l : List Nat) (d : List Int), (∀ d i, i ∈ l → f d i = some (g d i)) →
      l.foldlM f d = some (l.foldl g d)
  | [], _, _ => rfl
  | i :: l, d, h => by
    rw [List.foldlM_cons, h d i (List.mem_cons_self _ _), List.foldl_cons]
    exact foldlM_eq_foldl f g l _ (fun d j hj => h d j (List.mem_cons_of_mem _ hj))

theorem copy_step_length (v : Nat → Int) (d : List Int) (i : Nat) (h : i ≤ d.length) :
    (if i = d.length then d ++ [v i] else d.set i (v i)).length = max d.length (i + 1) := by
  split
  · rw [List.length_append, List.length_singleton]
    omega
  · rw [List.length_set]
    omega

theorem copy_step_getD (v : Nat → Int) (d : List Int) (i j : Nat) (h : i ≤ d.length) :
    (if i = d.length then d ++ [v i] else d.set i (v i)).getD j 0 =
      if j = i then v i else d.getD j 0 := by
  split
  · rename_i h1
    rw [getD_concat, ← h1]
  · rename_i h1
    rw [getD_set _ _ _ _ (by omega)]
    by_cases h2 : i = j
    · subst h2
      simp
    · have : ¬ j = i := fun h3 => h2 h3.symm
      simp [h2, this]

theorem eq_of_getD_eq : ∀ {xs ys : List Int}, xs.length = ys.length →
    (∀ j, xs.getD j 0 = ys.getD j 0) → xs = ys
  | [], [], _, _ => rfl
  | [], _ :: _, h, _ => by simp at h
  | _ :: _, [], h, _ => by simp at h
  | x :: xs, y :: ys, hlen, h => by
    have h0 := h 0
    simp only [List.getD_cons_zero] at h0
    have := @eq_of_getD_eq xs ys (by simpa using hlen)
      (fun j => by simpa using h (j + 1))
    rw [h0, this]

/-- The last loop of `operator *=` copies settled coefficients into `data`: every conversion
to `int` is of a value in `[0, 9999]`. -/
theorem copy_coeff_foldlM {out : List ℚ} {ds data : List Int} (hlen : out.length = ds.length)
    (hd : data.length ≤ ds.length) (hr : LimbsInRange ds)
    (hout : ∀ j, out.getD j 0 = ((ds.getD j 0 : Int) : ℚ)) :
    (List.range out.length).foldlM (copy_coeff out) data = some ds := by
  have hstep : ∀ (d : List Int) (i : Nat), i ∈ List.range out.length →
      copy_coeff out d i
        = some (if i = d.length then d ++ [ds.getD i 0] else d.set i (ds.getD i 0)) := by
    intro d i _
    have hi := getD_mem_range hr i
    have hto : to_int (out.getD i 0 + half) = some (ds.getD i 0) := by
      apply to_int_round hi.1 (by omega)
      rw [hout i]
      simp
    unfold copy_coeff
    simp only [hto]
  rw [foldlM_eq_foldl _ _ _ _ hstep]
  obtain ⟨h1, h2⟩ := foldl_pointwise
    (fun d i => if i = d.length then d ++ [ds.getD i 0] else d.set i (ds.getD i 0))
    (fun i _ => ds.getD i 0) (copy_step_length (fun i => ds.getD i 0))
    (copy_step_getD (fun i => ds.getD i 0)) data out.length
  congr 1
  apply eq_of_getD_eq
  · rw [h1, hlen]
    omega
  · intro j
    rw [h2 j]
    split
    · rfl
    · rw [getD_of_length_le data (by omega), getD_of_length_le ds (by omega)]

theorem value_eq_zero_of_is_zero {x : BigInteger} (h : is_zero x = true) : value x = 0 := by
  have := (is_zero_iff x).mp h
  simp [value, this, limbs_value_cons, limbs_value_nil]

/-- Operator `*=` on canonical magnitudes, for a transform that meets the rounding budget on
this product: a well-formed result that denotes the product, with the XOR of the flags. -/
theorem operator_mul_assign_spec (pm : List ℚ → List ℚ → Nat → List ℚ) {x num : BigInteger}
    (hx : Canonical x.data) (hn : Canonical num.data) (hpm : MulAccurate pm x num) :
    ∃ r, operator_mul_assign pm x num = some r ∧ WellFormed r ∧
      value r = value x * value num ∧
      (value r ≠ 0 → r.is_negative = xor x.is_negative num.is_negative) := by
  unfold operator_mul_assign
  by_cases hz : (is_zero x || is_zero num) = true
  · rw [if_pos hz]
    refine ⟨_, rfl, by decide, ?_, fun h => absurd rfl h⟩
    rw [Bool.or_eq_true] at hz
    rcases hz with h | h
    · rw [value_eq_zero_of_is_zero h, zero_mul]
      rfl
    · rw [value_eq_zero_of_is_zero h, mul_zero]
      rfl
  · rw [if_neg hz]
    rw [Bool.or_eq_true, not_or] at hz
    have hx0 : limbs_value x.data ≠ 0 := fun h =>
      hz.1 ((is_zero_iff x).mpr ((limbs_value_eq_zero_iff hx).mp h))
    have hn0 : limbs_value num.data ≠ 0 := fun h =>
      hz.2 ((is_zero_iff num).mpr ((limbs_value_eq_zero_iff hn).mp h))
    have hxp := limbs_value_nonneg hx.2.1
    have hnp := limbs_value_nonneg hn.2.1
    obtain ⟨hL1, hL2⟩ := optimal_deg2_spec x num.data.length
    obtain ⟨hp1, hp2⟩ := hpm
    generalize optimal_deg2 x num.data.length = deg2 at hL1 hL2 hp1 hp2 ⊢
    generalize hP : pm (build_polynom x (2 ^ deg2)) (build_polynom num (2 ^ deg2)) deg2 = poly
      at hp1 hp2 ⊢
    -- the integer coefficients the transform output stands for
    have hcs : ∃ cs : List Int, cs.length = 2 ^ deg2 ∧
        ∀ k, cs.getD k 0 = if k < 2 ^ deg2 then linear_convolution x.data num.data k else 0 := by
      refine ⟨(List.range (2 ^ deg2)).map (linear_convolution x.data num.data), by simp, ?_⟩
      intro k
      by_cases hk : k < 2 ^ deg2
      · rw [if_pos hk, List.getD_eq_getElem _ _ (by simpa using hk)]
        simp
      · rw [if_neg hk, List.getD_eq_default _ _ (by simp; omega)]
    obtain ⟨cs, hcl, hcg⟩ := hcs
    have hinv : FixInv 0 poly cs := by
      refine ⟨by rw [hp1, hcl], fun j hj => absurd hj (Nat.not_lt_zero j), ?_⟩
      intro j _
      rw [hcg j]
      by_cases hj : j < 2 ^ deg2
      · rw [if_pos hj]
        have := hp2 j hj
        rw [cyclic_eq_linear x num (2 ^ deg2) (by omega) j hj] at this
        refine ⟨this.1, linear_convolution_nonneg hx.2.1 hn.2.1 j, ?_⟩
        have h1 := (abs_lt.mp this.1).1
        have h2 : ((linear_convolution x.data num.data j : Int) : ℚ) < ((2 ^ 62 + 1 : Int) : ℚ) := by
          push_cast
          linarith [this.2]
        have h3 : linear_convolution x.data num.data j < 2 ^ 62 + 1 := by exact_mod_cast h2
        split <;> omega
      · rw [if_neg hj, List.getD_eq_default _ _ (by omega)]
        refine ⟨by simp, le_refl _, ?_⟩
        split <;> omega
    have hcv : limbs_value cs = limbs_value x.data * limbs_value num.data := by
      rw [limbs_value_eq_sum cs (2 ^ deg2) (by omega),
        ← linear_convolution_value x.data num.data (2 ^ deg2) (by omega)]
      apply Finset.sum_congr rfl
      intro k hk
      rw [Finset.mem_range] at hk
      rw [hcg k, if_pos hk]
    have hcb : limbs_value cs < base ^ (2 ^ deg2) := by
      rw [hcv]
      have h1 := limbs_value_lt hx.2.1
      have h2 := limbs_value_lt hn.2.1
      have h3 : base ^ x.data.length * base ^ num.data.length ≤ base ^ (2 ^ deg2) := by
        rw [← pow_add]
        exact pow_le_pow_base (by omega)
      have h4 : limbs_value x.data * limbs_value num.data
          < base ^ x.data.length * base ^ num.data.length :=
        mul_lt_mul'' h1 h2 hxp hnp
      omega
    have hLpos : 0 < 2 ^ deg2 := by positivity
    obtain ⟨out, ds, o1, o2, o3, o4, o5, o6⟩ := fix_polynom_loop_spec (2 ^ deg2)
      (poly.length + 1) 0 poly cs hinv hcl hLpos hcb (by omega)
    have hfix : fix_polynom (poly.length + 1) poly = some out := by
      unfold fix_polynom
      rw [hp1]
      rw [hp1] at o1
      exact o1
    have hcopy := @copy_coeff_foldlM out ds x.data (by rw [o2, o3]) (by omega) o4 o5
    simp only [hP, hfix, hcopy]
    have hdne : ds ≠ [] := by
      intro h
      rw [h] at o3
      simp at o3
      omega
    have hcan := clean_loop_canonical ds.length ds hdne o4 (le_refl _)
    have hval : limbs_value (clean_loop ds.length ds)
        = limbs_value x.data * limbs_value num.data := by
      rw [clean_loop_value, o6, hcv]
    have hpos : 0 < limbs_value x.data * limbs_value num.data :=
      mul_pos (by omega) (by omega)
    refine ⟨_, rfl, ?_, ?_, ?_⟩
    · apply wellFormed_of_canonical_ne_zero
      · exact hcan
      · show limbs_value (clean_loop ds.length ds) ≠ 0
        rw [hval]
        omega
    · simp only [value, clean_trailing_zeros, hval]
      cases x.is_negative <;> cases num.is_negative <;> simp
    · intro _
      simp only [clean_trailing_zeros]
      cases x.is_negative <;> cases num.is_negative <;> rfl

/-- A coefficient of the schoolbook product of limbs in `[0, 9999]` is at most the limb count
of the first operand times `9999 * 9999`. -/
theorem linear_convolution_le : ∀ {xs ys : List Int}, LimbsInRange xs → LimbsInRange ys →
    ∀ k, linear_convolution xs ys k ≤ (xs.length : Int) * 99980001
  | [], _, _, _, k => by
    rw [linear_convolution_nil]
    simp
  | x :: xs, ys, hx, hy, k => by
    rw [linear_convolution_cons]
    have hx0 := limbsInRange_cons.mp hx
    have hy0 := getD_mem_range hy k
    have ih := @linear_convolution_le xs ys hx0.2 hy
    have h1 : x * ys.getD k 0 ≤ 99980001 := by nlinarith [hx0.1.1, hx0.1.2, hy0.1, hy0.2]
    have h2 : (if k = 0 then 0 else linear_convolution xs ys (k - 1))
        ≤ (xs.length : Int) * 99980001 := by
      split
      · positivity
      · exact ih (k - 1)
    rw [List.length_cons]
    push_cast
    omega

/-- The transform without rounding error meets the budget on every product of operands with
limbs in `[0, 9999]` whose coefficients stay below `2 ^ 62`. -/
theorem mulAccurate_exact_transform (x num : BigInteger) (hx : LimbsInRange x.data)
    (hn : LimbsInRange num.data) (hlen : (x.data.length : Int) * 99980001 < 2 ^ 62) :
    MulAccurate exact_transform x num := by
  obtain ⟨hL1, hL2⟩ := optimal_deg2_spec x num.data.length
  unfold MulAccurate exact_transform
  refine ⟨by simp, ?_⟩
  intro k hk
  rw [List.getD_eq_getElem _ _ (by simpa using hk)]
  simp only [List.getElem_map, List.getElem_range, sub_self, abs_zero]
  refine ⟨by norm_num, ?_⟩
  rw [cyclic_eq_linear x num _ (by omega) k hk]
  have h1 := linear_convolution_le hx hn k
  have h2 : linear_convolution x.data num.data k < 2 ^ 62 := by omega
  exact_mod_cast h2

/-- The transform without rounding error meets the budget on every product of canonical
magnitudes below `base ^ n`, for `n` limbs whose coefficients stay below `2 ^ 62`. -/
theorem accurateBelow_exact_transform (B : Int) (n : Nat) (hB : B < base ^ n)
    (hr : (n : Int) * 99980001 < 2 ^ 62) : AccurateBelow exact_transform B := by
  intro x num hx hnum hxB _
  apply mulAccurate_exact_transform x num hx.2.1 hnum.2.1
  have hlen : x.data.length ≤ max n 1 := by
    by_contra hc
    have hb := canonical_value_bounds hx
    have h0 : limbs_value x.data ≠ 0 := by
      intro h1
      have := hb.2.2 h1
      rw [this] at hc
      simp at hc
    have h2 := hb.2.1 h0
    have h3 : base ^ n ≤ base ^ (x.data.length - 1) := pow_le_pow_base (by omega)
    omega
  have h4 : (x.data.length : Int) ≤ max (n : Int) 1 := by exact_mod_cast hlen
  rcases max_cases (n : Int) 1 with ⟨h5, _⟩ | ⟨h5, _⟩ <;> rw [h5] at h4 <;> omega

/-- A budget asked of every value an evaluation returns holds when it holds of the one value
the evaluation does return. -/
theorem mulAccurate_of_eq_some (pm : List ℚ → List ℚ → Nat → List ℚ) {o : Option BigInteger}
    {q0 num : BigInteger} (e : o = some q0) (h : MulAccurate pm q0 num) :
    ∀ q, o = some q → MulAccurate pm q num := by
  intro q hq
  rw [e] at hq
  rw [← Option.some.inj hq]
  exact h

/-- Truncated remainder of signed integers through their magnitudes. -/
theorem tmod_of_signs (na nb : Bool) {N M : Int} (hN : 0 ≤ N) (hM : 0 ≤ M) :
    ((if na then -N else N) : Int).tmod (if nb then -M else M)
      = if na then -(N % M) else N % M := by
  have h1 : ∀ a b : Int, a.tmod b = a - b * a.tdiv b := Int.tmod_def
  have h2 : N % M = N - M * (N / M) := by
    have := Int.emod_add_ediv N M
    omega
  cases na <;> cases nb <;>
    simp only [h1, h2, Int.neg_tdiv, Int.tdiv_neg, Int.tdiv_eq_ediv hN hM, if_true, if_false,
      Bool.false_eq_true] <;> ring

/-- The two magnitudes divided by `operator %=` give the magnitude of the signed quotient. -/
theorem data_div_clear_sign {a b : BigInteger} (ha : WellFormed a) (hb : WellFormed b)
    (hb0 : value b ≠ 0) (fuel : Nat) (hf : get_digits_number a < fuel) {q q1 : BigInteger}
    (hq : operator_div_assign fuel a b = some q)
    (hq1 : operator_div_assign fuel { a with is_negative := false }
      { b with is_negative := false } = some q1) : q1.data = q.data := by
  have hca := canonical_of_wellFormed ha
  have hcb := canonical_of_wellFormed hb
  have hN := limbs_value_nonneg hca.2.1
  have hM := limbs_value_nonneg hcb.2.1
  have hb1 : value { b with is_negative := false } ≠ 0 := by
    rw [value_clear_sign]
    intro h
    apply hb0
    simp [value, h]
  obtain ⟨r, e1, e2, e3, _⟩ := operator_div_assign_spec ha hb hb0 fuel hf
  obtain ⟨r1, f1, f2, f3, _⟩ := operator_div_assign_spec (wellFormed_clear_sign ha)
    (wellFormed_clear_sign hb) hb1 fuel hf
  rw [hq] at e1
  rw [hq1] at f1
  have e1 := Option.some.inj e1
  have f1 := Option.some.inj f1
  subst e1 f1
  apply canonical_eq_of_value_eq (canonical_of_wellFormed f2) (canonical_of_wellFormed e2)
  rw [← abs_value q1 f2.2.1, ← abs_value q e2.2.1, f3, e3, value_clear_sign, value_clear_sign]
  have hva : value a = if a.is_negative then -limbs_value a.data else limbs_value a.data := rfl
  have hvb : value b = if b.is_negative then -limbs_value b.data else limbs_value b.data := rfl
  rw [hva, hvb, tdiv_of_signs _ _ hN hM, Int.tdiv_eq_ediv hN hM]
  cases a.is_negative <;> cases b.is_negative <;> simp

/-- The rounding budget of a product depends on the limbs of the operands only. -/
theorem mulAccurate_of_data (pm : List ℚ → List ℚ → Nat → List ℚ) {x y num num1 : BigInteger}
    (hx : y.data = x.data) (hn : num1.data = num.data) (h : MulAccurate pm x num) :
    MulAccurate pm y num1 := by
  unfold MulAccurate optimal_deg2 build_polynom at h ⊢
  rw [hx, hn]
  exact h

/-- Operator `%=` on well-formed operands with a non-zero divisor, for a transform that meets
the rounding budget on quotient times divisor: the magnitude is the remainder of the
magnitudes, in canonical form, and the flag is the dividend's. -/
theorem operator_mod_assign_spec (pm : List ℚ → List ℚ → Nat → List ℚ) {a b : BigInteger}
    (ha : WellFormed a) (hb : WellFormed b) (hb0 : value b ≠ 0) (fuel : Nat)
    (hf : get_digits_number a < fuel)
    (hpm : ∀ q, operator_div_assign fuel a b = some q → MulAccurate pm q b) :
    ∃ r, operator_mod_assign pm fuel a b = some r ∧ Canonical r.data ∧
      r.is_negative = a.is_negative ∧
      limbs_value r.data = limbs_value a.data % limbs_value b.data := by
  have hca := canonical_of_wellFormed ha
  have hcb := canonical_of_wellFormed hb
  have hN := limbs_value_nonneg hca.2.1
  have hM := limbs_value_nonneg hcb.2.1
  have hb1 : value { b with is_negative := false } ≠ 0 := by
    rw [value_clear_sign]
    intro h
    apply hb0
    simp [value, h]
  obtain ⟨q, e1, _, _, _⟩ := operator_div_assign_spec ha hb hb0 fuel hf
  obtain ⟨q1, f1, f2, f3, _⟩ := operator_div_assign_spec (wellFormed_clear_sign ha)
    (wellFormed_clear_sign hb) hb1 fuel hf
  have hdata := data_div_clear_sign ha hb hb0 fuel hf e1 f1
  have hacc : MulAccurate pm q1 { b with is_negative := false } :=
    mulAccurate_of_data pm hdata rfl (hpm q e1)
  obtain ⟨p, g1, g2, g3, _⟩ := operator_mul_assign_spec pm (canonical_of_wellFormed f2)
    (show Canonical ({ b with is_negative := false } : BigInteger).data from hcb) hacc
  obtain ⟨r, k1, k2, k3, k4⟩ := operator_minus_assign_spec
    (show Canonical ({ a with is_negative := false } : BigInteger).data from hca)
    (canonical_of_wellFormed g2)
  have hrw := k4 (wellFormed_clear_sign ha)
  rw [value_clear_sign, value_clear_sign, Int.tdiv_eq_ediv hN hM] at f3
  rw [value_clear_sign] at g3 k3
  have hrv : value r = limbs_value a.data % limbs_value b.data := by
    rw [k3, g3, f3]
    have := Int.emod_add_ediv (limbs_value a.data) (limbs_value b.data)
    linarith [mul_comm (limbs_value b.data) (limbs_value a.data / limbs_value b.data)]
  have hr0 : 0 ≤ value r := by
    rw [hrv]
    exact Int.emod_nonneg _ (by
      intro h
      apply hb0
      simp [value, h])
  unfold operator_mod_assign
  simp only [f1, g1, k1]
  refine ⟨_, rfl, k2, rfl, ?_⟩
  show limbs_value r.data = _
  rw [← value_eq_limbs_of_nonneg hrw hr0, hrv]

/-- Evaluation of operator `%=`: the result is the dividend's flag over the canonical limbs of
the remainder of the magnitudes. -/
theorem operator_mod_assign_eval (pm : List ℚ → List ℚ → Nat → List ℚ) {a b : BigInteger}
    (ha : WellFormed a) (hb : WellFormed b) (hb0 : value b ≠ 0) (fuel : Nat)
    (hf : get_digits_number a < fuel)
    (hpm : ∀ q, operator_div_assign fuel a b = some q → MulAccurate pm q b) {d : List Int}
    (hd : Canonical d) (hv : limbs_value d = limbs_value a.data % limbs_value b.data) :
    operator_mod_assign pm fuel a b = some (BigInteger.mk a.is_negative d) := by
  obtain ⟨r, h1, h2, h3, h4⟩ := operator_mod_assign_spec pm ha hb hb0 fuel hf hpm
  rw [h1]
  congr 1
  exact eq_of_fields h3 (canonical_eq_of_value_eq h2 hd (by rw [h4, hv]))

/-- Evaluation of operator `*=` on non-zero operands: the XOR of the flags over the canonical
limbs of the product of the magnitudes. -/
theorem operator_mul_assign_eval (pm : List ℚ → List ℚ → Nat → List ℚ) {x num : BigInteger}
    (hx : Canonical x.data) (hn : Canonical num.data) (hpm : MulAccurate pm x num)
    {d : List Int} (hd : Canonical d)
    (hv : limbs_value d = limbs_value x.data * limbs_value num.data) (h0 : limbs_value d ≠ 0) :
    operator_mul_assign pm x num = some (BigInteger.mk (xor x.is_negative num.is_negative) d) := by
  obtain ⟨r, h1, h2, h3, h4⟩ := operator_mul_assign_spec pm hx hn hpm
  have hxr := abs_value x hx.2.1
  have hnr := abs_value num hn.2.1
  have hrr := abs_value r h2.2.1
  have hlv : limbs_value r.data = limbs_value d := by
    rw [← hrr, h3, abs_mul, hxr, hnr, hv]
  have hr0 : value r ≠ 0 := by
    intro h
    rw [h] at hrr
    simp at hrr
    omega
  rw [h1]
  congr 1
  exact eq_of_fields (h4 hr0) (canonical_eq_of_value_eq (canonical_of_wellFormed h2) hd hlv)

/-! ### Well-formedness of `shift`, the comparison `>`, remainders of multiples -/

theorem limbs_value_ne_zero_of_value {x : BigInteger} (h : value x ≠ 0) :
    limbs_value x.data ≠ 0 := by
  intro hl
  apply h
  unfold value
  rw [hl]
  simp

/-- Method `shift` keeps well-formed values well-formed. -/
theorem wellFormed_shift {x : BigInteger} (h : WellFormed x) (pow10 : Nat) :
    WellFormed (shift x pow10) := by
  by_cases h0 : x = of_int 0
  · unfold shift
    rw [if_pos h0]
    exact h
  · have hv : value x ≠ 0 := fun hv => h0 ((eq_of_int_zero_iff h).mpr hv)
    have hl := limbs_value_ne_zero_of_value hv
    obtain ⟨_, h2, h3⟩ := shift_spec (canonical_of_wellFormed h) hl pow10
    apply wellFormed_of_canonical_ne_zero h2
    rw [h3]
    exact mul_ne_zero hl (by positivity)

theorem operator_gt_iff {x y : BigInteger} (hx : WellFormed x) (hy : WellFormed y) :
    operator_gt x y = true ↔ value y < value x := by
  unfold operator_gt
  rw [operator_spaceship_eq_compare hx hy, decide_eq_true_iff, compare_gt_iff_gt]

theorem is_zero_eq_false_of_value {x : BigInteger} (h : value x ≠ 0) : is_zero x = false := by
  cases hz : is_zero x
  · rfl
  · exact absurd (value_eq_zero_of_is_zero hz) h

/-- The sign flag `operator *=` leaves on non-zero operands is the XOR of their flags, whatever
the transform returns. -/
theorem operator_mul_assign_flag (pm : List ℚ → List ℚ → Nat → List ℚ) {x num r : BigInteger}
    (hx : is_zero x = false) (hn : is_zero num = false)
    (h : operator_mul_assign pm x num = some r) :
    r.is_negative = xor x.is_negative num.is_negative := by
  unfold operator_mul_assign at h
  rw [hx, hn] at h
  simp only [Bool.or_self, Bool.false_eq_true, if_false] at h
  split at h
  · exact Option.noConfusion h
  · split at h
    · exact Option.noConfusion h
    · have h1 := Option.some.inj h
      rw [← h1]
      unfold clean_trailing_zeros
      cases x.is_negative <;> cases num.is_negative <;> rfl

/-- Operator `*=` with a zero operand returns the canonical zero, whatever the transform. -/
theorem operator_mul_assign_zero (pm : List ℚ → List ℚ → Nat → List ℚ) (x num : BigInteger)
    (h : is_zero x = true ∨ is_zero num = true) :
    operator_mul_assign pm x num = some (BigInteger.mk false [0]) := by
  unfold operator_mul_assign
  have : (is_zero x || is_zero num) = true := by
    rcases h with h | h <;> simp [h]
  rw [if_pos this]

/-- Operator `%=` on a multiple of the divisor: the single limb 0 with the flag of the
dividend. -/
theorem operator_mod_assign_of_dvd (pm : List ℚ → List ℚ → Nat → List ℚ) {a b : BigInteger}
    (ha : WellFormed a) (hb : WellFormed b) (hb0 : value b ≠ 0) (hdvd : value b ∣ value a)
    (fuel : Nat) (hf : get_digits_number a < fuel)
    (hpm : ∀ q, operator_div_assign fuel a b = some q → MulAccurate pm q b) :
    operator_mod_assign pm fuel a b = some (BigInteger.mk a.is_negative [0]) := by
  apply operator_mod_assign_eval pm ha hb hb0 fuel hf hpm canonical_zero
  have h1 := abs_value a ha.2.1
  have h2 := abs_value b hb.2.1
  have h3 : limbs_value b.data ∣ limbs_value a.data := by
    rw [← h1, ← h2]
    exact (abs_dvd_abs _ _).mpr hdvd
  rw [Int.emod_eq_zero_of_dvd h3]
  rfl

/-! ### Rational: `abs`, `change_sign`, and the zero numerator -/

theorem get_digits_number_le {x : BigInteger} (h : Canonical x.data) :
    (get_digits_number x : Int) ≤ limbs_value x.data + 1 := by
  by_cases h0 : limbs_value x.data = 0
  · have hd := (limbs_value_eq_zero_iff h).mp h0
    have h1 : get_digits_number x = 1 := by
      unfold get_digits_number
      rw [hd]
      decide
    rw [h1, h0]
    norm_num
  · obtain ⟨h1, h2, _⟩ := get_digits_number_spec h h0
    have h3 : get_digits_number x - 1 < 10 ^ (get_digits_number x - 1) :=
      Nat.lt_pow_self (by norm_num) _
    have h4 : ((get_digits_number x - 1 : Nat) : Int) < (10 : Int) ^ (get_digits_number x - 1) := by
      exact_mod_cast h3
    generalize (10 : Int) ^ (get_digits_number x - 1) = P at h2 h4
    omega

theorem value_ne_zero_of_is_zero_false {x : BigInteger} (h : Canonical x.data)
    (hz : is_zero x = false) : value x ≠ 0 := by
  intro hv
  have hl : limbs_value x.data = 0 := by
    unfold value at hv
    split at hv <;> omega
  have := (is_zero_iff x).mpr ((limbs_value_eq_zero_iff h).mp hl)
  rw [hz] at this
  exact Bool.noConfusion this

theorem wellFormed_of_canonical_nonneg {x : BigInteger} (h : Canonical x.data)
    (hn : x.is_negative = false) : WellFormed x :=
  ⟨h.1, h.2.1, h.2.2, fun _ => hn⟩

/-- Function `abs` on a well-formed value. -/
theorem abs_spec {x : BigInteger} (h : WellFormed x) :
    WellFormed (abs x) ∧ 0 ≤ value (abs x) ∧ value (abs x) = |value x| := by
  have h0 : WellFormed (of_int 0) := by decide
  have hz : value (of_int 0) = 0 := by decide
  unfold abs
  by_cases hlt : operator_lt x (of_int 0) = true
  · rw [if_pos hlt]
    have hv := (operator_lt_iff h h0).mp hlt
    rw [hz] at hv
    have hval := value_operator_unary_minus x
    refine ⟨wellFormed_operator_unary_minus h, by rw [hval]; omega, ?_⟩
    rw [hval, abs_of_neg hv]
  · rw [if_neg hlt]
    have hv : 0 ≤ value x := by
      by_contra hc
      apply hlt
      rw [operator_lt_iff h h0, hz]
      omega
    exact ⟨h, hv, (abs_of_nonneg hv).symm⟩

/-- Function `abs` on a zero limb: the argument, with its sign flag. -/
theorem abs_of_data_zero {x : BigInteger} (h : x.data = [0]) : abs x = x := by
  obtain ⟨f, d⟩ := x
  simp only at h
  subst h
  cases f <;> decide

theorem value_change_sign (x : BigInteger) : value (change_sign x) = -value x := by
  unfold change_sign value
  cases x.is_negative <;> simp

theorem data_change_sign (x : BigInteger) : (change_sign x).data = x.data := rfl

theorem value_of_data_zero {x : BigInteger} (h : x.data = [0]) : value x = 0 := by
  unfold value
  rw [h]
  simp [limbs_value_cons, limbs_value_nil]

/-- Operator `/=` on a zero limb (whatever its sign flag): the canonical zero. -/
theorem operator_div_assign_zero_data (fuel : Nat) {x : BigInteger} (hx : x.data = [0])
    (num : BigInteger) : operator_div_assign fuel x num = some (BigInteger.mk false [0]) := by
  obtain ⟨f, d⟩ := x
  simp only at hx
  subst hx
  rfl

/-- Operator `%=` on a zero limb (whatever its sign flag): a zero limb with the same flag. -/
theorem operator_mod_assign_zero_data (pm : List ℚ → List ℚ → Nat → List ℚ) (fuel : Nat)
    {x : BigInteger} (hx : x.data = [0]) (num : BigInteger) :
    operator_mod_assign pm fuel x num = some (BigInteger.mk x.is_negative [0]) := by
  unfold operator_mod_assign
  have h1 : operator_div_assign fuel { x with is_negative := false }
      { num with is_negative := false } = some (BigInteger.mk false [0]) :=
    @operator_div_assign_zero_data fuel { x with is_negative := false } hx _
  have h2 : operator_mul_assign pm (BigInteger.mk false [0]) { num with is_negative := false }
      = some (BigInteger.mk false [0]) :=
    operator_mul_assign_zero pm _ _ (Or.inl (by decide))
  have h3 : operator_minus_assign { x with is_negative := false } (BigInteger.mk false [0])
      = some (BigInteger.mk false [0]) := by
    rw [show ({ x with is_negative := false } : BigInteger) = BigInteger.mk false [0] from
      eq_of_fields rfl hx]
    decide
  simp only [h1, h2, h3]

theorem int_gcd_rec {a b : Int} (ha : 0 ≤ a) (hb : 0 ≤ b) :
    Int.gcd a b = Int.gcd b (a % b) := by
  obtain ⟨m, rfl⟩ := Int.eq_ofNat_of_zero_le ha
  obtain ⟨n, rfl⟩ := Int.eq_ofNat_of_zero_le hb
  rw [← Int.natCast_mod, Int.gcd_natCast_natCast, Int.gcd_natCast_natCast, Nat.gcd_comm,
    Nat.gcd_rec, Nat.gcd_comm]

end BigInteger

namespace Rational
open BigInteger

/-! ### Rational: `gcd` and `reduce` -/

/-- Method `gcd` on well-formed non-negative values: it returns (within the recursion depth
`value num2 + 1`) a well-formed value that denotes the greatest common divisor. -/
theorem gcd_spec (pm : List ℚ → List ℚ → Nat → List ℚ) (B : Int) (hpm : AccurateBelow pm B)
    (fuel : Nat) (hf : B + 1 < fuel) :
    ∀ (depth : Nat) (n1 n2 : BigInteger), WellFormed n1 → WellFormed n2 → 0 ≤ value n1 →
      0 ≤ value n2 → value n1 + value n2 ≤ B → value n2 < depth →
      ∃ g, gcd pm fuel depth n1 n2 = some g ∧ WellFormed g ∧ 0 ≤ value g ∧
        value g = Int.gcd (value n1) (value n2) := by
  intro depth
  induction depth with
  | zero =>
    intro n1 n2 _ _ _ h2 _ hd
    omega
  | succ depth ih =>
    intro n1 n2 w1 w2 h1 h2 hB hd
    unfold gcd
    by_cases hz : is_zero n2 = true
    · have hv2 := value_eq_zero_of_is_zero hz
      simp only [operator_bool, hz, Bool.not_true, Bool.not_false, if_true]
      refine ⟨n1, rfl, w1, h1, ?_⟩
      rw [hv2, Int.gcd_zero_right]
      omega
    · have hz1 : is_zero n2 = false := by simpa using hz
      have c1 := canonical_of_wellFormed w1
      have c2 := canonical_of_wellFormed w2
      have hv2 := value_ne_zero_of_is_zero_false c2 hz1
      have e1 := value_eq_limbs_of_nonneg w1 h1
      have e2 := value_eq_limbs_of_nonneg w2 h2
      have hfuel : get_digits_number n1 < fuel := by
        have := get_digits_number_le c1
        omega
      have hacc : ∀ q, BigInteger.operator_div_assign fuel n1 n2 = some q →
          MulAccurate pm q n2 := by
        intro q hq
        obtain ⟨q1, q2, q3, q4, _⟩ := operator_div_assign_spec w1 w2 hv2 fuel hfuel
        rw [hq] at q2
        have hqq : q = q1 := Option.some.inj q2
        rw [hqq]
        have hq0 : 0 ≤ value q1 := by
          rw [q4, Int.tdiv_eq_ediv h1 h2]
          exact Int.ediv_nonneg h1 h2
        have hqle : value q1 ≤ value n1 := by
          rw [q4, Int.tdiv_eq_ediv h1 h2]
          exact Int.ediv_le_self _ h1
        apply hpm q1 n2 (canonical_of_wellFormed q3) c2
        · rw [← value_eq_limbs_of_nonneg q3 hq0]
          omega
        · omega
      obtain ⟨r, r1, r2, r3, r4⟩ := operator_mod_assign_spec pm w1 w2 hv2 fuel hfuel hacc
      have hrn : r.is_negative = false := by
        rw [r3]
        exact is_negative_of_value_nonneg w1 h1
      have wr := wellFormed_of_canonical_nonneg r2 hrn
      have hrv : value r = value n1 % value n2 := by
        rw [value_eq_limbs_of_nonneg wr (value_nonneg_of_nonneg r2.2.1 hrn), r4, ← e1, ← e2]
      have hpos : 0 < value n2 := by omega
      have hr0 : 0 ≤ value r := by
        rw [hrv]
        exact Int.emod_nonneg _ hv2
      have hrlt : value r < value n2 := by
        rw [hrv]
        exact Int.emod_lt_of_pos _ hpos
      have hrle : value r ≤ value n1 := by
        rw [hrv]
        have h3 := Int.emod_add_ediv (value n1) (value n2)
        have h4 : 0 ≤ value n2 * (value n1 / value n2) :=
          mul_nonneg h2 (Int.ediv_nonneg h1 h2)
        omega
      obtain ⟨g, g1, g2, g3, g4⟩ := ih n2 r w2 wr h2 hr0 (by omega) (by omega)
      simp only [operator_bool, hz1, Bool.not_false, Bool.not_true, Bool.false_eq_true,
        if_false]
      unfold operator_mod
      rw [r1]
      refine ⟨g, g1, g2, g3, ?_⟩
      rw [g4, hrv, ← int_gcd_rec h1 h2]

/-- Method `gcd` with a zero limb (whatever its sign flag) as first argument and a non-zero
second argument: the second argument. -/
theorem gcd_zero_left (pm : List ℚ → List ℚ → Nat → List ℚ) (fuel depth : Nat)
    {n1 n2 : BigInteger} (h1 : n1.data = [0]) (h2 : is_zero n2 = false) :
    gcd pm fuel (depth + 2) n1 n2 = some n2 := by
  unfold gcd
  simp only [operator_bool, h2, Bool.not_false, Bool.not_true, Bool.false_eq_true, if_false]
  unfold operator_mod
  rw [operator_mod_assign_zero_data pm fuel h1 n2]
  unfold gcd
  have hz : is_zero (BigInteger.mk n1.is_negative [0]) = true := by
    cases n1.is_negative <;> decide
  simp only [operator_bool, hz, Bool.not_true, Bool.not_false, if_true]

theorem int_gcd_abs_left (a b : Int) : Int.gcd |a| b = Int.gcd a b := by
  simp [Int.gcd, Int.natAbs_abs]

/-- Method `reduce` on a canonical numerator (a zero limb may carry a sign flag) and a
well-formed positive denominator: it returns the reduced form, numerator and denominator
divided by their greatest common divisor. -/
theorem reduce_spec (pm : List ℚ → List ℚ → Nat → List ℚ) (B : Int) (hpm : AccurateBelow pm B)
    (fuel : Nat) (hf : B + 1 < fuel) (x : Rational) (hn : Canonical x.numerator.data)
    (hd : WellFormed x.denominator) (hpos : 0 < value x.denominator)
    (hB : |value x.numerator| + value x.denominator ≤ B) :
    ∃ r, reduce pm fuel x = some r ∧ Reduced r ∧
      value r.numerator
        = value x.numerator / (Int.gcd (value x.numerator) (value x.denominator) : Int) ∧
      value r.denominator
        = value x.denominator / (Int.gcd (value x.numerator) (value x.denominator) : Int) := by
  have hcd := canonical_of_wellFormed hd
  have hd0 : value x.denominator ≠ 0 := by omega
  have hdl := value_eq_limbs_of_nonneg hd (le_of_lt hpos)
  have habs0 : 0 ≤ |value x.numerator| := abs_nonneg _
  have hfd : get_digits_number x.denominator < fuel := by
    have := get_digits_number_le hcd
    omega
  by_cases hz : x.numerator.data = [0]
  · have hvn := value_of_data_zero hz
    obtain ⟨k, hk⟩ : ∃ k, fuel = k + 2 := ⟨fuel - 2, by omega⟩
    have hg : gcd pm fuel fuel (BigInteger.abs x.numerator) x.denominator
        = some x.denominator := by
      rw [abs_of_data_zero hz]
      nth_rewrite 2 [hk]
      exact gcd_zero_left pm fuel k hz (is_zero_eq_false_of_value hd0)
    have hn1 := operator_div_assign_zero_data fuel hz x.denominator
    obtain ⟨q, q1, q2, q3, _⟩ := operator_div_assign_spec hd hd hd0 fuel hfd
    have hq : value q = 1 := by
      rw [q3, Int.tdiv_self hd0]
    refine ⟨{ numerator := BigInteger.mk false [0], denominator := q }, ?_, ?_, ?_, ?_⟩
    · unfold reduce
      simp only [hg, hn1, q1]
    · have hw0 : WellFormed (BigInteger.mk false [0]) := by decide
      refine ⟨hw0, q2, by simp only []; omega, ?_⟩
      simp only []
      rw [hq]
      simp [Int.gcd]
    · simp only []
      rw [hvn]
      simp [value, limbs_value_cons, limbs_value_nil]
    · simp only []
      rw [hq, hvn, Int.gcd_zero_left, Int.natCast_natAbs, abs_of_pos hpos, Int.ediv_self hd0]
  · have hl : limbs_value x.numerator.data ≠ 0 := fun h => hz ((limbs_value_eq_zero_iff hn).mp h)
    have wn := wellFormed_of_canonical_ne_zero hn hl
    obtain ⟨a1, a2, a3⟩ := abs_spec wn
    obtain ⟨g, g1, g2, g3, g4⟩ := gcd_spec pm B hpm fuel hf fuel (BigInteger.abs x.numerator)
      x.denominator a1 hd a2 (le_of_lt hpos) (by rw [a3]; exact hB) (by omega)
    rw [a3, int_gcd_abs_left] at g4
    have hgpos : 0 < Int.gcd (value x.numerator) (value x.denominator) :=
      Int.gcd_pos_of_ne_zero_right _ hd0
    have hg0 : value g ≠ 0 := by
      rw [g4]
      omega
    have hfn : get_digits_number x.numerator < fuel := by
      have h1 := get_digits_number_le hn
      have h2 := abs_value x.numerator hn.2.1
      omega
    obtain ⟨n1, n2, n3, n4, _⟩ := operator_div_assign_spec wn g2 hg0 fuel hfn
    obtain ⟨d1, d2, d3, d4, _⟩ := operator_div_assign_spec hd g2 hg0 fuel hfd
    have hdvn : (Int.gcd (value x.numerator) (value x.denominator) : Int) ∣ value x.numerator :=
      Int.gcd_dvd_left
    have hdvd : (Int.gcd (value x.numerator) (value x.denominator) : Int)
        ∣ value x.denominator := Int.gcd_dvd_right
    rw [g4, Int.tdiv_eq_ediv_of_dvd hdvn] at n4
    rw [g4, Int.tdiv_eq_ediv_of_dvd hdvd] at d4
    refine ⟨{ numerator := n1, denominator := d1 }, ?_, ?_, n4, d4⟩
    · unfold reduce
      simp only [g1, n2, d2]
    · refine ⟨n3, d3, ?_, ?_⟩
      · simp only []
        rw [d4]
        exact Int.ediv_pos_of_pos_of_dvd hpos (by omega) hdvd
      · simp only []
        rw [n4, d4]
        exact Int.gcd_div_gcd_div_gcd hgpos

/-! ### Rational: the four operators -/

theorem operand_bound_facts {a b c d : Int} (ha : 0 ≤ a) (hb : 1 ≤ b) (hc : 0 ≤ c)
    (hd : 1 ≤ d) :
    a ≤ (a + b) * (c + d) ∧ b ≤ (a + b) * (c + d) ∧ c ≤ (a + b) * (c + d) ∧
    d ≤ (a + b) * (c + d) ∧ a * d + b * c + b * d ≤ (a + b) * (c + d) ∧
    a * c + b * d ≤ (a + b) * (c + d) ∧ a * d + b * c ≤ (a + b) * (c + d) := by
  have h1 : 0 ≤ a * c := mul_nonneg ha hc
  have h2 : a ≤ a * d := by nlinarith
  have h3 : c ≤ b * c := by nlinarith
  have h4 : b ≤ b * d := by nlinarith
  have h5 : d ≤ b * d := by nlinarith
  have e : (a + b) * (c + d) = a * c + a * d + b * c + b * d := by ring
  rw [e]
  refine ⟨?_, ?_, ?_, ?_, ?_, ?_, ?_⟩ <;> linarith

theorem operand_limbs_le (x num : Rational) (hxn : Canonical x.numerator.data)
    (hxd : WellFormed x.denominator) (hxp : 0 < value x.denominator)
    (hnn : Canonical num.numerator.data) (hnd : WellFormed num.denominator)
    (hnp : 0 < value num.denominator) :
    limbs_value x.numerator.data ≤ operand_bound x num ∧
    limbs_value x.denominator.data ≤ operand_bound x num ∧
    limbs_value num.numerator.data ≤ operand_bound x num ∧
    limbs_value num.denominator.data ≤ operand_bound x num := by
  obtain ⟨f1, f2, f3, f4, _⟩ := operand_bound_facts (abs_nonneg (value x.numerator))
    (show (1 : Int) ≤ value x.denominator by omega) (abs_nonneg (value num.numerator))
    (show (1 : Int) ≤ value num.denominator by omega)
  rw [← abs_value x.numerator hxn.2.1, ← abs_value num.numerator hnn.2.1,
    ← value_eq_limbs_of_nonneg hxd (le_of_lt hxp), ← value_eq_limbs_of_nonneg hnd (le_of_lt hnp)]
  exact ⟨f1, f2, f3, f4⟩

theorem cross_mul_of_div {N D n d : Int} (hn : n = N / (Int.gcd N D : Int))
    (hd : d = D / (Int.gcd N D : Int)) : n * D = N * d := by
  have hN : (Int.gcd N D : Int) ∣ N := Int.gcd_dvd_left
  have hD : (Int.gcd N D : Int) ∣ D := Int.gcd_dvd_right
  calc n * D = N / (Int.gcd N D : Int) * (D / (Int.gcd N D : Int) * (Int.gcd N D : Int)) := by
        rw [hn, Int.ediv_mul_cancel hD]
    _ = N / (Int.gcd N D : Int) * (Int.gcd N D : Int) * (D / (Int.gcd N D : Int)) := by ring
    _ = N * d := by rw [Int.ediv_mul_cancel hN, hd]

/-- Operator `+=` of `Rational`, on canonical numerators and well-formed positive denominators:
the reduced form of the sum. -/
theorem rational_plus_assign_spec (pm : List ℚ → List ℚ → Nat → List ℚ) (fuel : Nat)
    (x num : Rational) (hxn : Canonical x.numerator.data) (hxd : WellFormed x.denominator)
    (hxp : 0 < value x.denominator) (hnn : Canonical num.numerator.data)
    (hnd : WellFormed num.denominator) (hnp : 0 < value num.denominator)
    (hpm : AccurateBelow pm (operand_bound x num)) (hf : operand_bound x num + 1 < fuel) :
    ∃ r, operator_plus_assign pm fuel x num = some r ∧ Reduced r ∧
      value r.numerator * (value x.denominator * value num.denominator)
        = (value x.numerator * value num.denominator
            + value x.denominator * value num.numerator) * value r.denominator := by
  obtain ⟨l1, l2, l3, l4⟩ := operand_limbs_le x num hxn hxd hxp hnn hnd hnp
  have cxd := canonical_of_wellFormed hxd
  have cnd := canonical_of_wellFormed hnd
  obtain ⟨p1, p11, p12, p13, _⟩ :=
    operator_mul_assign_spec pm hxn cnd (hpm _ _ hxn cnd l1 l4)
  obtain ⟨p2, p21, p22, p23, _⟩ :=
    operator_mul_assign_spec pm cxd hnn (hpm _ _ cxd hnn l2 l3)
  obtain ⟨s, s1, s2, s3, _⟩ :=
    operator_plus_assign_spec (canonical_of_wellFormed p12) (canonical_of_wellFormed p22)
  obtain ⟨p3, p31, p32, p33, _⟩ :=
    operator_mul_assign_spec pm cxd cnd (hpm _ _ cxd cnd l2 l4)
  have hbound : |value s| + value p3 ≤ operand_bound x num := by
    obtain ⟨_, _, _, _, f5, _⟩ := operand_bound_facts (abs_nonneg (value x.numerator))
      (show (1 : Int) ≤ value x.denominator by omega) (abs_nonneg (value num.numerator))
      (show (1 : Int) ≤ value num.denominator by omega)
    have h1 := abs_add (value x.numerator * value num.denominator)
      (value x.denominator * value num.numerator)
    rw [abs_mul, abs_mul, abs_of_pos hxp, abs_of_pos hnp] at h1
    rw [s3, p13, p23, p33]
    unfold operand_bound
    linarith
  obtain ⟨r, r1, r2, r3, r4⟩ := reduce_spec pm _ hpm fuel hf
    { numerator := s, denominator := p3 } s2 p32 (by rw [p33]; positivity) hbound
  refine ⟨r, ?_, r2, ?_⟩
  · unfold operator_plus_assign BigInteger.operator_mul BigInteger.operator_plus
    simp only [p11, p21, s1, p31, r1]
  · have := cross_mul_of_div r3 r4
    simp only [s3, p13, p23, p33] at this
    exact this

theorem operand_bound_unary_minus (x num : Rational) :
    operand_bound x (operator_unary_minus num) = operand_bound x num := by
  unfold operand_bound operator_unary_minus
  simp only [value_change_sign, abs_neg]

/-- Operator `-=` of `Rational`: the reduced form of the difference. -/
theorem rational_minus_assign_spec (pm : List ℚ → List ℚ → Nat → List ℚ) (fuel : Nat)
    (x num : Rational) (hxn : Canonical x.numerator.data) (hxd : WellFormed x.denominator)
    (hxp : 0 < value x.denominator) (hnn : Canonical num.numerator.data)
    (hnd : WellFormed num.denominator) (hnp : 0 < value num.denominator)
    (hpm : AccurateBelow pm (operand_bound x num)) (hf : operand_bound x num + 1 < fuel) :
    ∃ r, operator_minus_assign pm fuel x num = some r ∧ Reduced r ∧
      value r.numerator * (value x.denominator * value num.denominator)
        = (value x.numerator * value num.denominator
            - value x.denominator * value num.numerator) * value r.denominator := by
  have hb := operand_bound_unary_minus x num
  obtain ⟨r, r1, r2, r3⟩ := rational_plus_assign_spec pm fuel x (operator_unary_minus num)
    hxn hxd hxp hnn hnd hnp (by rw [hb]; exact hpm) (by rw [hb]; exact hf)
  refine ⟨r, r1, r2, ?_⟩
  have e1 : value (operator_unary_minus num).numerator = -value num.numerator :=
    value_change_sign _
  have e2 : (operator_unary_minus num).denominator = num.denominator := rfl
  rw [e1, e2] at r3
  rw [r3]
  ring

/-- Operator `*=` of `Rational`: the reduced form of the product. -/
theorem rational_mul_assign_spec (pm : List ℚ → List ℚ → Nat → List ℚ) (fuel : Nat)
    (x num : Rational) (hxn : Canonical x.numerator.data) (hxd : WellFormed x.denominator)
    (hxp : 0 < value x.denominator) (hnn : Canonical num.numerator.data)
    (hnd : WellFormed num.denominator) (hnp : 0 < value num.denominator)
    (hpm : AccurateBelow pm (operand_bound x num)) (hf : operand_bound x num + 1 < fuel) :
    ∃ r, operator_mul_assign pm fuel x num = some r ∧ Reduced r ∧
      value r.numerator * (value x.denominator * value num.denominator)
        = (value x.numerator * value num.numerator) * value r.denominator := by
  obtain ⟨l1, l2, l3, l4⟩ := operand_limbs_le x num hxn hxd hxp hnn hnd hnp
  have cxd := canonical_of_wellFormed hxd
  have cnd := canonical_of_wellFormed hnd
  obtain ⟨p1, p11, p12, p13, _⟩ :=
    operator_mul_assign_spec pm hxn hnn (hpm _ _ hxn hnn l1 l3)
  obtain ⟨p3, p31, p32, p33, _⟩ :=
    operator_mul_assign_spec pm cxd cnd (hpm _ _ cxd cnd l2 l4)
  have hbound : |value p1| + value p3 ≤ operand_bound x num := by
    obtain ⟨_, _, _, _, _, f6, _⟩ := operand_bound_facts (abs_nonneg (value x.numerator))
      (show (1 : Int) ≤ value x.denominator by omega) (abs_nonneg (value num.numerator))
      (show (1 : Int) ≤ value num.denominator by omega)
    rw [p13, p33, abs_mul]
    exact f6
  obtain ⟨r, r1, r2, r3, r4⟩ := reduce_spec pm _ hpm fuel hf
    { numerator := p1, denominator := p3 } (canonical_of_wellFormed p12) p32
    (by rw [p33]; positivity) hbound
  refine ⟨r, ?_, r2, ?_⟩
  · unfold operator_mul_assign
    simp only [p11, p31, r1]
  · have := cross_mul_of_div r3 r4
    simp only [p13, p33] at this
    exact this

/-- Operator `/=` of `Rational` by a non-zero rational: the reduced form of the quotient. -/
theorem rational_div_assign_spec (pm : List ℚ → List ℚ → Nat → List ℚ) (fuel : Nat)
    (x num : Rational) (hxn : Canonical x.numerator.data) (hxd : WellFormed x.denominator)
    (hxp : 0 < value x.denominator) (hnn : Canonical num.numerator.data)
    (hnd : WellFormed num.denominator) (hnp : 0 < value num.denominator)
    (hn0 : value num.numerator ≠ 0)
    (hpm : AccurateBelow pm (operand_bound x num)) (hf : operand_bound x num + 1 < fuel) :
    ∃ r, operator_div_assign pm fuel x num = some r ∧ Reduced r ∧
      value r.numerator * (value x.denominator * value num.numerator)
        = (value x.numerator * value num.denominator) * value r.denominator := by
  obtain ⟨l1, l2, l3, l4⟩ := operand_limbs_le x num hxn hxd hxp hnn hnd hnp
  have cxd := canonical_of_wellFormed hxd
  have cnd := canonical_of_wellFormed hnd
  obtain ⟨p1, p11, p12, p13, _⟩ :=
    operator_mul_assign_spec pm hxn cnd (hpm _ _ hxn cnd l1 l4)
  obtain ⟨p3, p31, p32, p33, _⟩ :=
    operator_mul_assign_spec pm cxd hnn (hpm _ _ cxd hnn l2 l3)
  have hp30 : value p3 ≠ 0 := by
    rw [p33]
    exact mul_ne_zero (by omega) hn0
  obtain ⟨_, _, _, _, _, _, f7⟩ := operand_bound_facts (abs_nonneg (value x.numerator))
    (show (1 : Int) ≤ value x.denominator by omega) (abs_nonneg (value num.numerator))
    (show (1 : Int) ≤ value num.denominator by omega)
  have habs1 : |value p1| = |value x.numerator| * value num.denominator := by
    rw [p13, abs_mul, abs_of_pos hnp]
  have habs3 : |value p3| = value x.denominator * |value num.numerator| := by
    rw [p33, abs_mul, abs_of_pos hxp]
  have h0 : WellFormed (BigInteger.of_int 0) := by decide
  have hz : value (BigInteger.of_int 0) = 0 := by decide
  unfold operator_div_assign
  simp only [p11, p31]
  by_cases hlt : BigInteger.operator_lt p3 (BigInteger.of_int 0) = true
  · rw [if_pos hlt]
    have hneg := (operator_lt_iff p32 h0).mp hlt
    rw [hz] at hneg
    have hv3 : value (change_sign p3) = -value p3 := value_change_sign p3
    have hv1 : value (change_sign p1) = -value p1 := value_change_sign p1
    have hc3 : Canonical (change_sign p3).data := @canonical_of_wellFormed p3 p32
    have hc1 : Canonical (change_sign p1).data := @canonical_of_wellFormed p1 p12
    have hw3 : WellFormed (change_sign p3) :=
      wellFormed_of_canonical_ne_zero hc3 (@limbs_value_ne_zero_of_value p3 hp30)
    have hbound : |value (change_sign p1)| + value (change_sign p3) ≤ operand_bound x num := by
      rw [hv1, hv3, abs_neg, ← abs_of_neg hneg, habs1, habs3]
      unfold operand_bound
      linarith
    obtain ⟨r, r1, r2, r3, r4⟩ := reduce_spec pm _ hpm fuel hf
      { numerator := change_sign p1, denominator := change_sign p3 }
      hc1 hw3 (by rw [hv3]; omega) hbound
    refine ⟨r, r1, r2, ?_⟩
    have := cross_mul_of_div r3 r4
    simp only [hv1, hv3, p13, p33] at this
    linarith
  · rw [if_neg hlt]
    have hpos : 0 < value p3 := by
      have : ¬ value p3 < 0 := by
        intro h
        apply hlt
        rw [operator_lt_iff p32 h0, hz]
        exact h
      omega
    have hbound : |value p1| + value p3 ≤ operand_bound x num := by
      rw [← abs_of_pos hpos, habs1, habs3]
      unfold operand_bound
      linarith
    obtain ⟨r, r1, r2, r3, r4⟩ := reduce_spec pm _ hpm fuel hf
      { numerator := p1, denominator := p3 } (canonical_of_wellFormed p12) p32 hpos hbound
    refine ⟨r, r1, r2, ?_⟩
    have := cross_mul_of_div r3 r4
    simp only [p13, p33] at this
    exact this

end Rational

namespace BigInteger

/-! ### `shift` on every well-formed value, the constructor from `int` on its whole range -/

/-- Method `shift` on a well-formed value: the sign flag is kept and the value is multiplied by
the power of ten. -/
theorem shift_value {x : BigInteger} (h : WellFormed x) (pow10 : Nat) :
    (shift x pow10).is_negative = x.is_negative ∧
      value (shift x pow10) = value x * 10 ^ pow10 := by
  by_cases h0 : x = of_int 0
  · unfold shift
    rw [if_pos h0, h0]
    refine ⟨rfl, ?_⟩
    have : value (of_int 0) = 0 := by decide
    rw [this, zero_mul]
  · have hv : value x ≠ 0 := fun hv => h0 ((eq_of_int_zero_iff h).mpr hv)
    have hl := limbs_value_ne_zero_of_value hv
    obtain ⟨s1, _, s3⟩ := shift_spec (canonical_of_wellFormed h) hl pow10
    refine ⟨s1, ?_⟩
    unfold value
    rw [s1, s3]
    split
    · ring
    · rfl

/-- Method `shift` by zero digits returns its argument. -/
theorem shift_zero_digits {x : BigInteger} (h : WellFormed x) : shift x 0 = x := by
  apply eq_of_value_eq (wellFormed_shift h 0) h
  rw [(shift_value h 0).2, pow_zero, mul_one]

theorem of_int_loop_spec :
    ∀ (k : Nat) (m : Int) (data : List Int), 0 ≤ m → m < base ^ (k + 1) →
      ∃ ds, of_int_loop (k + 1) m data = data ++ ds ∧ ds ≠ [] ∧ LimbsInRange ds ∧
        limbs_value ds = m ∧ (m ≠ 0 → ds.getLast? ≠ some 0) ∧ (m = 0 → ds = [0]) := by
  intro k
  induction k with
  | zero =>
    intro m data h0 h1
    rw [base_eq] at h1
    have h2 : m.tmod base = m := by
      rw [Int.tmod_eq_emod h0 (by decide), base_eq]
      omega
    have h3 : m.tdiv base = 0 := by
      rw [Int.tdiv_eq_ediv h0 (by decide), base_eq]
      omega
    refine ⟨[m], ?_, by simp, ?_, limbs_value_singleton m, ?_, ?_⟩
    · simp only [of_int_loop, h2, h3, lt_irrefl, if_false]
    · intro l hl
      rw [List.mem_singleton] at hl
      rw [hl]
      omega
    · intro hm
      simpa using hm
    · intro hm
      rw [hm]
  | succ k ih =>
    intro m data h0 h1
    have hb : (0 : Int) < base := by decide
    have h2 : m.tmod base = m % base := Int.tmod_eq_emod h0 (le_of_lt hb)
    have h3 : m.tdiv base = m / base := Int.tdiv_eq_ediv h0 (le_of_lt hb)
    have h4 : 0 ≤ m % base := Int.emod_nonneg _ (by decide)
    have h5 : m % base ≤ 9999 := by
      have h := Int.emod_lt_of_pos m hb
      have hb2 := base_eq
      omega
    have h6 := Int.emod_add_ediv m base
    have h7 : 0 ≤ m / base := Int.ediv_nonneg h0 (le_of_lt hb)
    by_cases hq : 0 < m / base
    · have h8 : m / base < base ^ (k + 1) := by
        apply Int.ediv_lt_of_lt_mul hb
        rw [pow_succ] at h1
        exact h1
      obtain ⟨ds, d1, d2, d3, d4, d5, _⟩ := ih (m / base) (data ++ [m % base]) h7 h8
      refine ⟨m % base :: ds, ?_, by simp, ?_, ?_, ?_, ?_⟩
      · rw [of_int_loop]
        simp only [h2, h3, hq, if_true]
        rw [d1]
        simp
      · exact limbsInRange_cons.mpr ⟨⟨h4, by omega⟩, d3⟩
      · rw [limbs_value_cons, d4]
        linarith
      · intro _
        cases ds with
        | nil => exact absurd rfl d2
        | cons d ds' =>
          rw [List.getLast?_cons_cons]
          exact d5 (by omega)
      · intro hm
        rw [hm] at hq
        simp at hq
    · have hq0 : m / base = 0 := by omega
      have hm : m % base = m := by
        rw [hq0] at h6
        linarith
      refine ⟨[m], ?_, by simp, ?_, limbs_value_singleton m, ?_, ?_⟩
      · rw [of_int_loop]
        simp only [h2, h3, hq, if_false, hm]
      · intro l hl
        rw [List.mem_singleton] at hl
        rw [hl]
        omega
      · intro hm0
        simpa using hm0
      · intro hm0
        rw [hm0]

/-- Constructor `BigInteger(int)` on every `int` but the minimum: a well-formed value that
denotes the argument. -/
theorem of_int_spec {n : Int} (h1 : -2147483648 < n) (h2 : n ≤ 2147483647) :
    WellFormed (of_int n) ∧ value (of_int n) = n := by
  have hw : wrap_int32 (-n) = -n := by
    unfold wrap_int32
    omega
  have hm0 : 0 ≤ (if n < 0 then wrap_int32 (-n) else n) := by
    split
    · rw [hw]
      omega
    · omega
  have hm1 : (if n < 0 then wrap_int32 (-n) else n) < base ^ (2 + 1) := by
    rw [base_eq]
    split
    · rw [hw]
      omega
    · omega
  obtain ⟨ds, d1, d2, d3, d4, d5, d6⟩ := of_int_loop_spec 2 _ [] hm0 hm1
  rw [List.nil_append] at d1
  have hdata : (of_int n).data = ds := d1
  have hneg : (of_int n).is_negative = decide (n < 0) := rfl
  constructor
  · refine ⟨by rw [hdata]; exact d2, by rw [hdata]; exact d3, ?_, ?_⟩
    · rw [hdata]
      intro hl
      by_cases hz : (if n < 0 then wrap_int32 (-n) else n) = 0
      · exact d6 hz
      · exact absurd hl (d5 hz)
    · rw [hdata, hneg]
      intro hz
      rw [hz] at d4
      have : ¬ n < 0 := by
        intro hn
        rw [if_pos hn, hw] at d4
        simp [limbs_value_cons, limbs_value_nil] at d4
        omega
      simp [this]
  · unfold value
    rw [hdata, hneg, d4]
    by_cases hn : n < 0
    · simp only [hn, decide_True, if_true, hw]
      omega
    · simp only [hn, decide_False, if_false, Bool.false_eq_true]

/-! ### The division loop: a zero divisor, and the bound on the number of iterations -/

theorem operator_minus_assign_zero {x : BigInteger} (h : WellFormed x) :
    operator_minus_assign x (BigInteger.mk false [0]) = some x := by
  obtain ⟨r, r1, _, r3, r4⟩ :=
    @operator_minus_assign_spec x (BigInteger.mk false [0]) (canonical_of_wellFormed h)
      canonical_zero
  have hz : value (BigInteger.mk false [0]) = 0 := by decide
  rw [r1, eq_of_value_eq (r4 h) h (by rw [r3, hz, sub_zero])]

theorem operator_lt_zero_false {x : BigInteger} (h : WellFormed x) (h0 : 0 ≤ value x) :
    operator_lt x (BigInteger.mk false [0]) = false := by
  cases hlt : operator_lt x (BigInteger.mk false [0])
  · rfl
  · have h1 := (operator_lt_iff h (by decide)).mp hlt
    have hz : value (BigInteger.mk false [0]) = 0 := by decide
    omega

/-- The probe loop with a zero divisor: all its iterations run, the remainder and the quotient
accumulator come back unchanged. -/
theorem probe_loop_zero (addend : Int → BigInteger) {x : BigInteger} (h : WellFormed x)
    (h0 : 0 ≤ value x) (result : BigInteger) :
    ∀ (k : Nat) (i : Int),
      probe_loop (BigInteger.mk false [0]) addend k i x result = some (x, result) := by
  intro k
  induction k with
  | zero =>
    intro i
    rfl
  | succ k ih =>
    intro i
    unfold probe_loop
    simp only [operator_minus_assign_zero h, operator_lt_zero_false h h0, Bool.false_eq_true,
      if_false]
    exact ih (i + 1)

theorem shift_zero (pow10 : Nat) :
    shift (BigInteger.mk false [0]) pow10 = BigInteger.mk false [0] := by
  unfold shift
  rw [if_pos (by decide)]

/-- One iteration of the loop of `operator /=` with a zero divisor, in either division case:
the remainder and the quotient accumulator are unchanged. -/
theorem div_body_zero {x : BigInteger} (h : WellFormed x) (h0 : 0 ≤ value x)
    (result : BigInteger) (digits_number num_digits_number : Nat) :
    solve_first_division_case x (BigInteger.mk false [0]) result = some (x, result) ∧
    solve_second_division_case x (BigInteger.mk false [0]) result digits_number
      num_digits_number = some (x, result) := by
  constructor
  · unfold solve_first_division_case
    exact probe_loop_zero _ h h0 result 9 1
  · unfold solve_second_division_case
    simp only [shift_zero, operator_lt_zero_false h h0, Bool.false_eq_true, if_false]
    exact probe_loop_zero _ h h0 result 9 1

/-- The loop of `operator /=` with a zero divisor uses up every iteration budget. -/
theorem div_loop_zero {x : BigInteger} (h : WellFormed x) (h0 : 0 ≤ value x)
    (result : BigInteger) (num_digits_number : Nat) :
    ∀ fuel, div_loop (BigInteger.mk false [0]) num_digits_number fuel x result = none := by
  intro fuel
  induction fuel with
  | zero => rfl
  | succ fuel ih =>
    unfold div_loop
    have hge : operator_ge x (BigInteger.mk false [0]) = true := by
      rw [operator_ge_iff h (by decide)]
      have hz : value (BigInteger.mk false [0]) = 0 := by decide
      omega
    obtain ⟨b1, b2⟩ := div_body_zero h h0 result (get_digits_number x) num_digits_number
    rw [if_pos hge]
    by_cases hd : get_digits_number x = num_digits_number
    · simp only [hd, if_true, b1]
      exact ih
    · simp only [hd, if_false, b1, b2]
      exact ih

theorem value_lt_pow_digits {x : BigInteger} (h : WellFormed x) (h0 : 0 ≤ value x) :
    value x < 10 ^ get_digits_number x := by
  have hc := canonical_of_wellFormed h
  by_cases hz : limbs_value x.data = 0
  · rw [value_eq_limbs_of_nonneg h h0, hz]
    positivity
  · obtain ⟨_, _, h3, _⟩ := get_digits_number_spec hc hz
    rw [value_eq_limbs_of_nonneg h h0]
    exact h3

end BigInteger

namespace Rational
open BigInteger

/-! ### Rational: the reduced form is unique; comparison and `toString` -/

theorem eq_of_components {r s : Rational} (h1 : r.numerator = s.numerator)
    (h2 : r.denominator = s.denominator) : r = s := by
  cases r
  cases s
  simp only at h1 h2
  rw [h1, h2]

/-- Two reduced rationals that denote the same fraction are equal, component by component. -/
theorem reduced_eq_of_cross {r s : Rational} (hr : Reduced r) (hs : Reduced s)
    (h : value r.numerator * value s.denominator = value s.numerator * value r.denominator) :
    r = s := by
  obtain ⟨r1, r2, r3, r4⟩ := hr
  obtain ⟨s1, s2, s3, s4⟩ := hs
  have d1 : value r.denominator ∣ value s.denominator := by
    apply Int.dvd_of_dvd_mul_right_of_gcd_one (Dvd.intro_left _ h.symm)
    rw [Int.gcd_comm]
    exact r4
  have d2 : value s.denominator ∣ value r.denominator := by
    apply Int.dvd_of_dvd_mul_right_of_gcd_one (Dvd.intro_left _ h)
    rw [Int.gcd_comm]
    exact s4
  have hd : value r.denominator = value s.denominator :=
    Int.dvd_antisymm (le_of_lt r3) (le_of_lt s3) d1 d2
  have hn : value r.numerator = value s.numerator := by
    rw [hd] at h
    exact mul_right_cancel₀ (by omega) h
  exact eq_of_components (eq_of_value_eq r1 s1 hn) (eq_of_value_eq r2 s2 hd)

theorem reduced_eq_of_ratio {r s : Rational} (hr : Reduced r) (hs : Reduced s) {N D : Int}
    (hD : D ≠ 0) (h1 : value r.numerator * D = N * value r.denominator)
    (h2 : value s.numerator * D = N * value s.denominator) : r = s := by
  apply reduced_eq_of_cross hr hs
  apply mul_right_cancel₀ hD
  calc value r.numerator * value s.denominator * D
      = value r.numerator * D * value s.denominator := by ring
    _ = N * value s.denominator * value r.denominator := by rw [h1]; ring
    _ = value s.numerator * value r.denominator * D := by rw [← h2]; ring

/-- Operator `<=>` of `Rational` on well-formed components with positive denominators: the
comparison of the cross products. -/
theorem rational_spaceship_spec (pm : List ℚ → List ℚ → Nat → List ℚ) (x y : Rational)
    (hxn : WellFormed x.numerator) (hxd : WellFormed x.denominator)
    (hxp : 0 < value x.denominator) (hyn : WellFormed y.numerator)
    (hyd : WellFormed y.denominator) (hyp : 0 < value y.denominator)
    (h1 : MulAccurate pm x.numerator y.denominator)
    (h2 : MulAccurate pm x.denominator y.numerator) :
    operator_spaceship pm x y = some (compare (value x.numerator * value y.denominator)
      (value x.denominator * value y.numerator)) := by
  have w0 : WellFormed (BigInteger.of_int 0) := by decide
  have hz : value (BigInteger.of_int 0) = 0 := by decide
  have lx := operator_lt_iff hxn w0
  have ly := operator_lt_iff hyn w0
  have gx := operator_ge_iff hxn w0
  have gy := operator_ge_iff hyn w0
  rw [hz] at lx ly gx gy
  unfold operator_spaceship
  by_cases c1 : (BigInteger.operator_lt x.numerator (BigInteger.of_int 0) &&
      BigInteger.operator_ge y.numerator (BigInteger.of_int 0)) = true
  · rw [if_pos c1]
    rw [Bool.and_eq_true, lx, gy] at c1
    have e1 : value x.numerator * value y.denominator < 0 :=
      mul_neg_of_neg_of_pos c1.1 hyp
    have e2 : 0 ≤ value x.denominator * value y.numerator :=
      mul_nonneg (le_of_lt hxp) c1.2
    rw [compare_lt_iff_lt.mpr (lt_of_lt_of_le e1 e2)]
  · rw [if_neg c1]
    by_cases c2 : (BigInteger.operator_ge x.numerator (BigInteger.of_int 0) &&
        BigInteger.operator_lt y.numerator (BigInteger.of_int 0)) = true
    · rw [if_pos c2]
      rw [Bool.and_eq_true, gx, ly] at c2
      have e1 : 0 ≤ value x.numerator * value y.denominator :=
        mul_nonneg c2.1 (le_of_lt hyp)
      have e2 : value x.denominator * value y.numerator < 0 :=
        mul_neg_of_pos_of_neg hxp c2.2
      rw [compare_gt_iff_gt.mpr (lt_of_lt_of_le e2 e1)]
    · rw [if_neg c2]
      obtain ⟨p, p1, p2, p3, _⟩ := operator_mul_assign_spec pm
        (canonical_of_wellFormed hxn) (canonical_of_wellFormed hyd) h1
      obtain ⟨q, q1, q2, q3, _⟩ := operator_mul_assign_spec pm
        (canonical_of_wellFormed hxd) (canonical_of_wellFormed hyn) h2
      unfold BigInteger.operator_mul
      simp only [p1, q1]
      rw [operator_spaceship_eq_compare p2 q2, p3, q3]

/-- Method `toString` of `Rational` on a reduced value. -/
theorem rational_toString_spec (r : Rational) (h : WellFormed r.denominator) :
    (value r.denominator = 1 → toString r = BigInteger.toString r.numerator) ∧
    (value r.denominator ≠ 1 → toString r
      = BigInteger.toString r.numerator ++ ("/" ++ BigInteger.toString r.denominator)) := by
  have w1 : WellFormed (BigInteger.of_int 1) := by decide
  have hv1 : value (BigInteger.of_int 1) = 1 := by decide
  constructor
  · intro hd
    have : r.denominator = BigInteger.of_int 1 := eq_of_value_eq h w1 (by rw [hd, hv1])
    unfold toString
    simp only [this, ne_eq, not_true_eq_false, if_false]
  · intro hd
    have : r.denominator ≠ BigInteger.of_int 1 := by
      intro he
      apply hd
      rw [he, hv1]
    unfold toString
    simp only [ne_eq, this, not_false_eq_true, if_true]

/-! ### Rational: `asDecimal` -/

theorem push_zeros_foldl (zeros : List Char) (k : Nat) :
    (List.range k).foldl (fun z _ => z ++ ['0']) zeros = zeros ++ List.replicate k '0' := by
  induction k with
  | zero => simp
  | succ k ih =>
    rw [List.range_succ, List.foldl_append, ih, List.replicate_succ']
    simp

theorem decimal_value_zeros (k : Nat) (ds : List Char) :
    decimal_value (List.replicate k '0' ++ ds) = decimal_value ds := by
  induction k with
  | zero => simp
  | succ k ih =>
    rw [List.replicate_succ, List.cons_append, decimal_value_cons, ih]
    have : (('0' : Char).toNat : Int) - 48 = 0 := by decide
    rw [this, zero_mul, zero_add]

theorem isDigit_replicate_zero (k : Nat) : ∀ c ∈ List.replicate k '0', IsDigit c := by
  intro c hc
  rw [List.eq_of_mem_replicate hc]
  decide

/-- A text whose digits part is `intd ++ '.' :: fracd` is a decimal rendering. -/
theorem isDecimalRendering_of_body (t : String) (p : Nat) (intd fracd : List Char)
    (hbody : text_digits t = intd ++ '.' :: fracd) (hi : intd ≠ [])
    (hid : ∀ c ∈ intd, IsDigit c) (hfd : ∀ c ∈ fracd, IsDigit c) (hlen : fracd.length = p) :
    IsDecimalRendering t p (decimal_value (intd ++ fracd)) := by
  have hil : 1 ≤ intd.length := by
    cases intd with
    | nil => exact absurd rfl hi
    | cons c cs => simp
  have hl : (text_digits t).length = intd.length + (p + 1) := by
    rw [hbody, List.length_append, List.length_cons, hlen]
  have e1 : (text_digits t).length - (p + 1) = intd.length := by omega
  have e2 : (text_digits t).length - p = intd.length + 1 := by omega
  have t1 : (text_digits t).take intd.length = intd := by
    rw [hbody, List.take_left]
  have t2 : (text_digits t).drop (intd.length + 1) = fracd := by
    rw [hbody, show intd ++ '.' :: fracd = (intd ++ ['.']) ++ fracd by simp]
    apply List.drop_left'
    simp
  have t3 : (text_digits t).getD intd.length ' ' = '.' := by
    rw [hbody, List.getD_append_right _ _ _ _ (le_refl _)]
    simp
  unfold IsDecimalRendering
  rw [e1, e2, t1, t2, t3]
  exact ⟨by omega, hid, rfl, hfd, rfl⟩

theorem head_ne_minus {ds : List Char} (hne : ds ≠ []) (hdig : ∀ c ∈ ds, IsDigit c) :
    ds.head? ≠ some '-' ∧ ds.getD 0 (Char.ofNat 0) ≠ '-' := by
  cases ds with
  | nil => exact absurd rfl hne
  | cons c cs =>
    have hc : c ≠ '-' := isDigit_ne_minus (hdig c (List.mem_cons_self _ _))
    constructor
    · simpa using hc
    · simpa using hc

/-- The text part of `asDecimal` for a positive precision: from the sign flag and the digits of
the scaled quotient to a decimal rendering of them. -/
theorem asDecimal_text (sgn numneg : Bool) (ds : List Char) (hne : ds ≠ [])
    (hdig : ∀ c ∈ ds, IsDigit c) (p : Nat) (hp : 1 ≤ p) (result : List Char)
    (hres : result = (if sgn then ['-'] else []) ++ ds) :
    IsDecimalRendering
      (if (if result.getD 0 (Char.ofNat 0) = '-' then result.length - 1 else result.length) ≤ p
        then String.mk
          ((List.range (p - (if result.getD 0 (Char.ofNat 0) = '-' then result.length - 1
              else result.length))).foldl (fun z _ => z ++ ['0'])
              (if numneg then ['-', '0', '.'] else ['0', '.']) ++
            (if result.getD 0 (Char.ofNat 0) = '-' then result.drop 1 else result))
        else String.mk (result.take (result.length - p) ++ ['.'] ++
          result.drop (result.length - p)))
      p (decimal_value ds) := by
  obtain ⟨hh1, hh2⟩ := head_ne_minus hne hdig
  have hdl : 1 ≤ ds.length := by
    cases ds with
    | nil => exact absurd rfl hne
    | cons c cs => simp
  have hhead : (result.getD 0 (Char.ofNat 0) = '-') ↔ sgn = true := by
    rw [hres]
    cases sgn
    · simpa using hh2
    · simp
  have hdn : (if result.getD 0 (Char.ofNat 0) = '-' then result.length - 1 else result.length)
      = ds.length := by
    rw [hres]
    cases sgn
    · rw [hres] at hhead
      simp only [Bool.false_eq_true, if_false, List.nil_append] at hhead ⊢
      rw [if_neg (fun h => hhead.mp h)]
    · simp
  have hr1 : (if result.getD 0 (Char.ofNat 0) = '-' then result.drop 1 else result) = ds := by
    rw [hres]
    cases sgn
    · rw [hres] at hhead
      simp only [Bool.false_eq_true, if_false, List.nil_append] at hhead ⊢
      rw [if_neg (fun h => hhead.mp h)]
    · simp
  rw [hdn, hr1, push_zeros_foldl]
  by_cases hle : ds.length ≤ p
  · rw [if_pos hle]
    have hbody : text_digits (String.mk ((if numneg then ['-', '0', '.'] else ['0', '.']) ++
        List.replicate (p - ds.length) '0' ++ ds))
        = ['0'] ++ '.' :: (List.replicate (p - ds.length) '0' ++ ds) := by
      unfold text_digits
      cases numneg <;> simp
    have := isDecimalRendering_of_body _ p ['0'] (List.replicate (p - ds.length) '0' ++ ds) hbody
      (by simp) (by decide)
      (by
        intro c hc
        rcases List.mem_append.mp hc with h | h
        · exact isDigit_replicate_zero _ c h
        · exact hdig c h)
      (by rw [List.length_append, List.length_replicate]; omega)
    rw [show ['0'] ++ (List.replicate (p - ds.length) '0' ++ ds)
      = List.replicate (p - ds.length + 1) '0' ++ ds by rw [List.replicate_succ]; simp,
      decimal_value_zeros] at this
    exact this
  · rw [if_neg hle]
    have hm : 1 ≤ ds.length - p := by omega
    have htake : ds.take (ds.length - p) ≠ [] := by
      intro h
      have := congrArg List.length h
      rw [List.length_take] at this
      simp at this
      omega
    have hth : (ds.take (ds.length - p)).head? ≠ some '-' :=
      (head_ne_minus htake (fun c hc => hdig c (List.mem_of_mem_take hc))).1
    have hbody : text_digits (String.mk (result.take (result.length - p) ++ ['.'] ++
        result.drop (result.length - p)))
        = ds.take (ds.length - p) ++ '.' :: ds.drop (ds.length - p) := by
      rw [hres]
      unfold text_digits
      cases sgn
      · simp only [Bool.false_eq_true, if_false, List.nil_append, List.append_assoc,
          List.singleton_append]
        rw [if_neg]
        rw [List.head?_append_of_ne_nil _ htake]
        exact hth
      · have e : ([('-' : Char)] ++ ds).length - p = (ds.length - p) + 1 := by
          simp
          omega
        simp only [if_true, e]
        simp
    have := isDecimalRendering_of_body _ p (ds.take (ds.length - p)) (ds.drop (ds.length - p))
      hbody htake (fun c hc => hdig c (List.mem_of_mem_take hc))
      (fun c hc => hdig c (List.mem_of_mem_drop hc))
      (by rw [List.length_drop]; omega)
    rw [List.take_append_drop] at this
    exact this

/-- Operator `+=` of `Rational` returns the reduced rational that denotes the sum. -/
theorem rational_plus_assign_eval (pm : List ℚ → List ℚ → Nat → List ℚ) (fuel : Nat)
    (x num : Rational) (hxn : Canonical x.numerator.data) (hxd : WellFormed x.denominator)
    (hxp : 0 < value x.denominator) (hnn : Canonical num.numerator.data)
    (hnd : WellFormed num.denominator) (hnp : 0 < value num.denominator)
    (hpm : AccurateBelow pm (operand_bound x num)) (hf : operand_bound x num + 1 < fuel)
    {s : Rational} (hs : Reduced s)
    (hc : value s.numerator * (value x.denominator * value num.denominator)
      = (value x.numerator * value num.denominator
          + value x.denominator * value num.numerator) * value s.denominator) :
    operator_plus_assign pm fuel x num = some s := by
  obtain ⟨r, r1, r2, r3⟩ := rational_plus_assign_spec pm fuel x num hxn hxd hxp hnn hnd hnp hpm hf
  rw [r1, reduced_eq_of_ratio r2 hs (mul_ne_zero (by omega) (by omega)) r3 hc]

/-- Operator `-=` of `Rational` returns the reduced rational that denotes the difference. -/
theorem rational_minus_assign_eval (pm : List ℚ → List ℚ → Nat → List ℚ) (fuel : Nat)
    (x num : Rational) (hxn : Canonical x.numerator.data) (hxd : WellFormed x.denominator)
    (hxp : 0 < value x.denominator) (hnn : Canonical num.numerator.data)
    (hnd : WellFormed num.denominator) (hnp : 0 < value num.denominator)
    (hpm : AccurateBelow pm (operand_bound x num)) (hf : operand_bound x num + 1 < fuel)
    {s : Rational} (hs : Reduced s)
    (hc : value s.numerator * (value x.denominator * value num.denominator)
      = (value x.numerator * value num.denominator
          - value x.denominator * value num.numerator) * value s.denominator) :
    operator_minus_assign pm fuel x num = some s := by
  obtain ⟨r, r1, r2, r3⟩ :=
    rational_minus_assign_spec pm fuel x num hxn hxd hxp hnn hnd hnp hpm hf
  rw [r1, reduced_eq_of_ratio r2 hs (mul_ne_zero (by omega) (by omega)) r3 hc]

/-- Operator `*=` of `Rational` returns the reduced rational that denotes the product. -/
theorem rational_mul_assign_eval (pm : List ℚ → List ℚ → Nat → List ℚ) (fuel : Nat)
    (x num : Rational) (hxn : Canonical x.numerator.data) (hxd : WellFormed x.denominator)
    (hxp : 0 < value x.denominator) (hnn : Canonical num.numerator.data)
    (hnd : WellFormed num.denominator) (hnp : 0 < value num.denominator)
    (hpm : AccurateBelow pm (operand_bound x num)) (hf : operand_bound x num + 1 < fuel)
    {s : Rational} (hs : Reduced s)
    (hc : value s.numerator * (value x.denominator * value num.denominator)
      = (value x.numerator * value num.numerator) * value s.denominator) :
    operator_mul_assign pm fuel x num = some s := by
  obtain ⟨r, r1, r2, r3⟩ := rational_mul_assign_spec pm fuel x num hxn hxd hxp hnn hnd hnp hpm hf
  rw [r1, reduced_eq_of_ratio r2 hs (mul_ne_zero (by omega) (by omega)) r3 hc]

/-- Operator `/=` of `Rational` returns the reduced rational that denotes the quotient. -/
theorem rational_div_assign_eval (pm : List ℚ → List ℚ → Nat → List ℚ) (fuel : Nat)
    (x num : Rational) (hxn : Canonical x.numerator.data) (hxd : WellFormed x.denominator)
    (hxp : 0 < value x.denominator) (hnn : Canonical num.numerator.data)
    (hnd : WellFormed num.denominator) (hnp : 0 < value num.denominator)
    (hn0 : value num.numerator ≠ 0)
    (hpm : AccurateBelow pm (operand_bound x num)) (hf : operand_bound x num + 1 < fuel)
    {s : Rational} (hs : Reduced s)
    (hc : value s.numerator * (value x.denominator * value num.numerator)
      = (value x.numerator * value num.denominator) * value s.denominator) :
    operator_div_assign pm fuel x num = some s := by
  obtain ⟨r, r1, r2, r3⟩ :=
    rational_div_assign_spec pm fuel x num hxn hxd hxp hnn hnd hnp hn0 hpm hf
  rw [r1, reduced_eq_of_ratio r2 hs (mul_ne_zero (by omega) hn0) r3 hc]

/-- A cross-multiplication equation between integers with non-zero denominators, read in the
rational numbers. -/
theorem ratio_eq_of_cross {n d N D : Int} (hd : d ≠ 0) (hD : D ≠ 0) (h : n * D = N * d) :
    (n : ℚ) / (d : ℚ) = (N : ℚ) / (D : ℚ) := by
  have hd1 : (d : ℚ) ≠ 0 := by exact_mod_cast hd
  have hD1 : (D : ℚ) ≠ 0 := by exact_mod_cast hD
  rw [div_eq_div_iff hd1 hD1]
  exact_mod_cast h

end Rational

namespace BigInteger

/-! ### The division loop, one iteration at a time; the characters of `toString` -/

/-- The loop of `operator /=` exits, with the remainder and the quotient it holds, when the
remainder is smaller than the divisor. -/
theorem div_loop_exit {num x : BigInteger} (hnum : WellFormed num) (hx : WellFormed x)
    (hlt : value x < value num) (result : BigInteger) (num_digits_number fuel : Nat) :
    div_loop num num_digits_number (fuel + 1) x result = some (x, result) := by
  have hge : ¬ operator_ge x num = true := by
    rw [operator_ge_iff hx hnum]
    omega
  unfold div_loop
  rw [if_neg hge]

/-- One iteration of the loop of `operator /=` on a remainder that is at least the divisor: the
remainder strictly decreases and stays non-negative, and the loop goes on from the new
state. -/
theorem div_loop_step {num x result : BigInteger} (hnum : WellFormed num)
    (hn0 : 0 < value num) (hx : WellFormed x) (hr : WellFormed result)
    (hr0 : 0 ≤ value result) (hge : value num ≤ value x) :
    ∃ x1 result1,
      (if get_digits_number x = get_digits_number num then
          solve_first_division_case x num result
        else solve_second_division_case x num result (get_digits_number x)
          (get_digits_number num)) = some (x1, result1) ∧
      WellFormed x1 ∧ WellFormed result1 ∧ 0 ≤ value x1 ∧ value x1 < value x ∧
      0 ≤ value result1 ∧
      ∀ fuel, div_loop num (get_digits_number num) (fuel + 1) x result
        = div_loop num (get_digits_number num) fuel x1 result1 := by
  obtain ⟨x1, r1, e, j, s1, s2, s3, s4, s5, s6, s7, s8, s9, s10, s11⟩ :=
    div_step_spec hnum hn0 hx hr hge
  have hpos : 0 < value num * 10 ^ e := mul_pos hn0 (pow10_pos e)
  have hj : value num * 10 ^ e ≤ j * (value num * 10 ^ e) := by nlinarith
  refine ⟨x1, r1, s1, s2, s3, s8, by omega, ?_, ?_⟩
  · rw [s11]
    have := mul_nonneg (show (0 : Int) ≤ j by omega) (le_of_lt (pow10_pos e))
    omega
  · intro fuel
    have hge2 : operator_ge x num = true := (operator_ge_iff hx hnum).mpr hge
    conv_lhs => unfold div_loop
    rw [if_pos hge2]
    simp only [s1]

theorem not_mem_slash_toString (x : BigInteger) (h : LimbsInRange x.data) :
    '/' ∉ (BigInteger.toString x).data := by
  obtain ⟨ds, _, h2, _, _, h5⟩ := toString_spec x h
  rw [h5]
  intro hm
  simp only [List.mem_append] at hm
  rcases hm with hm | hm
  · split at hm
    · simp at hm
    · simp at hm
  · have := h2 _ hm
    revert this
    decide

end BigInteger

namespace Rational
open BigInteger

/-- The sign short-circuit of `operator <=>` of `Rational`: decided without a product, hence
for every transform. -/
theorem rational_spaceship_short (pm : List ℚ → List ℚ → Nat → List ℚ) (x y : Rational)
    (hxn : WellFormed x.numerator) (hyn : WellFormed y.numerator) :
    (value x.numerator < 0 → 0 ≤ value y.numerator →
      operator_spaceship pm x y = some Ordering.lt) ∧
    (0 ≤ value x.numerator → value y.numerator < 0 →
      operator_spaceship pm x y = some Ordering.gt) := by
  have w0 : WellFormed (BigInteger.of_int 0) := by decide
  have hz : value (BigInteger.of_int 0) = 0 := by decide
  have lx := operator_lt_iff hxn w0
  have ly := operator_lt_iff hyn w0
  have gx := operator_ge_iff hxn w0
  have gy := operator_ge_iff hyn w0
  rw [hz] at lx ly gx gy
  constructor
  · intro h1 h2
    unfold operator_spaceship
    rw [if_pos (by rw [Bool.and_eq_true, lx, gy]; exact ⟨h1, h2⟩)]
  · intro h1 h2
    have c1 : ¬ (BigInteger.operator_lt x.numerator (BigInteger.of_int 0) &&
        BigInteger.operator_ge y.numerator (BigInteger.of_int 0)) = true := by
      rw [Bool.and_eq_true, lx, gy]
      omega
    unfold operator_spaceship
    rw [if_neg c1, if_pos (by rw [Bool.and_eq_true, gx, ly]; exact ⟨h1, h2⟩)]

theorem denominator_eq_one_of_dvd {r : Rational} (h : Reduced r)
    (hdvd : value r.denominator ∣ value r.numerator) : value r.denominator = 1 := by
  obtain ⟨_, _, h3, h4⟩ := h
  have h5 : value r.denominator ∣ ((Int.gcd (value r.numerator) (value r.denominator) : Nat) : Int) :=
    Int.dvd_gcd hdvd (dvd_refl _)
  rw [h4] at h5
  exact Int.eq_one_of_dvd_one (le_of_lt h3) h5

end Rational

namespace BigInteger

/-! ### The transform length, the scaled divisor of a division step -/

theorem count_bits_loop_zero (k deg : Nat) : count_bits_loop k 0 deg = deg := by
  cases k <;> simp [count_bits_loop]

/-- The loop of `optimal_deg2` counts the bits of a positive size: no fewer. -/
theorem count_bits_loop_lower : ∀ (k size deg : Nat), size < 2 ^ k → 0 < size →
    deg + 1 ≤ count_bits_loop k size deg ∧ 2 ^ (count_bits_loop k size deg - deg - 1) ≤ size
  | 0, size, deg, h, h0 => by
    simp at h
    omega
  | k + 1, size, deg, h, h0 => by
    unfold count_bits_loop
    rw [if_pos h0]
    have hhalf : size >>> 1 = size / 2 := by
      rw [Nat.shiftRight_eq_div_pow]
    rw [hhalf]
    by_cases hs : 0 < size / 2
    · have h2 : size / 2 < 2 ^ k := by
        rw [pow_succ] at h
        omega
      obtain ⟨i1, i2⟩ := count_bits_loop_lower k (size / 2) (deg + 1) h2 hs
      refine ⟨by omega, ?_⟩
      have e : count_bits_loop k (size / 2) (deg + 1) - deg - 1
          = (count_bits_loop k (size / 2) (deg + 1) - (deg + 1) - 1) + 1 := by omega
      rw [e, pow_succ]
      omega
    · have h2 : size / 2 = 0 := by omega
      rw [h2, count_bits_loop_zero]
      refine ⟨le_refl _, ?_⟩
      simp
      omega

/-- The transform length chosen by `optimal_deg2` is at most four times the larger limb
count. -/
theorem optimal_deg2_upper (x : BigInteger) (n : Nat) (h : 1 ≤ max x.data.length n) :
    2 ^ optimal_deg2 x n ≤ 4 * max x.data.length n := by
  have key : ∀ m : Nat, 2 ^ count_bits_loop m m 1 ≤ max 2 (4 * m) := by
    intro m
    by_cases hm : 0 < m
    · obtain ⟨h1, h2⟩ := count_bits_loop_lower m m 1 (Nat.lt_two_pow m) hm
      have e : count_bits_loop m m 1 = (count_bits_loop m m 1 - 1 - 1) + 2 := by omega
      rw [e, pow_add]
      omega
    · have : m = 0 := by omega
      rw [this, count_bits_loop_zero]
      simp
  unfold optimal_deg2
  rcases max_cases (count_bits_loop x.data.length x.data.length 1) (count_bits_loop n n 1)
    with ⟨h1, _⟩ | ⟨h1, _⟩
  · rw [h1]
    have := key x.data.length
    have h2 := le_max_left x.data.length n
    omega
  · rw [h1]
    have := key n
    have h2 := le_max_right x.data.length n
    omega

/-- The linear convolution of two limb lists has no coefficient from index
`length + length - 1` on. -/
theorem linear_convolution_eq_zero (xs ys : List Int) (k : Nat)
    (hk : xs.length + ys.length ≤ k + 1) : linear_convolution xs ys k = 0 := by
  unfold linear_convolution
  apply Finset.sum_eq_zero
  intro i hi
  rw [Finset.mem_range] at hi
  by_cases h : i < xs.length
  · rw [getD_of_length_le ys (by omega), mul_zero]
  · rw [getD_of_length_le xs (by omega), zero_mul]

/-- The exponent of the scaled divisor of a division step, from the digit counts: 0 for equal
counts, otherwise the difference of the counts or one less. -/
theorem scaled_exponent {b r : Int} {D Dn e : Nat} (hb1 : (10 : Int) ^ (Dn - 1) ≤ b)
    (hb2 : b < 10 ^ Dn) (hr1 : (10 : Int) ^ (D - 1) ≤ r) (hr2 : r < 10 ^ D) (hD : 1 ≤ D)
    (hDn : 1 ≤ Dn) (h1 : b * 10 ^ e ≤ r) (h2 : r < 10 * (b * 10 ^ e)) :
    Dn + e ≤ D ∧ D ≤ Dn + e + 1 := by
  have hp : (0 : Int) < 10 ^ e := by positivity
  constructor
  · by_contra hc
    have h3 : (10 : Int) ^ D ≤ 10 ^ (Dn - 1 + e) := pow_le_pow_right₀ (by norm_num) (by omega)
    rw [pow_add] at h3
    have h4 : (10 : Int) ^ (Dn - 1) * 10 ^ e ≤ b * 10 ^ e :=
      mul_le_mul_of_nonneg_right hb1 (le_of_lt hp)
    omega
  · by_contra hc
    have h3 : (10 : Int) ^ (Dn + e + 1) ≤ 10 ^ (D - 1) :=
      pow_le_pow_right₀ (by norm_num) (by omega)
    have h5 : (10 : Int) ^ (Dn + e + 1) = 10 * (10 ^ Dn * 10 ^ e) := by
      rw [pow_succ, pow_add]
      ring
    have h4 : b * 10 ^ e < 10 ^ Dn * 10 ^ e := mul_lt_mul_of_pos_right hb2 hp
    omega

/-! ### The carry fix-up on coefficients of any size -/

end BigInteger

namespace Rational
open BigInteger

/-! ### Rational: unary minus, self-division, division by zero -/

theorem reduced_zero_eq {r : Rational} (h : Reduced r) (h0 : value r.numerator = 0) :
    r = Rational.of_int 0 := by
  obtain ⟨h1, h2, h3, h4⟩ := h
  rw [h0, Int.gcd_zero_left] at h4
  have hd : value r.denominator = 1 := by omega
  apply eq_of_components
  · exact (eq_of_int_zero_iff h1).mpr h0
  · exact eq_of_value_eq h2 (by decide) (by rw [hd]; rfl)

/-- Unary minus of a reduced rational that is not zero is reduced. -/
theorem reduced_unary_minus {r : Rational} (h : Reduced r) (h0 : value r.numerator ≠ 0) :
    Reduced (operator_unary_minus r) := by
  obtain ⟨h1, h2, h3, h4⟩ := h
  have hc : Canonical (change_sign r.numerator).data := @canonical_of_wellFormed r.numerator h1
  refine ⟨wellFormed_of_canonical_ne_zero hc (@limbs_value_ne_zero_of_value r.numerator h0),
    h2, h3, ?_⟩
  have e : value (operator_unary_minus r).numerator = -value r.numerator :=
    value_change_sign _
  rw [e, Int.neg_gcd]
  exact h4

theorem operator_mul_assign_one (pm : List ℚ → List ℚ → Nat → List ℚ) {a : BigInteger}
    (ha : WellFormed a) (h : MulAccurate pm a (BigInteger.of_int 1)) :
    BigInteger.operator_mul_assign pm a (BigInteger.of_int 1) = some a := by
  obtain ⟨r, r1, r2, r3, _⟩ := operator_mul_assign_spec pm (canonical_of_wellFormed ha)
    (show Canonical (BigInteger.of_int 1).data by decide) h
  have hv1 : value (BigInteger.of_int 1) = 1 := by decide
  rw [r1, eq_of_value_eq r2 ha (by rw [r3, hv1, mul_one])]

/-- Operator `/=` of `Rational` applied to the receiver itself: the numerator is multiplied by
the denominator before the denominator is multiplied by it, and the result is `1 / d`. -/
theorem rational_div_assign_self_spec (pm : List ℚ → List ℚ → Nat → List ℚ) (fuel : Nat)
    (a : Rational) (ha : Reduced a) (hn0 : value a.numerator ≠ 0)
    (hpm : AccurateBelow pm
      (|value a.numerator| * value a.denominator * (value a.denominator + 1)))
    (hf : |value a.numerator| * value a.denominator * (value a.denominator + 1) + 1 < fuel) :
    operator_div_assign_self pm fuel a
      = some { numerator := BigInteger.of_int 1, denominator := a.denominator } := by
  obtain ⟨a1, a2, a3, a4⟩ := ha
  have ca := canonical_of_wellFormed a1
  have cd := canonical_of_wellFormed a2
  have hA : 1 ≤ |value a.numerator| := Int.one_le_abs hn0
  have hd1 : 1 ≤ value a.denominator := by omega
  generalize hB : |value a.numerator| * value a.denominator * (value a.denominator + 1) = B
    at hpm hf
  have hAd : 0 ≤ |value a.numerator| * value a.denominator :=
    mul_nonneg (by omega) (by omega)
  have hAdd : 0 ≤ |value a.numerator| * value a.denominator * value a.denominator :=
    mul_nonneg hAd (by omega)
  have hBe : B = |value a.numerator| * value a.denominator * value a.denominator
      + |value a.numerator| * value a.denominator := by
    rw [← hB]
    ring
  have b1 : |value a.numerator| ≤ |value a.numerator| * value a.denominator := by nlinarith
  have b2 : value a.denominator ≤ |value a.numerator| * value a.denominator := by nlinarith
  have l1 : limbs_value a.numerator.data ≤ B := by
    rw [← abs_value a.numerator a1.2.1]
    omega
  have l2 : limbs_value a.denominator.data ≤ B := by
    rw [← value_eq_limbs_of_nonneg a2 (le_of_lt a3)]
    omega
  obtain ⟨p1, p11, p12, p13, _⟩ := operator_mul_assign_spec pm ca cd (hpm _ _ ca cd l1 l2)
  have habs1 : |value p1| = |value a.numerator| * value a.denominator := by
    rw [p13, abs_mul, abs_of_pos a3]
  have l3 : limbs_value p1.data ≤ B := by
    rw [← abs_value p1 p12.2.1, habs1]
    omega
  obtain ⟨p3, p31, p32, p33, _⟩ := operator_mul_assign_spec pm cd
    (canonical_of_wellFormed p12) (hpm _ _ cd (canonical_of_wellFormed p12) l2 l3)
  have hp10 : value p1 ≠ 0 := by
    rw [p13]
    exact mul_ne_zero hn0 (by omega)
  have hp30 : value p3 ≠ 0 := by
    rw [p33]
    exact mul_ne_zero (by omega) hp10
  have habs3 : |value p3| = |value a.numerator| * value a.denominator * value a.denominator := by
    rw [p33, abs_mul, abs_of_pos a3, habs1]
    ring
  have hs : Reduced { numerator := BigInteger.of_int 1, denominator := a.denominator } := by
    have hw1 : WellFormed (BigInteger.of_int 1) := by decide
    refine ⟨hw1, a2, a3, ?_⟩
    have hv1 : value (BigInteger.of_int 1) = 1 := by decide
    simp only [hv1, Int.one_gcd]
  have hv1 : value (BigInteger.of_int 1) = 1 := by decide
  have h0 : WellFormed (BigInteger.of_int 0) := by decide
  have hz : value (BigInteger.of_int 0) = 0 := by decide
  unfold operator_div_assign_self
  simp only [p11, p31]
  by_cases hlt : BigInteger.operator_lt p3 (BigInteger.of_int 0) = true
  · rw [if_pos hlt]
    have hneg := (operator_lt_iff p32 h0).mp hlt
    rw [hz] at hneg
    have hv3 : value (change_sign p3) = -value p3 := value_change_sign p3
    have hv1' : value (change_sign p1) = -value p1 := value_change_sign p1
    have hc3 : Canonical (change_sign p3).data := @canonical_of_wellFormed p3 p32
    have hc1 : Canonical (change_sign p1).data := @canonical_of_wellFormed p1 p12
    have hw3 : WellFormed (change_sign p3) :=
      wellFormed_of_canonical_ne_zero hc3 (@limbs_value_ne_zero_of_value p3 hp30)
    have hbound : |value (change_sign p1)| + value (change_sign p3) ≤ B := by
      rw [hv1', hv3, abs_neg, ← abs_of_neg hneg, habs1, habs3]
      omega
    obtain ⟨r, r1, r2, r3, r4⟩ := reduce_spec pm _ hpm fuel hf
      { numerator := change_sign p1, denominator := change_sign p3 }
      hc1 hw3 (by rw [hv3]; omega) hbound
    have hcross := cross_mul_of_div r3 r4
    simp only [hv3] at hcross
    rw [r1, reduced_eq_of_ratio r2 hs (D := -value p3) (by omega) hcross]
    simp only [hv1, hv1']
    have hp1neg : value a.numerator < 0 := by
      rw [p33, p13] at hneg
      by_contra hc
      have : 0 ≤ value a.denominator * (value a.numerator * value a.denominator) :=
        mul_nonneg (by omega) (mul_nonneg (by omega) (by omega))
      omega
    rw [p33]
    ring
  · rw [if_neg hlt]
    have hpos : 0 < value p3 := by
      have : ¬ value p3 < 0 := by
        intro h
        apply hlt
        rw [operator_lt_iff p32 h0, hz]
        exact h
      omega
    have hbound : |value p1| + value p3 ≤ B := by
      rw [← abs_of_pos hpos, habs1, habs3]
      omega
    obtain ⟨r, r1, r2, r3, r4⟩ := reduce_spec pm _ hpm fuel hf
      { numerator := p1, denominator := p3 } (canonical_of_wellFormed p12) p32 hpos hbound
    have hcross := cross_mul_of_div r3 r4
    simp only [] at hcross
    rw [r1, reduced_eq_of_ratio r2 hs (D := value p3) (by omega) hcross]
    simp only [hv1]
    rw [p33]
    ring

end Rational

namespace BigInteger

/-! ### Results for a transform within the rounding budget -/

/-- The remainder for a transform within the rounding budget (the integer part of C3): for
every well-formed `a` and every well-formed non-zero `b`, if the transform meets the rounding
budget on quotient times divisor, `a % b` returns a value whose magnitude is
strictly smaller than the magnitude of `b` and which is zero or carries the sign flag of `a`
(the sign of `b` plays no part); it denotes the truncated remainder. -/
theorem mod_magnitude_and_sign (pm : List ℚ → List ℚ → Nat → List ℚ) (a b : BigInteger)
    (ha : WellFormed a) (hb : WellFormed b) (hb0 : value b ≠ 0) (fuel : Nat)
    (hf : get_digits_number a < fuel)
    (hpm : ∀ q, operator_div fuel a b = some q → MulAccurate pm q b) :
    ∃ r, operator_mod pm fuel a b = some r ∧ |value r| < |value b| ∧
      (value r = 0 ∨ r.is_negative = a.is_negative) ∧
      value r = (value a).tmod (value b) := by
  obtain ⟨r, h1, h2, h3, h4⟩ := operator_mod_assign_spec pm ha hb hb0 fuel hf hpm
  have hca := canonical_of_wellFormed ha
  have hcb := canonical_of_wellFormed hb
  have hN := limbs_value_nonneg hca.2.1
  have hM := limbs_value_nonneg hcb.2.1
  have hM0 : limbs_value b.data ≠ 0 := by
    intro h
    apply hb0
    simp [value, h]
  refine ⟨r, h1, ?_, Or.inr h3, ?_⟩
  · rw [abs_value r h2.2.1, abs_value b hcb.2.1, h4]
    exact Int.emod_lt_of_pos _ (by omega)
  · have hva : value a = if a.is_negative then -limbs_value a.data else limbs_value a.data :=
      rfl
    have hvb : value b = if b.is_negative then -limbs_value b.data else limbs_value b.data :=
      rfl
    rw [hva, hvb, tmod_of_signs _ _ hN hM, ← h4, ← h3]
    rfl

/-- The remainder at `-7 % 2`, over the transform without rounding error, together with the
evaluations `7 % 2 = 1` and `-7 % 2 = -1`. -/
theorem mod_magnitude_and_sign_witness :
    (∃ r, operator_mod exact_transform 2 (of_int (-7)) (of_int 2) = some r ∧
      |value r| < |value (of_int 2)| ∧
      (value r = 0 ∨ r.is_negative = (of_int (-7)).is_negative) ∧
      value r = (value (of_int (-7))).tmod (value (of_int 2))) ∧
    operator_mod exact_transform 2 (of_int 7) (of_int 2) = some (of_int 1) ∧
    operator_mod exact_transform 2 (of_int (-7)) (of_int 2) = some (of_int (-1)) :=
  ⟨mod_magnitude_and_sign exact_transform (of_int (-7)) (of_int 2) (by decide) (by decide)
      (by decide) 2 (by decide)
      (mulAccurate_of_eq_some exact_transform
        (show operator_div_assign 2 (of_int (-7)) (of_int 2) = some (of_int (-3)) by decide)
        (mulAccurate_exact_transform _ _ (by decide) (by decide) (by decide))),
    operator_mod_assign_eval exact_transform (by decide) (by decide) (by decide) 2 (by decide)
      (mulAccurate_of_eq_some exact_transform
        (show operator_div_assign 2 (of_int 7) (of_int 2) = some (of_int 3) by decide)
        (mulAccurate_exact_transform _ _ (by decide) (by decide) (by decide))) (by decide) (by decide),
    operator_mod_assign_eval exact_transform (by decide) (by decide) (by decide) 2 (by decide)
      (mulAccurate_of_eq_some exact_transform
        (show operator_div_assign 2 (of_int (-7)) (of_int 2) = some (of_int (-3)) by decide)
        (mulAccurate_exact_transform _ _ (by decide) (by decide) (by decide))) (by decide) (by decide)⟩

/-- Quotient times divisor plus remainder for a transform within the rounding budget (the
integer part of C4): for every well-formed `a` and every well-formed non-zero `b`, if the
transform meets the rounding budget on quotient times divisor, `(a / b) * b + (a % b) == a`
under the class's own equality (sign flag and limb list). -/
theorem div_mul_add_mod (pm : List ℚ → List ℚ → Nat → List ℚ) (a b : BigInteger)
    (ha : WellFormed a) (hb : WellFormed b) (hb0 : value b ≠ 0) (fuel : Nat)
    (hf : get_digits_number a < fuel)
    (hpm : ∀ q, operator_div fuel a b = some q → MulAccurate pm q b) :
    ∃ q p r, operator_div fuel a b = some q ∧ operator_mul pm q b = some p ∧
      operator_mod pm fuel a b = some r ∧ operator_plus p r = some a := by
  have hca := canonical_of_wellFormed ha
  have hcb := canonical_of_wellFormed hb
  have hN := limbs_value_nonneg hca.2.1
  have hM := limbs_value_nonneg hcb.2.1
  obtain ⟨q, q1, q2, q3, _⟩ := operator_div_assign_spec ha hb hb0 fuel hf
  obtain ⟨p, p1, p2, p3, _⟩ :=
    operator_mul_assign_spec pm (canonical_of_wellFormed q2) hcb (hpm q q1)
  obtain ⟨r, r1, r2, r3, r4⟩ := operator_mod_assign_spec pm ha hb hb0 fuel hf hpm
  obtain ⟨s, s1, _, s3, s4⟩ := operator_plus_assign_spec (canonical_of_wellFormed p2) r2
  have hrv : value r = (value a).tmod (value b) := by
    have hva : value a = if a.is_negative then -limbs_value a.data else limbs_value a.data :=
      rfl
    have hvb : value b = if b.is_negative then -limbs_value b.data else limbs_value b.data :=
      rfl
    rw [hva, hvb, tmod_of_signs _ _ hN hM, ← r4, ← r3]
    rfl
  have hsa : s = a := by
    apply eq_of_value_eq (s4 p2) ha
    rw [s3, p3, q3, hrv]
    have := Int.tdiv_add_tmod (value a) (value b)
    linarith [mul_comm (value b) ((value a).tdiv (value b))]
  refine ⟨q, p, r, q1, p1, r1, ?_⟩
  unfold operator_plus
  rw [s1, hsa]

/-- Quotient times divisor plus remainder at `a = -7`, `b = 2`, over the transform without
rounding error. -/
theorem div_mul_add_mod_witness :
    ∃ q p r, operator_div 2 (of_int (-7)) (of_int 2) = some q ∧
      operator_mul exact_transform q (of_int 2) = some p ∧
      operator_mod exact_transform 2 (of_int (-7)) (of_int 2) = some r ∧
      operator_plus p r = some (of_int (-7)) :=
  div_mul_add_mod exact_transform (of_int (-7)) (of_int 2) (by decide) (by decide)
    (by decide) 2 (by decide)
    (mulAccurate_of_eq_some exact_transform
        (show operator_div_assign 2 (of_int (-7)) (of_int 2) = some (of_int (-3)) by decide)
        (mulAccurate_exact_transform _ _ (by decide) (by decide) (by decide)))

/-- Multiplication by one for a transform within the rounding budget (the integer part of
C16): for every well-formed `a`, if the transform meets the rounding budget on the two
products, `a * 1` and `1 * a` return `a` itself (same sign flag, same limbs). -/
theorem mul_one_identity (pm : List ℚ → List ℚ → Nat → List ℚ) (a : BigInteger)
    (ha : WellFormed a) (h1 : MulAccurate pm a (of_int 1)) (h2 : MulAccurate pm (of_int 1) a) :
    operator_mul pm a (of_int 1) = some a ∧ operator_mul pm (of_int 1) a = some a := by
  have hca := canonical_of_wellFormed ha
  have hc1 : Canonical (of_int 1).data := by decide
  have hv1 : value (of_int 1) = 1 := by decide
  obtain ⟨r, r1, r2, r3, _⟩ := operator_mul_assign_spec pm hca hc1 h1
  obtain ⟨t, t1, t2, t3, _⟩ := operator_mul_assign_spec pm hc1 hca h2
  have hr : r = a := eq_of_value_eq r2 ha (by rw [r3, hv1, mul_one])
  have ht : t = a := eq_of_value_eq t2 ha (by rw [t3, hv1, one_mul])
  unfold operator_mul
  rw [r1, t1, hr, ht]
  exact ⟨rfl, rfl⟩

/-- Multiplication by one at `a = -12345678`, over the transform without rounding error. -/
theorem mul_one_identity_witness :
    operator_mul exact_transform (of_int (-12345678)) (of_int 1) = some (of_int (-12345678)) ∧
    operator_mul exact_transform (of_int 1) (of_int (-12345678)) = some (of_int (-12345678)) :=
  mul_one_identity exact_transform (of_int (-12345678)) (by decide)
    (mulAccurate_exact_transform _ _ (by decide) (by decide) (by decide)) (mulAccurate_exact_transform _ _ (by decide) (by decide) (by decide))

/-- Monotonicity of the multiplication by a positive value for a transform within the rounding
budget (the integer part of C19): for all well-formed `a`, `b`, `c` with `a < b` and `c > 0`,
if the transform meets the rounding budget on the two products, `a * c` and `b * c` return
values `p` and `q` with `p < q`. -/
theorem mul_pos_strict_mono (pm : List ℚ → List ℚ → Nat → List ℚ) (a b c : BigInteger)
    (ha : WellFormed a) (hb : WellFormed b) (hc : WellFormed c)
    (hab : operator_lt a b = true) (hc0 : operator_gt c (of_int 0) = true)
    (h1 : MulAccurate pm a c) (h2 : MulAccurate pm b c) :
    ∃ p q, operator_mul pm a c = some p ∧ operator_mul pm b c = some q ∧
      operator_lt p q = true := by
  have hcc := canonical_of_wellFormed hc
  obtain ⟨p, p1, p2, p3, _⟩ := operator_mul_assign_spec pm (canonical_of_wellFormed ha) hcc h1
  obtain ⟨q, q1, q2, q3, _⟩ := operator_mul_assign_spec pm (canonical_of_wellFormed hb) hcc h2
  refine ⟨p, q, p1, q1, ?_⟩
  rw [operator_lt_iff p2 q2, p3, q3]
  have hlt := (operator_lt_iff ha hb).mp hab
  have hpos := (operator_gt_iff hc (by decide)).mp hc0
  have hz : value (of_int 0) = 0 := by decide
  rw [hz] at hpos
  exact mul_lt_mul_of_pos_right hlt hpos

/-- Monotonicity at `a = -12345678`, `b = 5`, `c = 10001`, over the transform without rounding
error. -/
theorem mul_pos_strict_mono_witness :
    ∃ p q, operator_mul exact_transform (of_int (-12345678)) (of_int 10001) = some p ∧
      operator_mul exact_transform (of_int 5) (of_int 10001) = some q ∧
      operator_lt p q = true :=
  mul_pos_strict_mono exact_transform (of_int (-12345678)) (of_int 5) (of_int 10001)
    (by decide) (by decide) (by decide) (by decide) (by decide)
    (mulAccurate_exact_transform _ _ (by decide) (by decide) (by decide)) (mulAccurate_exact_transform _ _ (by decide) (by decide) (by decide))

end BigInteger

namespace Rational
open BigInteger

/-- The reduced form under `+`, `-`, `*`, `/` for a transform within the rounding budget (the
integer part of C20): for reduced `a` and `b` (well-formed components, denominator > 0,
gcd(|numerator|, denominator) = 1), if the transform meets the rounding budget on magnitudes
up to `operand_bound a b`, then with more iterations than that bound `a + b`, `a - b`, `a * b`
and, for a non-zero `b`, `a / b` each return a rational that is again reduced. -/
theorem reduced_form_invariant (pm : List ℚ → List ℚ → Nat → List ℚ) (a b : Rational)
    (ha : Reduced a) (hb : Reduced b) (fuel : Nat)
    (hpm : AccurateBelow pm (operand_bound a b)) (hf : operand_bound a b + 1 < fuel) :
    (∃ r, operator_plus pm fuel a b = some r ∧ Reduced r) ∧
    (∃ r, operator_minus pm fuel a b = some r ∧ Reduced r) ∧
    (∃ r, operator_mul pm fuel a b = some r ∧ Reduced r) ∧
    (value b.numerator ≠ 0 → ∃ r, operator_div pm fuel a b = some r ∧ Reduced r) := by
  obtain ⟨a1, a2, a3, _⟩ := ha
  obtain ⟨b1, b2, b3, _⟩ := hb
  have ca := canonical_of_wellFormed a1
  have cb := canonical_of_wellFormed b1
  refine ⟨?_, ?_, ?_, ?_⟩
  · obtain ⟨r, r1, r2, _⟩ := rational_plus_assign_spec pm fuel a b ca a2 a3 cb b2 b3 hpm hf
    exact ⟨r, r1, r2⟩
  · obtain ⟨r, r1, r2, _⟩ := rational_minus_assign_spec pm fuel a b ca a2 a3 cb b2 b3 hpm hf
    exact ⟨r, r1, r2⟩
  · obtain ⟨r, r1, r2, _⟩ := rational_mul_assign_spec pm fuel a b ca a2 a3 cb b2 b3 hpm hf
    exact ⟨r, r1, r2⟩
  · intro hb0
    obtain ⟨r, r1, r2, _⟩ :=
      rational_div_assign_spec pm fuel a b ca a2 a3 cb b2 b3 hb0 hpm hf
    exact ⟨r, r1, r2⟩

/-- The reduced form at `a = -5/6`, `b = 1/3`, over the transform without rounding error. -/
theorem reduced_form_invariant_witness :
    (∃ r, operator_plus exact_transform 46
        ⟨BigInteger.of_int (-5), BigInteger.of_int 6⟩
        ⟨BigInteger.of_int 1, BigInteger.of_int 3⟩ = some r ∧ Reduced r) ∧
    (∃ r, operator_minus exact_transform 46
        ⟨BigInteger.of_int (-5), BigInteger.of_int 6⟩
        ⟨BigInteger.of_int 1, BigInteger.of_int 3⟩ = some r ∧ Reduced r) ∧
    (∃ r, operator_mul exact_transform 46
        ⟨BigInteger.of_int (-5), BigInteger.of_int 6⟩
        ⟨BigInteger.of_int 1, BigInteger.of_int 3⟩ = some r ∧ Reduced r) ∧
    (value (Rational.mk (BigInteger.of_int 1) (BigInteger.of_int 3)).numerator ≠ 0 →
      ∃ r, operator_div exact_transform 46
        ⟨BigInteger.of_int (-5), BigInteger.of_int 6⟩
        ⟨BigInteger.of_int 1, BigInteger.of_int 3⟩ = some r ∧ Reduced r) :=
  reduced_form_invariant exact_transform ⟨BigInteger.of_int (-5), BigInteger.of_int 6⟩
    ⟨BigInteger.of_int 1, BigInteger.of_int 3⟩ (by decide) (by decide) 46
    (accurateBelow_exact_transform _ 1 (by decide) (by decide)) (by decide)

/-- Sum and difference of rationals for a transform within the rounding budget (the integer
part of C21): for reduced rationals `x = a/b` and `y = c/d`, if the transform meets the rounding
budget on magnitudes up to `operand_bound x y`, then with more iterations than that bound
`x + y` and `x - y` return the reduced form of `(a*d + b*c)/(b*d)` and of `(a*d - b*c)/(b*d)`: a reduced
rational whose fraction is the exact sum, respectively the exact difference. -/
theorem add_sub_exact (pm : List ℚ → List ℚ → Nat → List ℚ) (x y : Rational)
    (hx : Reduced x) (hy : Reduced y) (fuel : Nat)
    (hpm : AccurateBelow pm (operand_bound x y)) (hf : operand_bound x y + 1 < fuel) :
    (∃ r, operator_plus pm fuel x y = some r ∧ Reduced r ∧
      value r.numerator * (value x.denominator * value y.denominator)
        = (value x.numerator * value y.denominator
            + value x.denominator * value y.numerator) * value r.denominator ∧
      (value r.numerator : ℚ) / (value r.denominator : ℚ)
        = (value x.numerator : ℚ) / (value x.denominator : ℚ)
          + (value y.numerator : ℚ) / (value y.denominator : ℚ)) ∧
    (∃ r, operator_minus pm fuel x y = some r ∧ Reduced r ∧
      value r.numerator * (value x.denominator * value y.denominator)
        = (value x.numerator * value y.denominator
            - value x.denominator * value y.numerator) * value r.denominator ∧
      (value r.numerator : ℚ) / (value r.denominator : ℚ)
        = (value x.numerator : ℚ) / (value x.denominator : ℚ)
          - (value y.numerator : ℚ) / (value y.denominator : ℚ)) := by
  obtain ⟨x1, x2, x3, _⟩ := hx
  obtain ⟨y1, y2, y3, _⟩ := hy
  have cx := canonical_of_wellFormed x1
  have cy := canonical_of_wellFormed y1
  have hb : (value x.denominator : ℚ) ≠ 0 := by exact_mod_cast (ne_of_gt x3)
  have hd : (value y.denominator : ℚ) ≠ 0 := by exact_mod_cast (ne_of_gt y3)
  have hD : value x.denominator * value y.denominator ≠ 0 :=
    mul_ne_zero (ne_of_gt x3) (ne_of_gt y3)
  constructor
  · obtain ⟨r, r1, r2, r3⟩ := rational_plus_assign_spec pm fuel x y cx x2 x3 cy y2 y3 hpm hf
    refine ⟨r, r1, r2, r3, ?_⟩
    rw [ratio_eq_of_cross (ne_of_gt r2.2.2.1) hD r3]
    push_cast
    field_simp
    ring
  · obtain ⟨r, r1, r2, r3⟩ := rational_minus_assign_spec pm fuel x y cx x2 x3 cy y2 y3 hpm hf
    refine ⟨r, r1, r2, r3, ?_⟩
    rw [ratio_eq_of_cross (ne_of_gt r2.2.2.1) hD r3]
    push_cast
    field_simp

/-- Sum and difference at `1/2` and `1/3`, over the transform without rounding error; the sum
is `5/6` and renders as `"5/6"`. -/
theorem add_sub_exact_witness :
    ((∃ r, operator_plus exact_transform 14 ⟨BigInteger.of_int 1, BigInteger.of_int 2⟩
        ⟨BigInteger.of_int 1, BigInteger.of_int 3⟩ = some r ∧ Reduced r ∧
      value r.numerator * (value (BigInteger.of_int 2) * value (BigInteger.of_int 3))
        = (value (BigInteger.of_int 1) * value (BigInteger.of_int 3)
            + value (BigInteger.of_int 2) * value (BigInteger.of_int 1)) * value r.denominator ∧
      (value r.numerator : ℚ) / (value r.denominator : ℚ)
        = (value (BigInteger.of_int 1) : ℚ) / (value (BigInteger.of_int 2) : ℚ)
          + (value (BigInteger.of_int 1) : ℚ) / (value (BigInteger.of_int 3) : ℚ)) ∧
    (∃ r, operator_minus exact_transform 14 ⟨BigInteger.of_int 1, BigInteger.of_int 2⟩
        ⟨BigInteger.of_int 1, BigInteger.of_int 3⟩ = some r ∧ Reduced r ∧
      value r.numerator * (value (BigInteger.of_int 2) * value (BigInteger.of_int 3))
        = (value (BigInteger.of_int 1) * value (BigInteger.of_int 3)
            - value (BigInteger.of_int 2) * value (BigInteger.of_int 1)) * value r.denominator ∧
      (value r.numerator : ℚ) / (value r.denominator : ℚ)
        = (value (BigInteger.of_int 1) : ℚ) / (value (BigInteger.of_int 2) : ℚ)
          - (value (BigInteger.of_int 1) : ℚ) / (value (BigInteger.of_int 3) : ℚ))) ∧
    (operator_plus exact_transform 14 ⟨BigInteger.of_int 1, BigInteger.of_int 2⟩
        ⟨BigInteger.of_int 1, BigInteger.of_int 3⟩).map Rational.toString = some "5/6" :=
  ⟨add_sub_exact exact_transform ⟨BigInteger.of_int 1, BigInteger.of_int 2⟩
      ⟨BigInteger.of_int 1, BigInteger.of_int 3⟩ (by decide) (by decide) 14
      (accurateBelow_exact_transform _ 1 (by decide) (by decide)) (by decide),
    (congrArg (Option.map Rational.toString)
      (rational_plus_assign_eval exact_transform 14
        ⟨BigInteger.of_int 1, BigInteger.of_int 2⟩ ⟨BigInteger.of_int 1, BigInteger.of_int 3⟩
        (by decide) (by decide) (by decide) (by decide) (by decide) (by decide)
        (accurateBelow_exact_transform _ 1 (by decide) (by decide)) (by decide)
        (show Reduced ⟨BigInteger.of_int 5, BigInteger.of_int 6⟩ by decide)
        (by decide))).trans (by decide)⟩

/-- Product and quotient of rationals for a transform within the rounding budget (the integer
part of C22): for reduced rationals `x = a/b` and `y = c/d`, if the transform meets the rounding
budget on magnitudes up to `operand_bound x y`, then with more iterations than that bound
`x * y` returns the reduced form of `(a*c)/(b*d)`, and for `c ≠ 0` the binary `x / y` returns the
reduced form of `(a*d)/(b*c)`: its denominator is positive, also for a negative `y`, and its
fraction is the exact quotient. -/
theorem mul_div_exact (pm : List ℚ → List ℚ → Nat → List ℚ) (x y : Rational)
    (hx : Reduced x) (hy : Reduced y) (fuel : Nat)
    (hpm : AccurateBelow pm (operand_bound x y)) (hf : operand_bound x y + 1 < fuel) :
    (∃ r, operator_mul pm fuel x y = some r ∧ Reduced r ∧
      value r.numerator * (value x.denominator * value y.denominator)
        = (value x.numerator * value y.numerator) * value r.denominator ∧
      (value r.numerator : ℚ) / (value r.denominator : ℚ)
        = (value x.numerator : ℚ) / (value x.denominator : ℚ)
          * ((value y.numerator : ℚ) / (value y.denominator : ℚ))) ∧
    (value y.numerator ≠ 0 → ∃ r, operator_div pm fuel x y = some r ∧ Reduced r ∧
      0 < value r.denominator ∧
      value r.numerator * (value x.denominator * value y.numerator)
        = (value x.numerator * value y.denominator) * value r.denominator ∧
      (value r.numerator : ℚ) / (value r.denominator : ℚ)
        = (value x.numerator : ℚ) / (value x.denominator : ℚ)
          / ((value y.numerator : ℚ) / (value y.denominator : ℚ))) := by
  obtain ⟨x1, x2, x3, _⟩ := hx
  obtain ⟨y1, y2, y3, _⟩ := hy
  have cx := canonical_of_wellFormed x1
  have cy := canonical_of_wellFormed y1
  have hb : (value x.denominator : ℚ) ≠ 0 := by exact_mod_cast (ne_of_gt x3)
  have hd : (value y.denominator : ℚ) ≠ 0 := by exact_mod_cast (ne_of_gt y3)
  constructor
  · obtain ⟨r, r1, r2, r3⟩ := rational_mul_assign_spec pm fuel x y cx x2 x3 cy y2 y3 hpm hf
    refine ⟨r, r1, r2, r3, ?_⟩
    rw [ratio_eq_of_cross (ne_of_gt r2.2.2.1) (mul_ne_zero (ne_of_gt x3) (ne_of_gt y3)) r3]
    push_cast
    field_simp
  · intro hc
    have hc1 : (value y.numerator : ℚ) ≠ 0 := by exact_mod_cast hc
    obtain ⟨r, r1, r2, r3⟩ :=
      rational_div_assign_spec pm fuel x y cx x2 x3 cy y2 y3 hc hpm hf
    refine ⟨r, r1, r2, r2.2.2.1, r3, ?_⟩
    rw [ratio_eq_of_cross (ne_of_gt r2.2.2.1) (mul_ne_zero (ne_of_gt x3) hc) r3]
    push_cast
    field_simp

/-- Product and quotient at `x = -2/3`, `y = -4/9`, over the transform without rounding error;
the quotient is `3/2`. -/
theorem mul_div_exact_witness :
    ((∃ r, operator_mul exact_transform 67 ⟨BigInteger.of_int (-2), BigInteger.of_int 3⟩
        ⟨BigInteger.of_int (-4), BigInteger.of_int 9⟩ = some r ∧ Reduced r ∧
      value r.numerator * (value (BigInteger.of_int 3) * value (BigInteger.of_int 9))
        = (value (BigInteger.of_int (-2)) * value (BigInteger.of_int (-4)))
          * value r.denominator ∧
      (value r.numerator : ℚ) / (value r.denominator : ℚ)
        = (value (BigInteger.of_int (-2)) : ℚ) / (value (BigInteger.of_int 3) : ℚ)
          * ((value (BigInteger.of_int (-4)) : ℚ) / (value (BigInteger.of_int 9) : ℚ))) ∧
    (value (BigInteger.of_int (-4)) ≠ 0 →
      ∃ r, operator_div exact_transform 67 ⟨BigInteger.of_int (-2), BigInteger.of_int 3⟩
        ⟨BigInteger.of_int (-4), BigInteger.of_int 9⟩ = some r ∧ Reduced r ∧
      0 < value r.denominator ∧
      value r.numerator * (value (BigInteger.of_int 3) * value (BigInteger.of_int (-4)))
        = (value (BigInteger.of_int (-2)) * value (BigInteger.of_int 9))
          * value r.denominator ∧
      (value r.numerator : ℚ) / (value r.denominator : ℚ)
        = (value (BigInteger.of_int (-2)) : ℚ) / (value (BigInteger.of_int 3) : ℚ)
          / ((value (BigInteger.of_int (-4)) : ℚ) / (value (BigInteger.of_int 9) : ℚ)))) ∧
    operator_div exact_transform 67 ⟨BigInteger.of_int (-2), BigInteger.of_int 3⟩
        ⟨BigInteger.of_int (-4), BigInteger.of_int 9⟩
      = some ⟨BigInteger.of_int 3, BigInteger.of_int 2⟩ :=
  ⟨mul_div_exact exact_transform ⟨BigInteger.of_int (-2), BigInteger.of_int 3⟩
      ⟨BigInteger.of_int (-4), BigInteger.of_int 9⟩ (by decide) (by decide) 67
      (accurateBelow_exact_transform _ 1 (by decide) (by decide)) (by decide),
    rational_div_assign_eval exact_transform 67
      ⟨BigInteger.of_int (-2), BigInteger.of_int 3⟩ ⟨BigInteger.of_int (-4), BigInteger.of_int 9⟩
      (by decide) (by decide) (by decide) (by decide) (by decide) (by decide) (by decide)
      (accurateBelow_exact_transform _ 1 (by decide) (by decide)) (by decide)
      (show Reduced ⟨BigInteger.of_int 3, BigInteger.of_int 2⟩ by decide) (by decide)⟩

/-- Comparison of rationals for a transform within the rounding budget (the integer part of
C23): for reduced rationals `x = a/b` and `y = c/d`, if the transform meets the rounding
budget on the two cross products, `x <=> y` returns an ordering that is less, equal or greater
exactly when `a*d` is less than, equal to or greater than `c*b`; it is equal exactly when `x`
and `y` are equal member by member; and when the signs of the numerators decide (one negative,
the other not) the answer is given without any product, for every transform, and agrees with
the cross products. -/
theorem spaceship_cross_products (pm : List ℚ → List ℚ → Nat → List ℚ) (x y : Rational)
    (hx : Reduced x) (hy : Reduced y)
    (h1 : MulAccurate pm x.numerator y.denominator)
    (h2 : MulAccurate pm x.denominator y.numerator) :
    ∃ o, operator_spaceship pm x y = some o ∧
      (o = Ordering.lt ↔
        value x.numerator * value y.denominator < value y.numerator * value x.denominator) ∧
      (o = Ordering.eq ↔
        value x.numerator * value y.denominator = value y.numerator * value x.denominator) ∧
      (o = Ordering.gt ↔
        value x.numerator * value y.denominator > value y.numerator * value x.denominator) ∧
      (o = Ordering.eq ↔ operator_eq x y = true) ∧
      (value x.numerator < 0 → 0 ≤ value y.numerator →
        (∀ pm1, operator_spaceship pm1 x y = some Ordering.lt) ∧
        value x.numerator * value y.denominator < value y.numerator * value x.denominator) ∧
      (0 ≤ value x.numerator → value y.numerator < 0 →
        (∀ pm1, operator_spaceship pm1 x y = some Ordering.gt) ∧
        value x.numerator * value y.denominator > value y.numerator * value x.denominator) := by
  have hs := rational_spaceship_spec pm x y hx.1 hx.2.1 hx.2.2.1 hy.1 hy.2.1 hy.2.2.1 h1 h2
  rw [mul_comm (value x.denominator) (value y.numerator)] at hs
  refine ⟨_, hs, compare_lt_iff_lt, compare_eq_iff_eq, compare_gt_iff_gt, ?_, ?_, ?_⟩
  · rw [compare_eq_iff_eq]
    unfold operator_eq
    rw [decide_eq_true_iff]
    constructor
    · intro h
      exact reduced_eq_of_cross hx hy h
    · intro h
      rw [h]
  · intro ha hc
    refine ⟨fun pm1 => (rational_spaceship_short pm1 x y hx.1 hy.1).1 ha hc, ?_⟩
    have e1 : value x.numerator * value y.denominator < 0 :=
      mul_neg_of_neg_of_pos ha hy.2.2.1
    have e2 : 0 ≤ value y.numerator * value x.denominator :=
      mul_nonneg hc (le_of_lt hx.2.2.1)
    omega
  · intro ha hc
    refine ⟨fun pm1 => (rational_spaceship_short pm1 x y hx.1 hy.1).2 ha hc, ?_⟩
    have e1 : 0 ≤ value x.numerator * value y.denominator :=
      mul_nonneg ha (le_of_lt hy.2.2.1)
    have e2 : value y.numerator * value x.denominator < 0 :=
      mul_neg_of_neg_of_pos hc hx.2.2.1
    omega

/-- Comparison at `x = -1/2`, `y = -1/3`, over the transform without rounding error. -/
theorem spaceship_cross_products_witness :
    ∃ o, operator_spaceship exact_transform ⟨BigInteger.of_int (-1), BigInteger.of_int 2⟩
        ⟨BigInteger.of_int (-1), BigInteger.of_int 3⟩ = some o ∧
      (o = Ordering.lt ↔
        value (BigInteger.of_int (-1)) * value (BigInteger.of_int 3)
          < value (BigInteger.of_int (-1)) * value (BigInteger.of_int 2)) ∧
      (o = Ordering.eq ↔
        value (BigInteger.of_int (-1)) * value (BigInteger.of_int 3)
          = value (BigInteger.of_int (-1)) * value (BigInteger.of_int 2)) ∧
      (o = Ordering.gt ↔
        value (BigInteger.of_int (-1)) * value (BigInteger.of_int 3)
          > value (BigInteger.of_int (-1)) * value (BigInteger.of_int 2)) ∧
      (o = Ordering.eq ↔
        operator_eq ⟨BigInteger.of_int (-1), BigInteger.of_int 2⟩
          ⟨BigInteger.of_int (-1), BigInteger.of_int 3⟩ = true) ∧
      (value (BigInteger.of_int (-1)) < 0 → 0 ≤ value (BigInteger.of_int (-1)) →
        (∀ pm1, operator_spaceship pm1 ⟨BigInteger.of_int (-1), BigInteger.of_int 2⟩
          ⟨BigInteger.of_int (-1), BigInteger.of_int 3⟩ = some Ordering.lt) ∧
        value (BigInteger.of_int (-1)) * value (BigInteger.of_int 3)
          < value (BigInteger.of_int (-1)) * value (BigInteger.of_int 2)) ∧
      (0 ≤ value (BigInteger.of_int (-1)) → value (BigInteger.of_int (-1)) < 0 →
        (∀ pm1, operator_spaceship pm1 ⟨BigInteger.of_int (-1), BigInteger.of_int 2⟩
          ⟨BigInteger.of_int (-1), BigInteger.of_int 3⟩ = some Ordering.gt) ∧
        value (BigInteger.of_int (-1)) * value (BigInteger.of_int 3)
          > value (BigInteger.of_int (-1)) * value (BigInteger.of_int 2)) :=
  spaceship_cross_products exact_transform ⟨BigInteger.of_int (-1), BigInteger.of_int 2⟩
    ⟨BigInteger.of_int (-1), BigInteger.of_int 3⟩ (by decide) (by decide)
    (mulAccurate_exact_transform _ _ (by decide) (by decide) (by decide)) (mulAccurate_exact_transform _ _ (by decide) (by decide) (by decide))

/-- The function `gcd` for a transform within the rounding budget (the integer part of C26):
for all well-formed non-negative `a` and `b`, if the transform meets the rounding budget on
magnitudes up to `value a + value b`, then with more iterations than that for the divisions
and a recursion depth above `value b`, `gcd(a, b)` returns a well-formed non-negative value
that denotes the greatest common divisor of `value a` and `value b`; `gcd(a, 0)` returns `a`,
and `gcd(0, 0)` returns `0`. -/
theorem gcd_computes (pm : List ℚ → List ℚ → Nat → List ℚ) (a b : BigInteger)
    (ha : WellFormed a) (hb : WellFormed b) (ha0 : 0 ≤ value a) (hb0 : 0 ≤ value b)
    (fuel depth : Nat) (hpm : AccurateBelow pm (value a + value b))
    (hf : value a + value b + 1 < fuel) (hd : value b < depth) :
    (∃ g, gcd pm fuel depth a b = some g ∧ WellFormed g ∧ 0 ≤ value g ∧
      value g = Int.gcd (value a) (value b) ∧
      value g ∣ value a ∧ value g ∣ value b ∧
      ∀ c : Int, c ∣ value a → c ∣ value b → c ∣ value g) ∧
    gcd pm fuel depth a (BigInteger.of_int 0) = some a ∧
    gcd pm fuel depth (BigInteger.of_int 0) (BigInteger.of_int 0)
      = some (BigInteger.of_int 0) := by
  obtain ⟨g, g1, g2, g3, g4⟩ :=
    gcd_spec pm (value a + value b) hpm fuel hf depth a b ha hb ha0 hb0 (le_refl _) hd
  obtain ⟨k, hk⟩ : ∃ k, depth = k + 1 := ⟨depth - 1, by omega⟩
  refine ⟨⟨g, g1, g2, g3, g4, ?_, ?_, ?_⟩, ?_, ?_⟩
  · rw [g4]
    exact Int.gcd_dvd_left
  · rw [g4]
    exact Int.gcd_dvd_right
  · intro c c1 c2
    rw [g4]
    exact Int.dvd_gcd c1 c2
  · rw [hk]
    rfl
  · rw [hk]
    rfl

/-- The function `gcd` at `a = 12`, `b = 18`, over the transform without rounding error. -/
theorem gcd_computes_witness :
    (∃ g, gcd exact_transform 32 19 (BigInteger.of_int 12) (BigInteger.of_int 18) = some g ∧
      WellFormed g ∧ 0 ≤ value g ∧
      value g = Int.gcd (value (BigInteger.of_int 12)) (value (BigInteger.of_int 18)) ∧
      value g ∣ value (BigInteger.of_int 12) ∧ value g ∣ value (BigInteger.of_int 18) ∧
      ∀ c : Int, c ∣ value (BigInteger.of_int 12) → c ∣ value (BigInteger.of_int 18) →
        c ∣ value g) ∧
    gcd exact_transform 32 19 (BigInteger.of_int 12) (BigInteger.of_int 0)
      = some (BigInteger.of_int 12) ∧
    gcd exact_transform 32 19 (BigInteger.of_int 0) (BigInteger.of_int 0)
      = some (BigInteger.of_int 0) :=
  gcd_computes exact_transform (BigInteger.of_int 12) (BigInteger.of_int 18) (by decide)
    (by decide) (by decide) (by decide) 32 19
    (accurateBelow_exact_transform _ 1 (by decide) (by decide)) (by decide) (by decide)

/-- Division by the rational zero for a transform within the rounding budget (the integer part
of C39): division of a reduced rational `x` by the rational zero returns (if the transform
meets the rounding budget on numerator times 1, and with more iterations than the numerator
has digits) a rational whose denominator is the zero limb: the numerator is `1` for a positive
`x`, `-1` for a negative `x`, and `0` for `x` zero. -/
theorem div_by_zero_rational (pm : List ℚ → List ℚ → Nat → List ℚ) (fuel : Nat)
    (x : Rational) (hx : Reduced x)
    (hpm : MulAccurate pm x.numerator (BigInteger.of_int 1))
    (hf : get_digits_number x.numerator < fuel) :
    ∃ r, operator_div pm fuel x (Rational.of_int 0) = some r ∧
      r.denominator = BigInteger.mk false [0] ∧ value r.denominator = 0 ∧
      (0 < value x.numerator → r.numerator = BigInteger.of_int 1) ∧
      (value x.numerator < 0 → r.numerator = BigInteger.of_int (-1)) ∧
      (value x.numerator = 0 → r.numerator = BigInteger.mk false [0]) := by
  have hxn := hx.1
  have hzv : value (BigInteger.mk false [0]) = 0 := by decide
  suffices hgoal : ∃ q, operator_div_assign pm fuel x (Rational.of_int 0)
        = some { numerator := q, denominator := BigInteger.mk false [0] } ∧
      (0 < value x.numerator → q = BigInteger.of_int 1) ∧
      (value x.numerator < 0 → q = BigInteger.of_int (-1)) ∧
      (value x.numerator = 0 → q = BigInteger.mk false [0]) by
    obtain ⟨q, q1, q2, q3, q4⟩ := hgoal
    exact ⟨_, q1, rfl, hzv, q2, q3, q4⟩
  have hm1 : BigInteger.operator_mul_assign pm x.numerator (Rational.of_int 0).denominator
      = some x.numerator := operator_mul_assign_one pm hxn hpm
  have hm2 : BigInteger.operator_mul_assign pm x.denominator (Rational.of_int 0).numerator
      = some (BigInteger.mk false [0]) :=
    operator_mul_assign_zero pm _ _ (Or.inr (by decide))
  have hlt : BigInteger.operator_lt (BigInteger.mk false [0]) (BigInteger.of_int 0) = false := by
    decide
  obtain ⟨k, hk⟩ : ∃ k, fuel = k + 1 := ⟨fuel - 1, by omega⟩
  have hg : gcd pm fuel fuel (BigInteger.abs x.numerator) (BigInteger.mk false [0])
      = some (BigInteger.abs x.numerator) := by
    nth_rewrite 2 [hk]
    rfl
  have hden : BigInteger.operator_div_assign fuel (BigInteger.mk false [0])
      (BigInteger.abs x.numerator) = some (BigInteger.mk false [0]) :=
    operator_div_assign_zero_data fuel rfl _
  have hred : ∀ q, BigInteger.operator_div_assign fuel x.numerator (BigInteger.abs x.numerator)
      = some q →
      operator_div_assign pm fuel x (Rational.of_int 0)
        = some { numerator := q, denominator := BigInteger.mk false [0] } := by
    intro q hq
    unfold operator_div_assign
    simp only [hm1, hm2, hlt, Bool.false_eq_true, if_false]
    unfold reduce
    simp only [hg, hq, hden]
  by_cases h0 : value x.numerator = 0
  · have hd : x.numerator.data = [0] := by
      have := (eq_of_int_zero_iff hxn).mpr h0
      rw [this]
      rfl
    refine ⟨BigInteger.mk false [0], hred _ (operator_div_assign_zero_data fuel hd _),
      fun h => by omega, fun h => by omega, fun _ => rfl⟩
  · obtain ⟨w1, w2, w3⟩ := abs_spec hxn
    have hab : value (BigInteger.abs x.numerator) ≠ 0 := by
      rw [w3]
      exact abs_ne_zero.mpr h0
    obtain ⟨q, q1, q2, q3, _⟩ := operator_div_assign_spec hxn w1 hab fuel hf
    refine ⟨q, hred q q1, ?_, ?_, fun h => absurd h h0⟩
    · intro hp
      apply eq_of_value_eq q2 (by decide)
      rw [q3, w3, abs_of_pos hp, Int.tdiv_self h0]
      rfl
    · intro hn
      apply eq_of_value_eq q2 (by decide)
      rw [q3, w3, abs_of_neg hn, Int.tdiv_neg, Int.tdiv_self h0]
      rfl

/-- Division by the rational zero at `x = -3/4`, over the transform without rounding error. -/
theorem div_by_zero_rational_witness :
    ∃ r, operator_div exact_transform 2 ⟨BigInteger.of_int (-3), BigInteger.of_int 4⟩
        (Rational.of_int 0) = some r ∧
      r.denominator = BigInteger.mk false [0] ∧ value r.denominator = 0 ∧
      (0 < value (BigInteger.of_int (-3)) → r.numerator = BigInteger.of_int 1) ∧
      (value (BigInteger.of_int (-3)) < 0 → r.numerator = BigInteger.of_int (-1)) ∧
      (value (BigInteger.of_int (-3)) = 0 → r.numerator = BigInteger.mk false [0]) :=
  div_by_zero_rational exact_transform 2 ⟨BigInteger.of_int (-3), BigInteger.of_int 4⟩
    (by decide) (mulAccurate_exact_transform _ _ (by decide) (by decide) (by decide)) (by decide)

end Rational

namespace BigInteger

/-! ## Claims -/

/-- C1: for all well-formed big integers `a` and `b`, `a + b` returns a value that denotes
`value a + value b` and `a - b` returns a value that denotes `value a - value b`. -/
theorem plus_minus_denote (a b : BigInteger) (ha : WellFormed a) (hb : WellFormed b) :
    ∃ s d, operator_plus a b = some s ∧ operator_minus a b = some d ∧
      value s = value a + value b ∧ value d = value a - value b := by
  obtain ⟨s, hs1, _, hs2, _⟩ :=
    operator_plus_assign_spec (canonical_of_wellFormed ha) (canonical_of_wellFormed hb)
  obtain ⟨d, hd1, _, hd2, _⟩ :=
    operator_minus_assign_spec (canonical_of_wellFormed ha) (canonical_of_wellFormed hb)
  exact ⟨s, d, hs1, hd1, hs2, hd2⟩

/-- Witness for C1 at `"99999999"` and `"1"`, whose sum renders as `"100000000"`. -/
theorem plus_minus_denote_witness :
    (∃ s d, operator_plus (of_string "99999999") (of_string "1") = some s ∧
      operator_minus (of_string "99999999") (of_string "1") = some d ∧
      value s = value (of_string "99999999") + value (of_string "1") ∧
      value d = value (of_string "99999999") - value (of_string "1")) ∧
    (operator_plus (of_string "99999999") (of_string "1")).map BigInteger.toString
      = some "100000000" :=
  ⟨plus_minus_denote (of_string "99999999") (of_string "1") (by decide) (by decide), by decide⟩

/-- C2: for every well-formed `a` and every well-formed non-zero `b`, `a / b` returns (once
the loop is given more iterations than `a` has decimal digits) a well-formed value that denotes
the quotient of `value a` by `value b` truncated toward zero; its sign flag is the XOR of the
operand flags unless the quotient is zero. -/
theorem div_truncates (a b : BigInteger) (ha : WellFormed a) (hb : WellFormed b)
    (hb0 : value b ≠ 0) :
    ∃ q, (∀ fuel, get_digits_number a < fuel → operator_div fuel a b = some q) ∧
      WellFormed q ∧ value q = (value a).tdiv (value b) ∧
      (value q ≠ 0 → q.is_negative = xor a.is_negative b.is_negative) := by
  obtain ⟨q, h1, h2, h3, h4⟩ :=
    operator_div_assign_spec ha hb hb0 (get_digits_number a + 1) (Nat.lt_succ_self _)
  refine ⟨q, ?_, h2, h3, h4⟩
  intro fuel hf
  obtain ⟨q1, e1, e2, e3, _⟩ := operator_div_assign_spec ha hb hb0 fuel hf
  unfold operator_div
  rw [e1, eq_of_value_eq e2 h2 (by rw [e3, h3])]

/-- Witness for C2: `-7 / 2`, together with the evaluations `7 / 2 = 3` and `-7 / 2 = -3`. -/
theorem div_truncates_witness :
    (∃ q, (∀ fuel, get_digits_number (of_int (-7)) < fuel →
        operator_div fuel (of_int (-7)) (of_int 2) = some q) ∧
      WellFormed q ∧ value q = (value (of_int (-7))).tdiv (value (of_int 2)) ∧
      (value q ≠ 0 → q.is_negative = xor (of_int (-7)).is_negative (of_int 2).is_negative)) ∧
    operator_div 2 (of_int 7) (of_int 2) = some (of_int 3) ∧
    operator_div 2 (of_int (-7)) (of_int 2) = some (of_int (-3)) :=
  ⟨div_truncates (of_int (-7)) (of_int 2) (by decide) (by decide) (by decide), by decide,
    by decide⟩

/-- C6: for well-formed `a`, `b` (and `c`), `a <=> b` is less, equal or greater exactly when
`value a` is less than, equal to or greater than `value b`; `a <=> a` is equal, and `<` is
irreflexive, transitive and total on well-formed values. -/
theorem spaceship_agrees_with_value (a b c : BigInteger) (ha : WellFormed a)
    (hb : WellFormed b) (hc : WellFormed c) :
    (operator_spaceship a b = Ordering.lt ↔ value a < value b) ∧
    (operator_spaceship a b = Ordering.eq ↔ value a = value b) ∧
    (operator_spaceship a b = Ordering.gt ↔ value a > value b) ∧
    operator_spaceship a a = Ordering.eq ∧
    operator_lt a a = false ∧
    (operator_lt a b = true → operator_lt b c = true → operator_lt a c = true) ∧
    (a = b ∨ operator_lt a b = true ∨ operator_lt b a = true) := by
  have hlt : ∀ x y : BigInteger, WellFormed x → WellFormed y →
      (operator_lt x y = true ↔ value x < value y) := by
    intro x y hx hy
    unfold operator_lt
    rw [operator_spaceship_eq_compare hx hy, decide_eq_true_iff, compare_lt_iff_lt]
  refine ⟨?_, ?_, ?_, ?_, ?_, ?_, ?_⟩
  · rw [operator_spaceship_eq_compare ha hb, compare_lt_iff_lt]
  · rw [operator_spaceship_eq_compare ha hb, compare_eq_iff_eq]
  · rw [operator_spaceship_eq_compare ha hb, compare_gt_iff_gt]
  · rw [operator_spaceship_eq_compare ha ha, compare_eq_iff_eq]
  · cases h : operator_lt a a
    · rfl
    · have := (hlt a a ha ha).mp h
      omega
  · intro h1 h2
    have h3 := (hlt a b ha hb).mp h1
    have h4 := (hlt b c hb hc).mp h2
    exact (hlt a c ha hc).mpr (by omega)
  · rcases lt_trichotomy (value a) (value b) with h | h | h
    · exact Or.inr (Or.inl ((hlt a b ha hb).mpr h))
    · exact Or.inl (eq_of_value_eq ha hb h)
    · exact Or.inr (Or.inr ((hlt b a hb ha).mpr h))

/-- Witness for C6 at `-10000`, `0` and `7`. -/
theorem spaceship_agrees_with_value_witness :
    (operator_spaceship (of_int (-10000)) (of_int 0) = Ordering.lt ↔
      value (of_int (-10000)) < value (of_int 0)) ∧
    (operator_spaceship (of_int (-10000)) (of_int 0) = Ordering.eq ↔
      value (of_int (-10000)) = value (of_int 0)) ∧
    (operator_spaceship (of_int (-10000)) (of_int 0) = Ordering.gt ↔
      value (of_int (-10000)) > value (of_int 0)) ∧
    operator_spaceship (of_int (-10000)) (of_int (-10000)) = Ordering.eq ∧
    operator_lt (of_int (-10000)) (of_int (-10000)) = false ∧
    (operator_lt (of_int (-10000)) (of_int 0) = true → operator_lt (of_int 0) (of_int 7) = true →
      operator_lt (of_int (-10000)) (of_int 7) = true) ∧
    (of_int (-10000) = of_int 0 ∨ operator_lt (of_int (-10000)) (of_int 0) = true ∨
      operator_lt (of_int 0) (of_int (-10000)) = true) :=
  spaceship_agrees_with_value (of_int (-10000)) (of_int 0) (of_int 7) (by decide) (by decide)
    (by decide)

/-- C7: decimal round trip: for every well-formed `x` (zero and negative values included),
`BigInteger(x.toString()) == x`. -/
theorem of_string_toString (x : BigInteger) (h : WellFormed x) : of_string x.toString = x := by
  have hc := canonical_of_wellFormed h
  obtain ⟨ds, h1, h2, h3, h4, h5⟩ := toString_spec x hc.2.1
  have hsp := of_string_spec (decide (x.is_negative = true ∧ limbs_value x.data ≠ 0)) ds h1 h2
  have e : (if decide (x.is_negative = true ∧ limbs_value x.data ≠ 0) = true then ['-'] else [])
      = (if x.is_negative = true ∧ limbs_value x.data ≠ 0 then ['-'] else []) := by
    by_cases hp : x.is_negative = true ∧ limbs_value x.data ≠ 0
    · rw [if_pos hp, if_pos (decide_eq_true hp)]
    · rw [if_neg hp, if_neg (by simpa using hp)]
  rw [e, ← h5] at hsp
  obtain ⟨s1, s2, s3⟩ := hsp
  have hdata : (of_string x.toString).data = x.data :=
    canonical_eq_of_value_eq s1 hc (by rw [s2, h4])
  have hneg : (of_string x.toString).is_negative = x.is_negative := by
    rw [s3]
    cases hn : x.is_negative
    · simp
    · have hv : limbs_value x.data ≠ 0 := by
        intro h0
        have := h.2.2.2 ((limbs_value_eq_zero_iff hc).mp h0)
        rw [hn] at this
        exact Bool.noConfusion this
      have hds : ds ≠ ['0'] := by
        intro h0
        rw [h0] at h4
        apply hv
        rw [← h4]
        rfl
      simp [hv, hds]
  exact eq_of_fields hneg hdata

/-- Witness for C7 at `-123456789`. -/
theorem of_string_toString_witness :
    of_string (BigInteger.toString (BigInteger.mk true [6789, 2345, 1]))
      = BigInteger.mk true [6789, 2345, 1] :=
  of_string_toString (BigInteger.mk true [6789, 2345, 1]) (by decide)

/-- C8: for every text made of an optional leading `-` and one or more decimal digits,
`BigInteger(s).toString()` is the minimal decimal text of the integer that `s` writes: no
leading zeros, a `-` only when that integer is negative, and `"0"` when it is zero. -/
theorem toString_of_string_canonical (neg : Bool) (ds : List Char) (hne : ds ≠ [])
    (hds : ∀ c ∈ ds, IsDigit c) :
    IsDecimalText (of_string (String.mk ((if neg then ['-'] else []) ++ ds))).toString
      (if neg then -decimal_value ds else decimal_value ds) ∧
    (decimal_value ds = 0 →
      (of_string (String.mk ((if neg then ['-'] else []) ++ ds))).toString = "0") := by
  obtain ⟨h1, h2, h3⟩ := of_string_spec neg ds hne hds
  have h4 := isDecimalText_toString _ h1.2.1
  have hv : value (of_string (String.mk ((if neg then ['-'] else []) ++ ds)))
      = if neg then -decimal_value ds else decimal_value ds := by
    unfold value
    rw [h3, h2]
    cases neg
    · simp
    · by_cases hz : ds = ['0']
      · rw [hz]
        decide
      · simp [hz]
  rw [hv] at h4
  refine ⟨h4, ?_⟩
  intro h0
  apply isDecimalText_zero
  rw [h0] at h4
  cases neg
  · simpa using h4
  · simpa using h4

/-- Witness for C8 at `"-000"` and at `"007"`. -/
theorem toString_of_string_canonical_witness :
    (IsDecimalText (of_string (String.mk ((if true then ['-'] else []) ++ ['0', '0', '0']))).toString
        (if true then -decimal_value ['0', '0', '0'] else decimal_value ['0', '0', '0']) ∧
      (decimal_value ['0', '0', '0'] = 0 →
        (of_string (String.mk ((if true then ['-'] else []) ++ ['0', '0', '0']))).toString
          = "0")) ∧
    (of_string "-000").toString = "0" ∧ (of_string "-0").toString = "0" ∧
    (of_string "007").toString = "7" :=
  ⟨toString_of_string_canonical true ['0', '0', '0'] (by decide) (by decide), by decide,
    by decide, by decide⟩

/-- C9, evaluated at the text `-00`: the string constructor returns the single limb 0 with
the sign flag set, which is not well-formed and is not equal to `BigInteger(0)`, while the
text `-0` gives the canonical zero. -/
theorem of_string_minus_zero_zero :
    of_string "-00" = BigInteger.mk true [0] ∧ ¬ WellFormed (of_string "-00") ∧
    of_string "-00" ≠ of_int 0 ∧ of_string "-0" = of_int 0 := by
  decide

/-- C10: for every well-formed `x`, `toString x` is the minimal decimal text of `value x`:
`"0"` when `x` is zero, otherwise the digits of `|value x|` without a leading `0`, with a `-`
in front exactly when `x` is negative. -/
theorem toString_minimal_decimal (x : BigInteger) (h : WellFormed x) :
    IsDecimalText x.toString (value x) ∧ (value x = 0 → x.toString = "0") := by
  have h1 := isDecimalText_toString x h.2.1
  refine ⟨h1, ?_⟩
  intro h0
  rw [h0] at h1
  exact isDecimalText_zero h1

/-- Witness for C10 at `-123456789`. -/
theorem toString_minimal_decimal_witness :
    (IsDecimalText (BigInteger.toString (BigInteger.mk true [6789, 2345, 1]))
        (value (BigInteger.mk true [6789, 2345, 1])) ∧
      (value (BigInteger.mk true [6789, 2345, 1]) = 0 →
        BigInteger.toString (BigInteger.mk true [6789, 2345, 1]) = "0")) ∧
    BigInteger.toString (BigInteger.mk true [6789, 2345, 1]) = "-123456789" :=
  ⟨toString_minimal_decimal (BigInteger.mk true [6789, 2345, 1]) (by decide), by decide⟩

/-- C11: well-formedness is preserved: given well-formed operands, `+=`, `-=`, unary minus,
`++`, `--` (prefix and postfix), `/=` with a non-zero divisor (once its loop is given more
iterations than the dividend has decimal digits) and `shift` each return a well-formed
value. -/
theorem wellFormed_preserved (a b : BigInteger) (ha : WellFormed a) (hb : WellFormed b) :
    (∃ r, operator_plus_assign a b = some r ∧ WellFormed r) ∧
    (∃ r, operator_minus_assign a b = some r ∧ WellFormed r) ∧
    WellFormed (operator_unary_minus a) ∧
    (∃ r, operator_pre_increment a = some r ∧ WellFormed r) ∧
    (∃ r, operator_post_increment a = some (a, r) ∧ WellFormed r) ∧
    (∃ r, operator_pre_decrement a = some r ∧ WellFormed r) ∧
    (∃ r, operator_post_decrement a = some (a, r) ∧ WellFormed r) ∧
    (value b ≠ 0 → ∀ fuel, get_digits_number a < fuel →
      ∃ r, operator_div_assign fuel a b = some r ∧ WellFormed r) ∧
    (∀ pow10, WellFormed (shift a pow10)) := by
  have hca := canonical_of_wellFormed ha
  have hcb := canonical_of_wellFormed hb
  have h1 : WellFormed (of_int 1) := by decide
  have hc1 := canonical_of_wellFormed h1
  obtain ⟨s, s1, _, _, s4⟩ := operator_plus_assign_spec hca hcb
  obtain ⟨d, d1, _, _, d4⟩ := operator_minus_assign_spec hca hcb
  obtain ⟨i, i1, _, _, i4⟩ := operator_plus_assign_spec hca hc1
  obtain ⟨j, j1, _, _, j4⟩ := operator_minus_assign_spec hca hc1
  refine ⟨⟨s, s1, s4 ha⟩, ⟨d, d1, d4 ha⟩, wellFormed_operator_unary_minus ha, ⟨i, i1, i4 ha⟩,
    ⟨i, ?_, i4 ha⟩, ⟨j, j1, j4 ha⟩, ⟨j, ?_, j4 ha⟩, ?_, fun pow10 => wellFormed_shift ha pow10⟩
  · unfold operator_post_increment operator_pre_increment
    rw [i1]
  · unfold operator_post_decrement operator_pre_decrement
    rw [j1]
  · intro hb0 fuel hf
    obtain ⟨q, q1, q2, _⟩ := operator_div_assign_spec ha hb hb0 fuel hf
    exact ⟨q, q1, q2⟩

/-- Witness for C11 at `a = 9999`, `b = -10000`. -/
theorem wellFormed_preserved_witness :
    (∃ r, operator_plus_assign (of_int 9999) (of_int (-10000)) = some r ∧ WellFormed r) ∧
    (∃ r, operator_minus_assign (of_int 9999) (of_int (-10000)) = some r ∧ WellFormed r) ∧
    WellFormed (operator_unary_minus (of_int 9999)) ∧
    (∃ r, operator_pre_increment (of_int 9999) = some r ∧ WellFormed r) ∧
    (∃ r, operator_post_increment (of_int 9999) = some (of_int 9999, r) ∧ WellFormed r) ∧
    (∃ r, operator_pre_decrement (of_int 9999) = some r ∧ WellFormed r) ∧
    (∃ r, operator_post_decrement (of_int 9999) = some (of_int 9999, r) ∧ WellFormed r) ∧
    (value (of_int (-10000)) ≠ 0 → ∀ fuel, get_digits_number (of_int 9999) < fuel →
      ∃ r, operator_div_assign fuel (of_int 9999) (of_int (-10000)) = some r ∧ WellFormed r) ∧
    (∀ pow10, WellFormed (shift (of_int 9999) pow10)) :=
  wellFormed_preserved (of_int 9999) (of_int (-10000)) (by decide) (by decide)

/-- C12, on the code: for a negative well-formed `a` and a well-formed non-zero `b` whose value
divides the value of `a` (and a transform within the rounding budget on quotient times
divisor), `a % b` returns the single limb 0 with the sign flag set: the flag is not cleared,
the result is not well-formed and is not equal to `BigInteger(0)`. -/
theorem mod_negative_multiple_signed_zero (pm : List ℚ → List ℚ → Nat → List ℚ)
    (a b : BigInteger) (ha : WellFormed a) (hb : WellFormed b) (hb0 : value b ≠ 0)
    (hneg : a.is_negative = true) (hdvd : value b ∣ value a) (fuel : Nat)
    (hf : get_digits_number a < fuel)
    (hpm : ∀ q, operator_div fuel a b = some q → MulAccurate pm q b) :
    ∃ r, operator_mod pm fuel a b = some r ∧ r = BigInteger.mk true [0] ∧
      r.is_negative = true ∧ r ≠ of_int 0 ∧ ¬ WellFormed r := by
  refine ⟨BigInteger.mk true [0], ?_, rfl, rfl, by decide, by decide⟩
  have h := operator_mod_assign_of_dvd pm ha hb hb0 hdvd fuel hf hpm
  rw [hneg] at h
  exact h

/-- Witness for C12 at `(-4) % 2`, over the transform without rounding error. -/
theorem mod_negative_multiple_signed_zero_witness :
    ∃ r, operator_mod exact_transform 2 (of_int (-4)) (of_int 2) = some r ∧
      r = BigInteger.mk true [0] ∧ r.is_negative = true ∧ r ≠ of_int 0 ∧ ¬ WellFormed r :=
  mod_negative_multiple_signed_zero exact_transform (of_int (-4)) (of_int 2) (by decide)
    (by decide) (by decide) (by decide) (by decide) 2 (by decide)
    (mulAccurate_of_eq_some exact_transform
      (show operator_div 2 (of_int (-4)) (of_int 2) = some (of_int (-2)) by decide)
      (mulAccurate_exact_transform _ _ (by decide) (by decide) (by decide)))

/-- C13: for all well-formed `a` and `b`, `a + b` returns a value `s`, and `s - b` returns `a`
itself (same sign flag, same limbs). -/
theorem plus_minus_cancel (a b : BigInteger) (ha : WellFormed a) (hb : WellFormed b) :
    ∃ s, operator_plus a b = some s ∧ operator_minus s b = some a := by
  have hcb := canonical_of_wellFormed hb
  obtain ⟨s, s1, s2, s3, s4⟩ := operator_plus_assign_spec (canonical_of_wellFormed ha) hcb
  obtain ⟨d, d1, _, d3, d4⟩ := operator_minus_assign_spec s2 hcb
  refine ⟨s, s1, ?_⟩
  have hda : d = a := by
    apply eq_of_value_eq (d4 (s4 ha)) ha
    rw [d3, s3]
    ring
  unfold operator_minus
  rw [d1, hda]

/-- Witness for C13 at `a = -99999999`, `b = 1` (a borrow through two limbs and back). -/
theorem plus_minus_cancel_witness :
    ∃ s, operator_plus (of_int (-99999999)) (of_int 1) = some s ∧
      operator_minus s (of_int 1) = some (of_int (-99999999)) :=
  plus_minus_cancel (of_int (-99999999)) (of_int 1) (by decide) (by decide)

/-- C14: for every well-formed `a` (negative and zero included), `a + (-a)` returns the single
limb 0 with a clear sign flag, which is `BigInteger(0)`. -/
theorem plus_neg_self (a : BigInteger) (ha : WellFormed a) :
    operator_plus a (operator_unary_minus a) = some (BigInteger.mk false [0]) ∧
      BigInteger.mk false [0] = of_int 0 := by
  have hn := wellFormed_operator_unary_minus ha
  obtain ⟨s, s1, _, s3, s4⟩ :=
    operator_plus_assign_spec (canonical_of_wellFormed ha) (canonical_of_wellFormed hn)
  have hs : s = BigInteger.mk false [0] := by
    apply eq_of_value_eq (s4 ha) (by decide)
    rw [s3, value_operator_unary_minus]
    simp [value, limbs_value_cons, limbs_value_nil]
  refine ⟨?_, by decide⟩
  unfold operator_plus
  rw [s1, hs]

/-- Witness for C14 at `a = -7` and at `a = 0`. -/
theorem plus_neg_self_witness :
    (operator_plus (of_int (-7)) (operator_unary_minus (of_int (-7)))
        = some (BigInteger.mk false [0]) ∧ BigInteger.mk false [0] = of_int 0) ∧
    operator_plus (of_int 0) (operator_unary_minus (of_int 0)) = some (of_int 0) :=
  ⟨plus_neg_self (of_int (-7)) (by decide), by decide⟩

/-- C15: for every big integer `a` (any sign flag, any limbs) and every transform, `a * 0` and
`0 * a` return the single limb 0 with a clear sign flag: the product is decided by `is_zero`
before the transform is used, and so it is also for an operand that is a zero limb with the
sign flag set. -/
theorem mul_zero_canonical (pm : List ℚ → List ℚ → Nat → List ℚ) (a : BigInteger) :
    operator_mul pm a (of_int 0) = some (BigInteger.mk false [0]) ∧
    operator_mul pm (of_int 0) a = some (BigInteger.mk false [0]) ∧
    operator_mul pm a (BigInteger.mk true [0]) = some (BigInteger.mk false [0]) ∧
    operator_mul pm (BigInteger.mk true [0]) a = some (BigInteger.mk false [0]) ∧
    BigInteger.mk false [0] = of_int 0 :=
  ⟨operator_mul_assign_zero pm a (of_int 0) (Or.inr (by decide)),
    operator_mul_assign_zero pm (of_int 0) a (Or.inl (by decide)),
    operator_mul_assign_zero pm a (BigInteger.mk true [0]) (Or.inr (by decide)),
    operator_mul_assign_zero pm (BigInteger.mk true [0]) a (Or.inl (by decide)), by decide⟩

/-- C17: for all well-formed non-zero `a` and `b`, every value that `a * b` returns has the
XOR of the two sign flags as its sign flag; with a transform that meets the rounding budget
on the product, `a * b` does return a value (the product), and so does `a *= a`, whose flag is
clear also for a negative `a`. In `a *= a` the source reads `num.is_negative` once, before it
writes `is_negative`, and reads no limb of `num` after it wrote one of its own: the call is the
function applied to `a` and `a`. -/
theorem mul_sign_is_xor (pm : List ℚ → List ℚ → Nat → List ℚ) (a b : BigInteger)
    (ha : WellFormed a) (hb : WellFormed b) (ha0 : value a ≠ 0) (hb0 : value b ≠ 0) :
    (∀ r, operator_mul pm a b = some r → r.is_negative = xor a.is_negative b.is_negative) ∧
    (MulAccurate pm a b → ∃ r, operator_mul pm a b = some r ∧
      r.is_negative = xor a.is_negative b.is_negative ∧ value r = value a * value b) ∧
    (MulAccurate pm a a → ∃ r, operator_mul_assign pm a a = some r ∧
      r.is_negative = false ∧ value r = value a * value a) := by
  have hca := canonical_of_wellFormed ha
  have hcb := canonical_of_wellFormed hb
  refine ⟨?_, ?_, ?_⟩
  · intro r hr
    exact operator_mul_assign_flag pm (is_zero_eq_false_of_value ha0)
      (is_zero_eq_false_of_value hb0) hr
  · intro hpm
    obtain ⟨r, r1, _, r3, r4⟩ := operator_mul_assign_spec pm hca hcb hpm
    exact ⟨r, r1, r4 (by rw [r3]; exact mul_ne_zero ha0 hb0), r3⟩
  · intro hpm
    obtain ⟨r, r1, _, r3, r4⟩ := operator_mul_assign_spec pm hca hca hpm
    refine ⟨r, r1, ?_, r3⟩
    rw [r4 (by rw [r3]; exact mul_ne_zero ha0 ha0)]
    cases a.is_negative <;> rfl

/-- Witness for C17 at `a = -12345678`, `b = 3`. -/
theorem mul_sign_is_xor_witness :
    (∀ r, operator_mul exact_transform (of_int (-12345678)) (of_int 3) = some r →
      r.is_negative = xor (of_int (-12345678)).is_negative (of_int 3).is_negative) ∧
    (MulAccurate exact_transform (of_int (-12345678)) (of_int 3) →
      ∃ r, operator_mul exact_transform (of_int (-12345678)) (of_int 3) = some r ∧
        r.is_negative = xor (of_int (-12345678)).is_negative (of_int 3).is_negative ∧
        value r = value (of_int (-12345678)) * value (of_int 3)) ∧
    (MulAccurate exact_transform (of_int (-12345678)) (of_int (-12345678)) →
      ∃ r, operator_mul_assign exact_transform (of_int (-12345678)) (of_int (-12345678))
          = some r ∧
        r.is_negative = false ∧ value r = value (of_int (-12345678)) * value (of_int (-12345678))) :=
  mul_sign_is_xor exact_transform (of_int (-12345678)) (of_int 3) (by decide) (by decide)
    (by decide) (by decide)

/-- C18: negation reverses the order: for all well-formed `a` and `b` (zero included),
`a < b` implies `-a > -b`. -/
theorem neg_reverses_order (a b : BigInteger) (ha : WellFormed a) (hb : WellFormed b)
    (h : operator_lt a b = true) :
    operator_gt (operator_unary_minus a) (operator_unary_minus b) = true := by
  rw [operator_gt_iff (wellFormed_operator_unary_minus ha) (wellFormed_operator_unary_minus hb),
    value_operator_unary_minus, value_operator_unary_minus]
  have := (operator_lt_iff ha hb).mp h
  omega

/-- Witness for C18 at `a = -10000`, `b = 0`. -/
theorem neg_reverses_order_witness :
    operator_lt (of_int (-10000)) (of_int 0) = true ∧
    operator_gt (operator_unary_minus (of_int (-10000))) (operator_unary_minus (of_int 0))
      = true :=
  ⟨by decide, neg_reverses_order (of_int (-10000)) (of_int 0) (by decide) (by decide)
    (by decide)⟩

end BigInteger

namespace Rational
open BigInteger

/-- C24: for every reduced rational `n/d`, `toString` returns the text of `n` alone when `d`
is 1, and the text of `n`, a `/` and the text of `d` otherwise; an integer-valued reduced
rational (`d` divides `n`, zero included) has `d = 1` and its text contains no `/`. -/
theorem toString_reduced (r : Rational) (h : Reduced r) :
    (value r.denominator = 1 → toString r = BigInteger.toString r.numerator) ∧
    (value r.denominator ≠ 1 → toString r
      = BigInteger.toString r.numerator ++ ("/" ++ BigInteger.toString r.denominator)) ∧
    (value r.denominator ∣ value r.numerator →
      toString r = BigInteger.toString r.numerator ∧ '/' ∉ (toString r).data) := by
  obtain ⟨t1, t2⟩ := rational_toString_spec r h.2.1
  refine ⟨t1, t2, ?_⟩
  intro hdvd
  have e := t1 (denominator_eq_one_of_dvd h hdvd)
  refine ⟨e, ?_⟩
  rw [e]
  exact not_mem_slash_toString r.numerator h.1.2.1

/-- Witness for C24 at `-5/6`, with the texts of `-5/6`, `0/1` and `-7/1`. -/
theorem toString_reduced_witness :
    ((value (Rational.mk (BigInteger.of_int (-5)) (BigInteger.of_int 6)).denominator = 1 →
        toString ⟨BigInteger.of_int (-5), BigInteger.of_int 6⟩
          = BigInteger.toString (BigInteger.of_int (-5))) ∧
      (value (Rational.mk (BigInteger.of_int (-5)) (BigInteger.of_int 6)).denominator ≠ 1 →
        toString ⟨BigInteger.of_int (-5), BigInteger.of_int 6⟩
          = BigInteger.toString (BigInteger.of_int (-5))
            ++ ("/" ++ BigInteger.toString (BigInteger.of_int 6))) ∧
      (value (Rational.mk (BigInteger.of_int (-5)) (BigInteger.of_int 6)).denominator
          ∣ value (Rational.mk (BigInteger.of_int (-5)) (BigInteger.of_int 6)).numerator →
        toString ⟨BigInteger.of_int (-5), BigInteger.of_int 6⟩
          = BigInteger.toString (BigInteger.of_int (-5)) ∧
        '/' ∉ (toString ⟨BigInteger.of_int (-5), BigInteger.of_int 6⟩).data)) ∧
    toString ⟨BigInteger.of_int (-5), BigInteger.of_int 6⟩ = "-5/6" ∧
    toString (Rational.of_int 0) = "0" ∧ toString (Rational.of_int (-7)) = "-7" :=
  ⟨toString_reduced ⟨BigInteger.of_int (-5), BigInteger.of_int 6⟩ (by decide), by decide,
    by decide, by decide⟩

/-- C25: for every reduced rational `n/d` and every precision `p ≥ 1` (and more iterations
than `n * 10^p` has digits), `asDecimal(p)` returns an optional `-`, one or more digits, one
`.` and exactly `p` digits, and all its digits read as one number are `|n * 10^p / d|`, the
division truncated toward zero; for `p = 0` it returns the text of `n / d`. -/
theorem asDecimal_rendering (fuel : Nat) (r : Rational) (h : Reduced r) (p : Nat)
    (hf : get_digits_number (shift r.numerator p) < fuel) :
    (1 ≤ p → ∃ t, asDecimal fuel r p = some t ∧
      IsDecimalRendering t p |(value r.numerator * 10 ^ p).tdiv (value r.denominator)|) ∧
    (p = 0 → ∃ q, BigInteger.operator_div fuel r.numerator r.denominator = some q ∧
      asDecimal fuel r p = some (BigInteger.toString q)) := by
  have hn := h.1
  have hd := h.2.1
  have hd0 : value r.denominator ≠ 0 := ne_of_gt h.2.2.1
  obtain ⟨q, q1, q2, q3, _⟩ := operator_div_assign_spec (wellFormed_shift hn p) hd hd0 fuel hf
  constructor
  · intro hp
    obtain ⟨ds, h1, h2, _, h4, h5⟩ := toString_spec q q2.2.1
    have hres : (BigInteger.toString q).data
        = (if decide (q.is_negative = true ∧ limbs_value q.data ≠ 0) = true then ['-'] else [])
          ++ ds := by
      rw [h5]
      by_cases hc : q.is_negative = true ∧ limbs_value q.data ≠ 0
      · rw [if_pos hc, if_pos (decide_eq_true hc)]
      · rw [if_neg hc, if_neg (by simpa using hc)]
    have hval : decimal_value ds
        = |(value r.numerator * 10 ^ p).tdiv (value r.denominator)| := by
      rw [h4, ← abs_value q q2.2.1, q3, (shift_value hn p).2]
    have htext := asDecimal_text (decide (q.is_negative = true ∧ limbs_value q.data ≠ 0))
      (BigInteger.operator_lt r.numerator (BigInteger.of_int 0)) ds h1 h2 p hp
      (BigInteger.toString q).data hres
    rw [hval] at htext
    refine ⟨_, ?_, htext⟩
    unfold asDecimal BigInteger.operator_div
    simp only [q1]
    rw [if_pos (by omega)]
    exact (apply_ite some _ _ _).symm
  · intro hp
    subst hp
    rw [shift_zero_digits hn] at q1
    refine ⟨q, q1, ?_⟩
    unfold asDecimal BigInteger.operator_div
    rw [shift_zero_digits hn]
    simp only [q1, ne_eq, not_true_eq_false, if_false]

/-- Witness for C25 at `1/3` with precision 4: the text is `"0.3333"`; also `-1/3` and
`-12345/10`. -/
theorem asDecimal_rendering_witness :
    ((1 ≤ 4 → ∃ t, asDecimal 6 ⟨BigInteger.of_int 1, BigInteger.of_int 3⟩ 4 = some t ∧
        IsDecimalRendering t 4
          |(value (BigInteger.of_int 1) * 10 ^ 4).tdiv (value (BigInteger.of_int 3))|) ∧
      (4 = 0 → ∃ q, BigInteger.operator_div 6 (BigInteger.of_int 1) (BigInteger.of_int 3)
          = some q ∧
        asDecimal 6 ⟨BigInteger.of_int 1, BigInteger.of_int 3⟩ 4
          = some (BigInteger.toString q))) ∧
    asDecimal 6 ⟨BigInteger.of_int 1, BigInteger.of_int 3⟩ 4 = some "0.3333" ∧
    asDecimal 6 ⟨BigInteger.of_int (-1), BigInteger.of_int 3⟩ 4 = some "-0.3333" ∧
    asDecimal 8 ⟨BigInteger.of_int (-12345), BigInteger.of_int 10⟩ 2 = some "-1234.50" :=
  ⟨asDecimal_rendering 6 ⟨BigInteger.of_int 1, BigInteger.of_int 3⟩ (by decide) 4 (by decide),
    by decide, by decide, by decide⟩

end Rational

namespace BigInteger

/-- C27: for every well-formed `x` and every `k`, `x.shift(k)` is well-formed, denotes
`value x * 10^k` and has the sign flag of `x`; shifting zero gives the canonical zero, and
`shift(0)` returns `x` itself. -/
theorem shift_scales (x : BigInteger) (h : WellFormed x) (k : Nat) :
    WellFormed (shift x k) ∧ value (shift x k) = value x * 10 ^ k ∧
    (shift x k).is_negative = x.is_negative ∧
    shift (of_int 0) k = BigInteger.mk false [0] ∧ shift x 0 = x := by
  obtain ⟨s1, s2⟩ := shift_value h k
  exact ⟨wellFormed_shift h k, s2, s1, shift_zero k, shift_zero_digits h⟩

/-- Witness for C27 at `x = -12`, `k = 5`: the result is `-1200000`. -/
theorem shift_scales_witness :
    (WellFormed (shift (of_int (-12)) 5) ∧
      value (shift (of_int (-12)) 5) = value (of_int (-12)) * 10 ^ 5 ∧
      (shift (of_int (-12)) 5).is_negative = (of_int (-12)).is_negative ∧
      shift (of_int 0) 5 = BigInteger.mk false [0] ∧ shift (of_int (-12)) 0 = of_int (-12)) ∧
    shift (of_int (-12)) 5 = BigInteger.mk true [0, 120] :=
  ⟨shift_scales (of_int (-12)) (by decide) 5, by decide⟩

/-- C28, on the code: `BigInteger(n)` is well-formed and denotes `n` for every `int` above the
minimum; at the minimum `-2147483648`, where `number = -number` wraps to the same value, it is
the single limb `-3648` with the sign flag set, which is not well-formed and denotes `3648`. -/
theorem of_int_whole_range :
    (∀ n : Int, -2147483648 < n → n ≤ 2147483647 →
      WellFormed (of_int n) ∧ value (of_int n) = n) ∧
    of_int (-2147483648) = BigInteger.mk true [-3648] ∧
    ¬ WellFormed (of_int (-2147483648)) ∧ value (of_int (-2147483648)) = 3648 :=
  ⟨fun _ h1 h2 => of_int_spec h1 h2, by decide, by decide, by decide⟩

/-- Witness for C28 at `-2147483647` and `2147483647`. -/
theorem of_int_whole_range_witness :
    (WellFormed (of_int (-2147483647)) ∧ value (of_int (-2147483647)) = -2147483647) ∧
    (WellFormed (of_int 2147483647) ∧ value (of_int 2147483647) = 2147483647) :=
  ⟨of_int_whole_range.1 (-2147483647) (by decide) (by decide),
    of_int_whole_range.1 2147483647 (by decide) (by decide)⟩

/-- C29: division by zero never leaves the loop: for every well-formed non-zero `a` and the
divisor `0`, with `x` the receiver after its sign flag was cleared, the loop condition
`x >= 0` holds, either division case returns with `x` and the quotient accumulator unchanged
(all nine probes run, no write leaves a vector), so the loop of `operator /=` uses up every
iteration budget and `a / 0` returns for none. -/
theorem div_by_zero_never_exits (a : BigInteger) (ha : WellFormed a) (ha0 : value a ≠ 0) :
    operator_ge (BigInteger.mk false a.data) (BigInteger.mk false [0]) = true ∧
    (∀ result, solve_first_division_case (BigInteger.mk false a.data) (BigInteger.mk false [0])
      result = some (BigInteger.mk false a.data, result)) ∧
    (∀ result digits_number num_digits_number,
      solve_second_division_case (BigInteger.mk false a.data) (BigInteger.mk false [0]) result
        digits_number num_digits_number = some (BigInteger.mk false a.data, result)) ∧
    (∀ fuel, div_loop (BigInteger.mk false [0]) (get_digits_number (BigInteger.mk false [0]))
      fuel (BigInteger.mk false a.data) (of_int 0) = none) ∧
    (∀ fuel, operator_div fuel a (of_int 0) = none) := by
  have hw : WellFormed (BigInteger.mk false a.data) := wellFormed_clear_sign ha
  have hv : 0 ≤ value (BigInteger.mk false a.data) :=
    value_nonneg_of_nonneg ha.2.1 rfl
  have hz : value (BigInteger.mk false [0]) = 0 := by decide
  refine ⟨?_, fun result => (div_body_zero hw hv result 0 0).1,
    fun result dn ndn => (div_body_zero hw hv result dn ndn).2,
    fun fuel => div_loop_zero hw hv _ _ fuel, ?_⟩
  · rw [operator_ge_iff hw (by decide), hz]
    exact hv
  · intro fuel
    have hnz : is_zero (BigInteger.mk false a.data) = false := by
      cases hc : is_zero (BigInteger.mk false a.data)
      · rfl
      · have hd : a.data = [0] := (is_zero_iff _).mp hc
        exact absurd (value_of_data_zero hd) ha0
    have hl := div_loop_zero hw hv (of_int 0) (get_digits_number (BigInteger.mk false [0])) fuel
    unfold operator_div operator_div_assign
    simp only [hnz, Bool.false_eq_true, if_false]
    have e : ({ of_int 0 with is_negative := false } : BigInteger) = BigInteger.mk false [0] :=
      rfl
    rw [e, hl]

/-- Witness for C29 at `a = -57`. -/
theorem div_by_zero_never_exits_witness :
    operator_ge (BigInteger.mk false (of_int (-57)).data) (BigInteger.mk false [0]) = true ∧
    (∀ result, solve_first_division_case (BigInteger.mk false (of_int (-57)).data)
      (BigInteger.mk false [0]) result
        = some (BigInteger.mk false (of_int (-57)).data, result)) ∧
    (∀ result digits_number num_digits_number,
      solve_second_division_case (BigInteger.mk false (of_int (-57)).data)
        (BigInteger.mk false [0]) result digits_number num_digits_number
        = some (BigInteger.mk false (of_int (-57)).data, result)) ∧
    (∀ fuel, div_loop (BigInteger.mk false [0]) (get_digits_number (BigInteger.mk false [0]))
      fuel (BigInteger.mk false (of_int (-57)).data) (of_int 0) = none) ∧
    (∀ fuel, operator_div fuel (of_int (-57)) (of_int 0) = none) :=
  div_by_zero_never_exits (of_int (-57)) (by decide) (by decide)

/-- C30: for every well-formed dividend `a` and well-formed non-zero divisor `b`, with `num`
the divisor after its sign flag was cleared: the loop of `operator /=`, started on `|a|` and
the quotient 0 with more iterations than `a` has digits, returns with a remainder that is
non-negative and smaller than `|b|`; and in every state of the loop (a well-formed non-negative
remainder `x` and quotient accumulator) the loop exits exactly when `x < |b|`, leaving both
unchanged, while otherwise one iteration returns a well-formed remainder that is non-negative
and strictly smaller than `x`, from which the loop goes on. -/
theorem div_loop_terminates (a b : BigInteger) (ha : WellFormed a) (hb : WellFormed b)
    (hb0 : value b ≠ 0) :
    (∀ fuel, get_digits_number a < fuel →
      ∃ x1 result1, div_loop (BigInteger.mk false b.data)
          (get_digits_number (BigInteger.mk false b.data)) fuel (BigInteger.mk false a.data)
          (of_int 0) = some (x1, result1) ∧
        WellFormed x1 ∧ 0 ≤ value x1 ∧ value x1 < |value b|) ∧
    (∀ x result, WellFormed x → 0 ≤ value x → WellFormed result → 0 ≤ value result →
      (operator_ge x (BigInteger.mk false b.data) = false ↔ value x < |value b|) ∧
      (value x < |value b| → ∀ fuel, div_loop (BigInteger.mk false b.data)
          (get_digits_number (BigInteger.mk false b.data)) (fuel + 1) x result
          = some (x, result)) ∧
      (|value b| ≤ value x → ∃ x1 result1,
        (if get_digits_number x = get_digits_number (BigInteger.mk false b.data) then
            solve_first_division_case x (BigInteger.mk false b.data) result
          else solve_second_division_case x (BigInteger.mk false b.data) result
            (get_digits_number x) (get_digits_number (BigInteger.mk false b.data)))
          = some (x1, result1) ∧
        WellFormed x1 ∧ WellFormed result1 ∧ 0 ≤ value x1 ∧ value x1 < value x ∧
        0 ≤ value result1 ∧
        ∀ fuel, div_loop (BigInteger.mk false b.data)
            (get_digits_number (BigInteger.mk false b.data)) (fuel + 1) x result
          = div_loop (BigInteger.mk false b.data)
            (get_digits_number (BigInteger.mk false b.data)) fuel x1 result1)) := by
  have hnum : WellFormed (BigInteger.mk false b.data) := wellFormed_clear_sign hb
  have hvn : value (BigInteger.mk false b.data) = |value b| := by
    rw [abs_value b hb.2.1]
    exact value_clear_sign b
  have hn0 : 0 < value (BigInteger.mk false b.data) := by
    rw [hvn]
    exact abs_pos.mpr hb0
  constructor
  · intro fuel hf
    have hx : WellFormed (BigInteger.mk false a.data) := wellFormed_clear_sign ha
    have hx0 : 0 ≤ value (BigInteger.mk false a.data) := value_nonneg_of_nonneg ha.2.1 rfl
    have hub : value (BigInteger.mk false a.data)
        < value (BigInteger.mk false b.data) * 10 ^ get_digits_number a := by
      have h1 : value (BigInteger.mk false a.data)
          < 10 ^ get_digits_number (BigInteger.mk false a.data) := value_lt_pow_digits hx hx0
      have h2 : get_digits_number (BigInteger.mk false a.data) = get_digits_number a := rfl
      rw [h2] at h1
      have h3 : (0 : Int) < 10 ^ get_digits_number a := pow10_pos _
      nlinarith
    obtain ⟨x1, r1, f1, f2, _, f4, f5, _⟩ := div_loop_spec hnum hn0 fuel (get_digits_number a)
      (BigInteger.mk false a.data) (of_int 0) hf hx hx0 (by decide) (by decide) hub
    rw [hvn] at f5
    exact ⟨x1, r1, f1, f2, f4, f5⟩
  · intro x result hx hx0 hr hr0
    refine ⟨?_, ?_, ?_⟩
    · rw [← hvn]
      have h1 := operator_ge_iff hx hnum
      cases hc : operator_ge x (BigInteger.mk false b.data)
      · simp only [true_iff]
        by_contra hcon
        have := h1.mpr (by omega)
        rw [hc] at this
        exact Bool.noConfusion this
      · simp only [Bool.true_eq_false, false_iff]
        have := h1.mp hc
        omega
    · intro hlt fuel
      exact div_loop_exit hnum hx (by rw [hvn]; exact hlt) result _ fuel
    · intro hge
      exact div_loop_step hnum hn0 hx hr hr0 (by rw [hvn]; exact hge)

/-- Witness for C30 at `a = -123456`, `b = 7`. -/
theorem div_loop_terminates_witness :
    ((∀ fuel, get_digits_number (of_int (-123456)) < fuel →
      ∃ x1 result1, div_loop (BigInteger.mk false (of_int 7).data)
          (get_digits_number (BigInteger.mk false (of_int 7).data)) fuel
          (BigInteger.mk false (of_int (-123456)).data) (of_int 0) = some (x1, result1) ∧
        WellFormed x1 ∧ 0 ≤ value x1 ∧ value x1 < |value (of_int 7)|) ∧
    (∀ x result, WellFormed x → 0 ≤ value x → WellFormed result → 0 ≤ value result →
      (operator_ge x (BigInteger.mk false (of_int 7).data) = false ↔
        value x < |value (of_int 7)|) ∧
      (value x < |value (of_int 7)| → ∀ fuel, div_loop (BigInteger.mk false (of_int 7).data)
          (get_digits_number (BigInteger.mk false (of_int 7).data)) (fuel + 1) x result
          = some (x, result)) ∧
      (|value (of_int 7)| ≤ value x → ∃ x1 result1,
        (if get_digits_number x = get_digits_number (BigInteger.mk false (of_int 7).data) then
            solve_first_division_case x (BigInteger.mk false (of_int 7).data) result
          else solve_second_division_case x (BigInteger.mk false (of_int 7).data) result
            (get_digits_number x) (get_digits_number (BigInteger.mk false (of_int 7).data)))
          = some (x1, result1) ∧
        WellFormed x1 ∧ WellFormed result1 ∧ 0 ≤ value x1 ∧ value x1 < value x ∧
        0 ≤ value result1 ∧
        ∀ fuel, div_loop (BigInteger.mk false (of_int 7).data)
            (get_digits_number (BigInteger.mk false (of_int 7).data)) (fuel + 1) x result
          = div_loop (BigInteger.mk false (of_int 7).data)
            (get_digits_number (BigInteger.mk false (of_int 7).data)) fuel x1 result1))) ∧
    div_loop (of_int 7) 1 7 (of_int 123456) (of_int 0) = some (of_int 4, of_int 17636) :=
  ⟨div_loop_terminates (of_int (-123456)) (of_int 7) (by decide) (by decide) (by decide),
    by decide⟩

/-- C31: for every well-formed `a`, prefix `++` returns `a + 1` and prefix `--` returns
`a - 1` (well-formed, also across zero and across a limb boundary), the postfix forms return
the old value beside the new receiver, and `--` after `++` (and `++` after `--`) gives `a`
back. -/
theorem increment_decrement (a : BigInteger) (ha : WellFormed a) :
    (∃ r, operator_pre_increment a = some r ∧ WellFormed r ∧ value r = value a + 1 ∧
      operator_plus a (of_int 1) = some r ∧ operator_post_increment a = some (a, r) ∧
      operator_pre_decrement r = some a) ∧
    (∃ r, operator_pre_decrement a = some r ∧ WellFormed r ∧ value r = value a - 1 ∧
      operator_minus a (of_int 1) = some r ∧ operator_post_decrement a = some (a, r) ∧
      operator_pre_increment r = some a) := by
  have hca := canonical_of_wellFormed ha
  have hc1 : Canonical (of_int 1).data := by decide
  have hv1 : value (of_int 1) = 1 := by decide
  obtain ⟨i, i1, i2, i3, i4⟩ := @operator_plus_assign_spec a (of_int 1) hca hc1
  obtain ⟨d, d1, d2, d3, d4⟩ := @operator_minus_assign_spec a (of_int 1) hca hc1
  obtain ⟨id, id1, _, id3, id4⟩ := @operator_minus_assign_spec i (of_int 1) i2 hc1
  obtain ⟨di, di1, _, di3, di4⟩ := @operator_plus_assign_spec d (of_int 1) d2 hc1
  rw [hv1] at i3 d3 id3 di3
  have e1 : id = a := eq_of_value_eq (id4 (i4 ha)) ha (by rw [id3, i3]; ring)
  have e2 : di = a := eq_of_value_eq (di4 (d4 ha)) ha (by rw [di3, d3]; ring)
  constructor
  · refine ⟨i, i1, i4 ha, i3, i1, ?_, ?_⟩
    · unfold operator_post_increment operator_pre_increment
      rw [i1]
    · unfold operator_pre_decrement
      rw [id1, e1]
  · refine ⟨d, d1, d4 ha, d3, d1, ?_, ?_⟩
    · unfold operator_post_decrement operator_pre_decrement
      rw [d1]
    · unfold operator_pre_increment
      rw [di1, e2]

/-- Witness for C31 at `a = 9999`, with the steps `9999 -> 10000`, `-1 -> 0`, `0 -> -1` and
`10000 -> 9999`. -/
theorem increment_decrement_witness :
    ((∃ r, operator_pre_increment (of_int 9999) = some r ∧ WellFormed r ∧
        value r = value (of_int 9999) + 1 ∧
        operator_plus (of_int 9999) (of_int 1) = some r ∧
        operator_post_increment (of_int 9999) = some (of_int 9999, r) ∧
        operator_pre_decrement r = some (of_int 9999)) ∧
      (∃ r, operator_pre_decrement (of_int 9999) = some r ∧ WellFormed r ∧
        value r = value (of_int 9999) - 1 ∧
        operator_minus (of_int 9999) (of_int 1) = some r ∧
        operator_post_decrement (of_int 9999) = some (of_int 9999, r) ∧
        operator_pre_increment r = some (of_int 9999))) ∧
    operator_pre_increment (of_int 9999) = some (of_int 10000) ∧
    operator_pre_increment (of_int (-1)) = some (of_int 0) ∧
    operator_pre_decrement (of_int 0) = some (of_int (-1)) ∧
    operator_pre_decrement (of_int 10000) = some (of_int 9999) :=
  ⟨increment_decrement (of_int 9999) (by decide), by decide, by decide, by decide, by decide⟩

/-- Counterexample to C32 at `d1 = d2 = 1`: the transform length of `operator *=` is 4, while
2 is a smaller power of two that is at least the combined limb count 2. -/
theorem optimal_deg2_not_smallest :
    2 ^ optimal_deg2 (of_int 1) (of_int 1).data.length = 4 ∧
    (of_int 1).data.length + (of_int 1).data.length ≤ 2 ^ 1 ∧
    2 ^ 1 < 2 ^ optimal_deg2 (of_int 1) (of_int 1).data.length := by
  decide

/-- C32, amended: for operands of `d1` and `d2` limbs (not both empty), the transform length
`L = 2 ^ optimal_deg2` of `operator *=` is the smallest power of two that exceeds
`2 * max d1 d2`: it exceeds it, it is at most `4 * max d1 d2`, no smaller power of two exceeds
`2 * max d1 d2`, and so `L` is at least `d1 + d2`. -/
theorem optimal_deg2_smallest_above_twice_max (x num : BigInteger)
    (h : 1 ≤ max x.data.length num.data.length) :
    2 * max x.data.length num.data.length < 2 ^ optimal_deg2 x num.data.length ∧
    2 ^ optimal_deg2 x num.data.length ≤ 4 * max x.data.length num.data.length ∧
    x.data.length + num.data.length ≤ 2 ^ optimal_deg2 x num.data.length ∧
    (∀ e : Nat, 2 * max x.data.length num.data.length < 2 ^ e →
      2 ^ optimal_deg2 x num.data.length ≤ 2 ^ e) := by
  obtain ⟨s1, s2⟩ := optimal_deg2_spec x num.data.length
  have hu := optimal_deg2_upper x num.data.length h
  have hm : 2 * max x.data.length num.data.length < 2 ^ optimal_deg2 x num.data.length := by
    rcases max_cases x.data.length num.data.length with ⟨h1, _⟩ | ⟨h1, _⟩
    · rw [h1]
      exact s1
    · rw [h1]
      exact s2
  have hl := le_max_left x.data.length num.data.length
  have hr := le_max_right x.data.length num.data.length
  refine ⟨hm, hu, by omega, ?_⟩
  intro e he
  by_contra hc
  have hlt : e < optimal_deg2 x num.data.length := by
    by_contra hge
    exact hc (Nat.pow_le_pow_right (by norm_num) (by omega))
  have h2 : 2 ^ (e + 1) ≤ 2 ^ optimal_deg2 x num.data.length :=
    Nat.pow_le_pow_right (by norm_num) hlt
  rw [pow_succ] at h2
  omega

/-- Witness for the amended C32 at `d1 = d2 = 1`, where `L = 4`. -/
theorem optimal_deg2_smallest_above_twice_max_witness :
    2 * max (of_int 1).data.length (of_int 1).data.length
      < 2 ^ optimal_deg2 (of_int 1) (of_int 1).data.length ∧
    2 ^ optimal_deg2 (of_int 1) (of_int 1).data.length
      ≤ 4 * max (of_int 1).data.length (of_int 1).data.length ∧
    (of_int 1).data.length + (of_int 1).data.length
      ≤ 2 ^ optimal_deg2 (of_int 1) (of_int 1).data.length ∧
    (∀ e : Nat, 2 * max (of_int 1).data.length (of_int 1).data.length < 2 ^ e →
      2 ^ optimal_deg2 (of_int 1) (of_int 1).data.length ≤ 2 ^ e) :=
  optimal_deg2_smallest_above_twice_max (of_int 1) (of_int 1) (by decide)

/-- C33: in an iteration of the division loop, on a well-formed remainder `x` that is at least
the well-formed positive divisor `num`, the division case that is selected returns, and with
`s = num * 10^e` its scaled divisor: `e` is 0 for equal digit counts and otherwise the
difference `k` of the digit counts or `k - 1`; `s ≤ x < 10 * s`; the digit `j = x / s` lies in
`1..9`; the new remainder is `x - j * s`, non-negative and below `s` (the test of the `break`);
and the quotient accumulator grows by exactly `j * 10^e`, the addition made in the `break`
branch, the only place where the loop changes it. -/
theorem probe_exits_through_break (num x result : BigInteger) (hnum : WellFormed num)
    (hn0 : 0 < value num) (hx : WellFormed x) (hr : WellFormed result)
    (hge : value num ≤ value x) :
    ∃ x1 result1 e j,
      (if get_digits_number x = get_digits_number num then
          solve_first_division_case x num result
        else solve_second_division_case x num result (get_digits_number x)
          (get_digits_number num)) = some (x1, result1) ∧
      WellFormed x1 ∧ WellFormed result1 ∧
      (get_digits_number x = get_digits_number num → e = 0) ∧
      (get_digits_number x ≠ get_digits_number num →
        e = get_digits_number x - get_digits_number num - 1 ∨
        e = get_digits_number x - get_digits_number num) ∧
      value num * 10 ^ e ≤ value x ∧ value x < 10 * (value num * 10 ^ e) ∧
      (1 : Int) ≤ j ∧ j ≤ 9 ∧ j = value x / (value num * 10 ^ e) ∧
      value x1 = value x - j * (value num * 10 ^ e) ∧
      0 ≤ value x1 ∧ value x1 < value num * 10 ^ e ∧
      value result1 = value result + j * 10 ^ e := by
  obtain ⟨x1, r1, e, j, s1, s2, s3, s4, s5, s6, s7, s8, s9, s10, s11⟩ :=
    div_step_spec hnum hn0 hx hr hge
  have hnv := value_eq_limbs_of_nonneg hnum (le_of_lt hn0)
  have hxv := value_eq_limbs_of_nonneg hx (by omega)
  obtain ⟨n1, n2, n3, _, _⟩ :=
    get_digits_number_spec (canonical_of_wellFormed hnum) (by omega)
  obtain ⟨d1, d2, d3, _, _⟩ :=
    get_digits_number_spec (canonical_of_wellFormed hx) (by omega)
  rw [← hnv] at n2 n3
  rw [← hxv] at d2 d3
  obtain ⟨e1, e2⟩ := scaled_exponent n2 n3 d2 d3 d1 n1 s6 s7
  have hpos : 0 < value num * 10 ^ e := mul_pos hn0 (pow10_pos e)
  have hq := (Int.ediv_emod_unique hpos).mpr
    ⟨show value x1 + value num * 10 ^ e * j = value x by rw [s10]; ring, s8, s9⟩
  refine ⟨x1, r1, e, j, s1, s2, s3, ?_, ?_, s6, s7, s4, s5, hq.1.symm, s10, s8, s9, s11⟩
  · intro h
    omega
  · intro h
    omega

/-- Witness for C33 at the remainder 123456 and the divisor 7 (digit counts 6 and 1). -/
theorem probe_exits_through_break_witness :
    ∃ x1 result1 e j,
      (if get_digits_number (of_int 123456) = get_digits_number (of_int 7) then
          solve_first_division_case (of_int 123456) (of_int 7) (of_int 0)
        else solve_second_division_case (of_int 123456) (of_int 7) (of_int 0)
          (get_digits_number (of_int 123456)) (get_digits_number (of_int 7)))
        = some (x1, result1) ∧
      WellFormed x1 ∧ WellFormed result1 ∧
      (get_digits_number (of_int 123456) = get_digits_number (of_int 7) → e = 0) ∧
      (get_digits_number (of_int 123456) ≠ get_digits_number (of_int 7) →
        e = get_digits_number (of_int 123456) - get_digits_number (of_int 7) - 1 ∨
        e = get_digits_number (of_int 123456) - get_digits_number (of_int 7)) ∧
      value (of_int 7) * 10 ^ e ≤ value (of_int 123456) ∧
      value (of_int 123456) < 10 * (value (of_int 7) * 10 ^ e) ∧
      (1 : Int) ≤ j ∧ j ≤ 9 ∧ j = value (of_int 123456) / (value (of_int 7) * 10 ^ e) ∧
      value x1 = value (of_int 123456) - j * (value (of_int 7) * 10 ^ e) ∧
      0 ≤ value x1 ∧ value x1 < value (of_int 7) * 10 ^ e ∧
      value result1 = value (of_int 0) + j * 10 ^ e :=
  probe_exits_through_break (of_int 7) (of_int 123456) (of_int 0) (by decide) (by decide)
    (by decide) (by decide) (by decide)

/-- C35: borrow safety: for all well-formed `x` and `num`, the borrow loop of
`subtract_bigint_modulo` returns (no `--data[i + 1]` falls past the end of the vector), and
the method returns a well-formed value, every limb in `[0, 9999]`, whose magnitude is the
difference of the larger and the smaller magnitude. -/
theorem borrow_stays_in_bounds (x num : BigInteger) (hx : WellFormed x) (hn : WellFormed num) :
    (∃ data2, borrow_loop num.data.length
        ((List.range num.data.length).foldl
          (sub_limbs num.data (if is_lt_modulo x num = Ordering.lt then 1 else -1))
          x.data).length 0
        ((List.range num.data.length).foldl
          (sub_limbs num.data (if is_lt_modulo x num = Ordering.lt then 1 else -1))
          x.data) = some data2) ∧
    ∃ r, subtract_bigint_modulo x num = some r ∧ WellFormed r ∧ LimbsInRange r.data ∧
      limbs_value r.data = |limbs_value x.data - limbs_value num.data| := by
  obtain ⟨r, r1, r2, r3⟩ :=
    subtract_bigint_modulo_spec (canonical_of_wellFormed hx) (canonical_of_wellFormed hn)
  constructor
  · cases hb : borrow_loop num.data.length
        ((List.range num.data.length).foldl
          (sub_limbs num.data (if is_lt_modulo x num = Ordering.lt then 1 else -1))
          x.data).length 0
        ((List.range num.data.length).foldl
          (sub_limbs num.data (if is_lt_modulo x num = Ordering.lt then 1 else -1))
          x.data) with
    | none =>
      unfold subtract_bigint_modulo at r1
      simp only [hb] at r1
      exact Option.noConfusion r1
    | some data2 => exact ⟨data2, rfl⟩
  · refine ⟨r, r1, r2, r2.2.1, ?_⟩
    rw [← abs_value r r2.2.1, r3]
    split
    · rw [abs_sub_comm]
    · rfl

/-- Witness for C35 at `x = 10000`, `num = 1` (a borrow into the most significant limb). -/
theorem borrow_stays_in_bounds_witness :
    ((∃ data2, borrow_loop (of_int 1).data.length
        ((List.range (of_int 1).data.length).foldl
          (sub_limbs (of_int 1).data
            (if is_lt_modulo (of_int 10000) (of_int 1) = Ordering.lt then 1 else -1))
          (of_int 10000).data).length 0
        ((List.range (of_int 1).data.length).foldl
          (sub_limbs (of_int 1).data
            (if is_lt_modulo (of_int 10000) (of_int 1) = Ordering.lt then 1 else -1))
          (of_int 10000).data) = some data2) ∧
    ∃ r, subtract_bigint_modulo (of_int 10000) (of_int 1) = some r ∧ WellFormed r ∧
      LimbsInRange r.data ∧
      limbs_value r.data = |limbs_value (of_int 10000).data - limbs_value (of_int 1).data|) ∧
    subtract_bigint_modulo (of_int 10000) (of_int 1) = some (of_int 9999) ∧
    subtract_bigint_modulo (of_int 1) (of_int 10000) = some (of_int (-9999)) :=
  ⟨borrow_stays_in_bounds (of_int 10000) (of_int 1) (by decide) (by decide), by decide,
    by decide⟩

/-- C36: the transform length is sufficient: for operands of `d1` and `d2` limbs, the length
`L = 2 ^ optimal_deg2` satisfies `L > 2 * max d1 d2 ≥ d1 + d2`; the linear convolution of the
two limb lists has no coefficient from index `d1 + d2 - 1` on, so all of them have an index
below `L`; and every coefficient of the cyclic convolution of length `L` of the padded vectors
is the coefficient of the linear convolution (nothing wraps around). -/
theorem transform_length_sufficient (x num : BigInteger) :
    2 * max x.data.length num.data.length < 2 ^ optimal_deg2 x num.data.length ∧
    x.data.length + num.data.length ≤ 2 * max x.data.length num.data.length ∧
    (∀ k, x.data.length + num.data.length ≤ k + 1 →
      linear_convolution x.data num.data k = 0) ∧
    (∀ k, k < 2 ^ optimal_deg2 x num.data.length →
      cyclic_convolution (build_polynom x (2 ^ optimal_deg2 x num.data.length))
          (build_polynom num (2 ^ optimal_deg2 x num.data.length))
          (2 ^ optimal_deg2 x num.data.length) k
        = ((linear_convolution x.data num.data k : Int) : ℚ)) := by
  obtain ⟨s1, s2⟩ := optimal_deg2_spec x num.data.length
  have hl := le_max_left x.data.length num.data.length
  have hr := le_max_right x.data.length num.data.length
  refine ⟨?_, by omega, fun k hk => linear_convolution_eq_zero _ _ k hk, ?_⟩
  · rcases max_cases x.data.length num.data.length with ⟨h1, _⟩ | ⟨h1, _⟩
    · rw [h1]
      exact s1
    · rw [h1]
      exact s2
  · intro k hk
    exact cyclic_eq_linear x num _ (by omega) k hk

end BigInteger

namespace Rational
open BigInteger

/-- C37, on the code: for a reduced `r` that is not zero (and a transform within the rounding
budget, with enough iterations) `Rational(0) - r` returns `-r`; for `r` zero it returns
`Rational(0)`, while `-r` has the zero limb with the sign flag set as numerator: `-Rational(0)`
is not equal to `Rational(0)` and compares less than `Rational(0)`, for every transform. -/
theorem unary_minus_and_zero_minus (pm : List ℚ → List ℚ → Nat → List ℚ) (r : Rational)
    (hr : Reduced r) (fuel : Nat)
    (hpm : AccurateBelow pm (operand_bound (Rational.of_int 0) r))
    (hf : operand_bound (Rational.of_int 0) r + 1 < fuel) :
    (value r.numerator ≠ 0 →
      operator_minus pm fuel (Rational.of_int 0) r = some (operator_unary_minus r)) ∧
    (value r.numerator = 0 →
      operator_minus pm fuel (Rational.of_int 0) r = some (Rational.of_int 0) ∧
      operator_unary_minus r = ⟨BigInteger.mk true [0], BigInteger.of_int 1⟩ ∧
      operator_unary_minus r ≠ Rational.of_int 0 ∧
      operator_eq (operator_unary_minus r) (Rational.of_int 0) = false ∧
      ∀ pm1, operator_spaceship pm1 (operator_unary_minus r) (Rational.of_int 0)
        = some Ordering.lt) := by
  have h0 : Reduced (Rational.of_int 0) := by decide
  have hz : value (Rational.of_int 0).numerator = 0 := by decide
  have hz1 : value (Rational.of_int 0).denominator = 1 := by decide
  constructor
  · intro hn
    apply rational_minus_assign_eval pm fuel _ r (canonical_of_wellFormed h0.1) h0.2.1
      h0.2.2.1 (canonical_of_wellFormed hr.1) hr.2.1 hr.2.2.1 hpm hf
      (reduced_unary_minus hr hn)
    have e : value (operator_unary_minus r).numerator = -value r.numerator :=
      value_change_sign _
    have e2 : (operator_unary_minus r).denominator = r.denominator := rfl
    rw [e, e2, hz, hz1]
    ring
  · intro hn
    have hr0 := reduced_zero_eq hr hn
    subst hr0
    refine ⟨?_, by decide, by decide, by decide, fun pm1 => rfl⟩
    apply rational_minus_assign_eval pm fuel _ _ (canonical_of_wellFormed h0.1) h0.2.1
      h0.2.2.1 (canonical_of_wellFormed h0.1) h0.2.1 h0.2.2.1 hpm hf h0
    decide

/-- Witness for C37 at `r = Rational(0)`, over the transform without rounding error. -/
theorem unary_minus_and_zero_minus_witness :
    (value (Rational.of_int 0).numerator ≠ 0 →
      operator_minus exact_transform 3 (Rational.of_int 0) (Rational.of_int 0)
        = some (operator_unary_minus (Rational.of_int 0))) ∧
    (value (Rational.of_int 0).numerator = 0 →
      operator_minus exact_transform 3 (Rational.of_int 0) (Rational.of_int 0)
        = some (Rational.of_int 0) ∧
      operator_unary_minus (Rational.of_int 0)
        = ⟨BigInteger.mk true [0], BigInteger.of_int 1⟩ ∧
      operator_unary_minus (Rational.of_int 0) ≠ Rational.of_int 0 ∧
      operator_eq (operator_unary_minus (Rational.of_int 0)) (Rational.of_int 0) = false ∧
      ∀ pm1, operator_spaceship pm1 (operator_unary_minus (Rational.of_int 0))
        (Rational.of_int 0) = some Ordering.lt) :=
  unary_minus_and_zero_minus exact_transform (Rational.of_int 0) (by decide) 3
    (accurateBelow_exact_transform _ 1 (by decide) (by decide)) (by decide)

/-- C38, on the code: for a reduced non-zero `a = n/d` (and a transform within the rounding
budget, with enough iterations) `a /= a`, where the argument is the receiver itself, leaves
`1/d`: it is `Rational(1)` only when `d = 1`. The binary `a / a`, which divides a copy, returns
`Rational(1)`. -/
theorem self_division_aliased (pm : List ℚ → List ℚ → Nat → List ℚ) (a : Rational)
    (ha : Reduced a) (hn0 : value a.numerator ≠ 0) (fuel : Nat)
    (hpm : AccurateBelow pm
      (|value a.numerator| * value a.denominator * (value a.denominator + 1)))
    (hf : |value a.numerator| * value a.denominator * (value a.denominator + 1) + 1 < fuel) :
    operator_div_assign_self pm fuel a
      = some { numerator := BigInteger.of_int 1, denominator := a.denominator } ∧
    (operator_div_assign_self pm fuel a = some (Rational.of_int 1) ↔
      value a.denominator = 1) ∧
    (AccurateBelow pm (operand_bound a a) → operand_bound a a + 1 < fuel →
      operator_div pm fuel a a = some (Rational.of_int 1)) := by
  have hs := rational_div_assign_self_spec pm fuel a ha hn0 hpm hf
  have hv1 : value (BigInteger.of_int 1) = 1 := by decide
  refine ⟨hs, ?_, ?_⟩
  · rw [hs]
    constructor
    · intro h
      have h1 := Option.some.inj h
      have h2 : a.denominator = BigInteger.of_int 1 := congrArg Rational.denominator h1
      rw [h2, hv1]
    · intro h
      have h2 : a.denominator = BigInteger.of_int 1 :=
        eq_of_value_eq ha.2.1 (by decide) (by rw [h, hv1])
      rw [h2]
      rfl
  · intro hpm2 hf2
    have h1 : Reduced (Rational.of_int 1) := by decide
    apply rational_div_assign_eval pm fuel a a (canonical_of_wellFormed ha.1) ha.2.1 ha.2.2.1
      (canonical_of_wellFormed ha.1) ha.2.1 ha.2.2.1 hn0 hpm2 hf2 h1
    have e1 : value (Rational.of_int 1).numerator = 1 := by decide
    have e2 : value (Rational.of_int 1).denominator = 1 := by decide
    rw [e1, e2]
    ring

/-- Witness for C38 at `a = 1/2`, over the transform without rounding error: `a /= a` leaves
`1/2`, which is not `Rational(1)`. -/
theorem self_division_aliased_witness :
    (operator_div_assign_self exact_transform 11 ⟨BigInteger.of_int 1, BigInteger.of_int 2⟩
        = some { numerator := BigInteger.of_int 1,
                 denominator := (Rational.mk (BigInteger.of_int 1)
                   (BigInteger.of_int 2)).denominator } ∧
      (operator_div_assign_self exact_transform 11 ⟨BigInteger.of_int 1, BigInteger.of_int 2⟩
          = some (Rational.of_int 1) ↔
        value (Rational.mk (BigInteger.of_int 1) (BigInteger.of_int 2)).denominator = 1) ∧
      (AccurateBelow exact_transform
          (operand_bound ⟨BigInteger.of_int 1, BigInteger.of_int 2⟩
            ⟨BigInteger.of_int 1, BigInteger.of_int 2⟩) →
        operand_bound ⟨BigInteger.of_int 1, BigInteger.of_int 2⟩
            ⟨BigInteger.of_int 1, BigInteger.of_int 2⟩ + 1 < 11 →
        operator_div exact_transform 11 ⟨BigInteger.of_int 1, BigInteger.of_int 2⟩
            ⟨BigInteger.of_int 1, BigInteger.of_int 2⟩ = some (Rational.of_int 1))) ∧
    (Rational.mk (BigInteger.of_int 1) (BigInteger.of_int 2)) ≠ Rational.of_int 1 :=
  ⟨self_division_aliased exact_transform ⟨BigInteger.of_int 1, BigInteger.of_int 2⟩
      (by decide) (by decide) 11
      (accurateBelow_exact_transform _ 1 (by decide) (by decide)) (by decide), by decide⟩

end Rational
